import Mathlib

/-!
Communication-plan cache of `FabArrayBase` (BoxLib, `Src/C_BaseLib/FabArray.cpp`).

A shallow embedding of the copy-plan cache (`FabArrayBase::TheCPC`) and the
fill-boundary cache (`FabArrayBase::TheFB`), of their configuration and flushing, and of
the index maps of `Tutorials/AMR_Trilinos_C/Solver.H`, followed by theorems about them.

Conventions of the embedding.

* C++ `int` values that are ranks, keys, ghost widths, volumes or tag fields are `Int`;
  loop counters and container sizes are `Nat`.  What the source computes and stores in an
  `int` (the cache keys, the volumes, the statistics of the flushes, the index maps of
  `Solver.H`) goes through `wrapInt` (32 bits, two's complement); the one mixed comparison
  of the source, `size() >= max_size`, converts the `int` to `size_t` as C++ does
  (`size_ge`, `size_lt`).
* `std::vector` is `List` (`push_back` appends at the end).
* `std::map<int,V>` is an association list kept in ascending key order (`StdMap`).
* `std::multimap<int,E*>` is the list of its `(key, entry)` pairs in iteration order, i.e.
  ascending key order, entries with equal keys in insertion order.  An iterator is the
  position of its element in that list, and `end()` is `none`.
* File-scope statics are the fields of `Globals`; `ParallelDescriptor::MyProc()` and
  `BoxArray::intersections` are parameters (`MyProc`, `isects`), and so is the macro
  `BL_SPACEDIM` (`D`).
* The local `CopyComTag tag;` of both planners is declared outside the loops without an
  initialiser and is assigned field by field; its initial content is the parameter `tag0`
  and the fields a branch does not assign keep the value of the previous iteration.
* The operators `/` and `%` of C++ are `Int.tdiv` and `Int.tmod`.
-/

namespace BoxLib

/-! ## Boxes, box arrays, distribution maps -/

/-- Modelled from the spec: the class `Box` of `Box.H` (not among the sources), "an
axis-aligned integer-lattice rectangle" with inclusive corners `lo` and `hi`, here
`smallend` and `bigend`, one coordinate per axis. -/
structure Box where
  smallend : List Int
  bigend : List Int
deriving DecidableEq, Repr

namespace Box

/-- Modelled from the spec: `Box::smallEnd(dir)`, the low corner on axis `dir`. -/
def smallEnd (b : Box) (dir : Nat) : Int := b.smallend.getD dir 0

/-- Modelled from the spec: `Box::bigEnd(dir)`, the high corner on axis `dir`. -/
def bigEnd (b : Box) (dir : Nat) : Int := b.bigend.getD dir 0

/-- Modelled from the spec: `Box::setSmall(dir, v)`. -/
def setSmall (b : Box) (dir : Nat) (v : Int) : Box :=
  { b with smallend := b.smallend.set dir v }

/-- Modelled from the spec: `Box::setBig(dir, v)`. -/
def setBig (b : Box) (dir : Nat) (v : Int) : Box :=
  { b with bigend := b.bigend.set dir v }

/-- Modelled from the spec: `Box::numPts()`, the number of lattice points of a box, the
product over the axes of `hi - lo + 1`. -/
def numPts (b : Box) : Int :=
  (List.zipWith (fun lo hi => hi - lo + 1) b.smallend b.bigend).prod

end Box

/-- Modelled from the spec: `BoxLib::grow(b, n)`, the box widened by `n` cells at both ends
of every axis. -/
def grow (b : Box) (n : Int) : Box :=
  { smallend := b.smallend.map (fun x => x - n), bigend := b.bigend.map (fun x => x + n) }

/-- A `BoxArray`: the ordered sequence of its boxes; the position of a box is its index. -/
abbrev BoxArray := List Box

/-- A `DistributionMapping`: the owner rank of every box-array index. -/
abbrev DistributionMapping := List Int

/-- The read `dm[i]`.  The source requires `i` to be a valid index; past the end the
embedding reads rank `0`. -/
def owner (dm : DistributionMapping) (i : Nat) : Int := dm.getD i 0

/-! ## Machine integers -/

/-- The value an `int` (32 bits, two's complement) holds after the integer `x` is stored
in it. -/
def wrapInt (x : Int) : Int := (x + 2147483648) % 4294967296 - 2147483648

/-! ## Tags and the per-plan containers -/

/-- The record `CopyComTag` (`box`, `fabIndex`, `srcIndex`). -/
structure CopyComTag where
  box : Box
  fabIndex : Int
  srcIndex : Int
deriving DecidableEq, Repr

/-- A `std::map<int,V>`: its `(key, value)` pairs in ascending key order. -/
abbrev StdMap (V : Type) := List (Int × V)

namespace StdMap

/-- The lookup `m.find(k)`: the mapped value, `none` for `m.end()`. -/
def find {V : Type} : StdMap V → Int → Option V
  | [], _ => none
  | (k', v) :: m, k => if k' = k then some v else find m k

/-- The assignment `m[k] = v`: overwrite the value of an existing key, otherwise insert
the pair at its place in key order. -/
def set {V : Type} : StdMap V → Int → V → StdMap V
  | [], k, v => [(k, v)]
  | (k', v') :: m, k, v =>
    if k < k' then (k, v) :: (k', v') :: m
    else if k = k' then (k, v) :: m
    else (k', v') :: set m k v

/-- The statement `m[k].push_back(t)` on a map of vectors: `m[k]` creates an empty vector
when the key is absent. -/
def push {T : Type} (m : StdMap (List T)) (k : Int) (t : T) : StdMap (List T) :=
  set m k ((find m k).getD [] ++ [t])

/-- The volume update (lines 269-278, 287-296, 627-636, 645-654) on a `std::map<int,int>`:
`vol_it->second += vol`, an addition in `int`, when `find` succeeds, otherwise
`m[k] = vol`. -/
def addVol (m : StdMap Int) (k : Int) (vol : Int) : StdMap Int :=
  match find m k with
  | some v => set m k (wrapInt (v + vol))
  | none => set m k vol

/-- The vector stored under `k`, empty when the key is absent. -/
def tagsOf {T : Type} (m : StdMap (List T)) (k : Int) : List T := (find m k).getD []

end StdMap

/-- The five containers every plan carries (members of both `CPC` and `SI`). -/
structure PlanData where
  m_LocTags : List CopyComTag
  m_SndTags : StdMap (List CopyComTag)
  m_RcvTags : StdMap (List CopyComTag)
  m_SndVols : StdMap Int
  m_RcvVols : StdMap Int
deriving DecidableEq, Repr

/-- The containers of a freshly constructed plan: all empty. -/
def PlanData.empty : PlanData :=
  { m_LocTags := [], m_SndTags := [], m_RcvTags := [], m_SndVols := [], m_RcvVols := [] }

/-- The test of lines 301 and 660: `m_LocTags.empty() && m_SndTags.empty() &&
m_RcvTags.empty()`. -/
def PlanData.noWork (P : PlanData) : Bool :=
  P.m_LocTags.isEmpty && P.m_SndTags.isEmpty && P.m_RcvTags.isEmpty

/-- Lines 251-297 (and 609-655): the classification of one intersection `(k, bx)` of dst
tile `i` once the `continue` tests have been passed.  The state is the running local
`tag` together with the containers of the plan under construction. -/
def classify (MyProc d_owner s_owner : Int) (i k : Nat) (bx : Box)
    (st : CopyComTag × PlanData) : CopyComTag × PlanData :=
  let tag : CopyComTag := { st.1 with box := bx }
  let vol : Int := wrapInt bx.numPts
  if d_owner = MyProc then
    let tag : CopyComTag := { tag with fabIndex := (i : Int) }
    if s_owner = MyProc then
      let tag : CopyComTag := { tag with srcIndex := (k : Int) }
      (tag, { st.2 with m_LocTags := st.2.m_LocTags ++ [tag] })
    else
      (tag, { st.2 with m_RcvTags := StdMap.push st.2.m_RcvTags s_owner tag,
                        m_RcvVols := StdMap.addVol st.2.m_RcvVols s_owner vol })
  else if s_owner = MyProc then
    let tag : CopyComTag := { tag with fabIndex := (k : Int) }
    (tag, { st.2 with m_SndTags := StdMap.push st.2.m_SndTags d_owner tag,
                      m_SndVols := StdMap.addVol st.2.m_SndVols d_owner vol })
  else
    (tag, st.2)

/-! ## Copy plans -/

/-- The class `CPC`: the descriptor of a copy (`m_dstba`, `m_srcba`, `m_dstdm`,
`m_srcdm`), the containers of its plan and the flag `m_reused`. -/
structure CPC where
  m_dstba : BoxArray
  m_srcba : BoxArray
  m_dstdm : DistributionMapping
  m_srcdm : DistributionMapping
  plan : PlanData
  m_reused : Bool
deriving DecidableEq, Repr

namespace CPC

/-- The constructor `CPC(dstba, srcba, dstdm, srcdm)` (lines 99-108). -/
def ctor (dstba srcba : BoxArray) (dstdm srcdm : DistributionMapping) : CPC :=
  { m_dstba := dstba, m_srcba := srcba, m_dstdm := dstdm, m_srcdm := srcdm,
    plan := PlanData.empty, m_reused := false }

/-- The comparison `CPC::operator==` (lines 112-117): the four descriptor members. -/
def eq (a rhs : CPC) : Bool :=
  decide (a.m_dstba = rhs.m_dstba) && decide (a.m_srcba = rhs.m_srcba) &&
    decide (a.m_dstdm = rhs.m_dstdm) && decide (a.m_srcdm = rhs.m_srcdm)

/-- The key of line 159: `const int Key = m_dstba.size() + m_srcba.size()`, a sum in
`int`. -/
def Key (cpc : CPC) : Int :=
  wrapInt ((cpc.m_dstba.length : Int) + (cpc.m_srcba.length : Int))

/-- Lines 233-299: the double loop that fills the containers of `TheCPC`, the copy of the
query placed in the cache.  Returns the final value of the local `tag` and the plan. -/
def build (MyProc : Int) (isects : BoxArray → Box → List (Nat × Box)) (tag0 : CopyComTag)
    (TheCPC : CPC) : CopyComTag × PlanData :=
  TheCPC.m_dstba.enum.foldl
    (fun st ib =>
      let i := ib.1
      let d_owner := owner TheCPC.m_dstdm i
      (isects TheCPC.m_srcba ib.2).foldl
        (fun st kb =>
          let bx := kb.2
          let k := kb.1
          let s_owner := owner TheCPC.m_srcdm k
          if d_owner ≠ MyProc ∧ s_owner ≠ MyProc then st
          else classify MyProc d_owner s_owner i k bx st)
        st)
    (tag0, TheCPC.plan)

end CPC

/-! ## Fill-boundary plans -/

/-- The class `SI`: the descriptor of a fill-boundary (`m_ba`, `m_dm`, `m_ngrow`,
`m_cross`), the containers of its plan and the flag `m_reused`. -/
structure SI where
  m_ba : BoxArray
  m_dm : DistributionMapping
  m_ngrow : Int
  m_cross : Bool
  plan : PlanData
  m_reused : Bool
deriving DecidableEq, Repr

/-- The members of a `FabArrayBase` that `TheFB` reads: `boxArray()`, `DistributionMap()`
and `nGrow()`; `size()` is the size of the box array. -/
structure FabArrayBase where
  boxarray : BoxArray
  distributionMap : DistributionMapping
  n_grow : Int
deriving DecidableEq, Repr

namespace SI

/-- The constructor `SI(ba, dm, ngrow, cross)` (lines 364-376).  Its `BL_ASSERT(ngrow >= 0)`
is `ctor_assert`. -/
def ctor (ba : BoxArray) (dm : DistributionMapping) (ngrow : Int) (cross : Bool) : SI :=
  { m_ba := ba, m_dm := dm, m_ngrow := ngrow, m_cross := cross,
    plan := PlanData.empty, m_reused := false }

/-- The condition of the assertion in the constructor, `ngrow >= 0` (line 375). -/
def ctor_assert (ngrow : Int) : Bool := decide (0 ≤ ngrow)

/-- The comparison `SI::operator==` (lines 380-385). -/
def eq (a rhs : SI) : Bool :=
  decide (a.m_ngrow = rhs.m_ngrow) && decide (a.m_cross = rhs.m_cross) &&
    decide (a.m_ba = rhs.m_ba) && decide (a.m_dm = rhs.m_dm)

/-- The key of line 482: `const int Key = mf.size() + mf.nGrow() + cross`, sums in
`int`. -/
def Key (cross : Bool) (mf : FabArrayBase) : Int :=
  wrapInt (wrapInt ((mf.boxarray.length : Int) + mf.n_grow) + (if cross then 1 else 0))

/-- Lines 564-588: the halo queries of the tile with valid box `vbx`: in cross mode the low
and the high slab of every axis (`boxes[2*dir]` and `boxes[2*dir+1]`), otherwise the grown
box alone. -/
def boxes (D : Nat) (si : SI) (vbx : Box) : List Box :=
  if si.m_cross then
    (List.range D).flatMap (fun dir =>
      [ (vbx.setSmall dir (vbx.smallEnd dir - si.m_ngrow)).setBig dir (vbx.smallEnd dir - 1),
        (vbx.setSmall dir (vbx.bigEnd dir + 1)).setBig dir (vbx.bigEnd dir + si.m_ngrow) ])
  else
    [grow vbx si.m_ngrow]

/-- Lines 559-658: the loops that fill the containers of `theFB`, the copy of `si` placed
in the cache; `ba` and `dm` are those of `mf`.  Returns the final value of the local `tag`
and the plan. -/
def build (D : Nat) (MyProc : Int) (isects : BoxArray → Box → List (Nat × Box))
    (tag0 : CopyComTag) (si : SI) (ba : BoxArray) (dm : DistributionMapping) :
    CopyComTag × PlanData :=
  ba.enum.foldl
    (fun st ib =>
      let i := ib.1
      let d_owner := owner dm i
      (boxes D si ib.2).foldl
        (fun st q =>
          (isects ba q).foldl
            (fun st kb =>
              let bx := kb.2
              let k := kb.1
              let s_owner := owner dm k
              if d_owner ≠ MyProc ∧ s_owner ≠ MyProc then st
              else if k = i then st
              else classify MyProc d_owner s_owner i k bx st)
            st)
        st)
    (tag0, si.plan)

end SI

/-! ## Configuration -/

/-- The static configuration of `FabArray.cpp` (lines 8-22): the three public flags of
`FabArrayBase` and the members of the anonymous namespace. -/
structure Globals where
  verbose : Bool
  do_async_sends : Bool
  do_not_use_cache : Bool
  initialized : Bool
  use_copy_cache : Bool
  copy_cache_max_size : Int
  use_fb_cache : Bool
  fb_cache_max_size : Int
deriving DecidableEq, Repr

/-- The largest value of a C++ `int` (32 bits). -/
def INT_MAX : Int := 2147483647

/-- One more than the largest `size_t` (64 bits).  A comparison of `size()` with an `int`
converts the `int` to `size_t`, i.e. reduces it modulo this number. -/
def SIZE_T_RANGE : Int := 2 ^ 64

/-- The comparison `cache.size() >= max_size` of lines 175, 203, 498 and 526, the cache
holding `n` entries. -/
def size_ge (n : Nat) (max_size : Int) : Bool := decide (max_size % SIZE_T_RANGE ≤ (n : Int))

/-- The comparison `cache.size() < max_size` of lines 191 and 514, the cache holding `n`
entries. -/
def size_lt (n : Nat) (max_size : Int) : Bool := decide ((n : Int) < max_size % SIZE_T_RANGE)

/-! ## The cache: a `std::multimap<int,E*>` and the lookup shared by both planners -/

/-- Lines 163-173 and 486-496: the scan of `equal_range(Key)` for the first entry that
compares equal to the query (`same`); the position of that entry, or `none`.  The entries
of `equal_range(Key)` are the entries with key `Key`, in iteration order. -/
def findReusable {E : Type} (same : E → Bool) (Key : Int) : List (Int × E) → Option Nat
  | [] => none
  | e :: c =>
    if e.1 = Key ∧ same e.2 = true then some 0
    else (findReusable same Key c).map (fun it => it + 1)

/-- Lines 180-201 and 503-524: the sweep from `begin()` over what remains of the cache,
`n` being the current size of the whole cache.  An entry whose flag is false is erased,
and the loop breaks once the size is below `max_size`. -/
def sweep {E : Type} (reused : E → Bool) (max_size : Int) : Nat → List (Int × E) → List (Int × E)
  | _, [] => []
  | n, e :: c =>
    if reused e.2 = false then
      if size_lt (n - 1) max_size = true then c
      else sweep reused max_size (n - 1) c
    else e :: sweep reused max_size n c

/-- Lines 175-220 and 498-544: what a miss does to the cache before the new plan is built. -/
def makeRoom {E : Type} (reused : E → Bool) (max_size : Int) (cache : List (Int × E)) :
    List (Int × E) :=
  if size_ge cache.length max_size = true ∧ max_size ≠ -1 then
    let swept := sweep reused max_size cache.length cache
    if size_ge swept.length max_size = true then swept.tail else swept
  else cache

/-- The position at which `multimap::insert` places a pair with key `Key`: behind every
entry whose key is not greater. -/
def upper_bound {E : Type} : List (Int × E) → Int → Nat
  | [], _ => 0
  | e :: c, Key => if Key < e.1 then 0 else upper_bound c Key + 1

/-- The text shared by `TheCPC` (lines 161-230 and 301-315) and `TheFB` (lines 484-553 and
660-674), which differ only in the names of the cache, of the switch and of the cap.
`same` is the comparison of a cached entry with the query, `built` the copy of the query
with its containers filled, `noWork` the emptiness test of its plan.  Returns the cache
after the call and the iterator returned. -/
def lookup {E : Type} (reused : E → Bool) (setReused : E → E) (noWork : E → Bool)
    (same : E → Bool) (use_cache : Bool) (max_size : Int) (Key : Int) (built : E)
    (cache : List (Int × E)) : List (Int × E) × Option Nat :=
  match (if use_cache = true then findReusable same Key cache else none) with
  | some it => (cache.modify (fun e => (e.1, setReused e.2)) it, some it)
  | none =>
    let cache1 := if use_cache = true then makeRoom reused max_size cache else []
    let cache_it := upper_bound cache1 Key
    let cache2 := cache1.insertIdx cache_it (Key, built)
    if noWork built = true then (cache2.eraseIdx cache_it, none) else (cache2, some cache_it)

/-- The type `CPCCache` of `m_TheCopyCache`. -/
abbrev CPCCache := List (Int × CPC)

/-- The type `FBCache` of `m_TheFBCache`. -/
abbrev FBCache := List (Int × SI)

/-- The statement `m_reused = true` on a cached copy plan. -/
def CPC.setReused (e : CPC) : CPC := { e with m_reused := true }

/-- The statement `m_reused = true` on a cached fill-boundary plan. -/
def SI.setReused (e : SI) : SI := { e with m_reused := true }

/-- The copy of the query that `TheCPC` places in the cache (`new CPC(cpc)`, line 230),
with its containers filled by the loops of lines 237-299. -/
def CPC.built (MyProc : Int) (isects : BoxArray → Box → List (Nat × Box)) (tag0 : CopyComTag)
    (cpc : CPC) : CPC :=
  { cpc with plan := (CPC.build MyProc isects tag0 cpc).2 }

/-- The copy of `si` that `TheFB` places in the cache (`new SI(si)`, line 553), with its
containers filled by the loops of lines 566-658. -/
def SI.built (D : Nat) (MyProc : Int) (isects : BoxArray → Box → List (Nat × Box))
    (tag0 : CopyComTag) (si : SI) (mf : FabArrayBase) : SI :=
  { si with plan := (SI.build D MyProc isects tag0 si mf.boxarray mf.distributionMap).2 }

/-- The function `FabArrayBase::TheCPC` (lines 156-316) on the cache `m_TheCopyCache`. -/
def TheCPC (g : Globals) (MyProc : Int) (isects : BoxArray → Box → List (Nat × Box))
    (tag0 : CopyComTag) (m_TheCopyCache : CPCCache) (cpc : CPC) : CPCCache × Option Nat :=
  lookup CPC.m_reused CPC.setReused (fun e => e.plan.noWork) (fun e => CPC.eq e cpc)
    g.use_copy_cache g.copy_cache_max_size (CPC.Key cpc) (CPC.built MyProc isects tag0 cpc)
    m_TheCopyCache

/-- The function `FabArrayBase::TheFB` (lines 476-675) on the cache `m_TheFBCache`.  The
descriptor `si` is constructed from `mf` (line 480); the assertion of its constructor is
`SI.ctor_assert` and is not checked here (`BL_ASSERT` is compiled out of optimised
builds). -/
def TheFB (D : Nat) (g : Globals) (MyProc : Int) (isects : BoxArray → Box → List (Nat × Box))
    (tag0 : CopyComTag) (m_TheFBCache : FBCache) (cross : Bool) (mf : FabArrayBase) :
    FBCache × Option Nat :=
  let si := SI.ctor mf.boxarray mf.distributionMap mf.n_grow cross
  lookup SI.m_reused SI.setReused (fun e => e.plan.noWork) (fun e => SI.eq e si)
    g.use_fb_cache g.fb_cache_max_size (SI.Key cross mf) (SI.built D MyProc isects tag0 si mf)
    m_TheFBCache

/-- Modelled from the spec: `BoxArray::intersections(query)` of `BoxArray.H` (not among
the sources), "every intersection of `query` with any member box, clipped", in index
order.  Used to evaluate the planners on concrete arrays; the theorems hold for every
intersection routine, those about the geometry of the tag boxes for every routine that
returns clipped boxes (`IsectsClipped`), once for each member box (`IsectsOnce`). -/
def intersections (ba : BoxArray) (query : Box) : List (Nat × Box) :=
  ba.enum.filterMap (fun ib =>
    let lo := List.zipWith max ib.2.smallend query.smallend
    let hi := List.zipWith min ib.2.bigend query.bigend
    if List.all (List.zip lo hi) (fun p => decide (p.1 ≤ p.2)) then
      some (ib.1, { smallend := lo, bigend := hi })
    else none)

/-! ## The enumerations the planners run over -/

/-- The pairs (dst tile `i`, intersection `(k, box)` of `srcba` with `dstba[i]`) in the
order the loops of `TheCPC` visit them, as triples `(i, k, box)`. -/
def CPC.pairs (isects : BoxArray → Box → List (Nat × Box)) (dstba srcba : BoxArray) :
    List (Nat × Nat × Box) :=
  dstba.enum.flatMap (fun ib => (isects srcba ib.2).map (fun kb => (ib.1, kb.1, kb.2)))

/-- The triples (dst tile `i`, halo query `q` of tile `i`, intersection `(k, box)` of `ba`
with `q`) with `k ≠ i`, in the order the loops of `TheFB` visit them, as `(i, k, box)`. -/
def SI.pairs (D : Nat) (isects : BoxArray → Box → List (Nat × Box)) (si : SI) (ba : BoxArray) :
    List (Nat × Nat × Box) :=
  (ba.enum.flatMap (fun ib =>
    (SI.boxes D si ib.2).flatMap (fun q =>
      (isects ba q).map (fun kb => (ib.1, kb.1, kb.2))))).filter (fun e => decide (e.2.1 ≠ e.1))

/-- The innermost loop body of `TheCPC` (lines 245-297) at the triple `e = (i, k, bx)`, the
owners being read from `ddm` (dst side) and `sdm` (src side). -/
def tagStep (MyProc : Int) (ddm sdm : DistributionMapping) (st : CopyComTag × PlanData)
    (e : Nat × Nat × Box) : CopyComTag × PlanData :=
  if owner ddm e.1 ≠ MyProc ∧ owner sdm e.2.1 ≠ MyProc then st
  else classify MyProc (owner ddm e.1) (owner sdm e.2.1) e.1 e.2.1 e.2.2 st

/-- The local tag a triple yields when this rank owns both tiles. -/
def locTag (MyProc : Int) (ddm sdm : DistributionMapping) (e : Nat × Nat × Box) :
    Option CopyComTag :=
  if owner ddm e.1 = MyProc ∧ owner sdm e.2.1 = MyProc then
    some { box := e.2.2, fabIndex := (e.1 : Int), srcIndex := (e.2.1 : Int) }
  else none

/-- The box and `fabIndex` (the dst tile) of the receive tag a triple yields for peer `p`:
this rank owns the dst tile and `p`, another rank, owns the src tile. -/
def rcvTag (MyProc : Int) (ddm sdm : DistributionMapping) (p : Int) (e : Nat × Nat × Box) :
    Option (Box × Int) :=
  if owner ddm e.1 = MyProc ∧ owner sdm e.2.1 ≠ MyProc ∧ owner sdm e.2.1 = p then
    some (e.2.2, (e.1 : Int))
  else none

/-- The box and `fabIndex` (the src tile) of the send tag a triple yields for peer `p`:
this rank owns the src tile and `p`, another rank, owns the dst tile. -/
def sndTag (MyProc : Int) (ddm sdm : DistributionMapping) (p : Int) (e : Nat × Nat × Box) :
    Option (Box × Int) :=
  if owner ddm e.1 ≠ MyProc ∧ owner sdm e.2.1 = MyProc ∧ owner ddm e.1 = p then
    some (e.2.2, (e.2.1 : Int))
  else none

/-- The fields of a tag that a send or receive branch assigns: `box` and `fabIndex`. -/
def CopyComTag.assigned (t : CopyComTag) : Box × Int := (t.box, t.fabIndex)

/-- The sum of `box.numPts()` over a tag list. -/
def volume (ts : List CopyComTag) : Int := (ts.map (fun t => t.box.numPts)).sum

/-- The volumes `vols` agree with the tag lists `tags`: same keys, and under each key the
sum of the point counts of its tags as the `int` additions of the source leave it. -/
def VolsAgree (tags : StdMap (List CopyComTag)) (vols : StdMap Int) : Prop :=
  ∀ p : Int, StdMap.find vols p = (StdMap.find tags p).map (fun ts => wrapInt (volume ts))

/-- The volumes `vols` match the tag lists `tags` as far as an `int` allows: the two maps
have the same keys; under each key the volume is the sum of the point counts of its tags
reduced modulo 2^32 into the range of `int`; and it is that sum itself whenever the sum
lies in the range of `int`. -/
def VolsMatch (tags : StdMap (List CopyComTag)) (vols : StdMap Int) : Prop :=
  vols.map Prod.fst = tags.map Prod.fst ∧
    (∀ p : Int,
      StdMap.find vols p = (StdMap.find tags p).map (fun ts => wrapInt (volume ts))) ∧
    (∀ (p : Int) (ts : List CopyComTag), StdMap.find tags p = some ts →
      -2147483648 ≤ volume ts → volume ts ≤ INT_MAX → StdMap.find vols p = some (volume ts))

/-- The loop body run over a list of triples. -/
def tagLoop (MyProc : Int) (ddm sdm : DistributionMapping) (evs : List (Nat × Nat × Box))
    (st : CopyComTag × PlanData) : CopyComTag × PlanData :=
  evs.foldl (tagStep MyProc ddm sdm) st

/-- The triples in which rank `p` owns the dst tile and rank `r` the src tile. -/
def pairsBetween (ddm sdm : DistributionMapping) (r p : Int) (prs : List (Nat × Nat × Box)) :
    List (Nat × Nat × Box) :=
  prs.filter (fun e => decide (owner ddm e.1 = p) && decide (owner sdm e.2.1 = r))

/-! ## Reachable cache states -/

/-- The key under which `TheFB` files a plan with the descriptor of `e`: the key of line
482, `|BA| + nGrow + (cross ? 1 : 0)` summed in `int`. -/
def SI.entryKey (e : SI) : Int :=
  wrapInt (wrapInt ((e.m_ba.length : Int) + e.m_ngrow) + (if e.m_cross then 1 else 0))

/-- The states of `m_TheCopyCache` reachable from the empty cache by calls of `TheCPC` on
rank `MyProc` under the configuration `g`, each call with a freshly constructed descriptor
and any initial content of the local tag. -/
inductive CPCReachable (g : Globals) (MyProc : Int)
    (isects : BoxArray → Box → List (Nat × Box)) : CPCCache → Prop
  | empty : CPCReachable g MyProc isects []
  | call (cache : CPCCache) (tag0 : CopyComTag) (dstBA srcBA : BoxArray)
      (dstDM srcDM : DistributionMapping) :
      CPCReachable g MyProc isects cache →
      CPCReachable g MyProc isects
        (TheCPC g MyProc isects tag0 cache (CPC.ctor dstBA srcBA dstDM srcDM)).1

/-- The states of `m_TheFBCache` reachable from the empty cache by calls of `TheFB` on rank
`MyProc` under the configuration `g`, with any initial content of the local tag. -/
inductive FBReachable (D : Nat) (g : Globals) (MyProc : Int)
    (isects : BoxArray → Box → List (Nat × Box)) : FBCache → Prop
  | empty : FBReachable D g MyProc isects []
  | call (cache : FBCache) (tag0 : CopyComTag) (cross : Bool) (mf : FabArrayBase) :
      FBReachable D g MyProc isects cache →
      FBReachable D g MyProc isects (TheFB D g MyProc isects tag0 cache cross mf).1

/-- What holds of every entry `(key, e)` of a reachable copy cache: it is filed under the
key of its own descriptor, its plan has work, and its plan is the one the loops of `TheCPC`
build for its descriptor on this rank. -/
def CPC.EntryOK (MyProc : Int) (isects : BoxArray → Box → List (Nat × Box))
    (x : Int × CPC) : Prop :=
  x.1 = CPC.Key x.2 ∧ x.2.plan.noWork = false ∧
    ∃ tag : CopyComTag, x.2.plan =
      (CPC.build MyProc isects tag
        (CPC.ctor x.2.m_dstba x.2.m_srcba x.2.m_dstdm x.2.m_srcdm)).2

/-- What holds of every entry `(key, e)` of a reachable fill-boundary cache: it is filed
under the key of its own descriptor, its plan has work, and its plan is the one the loops
of `TheFB` build for its descriptor on this rank. -/
def SI.EntryOK (D : Nat) (MyProc : Int) (isects : BoxArray → Box → List (Nat × Box))
    (x : Int × SI) : Prop :=
  x.1 = SI.entryKey x.2 ∧ x.2.plan.noWork = false ∧
    ∃ tag : CopyComTag, x.2.plan =
      (SI.build D MyProc isects tag
        (SI.ctor x.2.m_ba x.2.m_dm x.2.m_ngrow x.2.m_cross) x.2.m_ba x.2.m_dm).2

/-- The cache without its first `k` entries whose flag is false, taken in iteration order
(all such entries when there are fewer than `k`). -/
def dropFirstUnreused {E : Type} (reused : E → Bool) : Nat → List (Int × E) → List (Int × E)
  | 0, l => l
  | _ + 1, [] => []
  | k + 1, e :: l =>
    if reused e.2 = false then dropFirstUnreused reused k l
    else e :: dropFirstUnreused reused (k + 1) l

/-! ## Box geometry and what the planners need of the intersection routine -/

/-- The box `b` has `D` coordinates at both corners (`BL_SPACEDIM = D`). -/
def Box.dim (D : Nat) (b : Box) : Prop := b.smallend.length = D ∧ b.bigend.length = D

instance (D : Nat) (b : Box) : Decidable (Box.dim D b) := by
  unfold Box.dim; infer_instance

/-- Modelled from the spec: `Box::ok()`, the box is a valid, non-empty rectangle in `D`
dimensions: `lo ≤ hi` on every axis. -/
def Box.ok (D : Nat) (b : Box) : Prop :=
  Box.dim D b ∧ ∀ d, d < D → b.smallEnd d ≤ b.bigEnd d

instance (D : Nat) (b : Box) : Decidable (Box.ok D b) := by
  unfold Box.ok; infer_instance

/-- Modelled from the spec: `outer.contains(inner)`, on every axis the extent of `inner`
lies within the extent of `outer`. -/
def Box.contains (D : Nat) (outer inner : Box) : Prop :=
  ∀ d, d < D → outer.smallEnd d ≤ inner.smallEnd d ∧ inner.bigEnd d ≤ outer.bigEnd d

instance (D : Nat) (outer inner : Box) : Decidable (Box.contains D outer inner) := by
  unfold Box.contains; infer_instance

/-- The low slab of `vbx` on axis `dir` for ghost width `g` (lines 574-577). -/
def loSlab (vbx : Box) (dir : Nat) (g : Int) : Box :=
  (vbx.setSmall dir (vbx.smallEnd dir - g)).setBig dir (vbx.smallEnd dir - 1)

/-- The high slab of `vbx` on axis `dir` for ghost width `g` (lines 579-582). -/
def hiSlab (vbx : Box) (dir : Nat) (g : Int) : Box :=
  (vbx.setSmall dir (vbx.bigEnd dir + 1)).setBig dir (vbx.bigEnd dir + g)

/-- Modelled from the spec: what `BoxArray::intersections(q)` promises of each pair
`(k, bx)` it returns, for an array and a query in `D` dimensions: `k` is the index of a
member box, and `bx` is a non-empty box contained in the query and in that member box (the
clipped intersection). -/
def IsectsClipped (D : Nat) (isects : BoxArray → Box → List (Nat × Box)) : Prop :=
  ∀ (ba : BoxArray) (q : Box), (∀ b ∈ ba, Box.dim D b) → Box.dim D q →
    ∀ kb ∈ isects ba q, ∃ b, ba[kb.1]? = some b ∧ Box.ok D kb.2 ∧
      Box.contains D q kb.2 ∧ Box.contains D b kb.2

/-- The box `bx` lies outside the extent of `vbx` on axis `d`: below its low end or above
its high end. -/
def Box.outsideOn (vbx bx : Box) (d : Nat) : Prop :=
  bx.bigEnd d < vbx.smallEnd d ∨ vbx.bigEnd d < bx.smallEnd d

instance (vbx bx : Box) (d : Nat) : Decidable (Box.outsideOn vbx bx d) := by
  unfold Box.outsideOn; infer_instance

/-- The box `bx` lies in a face slab of width `g` of `vbx` and touches no corner: on one
axis `d` it lies within `[vbx.lo[d] - g, vbx.lo[d] - 1]` or within
`[vbx.hi[d] + 1, vbx.hi[d] + g]`, on every other axis it lies within the extent of `vbx`,
and `d` is the only axis on which it lies outside `vbx`. -/
def FaceOnly (D : Nat) (g : Int) (vbx bx : Box) : Prop :=
  ∃ d, d < D ∧
    ((vbx.smallEnd d - g ≤ bx.smallEnd d ∧ bx.bigEnd d ≤ vbx.smallEnd d - 1) ∨
      (vbx.bigEnd d + 1 ≤ bx.smallEnd d ∧ bx.bigEnd d ≤ vbx.bigEnd d + g)) ∧
    (∀ d', d' < D → d' ≠ d →
      vbx.smallEnd d' ≤ bx.smallEnd d' ∧ bx.bigEnd d' ≤ vbx.bigEnd d') ∧
    (∀ d', d' < D → (Box.outsideOn vbx bx d' ↔ d' = d))

instance (D : Nat) (g : Int) (vbx bx : Box) : Decidable (FaceOnly D g vbx bx) := by
  unfold FaceOnly; infer_instance

/-- The box `bx` is non-empty and contained in both `dstBox` and `srcBox`. -/
def WellPlaced (D : Nat) (dstBox srcBox bx : Box) : Prop :=
  Box.ok D bx ∧ Box.contains D dstBox bx ∧ Box.contains D srcBox bx

instance (D : Nat) (dstBox srcBox bx : Box) : Decidable (WellPlaced D dstBox srcBox bx) := by
  unfold WellPlaced; infer_instance

/-! ## Predicates on the tags of a plan -/

/-- Every tag of the plan `P` stems from a pair (dst tile `i`, src tile `k`) whose box,
the box of the tag, satisfies `Q i k`: a local tag records `i` and `k`, a receive tag filed
under `p` records `i` and has `k` owned by `p`, a send tag filed under `p` records `k` and
has `i` owned by `p`. -/
def TagsFrom (MyProc : Int) (ddm sdm : DistributionMapping) (P : PlanData)
    (Q : Nat → Nat → Box → Prop) : Prop :=
  (∀ t ∈ P.m_LocTags, ∃ i k : Nat, t.fabIndex = (i : Int) ∧ t.srcIndex = (k : Int) ∧
    owner ddm i = MyProc ∧ owner sdm k = MyProc ∧ Q i k t.box) ∧
  (∀ p : Int, ∀ t ∈ StdMap.tagsOf P.m_RcvTags p, ∃ i k : Nat, t.fabIndex = (i : Int) ∧
    owner ddm i = MyProc ∧ owner sdm k = p ∧ Q i k t.box) ∧
  (∀ p : Int, ∀ t ∈ StdMap.tagsOf P.m_SndTags p, ∃ i k : Nat, t.fabIndex = (k : Int) ∧
    owner sdm k = MyProc ∧ owner ddm i = p ∧ Q i k t.box)

/-- The tag lists cut out of a list of triples, with the order they inherit. -/
def TagsInOrder (prs : List (Nat × Nat × Box)) (P : PlanData) : Prop :=
  (∃ l : List (Nat × Nat × Box), l.Sublist prs ∧ P.m_LocTags = l.map (fun e =>
      ({ box := e.2.2, fabIndex := (e.1 : Int), srcIndex := (e.2.1 : Int) } : CopyComTag))) ∧
  (∀ p : Int, ∃ l : List (Nat × Nat × Box), l.Sublist prs ∧
    (StdMap.tagsOf P.m_RcvTags p).map CopyComTag.assigned =
      l.map (fun e => (e.2.2, (e.1 : Int)))) ∧
  (∀ p : Int, ∃ l : List (Nat × Nat × Box), l.Sublist prs ∧
    (StdMap.tagsOf P.m_SndTags p).map CopyComTag.assigned =
      l.map (fun e => (e.2.2, (e.2.1 : Int)))) ∧
  (P.m_LocTags.map CopyComTag.fabIndex).Pairwise (fun a b => a ≤ b) ∧
  (∀ p : Int, ((StdMap.tagsOf P.m_RcvTags p).map CopyComTag.fabIndex).Pairwise
    (fun a b => a ≤ b))

/-! ## Flushing the caches -/

/-- The function `CPC::bytes` (lines 119-149).  `sizeofTag` is `sizeof(CopyComTag)`,
`sizeofInt` is `sizeof(int)`; each `cnt += n*sizeof(..)` adds in `size_t` and stores the
result in the `int cnt`. -/
def CPC.bytes (sizeofTag sizeofInt : Nat) (e : CPC) : Int :=
  let cnt : Int := 0
  let cnt := wrapInt (cnt + (e.plan.m_LocTags.length : Int) * sizeofTag)
  let cnt := e.plan.m_SndTags.foldl
    (fun cnt it => wrapInt (cnt + (it.2.length : Int) * sizeofTag)) cnt
  let cnt := e.plan.m_RcvTags.foldl
    (fun cnt it => wrapInt (cnt + (it.2.length : Int) * sizeofTag)) cnt
  let cnt := wrapInt (cnt + 2 * (e.plan.m_SndVols.length : Int) * sizeofInt)
  let cnt := wrapInt (cnt + 2 * (e.plan.m_RcvVols.length : Int) * sizeofInt)
  cnt

/-- The function `SI::bytes` (lines 387-417), the same text as `CPC::bytes`. -/
def SI.bytes (sizeofTag sizeofInt : Nat) (e : SI) : Int :=
  let cnt : Int := 0
  let cnt := wrapInt (cnt + (e.plan.m_LocTags.length : Int) * sizeofTag)
  let cnt := e.plan.m_SndTags.foldl
    (fun cnt it => wrapInt (cnt + (it.2.length : Int) * sizeofTag)) cnt
  let cnt := e.plan.m_RcvTags.foldl
    (fun cnt it => wrapInt (cnt + (it.2.length : Int) * sizeofTag)) cnt
  let cnt := wrapInt (cnt + 2 * (e.plan.m_SndVols.length : Int) * sizeofInt)
  let cnt := wrapInt (cnt + 2 * (e.plan.m_RcvVols.length : Int) * sizeofInt)
  cnt

/-- The array `stats` (size, reused, bytes) as the loops of lines 320-337 and 433-450 leave
it, before the reduction over the ranks and the printing (which this model leaves out):
`stats[0] = size()`, and per entry `stats[2] += bytes()` and, when the entry is flagged,
`stats[1]++`, all in `int`. -/
def flushStats {E : Type} (reused : E → Bool) (bytes : E → Int) (cache : List (Int × E)) :
    Int × Int × Int :=
  let stats0 := wrapInt (cache.length : Int)
  let st := cache.foldl (fun (st : Int × Int) it =>
    let s2 := wrapInt (st.2 + bytes it.2)
    if reused it.2 then (wrapInt (st.1 + 1), s2) else (st.1, s2)) (0, 0)
  (stats0, st.1, st.2)

/-- The function `CPC::FlushCache` (lines 318-356): the local statistics and the cache
after `m_TheCopyCache.clear()`. -/
def CPC.FlushCache (sizeofTag sizeofInt : Nat) (m_TheCopyCache : CPCCache) :
    (Int × Int × Int) × CPCCache :=
  (flushStats CPC.m_reused (CPC.bytes sizeofTag sizeofInt) m_TheCopyCache, [])

/-- The function `FabArrayBase::FlushSICache` (lines 430-468): the local statistics and the
cache after `m_TheFBCache.clear()`. -/
def FlushSICache (sizeofTag sizeofInt : Nat) (m_TheFBCache : FBCache) :
    (Int × Int × Int) × FBCache :=
  (flushStats SI.m_reused (SI.bytes sizeofTag sizeofInt) m_TheFBCache, [])

/-- The function `FabArrayBase::SICacheSize` (lines 470-474). -/
def SICacheSize (m_TheFBCache : FBCache) : Int := wrapInt (m_TheFBCache.length : Int)

/-- The function `FabArrayBase::Finalize` (lines 421-428) on the globals and the two
caches. -/
def Finalize (sizeofTag sizeofInt : Nat) (st : Globals × FBCache × CPCCache) :
    Globals × FBCache × CPCCache :=
  let fb := (FlushSICache sizeofTag sizeofInt st.2.1).2
  let cpc := (CPC.FlushCache sizeofTag sizeofInt st.2.2).2
  ({ st.1 with initialized := false }, fb, cpc)

/-! ## Initialisation and the checked constructor -/

/-- Modelled from the spec: the parameter source behind `ParmParse pp("fabarray")`
(`ParmParse.H` is not among the sources): for each name `Initialize` queries, the value
supplied for it, if any. -/
structure ParmParse where
  verbose : Option Bool
  do_async_sends : Option Bool
  do_not_use_cache : Option Bool
  use_copy_cache : Option Bool
  copy_cache_max_size : Option Int
  use_fb_cache : Option Bool
  fb_cache_max_size : Option Int
deriving DecidableEq, Repr

/-- Modelled from the spec: `pp.query(name, ref)` stores the supplied value in `ref` and
leaves `ref` alone when the name is not supplied. -/
def ParmParse.query {α : Type} (supplied : Option α) (ref : α) : α :=
  match supplied with
  | some v => v
  | none => ref

/-- A parameter source that supplies nothing. -/
def ParmParse.nothing : ParmParse :=
  { verbose := none, do_async_sends := none, do_not_use_cache := none,
    use_copy_cache := none, copy_cache_max_size := none,
    use_fb_cache := none, fb_cache_max_size := none }

/-- The function `FabArrayBase::Initialize` (lines 24-60) on the static configuration.  The
registration of `Finalize` with `ExecOnFinalize` (line 57) is left out. -/
def Initialize (pp : ParmParse) (g : Globals) : Globals :=
  if g.initialized = true then g
  else
    let verbose := true
    let do_async_sends := false
    let do_not_use_cache := false
    let use_copy_cache := true
    let copy_cache_max_size : Int := 50
    let use_fb_cache := true
    let fb_cache_max_size : Int := 50
    let verbose := ParmParse.query pp.verbose verbose
    let do_async_sends := ParmParse.query pp.do_async_sends do_async_sends
    let do_not_use_cache := ParmParse.query pp.do_not_use_cache do_not_use_cache
    let use_copy_cache := ParmParse.query pp.use_copy_cache use_copy_cache
    let copy_cache_max_size := ParmParse.query pp.copy_cache_max_size copy_cache_max_size
    let use_fb_cache := ParmParse.query pp.use_fb_cache use_fb_cache
    let fb_cache_max_size := ParmParse.query pp.fb_cache_max_size fb_cache_max_size
    let use_fb_cache :=
      if fb_cache_max_size ≤ 0 ∧ fb_cache_max_size ≠ -1 then false else use_fb_cache
    let use_copy_cache :=
      if copy_cache_max_size ≤ 0 ∧ copy_cache_max_size ≠ -1 then false else use_copy_cache
    { verbose := verbose, do_async_sends := do_async_sends,
      do_not_use_cache := do_not_use_cache, initialized := true,
      use_copy_cache := use_copy_cache, copy_cache_max_size := copy_cache_max_size,
      use_fb_cache := use_fb_cache, fb_cache_max_size := fb_cache_max_size }

/-- The constructor `SI(ba, dm, ngrow, cross)` with its `BL_ASSERT` in force (lines
364-376): `none` is the abort of the failed assertion. -/
def SI.ctor_checked (ba : BoxArray) (dm : DistributionMapping) (ngrow : Int) (cross : Bool) :
    Option SI :=
  if SI.ctor_assert ngrow = true then some (SI.ctor ba dm ngrow cross) else none

/-- The function `TheFB` with the assertion of the constructor of line 480 in force: `none`
is the abort, otherwise the call proceeds as `TheFB`. -/
def TheFB_checked (D : Nat) (g : Globals) (MyProc : Int)
    (isects : BoxArray → Box → List (Nat × Box)) (tag0 : CopyComTag) (m_TheFBCache : FBCache)
    (cross : Bool) (mf : FabArrayBase) : Option (FBCache × Option Nat) :=
  match SI.ctor_checked mf.boxarray mf.distributionMap mf.n_grow cross with
  | none => none
  | some _ => some (TheFB D g MyProc isects tag0 m_TheFBCache cross mf)

/-! ## The index maps of `Solver.H` -/

/-- The members `nx`, `ny`, `nz` of the class `Solver` (`Solver.H`, line 210): the numbers of
grid points along the axes. -/
structure Solver where
  nx : Int
  ny : Int
  nz : Int
deriving DecidableEq, Repr

namespace Solver

/-- The function `toCoordIdx(i, j)` of the 2-D build (line 255): `j*nx + i` in `int`. -/
def Dim2.toCoordIdx (s : Solver) (i j : Int) : Int := wrapInt (wrapInt (j * s.nx) + i)

/-- The function `getCoord(idx, i, j)` of the 2-D build (lines 275-280); returns `(i, j)`.
`CoordMap[idx]` reads the mapped value (0 when the key is absent; the insertion of the
absent key is left out).  `none` stands for the division by zero. -/
def Dim2.getCoord (s : Solver) (CoordMap : StdMap Int) (idx : Int) : Option (Int × Int) :=
  let ij := (StdMap.find CoordMap idx).getD 0
  if s.nx = 0 then none
  else
    let j := wrapInt (Int.tdiv ij s.nx)
    let i := Int.tmod ij s.nx
    some (i, j)

/-- The function `toCoordIdx(i, j, k)` of the 3-D build (line 296): `k*nx*ny + j*nx + i` in
`int`. -/
def Dim3.toCoordIdx (s : Solver) (i j k : Int) : Int :=
  wrapInt (wrapInt (wrapInt (wrapInt (k * s.nx) * s.ny) + wrapInt (j * s.nx)) + i)

/-- The function `getCoord(idx, i, j, k)` of the 3-D build (lines 316-322); returns
`(i, j, k)`.  `none` stands for a division by zero. -/
def Dim3.getCoord (s : Solver) (CoordMap : StdMap Int) (idx : Int) :
    Option (Int × Int × Int) :=
  let ijk := (StdMap.find CoordMap idx).getD 0
  if wrapInt (s.nx * s.ny) = 0 then none
  else
    let k := wrapInt (Int.tdiv ijk (wrapInt (s.nx * s.ny)))
    if s.ny = 0 then none
    else
      let j := wrapInt (Int.tdiv (wrapInt (ijk - wrapInt (wrapInt (k * s.nx) * s.ny))) s.ny)
      let i := wrapInt (wrapInt (ijk - wrapInt (wrapInt (k * s.ny) * s.nz)) - wrapInt (j * s.nx))
      some (i, j, k)

/-- Spec-side definition: the 3-D inverse the specification recommends,
`k = idx / (nx·ny)`, `j = (idx − k·nx·ny) / nx`, `i = idx − k·nx·ny − j·nx`, over the
integers; returns `(i, j, k)`. -/
def Dim3.getCoord_spec (s : Solver) (idx : Int) : Int × Int × Int :=
  let k := idx / (s.nx * s.ny)
  let j := (idx - k * s.nx * s.ny) / s.nx
  let i := idx - k * s.nx * s.ny - j * s.nx
  (i, j, k)

end Solver

/-! ## Plans that hold the same work -/

/-- A map of tag vectors with every tag cut down to the fields its branch assigns (`box`
and `fabIndex`). -/
def assignedMap (m : StdMap (List CopyComTag)) : StdMap (List (Box × Int)) :=
  m.map (fun x => (x.1, x.2.map CopyComTag.assigned))

/-- Two plans hold the same work: the same local tags, the same send and receive tags per
peer up to the field `srcIndex`, which no send or receive branch assigns, and the same
volumes. -/
def PlanData.SameWork (P Q : PlanData) : Prop :=
  P.m_LocTags = Q.m_LocTags ∧ assignedMap P.m_SndTags = assignedMap Q.m_SndTags ∧
    assignedMap P.m_RcvTags = assignedMap Q.m_RcvTags ∧ P.m_SndVols = Q.m_SndVols ∧
    P.m_RcvVols = Q.m_RcvVols

instance (P Q : PlanData) : Decidable (PlanData.SameWork P Q) := by
  unfold PlanData.SameWork; infer_instance

/-! ## Separated boxes -/

/-- The boxes `a` and `b` are separated on some axis: one ends before the other begins.
Separated boxes have no cell in common (`disjoint_no_common_cell`). -/
def Box.disjoint (D : Nat) (a b : Box) : Prop :=
  ∃ d, d < D ∧ (a.bigEnd d < b.smallEnd d ∨ b.bigEnd d < a.smallEnd d)

instance (D : Nat) (a b : Box) : Decidable (Box.disjoint D a b) := by
  unfold Box.disjoint; infer_instance

/-- The cell with coordinates `p` lies in the box `b`. -/
def Box.hasCell (D : Nat) (b : Box) (p : List Int) : Prop :=
  ∀ d, d < D → b.smallEnd d ≤ p.getD d 0 ∧ p.getD d 0 ≤ b.bigEnd d

instance (D : Nat) (b : Box) (p : List Int) : Decidable (Box.hasCell D b p) := by
  unfold Box.hasCell; infer_instance

/-- Modelled from the spec: `BoxArray::intersections(q)` returns one pair for each member
box that meets `q`, so no index occurs twice in its result. -/
def IsectsOnce (isects : BoxArray → Box → List (Nat × Box)) : Prop :=
  ∀ (ba : BoxArray) (q : Box), (isects ba q).Pairwise (fun kb kb2 => kb.1 ≠ kb2.1)

/-! ## Example data -/

/-- Example data: the box `[0,0]..[3,3]`. -/
def exBoxA : Box := { smallend := [0, 0], bigend := [3, 3] }

/-- Example data: the box `[4,0]..[7,3]`, the right neighbour of `exBoxA`. -/
def exBoxB : Box := { smallend := [4, 0], bigend := [7, 3] }

/-- Example data: the box `[2,2]..[5,5]`, which overlaps `exBoxA` in `[2,2]..[3,3]`. -/
def exBoxC : Box := { smallend := [2, 2], bigend := [5, 5] }

/-- Example data: an initial content of the local `tag`. -/
def exTag : CopyComTag := { box := { smallend := [], bigend := [] }, fabIndex := 0, srcIndex := 0 }

/-- Example data: the two-tile array of the two-rank scenario, ghost width 1. -/
def exFab : FabArrayBase :=
  { boxarray := [exBoxA, exBoxB], distributionMap := [0, 1], n_grow := 1 }

/-- Example data: the configuration `Initialize` sets without overriding parameters. -/
def exGlobals : Globals :=
  { verbose := true, do_async_sends := false, do_not_use_cache := false, initialized := true,
    use_copy_cache := true, copy_cache_max_size := 50,
    use_fb_cache := true, fb_cache_max_size := 50 }

/-- Example data: both caches switched on with a cap of `m` entries. -/
def exGlobalsCap (m : Int) : Globals :=
  { exGlobals with copy_cache_max_size := m, fb_cache_max_size := m }

/-- Example data: a copy cache holding one entry, the copy of `exBoxA` onto itself on
rank 0, built and not yet reused. -/
def exCopyCache1 : CPCCache :=
  [(2, CPC.built 0 intersections exTag (CPC.ctor [exBoxA] [exBoxA] [0] [0]))]

/-- Example data: a fill-boundary cache holding one entry, the plan of `exFab` with the
full halo on rank 0, built and not yet reused. -/
def exFBCache1 : FBCache :=
  [(3, SI.built 2 0 intersections exTag
        (SI.ctor exFab.boxarray exFab.distributionMap exFab.n_grow false) exFab)]

/-- Example data: a copy cache with two entries that share the key 2 and have different
descriptors (the copy of `exBoxA` onto itself and the copy of `exBoxC` onto itself). -/
def exCopyCache2 : CPCCache :=
  [(2, CPC.built 0 intersections exTag (CPC.ctor [exBoxA] [exBoxA] [0] [0])),
   (2, CPC.built 0 intersections exTag (CPC.ctor [exBoxC] [exBoxC] [0] [0]))]

/-- Example data: a fill-boundary cache with two entries that share the key 4 and have
different descriptors (`exFab` with ghost width 2 and the full halo, and `exFab` with
ghost width 1 and the cross halo). -/
def exFBCache2 : FBCache :=
  [(4, SI.built 2 0 intersections exTag
        (SI.ctor exFab.boxarray exFab.distributionMap 2 false) { exFab with n_grow := 2 }),
   (4, SI.built 2 0 intersections exTag
        (SI.ctor exFab.boxarray exFab.distributionMap 1 true) exFab)]

/-- Example data: a descriptor without work on rank 0 for the copy cache, the array
`[exBoxA]` with ghost width 1 alone on rank 0 for the fill-boundary cache. -/
def exLoneFab : FabArrayBase :=
  { boxarray := [exBoxA], distributionMap := [0], n_grow := 1 }

/-- Example data: fifty copy plans on rank 0, none reused; entry `n` copies `exBoxA` from
an array of `n + 1` boxes and is filed under the key `n + 2`. -/
def exCopyCache50 : CPCCache :=
  (List.range 50).map (fun (n : Nat) =>
    ((n : Int) + 2,
      CPC.built 0 intersections exTag
        (CPC.ctor [exBoxA] (exBoxA :: List.replicate n exBoxB) [0] (List.replicate (n + 1) 0))))

/-- Example data: fifty fill-boundary plans on rank 0, none reused; entry `n` is the plan
of `exFab` with ghost width `n + 1` and the full halo, filed under the key `n + 3`. -/
def exFBCache50 : FBCache :=
  (List.range 50).map (fun (n : Nat) =>
    ((n : Int) + 3,
      SI.built 2 0 intersections exTag
        (SI.ctor exFab.boxarray exFab.distributionMap ((n : Int) + 1) false)
        { exFab with n_grow := (n : Int) + 1 }))

/-- Example data: a copy cache at a cap of two entries: plan `B` (key 2), inserted second,
in front of plan `A` (key 3), inserted first; neither is reused. -/
def exCopyCacheBA : CPCCache :=
  [(2, CPC.built 0 intersections exTag (CPC.ctor [exBoxA] [exBoxA] [0] [0])),
   (3, CPC.built 0 intersections exTag (CPC.ctor [exBoxA] [exBoxA, exBoxB] [0] [0, 0]))]

/-- Example data: the default configuration with both caches switched off. -/
def exGlobalsOff : Globals :=
  { exGlobals with use_copy_cache := false, use_fb_cache := false }

/-- Example data: the copy cache after three lookups on rank 0, the copy of `exBoxA` onto
itself twice (the second a hit) and the copy of `exBoxC` onto itself. -/
def exCopyCacheHit : CPCCache :=
  (TheCPC exGlobals 0 intersections exTag
    (TheCPC exGlobals 0 intersections exTag
      (TheCPC exGlobals 0 intersections exTag [] (CPC.ctor [exBoxA] [exBoxA] [0] [0])).1
      (CPC.ctor [exBoxA] [exBoxA] [0] [0])).1
    (CPC.ctor [exBoxC] [exBoxC] [0] [0])).1

/-- Example data: the fill-boundary cache after three lookups on rank 0, `exFab` with the
cross halo twice (the second a hit) and `exFab` with the full halo. -/
def exFBCacheHit : FBCache :=
  (TheFB 2 exGlobals 0 intersections exTag
    (TheFB 2 exGlobals 0 intersections exTag
      (TheFB 2 exGlobals 0 intersections exTag [] true exFab).1 true exFab).1 false exFab).1

/-- Example data: a grid of 2 x 1 x 1 points. -/
def exSolver : Solver := { nx := 2, ny := 1, nz := 1 }

/-- Example data: a grid of 4 x 3 x 2 points. -/
def exSolver432 : Solver := { nx := 4, ny := 3, nz := 2 }

/-- Example data: three tiles on rank 0, the second to the right of the first and the third
above it, ghost width 1. -/
def exFab3 : FabArrayBase :=
  { boxarray := [exBoxA, exBoxB, { smallend := [0, 4], bigend := [3, 7] }],
    distributionMap := [0, 0, 0], n_grow := 1 }

/-- Example data: two tiles of two cells each, side by side around the origin and owned by
ranks 0 and 1, with the largest ghost width an `int` holds; the grown boxes still have
corners in the range of `int`. -/
def exFabWide : FabArrayBase :=
  { boxarray := [{ smallend := [-1, -1], bigend := [-1, 0] },
                 { smallend := [0, -1], bigend := [0, 0] }],
    distributionMap := [0, 1], n_grow := 2147483647 }

/-- Example data: a box of 65536 x 65536 cells, 2^32 points. -/
def exBoxHuge : Box := { smallend := [0, 0], bigend := [65535, 65535] }

/-- Example data: a row of 65536 grid points. -/
def exSolverWide : Solver := { nx := 65536, ny := 1, nz := 1 }

/-- Example data: a grid of 2000 x 2000 x 2000 points. -/
def exSolver2000 : Solver := { nx := 2000, ny := 2000, nz := 2000 }

/-! # Theorems -/

/-! ## Lemmas: machine integers -/

theorem wrapInt_of_range (x : Int) (h0 : -2147483648 ≤ x) (h1 : x ≤ INT_MAX) :
    wrapInt x = x := by
  unfold wrapInt
  unfold INT_MAX at h1
  omega

theorem wrapInt_add (a b : Int) : wrapInt (wrapInt a + b) = wrapInt (a + b) := by
  unfold wrapInt
  omega

theorem wrapInt_idem (a : Int) : wrapInt (wrapInt a) = wrapInt a := by
  unfold wrapInt
  omega

theorem wrapInt_add_wrapInt (a b : Int) :
    wrapInt (wrapInt a + wrapInt b) = wrapInt (a + b) := by
  unfold wrapInt
  omega

/-! ## Lemmas: `StdMap` -/

theorem StdMap.find_set {V : Type} (m : StdMap V) (k : Int) (v : V) (p : Int) :
    StdMap.find (StdMap.set m k v) p = if p = k then some v else StdMap.find m p := by
  induction m with
  | nil =>
    by_cases h : p = k
    · simp [StdMap.set, StdMap.find, h]
    · have h' : ¬ k = p := fun e => h e.symm
      simp [StdMap.set, StdMap.find, h, h']
  | cons a m ih =>
    obtain ⟨k', v'⟩ := a
    unfold StdMap.set
    by_cases h1 : k < k'
    · simp only [h1, if_true]
      by_cases h : p = k
      · simp [StdMap.find, h]
      · have h' : ¬ k = p := fun e => h e.symm
        simp [StdMap.find, h, h']
    · simp only [h1, if_false]
      by_cases h2 : k = k'
      · subst h2
        by_cases h : p = k
        · simp [StdMap.find, h]
        · have h' : ¬ k = p := fun e => h e.symm
          simp [StdMap.find, h, h']
      · simp only [h2, if_false]
        by_cases h3 : k' = p
        · have h4 : ¬ p = k := fun e => h2 (e.symm.trans h3.symm)
          simp [StdMap.find, h3, h4]
        · simp [StdMap.find, h3, ih]

theorem StdMap.set_ne_nil {V : Type} (m : StdMap V) (k : Int) (v : V) :
    StdMap.set m k v ≠ [] := by
  cases m with
  | nil => simp [StdMap.set]
  | cons a m =>
    obtain ⟨k', v'⟩ := a
    unfold StdMap.set
    split_ifs <;> simp

theorem StdMap.find_push {T : Type} (m : StdMap (List T)) (k : Int) (t : T) (p : Int) :
    StdMap.find (StdMap.push m k t) p =
      if p = k then some (StdMap.tagsOf m k ++ [t]) else StdMap.find m p := by
  simp [StdMap.push, StdMap.find_set, StdMap.tagsOf]

theorem StdMap.tagsOf_push {T : Type} (m : StdMap (List T)) (k : Int) (t : T) (p : Int) :
    StdMap.tagsOf (StdMap.push m k t) p =
      if p = k then StdMap.tagsOf m k ++ [t] else StdMap.tagsOf m p := by
  unfold StdMap.tagsOf
  rw [StdMap.find_push]
  by_cases h : p = k <;> simp [h, StdMap.tagsOf]

theorem StdMap.find_addVol (m : StdMap Int) (k vol p : Int) :
    StdMap.find (StdMap.addVol m k vol) p =
      if p = k then some ((StdMap.find m k).elim vol (fun v => wrapInt (v + vol)))
      else StdMap.find m p := by
  unfold StdMap.addVol
  cases h : StdMap.find m k with
  | none => simp [StdMap.find_set]
  | some v => simp [StdMap.find_set]

theorem StdMap.find_eq_none_of_nil {V : Type} (m : StdMap V) (h : m = []) (p : Int) :
    StdMap.find m p = none := by
  subst h; rfl

theorem StdMap.exists_find_of_ne_nil {V : Type} (m : StdMap V) (h : m ≠ []) :
    ∃ p, (StdMap.find m p).isSome = true := by
  cases m with
  | nil => exact absurd rfl h
  | cons a m =>
    obtain ⟨k, v⟩ := a
    exact ⟨k, by simp [StdMap.find]⟩

/-! ## Lemmas: one pass of the loop body -/

theorem filterMap_cons_toList {α β : Type} (f : α → Option β) (a : α) (l : List α) :
    List.filterMap f (a :: l) = (f a).toList ++ List.filterMap f l := by
  cases h : f a <;> simp [List.filterMap_cons, h]

theorem tagStep_loc (MyProc : Int) (ddm sdm : DistributionMapping)
    (st : CopyComTag × PlanData) (e : Nat × Nat × Box) :
    (tagStep MyProc ddm sdm st e).2.m_LocTags =
      st.2.m_LocTags ++ (locTag MyProc ddm sdm e).toList := by
  unfold tagStep classify locTag
  by_cases hd : owner ddm e.1 = MyProc <;> by_cases hs : owner sdm e.2.1 = MyProc <;>
    simp [hd, hs]

theorem tagStep_rcv (MyProc : Int) (ddm sdm : DistributionMapping)
    (st : CopyComTag × PlanData) (e : Nat × Nat × Box) (p : Int) :
    (StdMap.tagsOf (tagStep MyProc ddm sdm st e).2.m_RcvTags p).map CopyComTag.assigned =
      (StdMap.tagsOf st.2.m_RcvTags p).map CopyComTag.assigned ++
        (rcvTag MyProc ddm sdm p e).toList := by
  unfold tagStep classify rcvTag
  by_cases hd : owner ddm e.1 = MyProc <;> by_cases hs : owner sdm e.2.1 = MyProc <;>
    simp [hd, hs]
  by_cases hp : p = owner sdm e.2.1
  · subst hp
    simp [StdMap.tagsOf_push, CopyComTag.assigned]
  · have hp' : ¬ owner sdm e.2.1 = p := fun h => hp h.symm
    simp [StdMap.tagsOf_push, hp, hp']

theorem tagStep_snd (MyProc : Int) (ddm sdm : DistributionMapping)
    (st : CopyComTag × PlanData) (e : Nat × Nat × Box) (p : Int) :
    (StdMap.tagsOf (tagStep MyProc ddm sdm st e).2.m_SndTags p).map CopyComTag.assigned =
      (StdMap.tagsOf st.2.m_SndTags p).map CopyComTag.assigned ++
        (sndTag MyProc ddm sdm p e).toList := by
  unfold tagStep classify sndTag
  by_cases hd : owner ddm e.1 = MyProc <;> by_cases hs : owner sdm e.2.1 = MyProc <;>
    simp [hd, hs]
  by_cases hp : p = owner ddm e.1
  · subst hp
    simp [StdMap.tagsOf_push, CopyComTag.assigned]
  · have hp' : ¬ owner ddm e.1 = p := fun h => hp h.symm
    simp [StdMap.tagsOf_push, hp, hp']

theorem tagStep_rcv_isSome (MyProc : Int) (ddm sdm : DistributionMapping)
    (st : CopyComTag × PlanData) (e : Nat × Nat × Box) (p : Int) :
    (StdMap.find (tagStep MyProc ddm sdm st e).2.m_RcvTags p).isSome =
      ((StdMap.find st.2.m_RcvTags p).isSome || (rcvTag MyProc ddm sdm p e).isSome) := by
  unfold tagStep classify rcvTag
  by_cases hd : owner ddm e.1 = MyProc <;> by_cases hs : owner sdm e.2.1 = MyProc <;>
    simp [hd, hs]
  by_cases hp : p = owner sdm e.2.1
  · subst hp
    simp [StdMap.find_push]
  · have hp' : ¬ owner sdm e.2.1 = p := fun h => hp h.symm
    simp [StdMap.find_push, hp, hp']

theorem tagStep_snd_isSome (MyProc : Int) (ddm sdm : DistributionMapping)
    (st : CopyComTag × PlanData) (e : Nat × Nat × Box) (p : Int) :
    (StdMap.find (tagStep MyProc ddm sdm st e).2.m_SndTags p).isSome =
      ((StdMap.find st.2.m_SndTags p).isSome || (sndTag MyProc ddm sdm p e).isSome) := by
  unfold tagStep classify sndTag
  by_cases hd : owner ddm e.1 = MyProc <;> by_cases hs : owner sdm e.2.1 = MyProc <;>
    simp [hd, hs]
  by_cases hp : p = owner ddm e.1
  · subst hp
    simp [StdMap.find_push]
  · have hp' : ¬ owner ddm e.1 = p := fun h => hp h.symm
    simp [StdMap.find_push, hp, hp']

theorem volume_append (ts : List CopyComTag) (t : CopyComTag) :
    volume (ts ++ [t]) = volume ts + t.box.numPts := by
  simp [volume]

theorem VolsAgree_push (tags : StdMap (List CopyComTag)) (vols : StdMap Int)
    (h : VolsAgree tags vols) (k : Int) (t : CopyComTag) :
    VolsAgree (StdMap.push tags k t) (StdMap.addVol vols k (wrapInt t.box.numPts)) := by
  intro p
  rw [StdMap.find_addVol, StdMap.find_push]
  by_cases hp : p = k
  · subst hp
    have hk := h p
    simp only [if_true, Option.map_some']
    rw [volume_append, hk]
    unfold StdMap.tagsOf
    cases StdMap.find tags p with
    | none => simp [volume, wrapInt_idem]
    | some ts => simp [wrapInt_add_wrapInt]
  · simp only [hp, if_false]
    exact h p

theorem tagStep_vols (MyProc : Int) (ddm sdm : DistributionMapping)
    (st : CopyComTag × PlanData) (e : Nat × Nat × Box)
    (h : VolsAgree st.2.m_SndTags st.2.m_SndVols ∧ VolsAgree st.2.m_RcvTags st.2.m_RcvVols) :
    VolsAgree (tagStep MyProc ddm sdm st e).2.m_SndTags (tagStep MyProc ddm sdm st e).2.m_SndVols ∧
    VolsAgree (tagStep MyProc ddm sdm st e).2.m_RcvTags (tagStep MyProc ddm sdm st e).2.m_RcvVols := by
  unfold tagStep classify
  by_cases hd : owner ddm e.1 = MyProc <;> by_cases hs : owner sdm e.2.1 = MyProc <;>
    simp only [hd, hs, ne_eq, not_true_eq_false, not_false_eq_true, and_self, and_true, and_false,
      false_and, true_and, if_true, if_false]
  · exact h
  · exact ⟨h.1, VolsAgree_push _ _ h.2 _ _⟩
  · exact ⟨VolsAgree_push _ _ h.1 _ _, h.2⟩
  · exact h

theorem tagLoop_loc (MyProc : Int) (ddm sdm : DistributionMapping)
    (evs : List (Nat × Nat × Box)) (st : CopyComTag × PlanData) :
    (tagLoop MyProc ddm sdm evs st).2.m_LocTags =
      st.2.m_LocTags ++ evs.filterMap (locTag MyProc ddm sdm) := by
  induction evs generalizing st with
  | nil => simp [tagLoop]
  | cons e evs ih =>
    have h := ih (tagStep MyProc ddm sdm st e)
    simp only [tagLoop, List.foldl_cons] at h ⊢
    rw [h, tagStep_loc, filterMap_cons_toList, List.append_assoc]

theorem tagLoop_rcv (MyProc : Int) (ddm sdm : DistributionMapping)
    (evs : List (Nat × Nat × Box)) (st : CopyComTag × PlanData) (p : Int) :
    (StdMap.tagsOf (tagLoop MyProc ddm sdm evs st).2.m_RcvTags p).map CopyComTag.assigned =
      (StdMap.tagsOf st.2.m_RcvTags p).map CopyComTag.assigned ++
        evs.filterMap (rcvTag MyProc ddm sdm p) := by
  induction evs generalizing st with
  | nil => simp [tagLoop]
  | cons e evs ih =>
    have h := ih (tagStep MyProc ddm sdm st e)
    simp only [tagLoop, List.foldl_cons] at h ⊢
    rw [h, tagStep_rcv, filterMap_cons_toList, List.append_assoc]

theorem tagLoop_snd (MyProc : Int) (ddm sdm : DistributionMapping)
    (evs : List (Nat × Nat × Box)) (st : CopyComTag × PlanData) (p : Int) :
    (StdMap.tagsOf (tagLoop MyProc ddm sdm evs st).2.m_SndTags p).map CopyComTag.assigned =
      (StdMap.tagsOf st.2.m_SndTags p).map CopyComTag.assigned ++
        evs.filterMap (sndTag MyProc ddm sdm p) := by
  induction evs generalizing st with
  | nil => simp [tagLoop]
  | cons e evs ih =>
    have h := ih (tagStep MyProc ddm sdm st e)
    simp only [tagLoop, List.foldl_cons] at h ⊢
    rw [h, tagStep_snd, filterMap_cons_toList, List.append_assoc]

theorem tagLoop_rcv_isSome (MyProc : Int) (ddm sdm : DistributionMapping)
    (evs : List (Nat × Nat × Box)) (st : CopyComTag × PlanData) (p : Int) :
    (StdMap.find (tagLoop MyProc ddm sdm evs st).2.m_RcvTags p).isSome =
      ((StdMap.find st.2.m_RcvTags p).isSome ||
        !(evs.filterMap (rcvTag MyProc ddm sdm p)).isEmpty) := by
  induction evs generalizing st with
  | nil => simp [tagLoop]
  | cons e evs ih =>
    have h := ih (tagStep MyProc ddm sdm st e)
    simp only [tagLoop, List.foldl_cons] at h ⊢
    rw [h, tagStep_rcv_isSome, filterMap_cons_toList]
    cases rcvTag MyProc ddm sdm p e <;> simp

theorem tagLoop_snd_isSome (MyProc : Int) (ddm sdm : DistributionMapping)
    (evs : List (Nat × Nat × Box)) (st : CopyComTag × PlanData) (p : Int) :
    (StdMap.find (tagLoop MyProc ddm sdm evs st).2.m_SndTags p).isSome =
      ((StdMap.find st.2.m_SndTags p).isSome ||
        !(evs.filterMap (sndTag MyProc ddm sdm p)).isEmpty) := by
  induction evs generalizing st with
  | nil => simp [tagLoop]
  | cons e evs ih =>
    have h := ih (tagStep MyProc ddm sdm st e)
    simp only [tagLoop, List.foldl_cons] at h ⊢
    rw [h, tagStep_snd_isSome, filterMap_cons_toList]
    cases sndTag MyProc ddm sdm p e <;> simp

theorem tagLoop_vols (MyProc : Int) (ddm sdm : DistributionMapping)
    (evs : List (Nat × Nat × Box)) (st : CopyComTag × PlanData)
    (h : VolsAgree st.2.m_SndTags st.2.m_SndVols ∧ VolsAgree st.2.m_RcvTags st.2.m_RcvVols) :
    VolsAgree (tagLoop MyProc ddm sdm evs st).2.m_SndTags
        (tagLoop MyProc ddm sdm evs st).2.m_SndVols ∧
      VolsAgree (tagLoop MyProc ddm sdm evs st).2.m_RcvTags
        (tagLoop MyProc ddm sdm evs st).2.m_RcvVols := by
  induction evs generalizing st with
  | nil => simpa [tagLoop] using h
  | cons e evs ih =>
    have h2 := ih (tagStep MyProc ddm sdm st e) (tagStep_vols MyProc ddm sdm st e h)
    simpa only [tagLoop, List.foldl_cons] using h2

theorem foldl_flatMap_eq {α β γ : Type} (f : γ → β → γ) (g : α → List β) (l : List α) (b : γ) :
    List.foldl f b (l.flatMap g) = List.foldl (fun b a => List.foldl f b (g a)) b l := by
  induction l generalizing b with
  | nil => simp
  | cons a l ih => simp [List.flatMap_cons, List.foldl_append, ih]

theorem foldl_filter_eq {β γ : Type} (f : γ → β → γ) (q : β → Bool) (l : List β) (b : γ) :
    List.foldl f b (l.filter q) = List.foldl (fun b a => if q a = true then f b a else b) b l := by
  induction l generalizing b with
  | nil => simp
  | cons a l ih =>
    by_cases h : q a = true
    · simp [List.filter_cons, h, ih]
    · simp [List.filter_cons, h, ih]

theorem cpc_build_eq_tagLoop (MyProc : Int) (isects : BoxArray → Box → List (Nat × Box))
    (tag0 : CopyComTag) (cpc : CPC) :
    CPC.build MyProc isects tag0 cpc =
      tagLoop MyProc cpc.m_dstdm cpc.m_srcdm (CPC.pairs isects cpc.m_dstba cpc.m_srcba)
        (tag0, cpc.plan) := by
  unfold CPC.build tagLoop CPC.pairs
  rw [foldl_flatMap_eq]
  congr 1
  funext st ib
  rw [List.foldl_map]
  rfl

theorem si_build_eq_tagLoop (D : Nat) (MyProc : Int) (isects : BoxArray → Box → List (Nat × Box))
    (tag0 : CopyComTag) (si : SI) (ba : BoxArray) (dm : DistributionMapping) :
    SI.build D MyProc isects tag0 si ba dm =
      tagLoop MyProc dm dm (SI.pairs D isects si ba) (tag0, si.plan) := by
  unfold SI.build tagLoop SI.pairs
  rw [foldl_filter_eq, foldl_flatMap_eq]
  congr 1
  funext st ib
  rw [foldl_flatMap_eq]
  show List.foldl _ st (SI.boxes D si ib.2) = _
  congr 1
  funext st q
  rw [List.foldl_map]
  congr 1
  funext st kb
  unfold tagStep
  by_cases hk : kb.1 = ib.1
  · simp [hk]
  · simp [hk]

theorem StdMap.keys_set {V W : Type} (m : StdMap V) (m' : StdMap W) (k : Int) (v : V) (w : W)
    (h : m.map Prod.fst = m'.map Prod.fst) :
    (StdMap.set m k v).map Prod.fst = (StdMap.set m' k w).map Prod.fst := by
  induction m generalizing m' with
  | nil =>
    cases m' with
    | nil => simp [StdMap.set]
    | cons b m' => simp at h
  | cons a m ih =>
    cases m' with
    | nil => simp at h
    | cons b m' =>
      obtain ⟨ka, va⟩ := a
      obtain ⟨kb, vb⟩ := b
      simp only [List.map_cons, List.cons.injEq] at h
      obtain ⟨h1, h2⟩ := h
      subst h1
      unfold StdMap.set
      by_cases c1 : k < ka
      · simp [c1, h2]
      · by_cases c2 : k = ka
        · simp [c2, h2]
        · simp [c1, c2, ih m' h2]

theorem StdMap.keys_push_addVol (tags : StdMap (List CopyComTag)) (vols : StdMap Int)
    (h : vols.map Prod.fst = tags.map Prod.fst) (k : Int) (t : CopyComTag) (vol : Int) :
    (StdMap.addVol vols k vol).map Prod.fst = (StdMap.push tags k t).map Prod.fst := by
  unfold StdMap.addVol StdMap.push
  cases StdMap.find vols k with
  | none => exact StdMap.keys_set _ _ _ _ _ h
  | some v => exact StdMap.keys_set _ _ _ _ _ h

theorem tagStep_keys (MyProc : Int) (ddm sdm : DistributionMapping)
    (st : CopyComTag × PlanData) (e : Nat × Nat × Box)
    (h : st.2.m_SndVols.map Prod.fst = st.2.m_SndTags.map Prod.fst ∧
      st.2.m_RcvVols.map Prod.fst = st.2.m_RcvTags.map Prod.fst) :
    (tagStep MyProc ddm sdm st e).2.m_SndVols.map Prod.fst =
        (tagStep MyProc ddm sdm st e).2.m_SndTags.map Prod.fst ∧
      (tagStep MyProc ddm sdm st e).2.m_RcvVols.map Prod.fst =
        (tagStep MyProc ddm sdm st e).2.m_RcvTags.map Prod.fst := by
  unfold tagStep classify
  by_cases hd : owner ddm e.1 = MyProc <;> by_cases hs : owner sdm e.2.1 = MyProc <;>
    simp only [hd, hs, ne_eq, not_true_eq_false, not_false_eq_true, and_self, and_true, and_false,
      false_and, true_and, if_true, if_false]
  · exact h
  · exact ⟨h.1, StdMap.keys_push_addVol _ _ h.2 _ _ _⟩
  · exact ⟨StdMap.keys_push_addVol _ _ h.1 _ _ _, h.2⟩
  · exact h

theorem tagLoop_keys (MyProc : Int) (ddm sdm : DistributionMapping)
    (evs : List (Nat × Nat × Box)) (st : CopyComTag × PlanData)
    (h : st.2.m_SndVols.map Prod.fst = st.2.m_SndTags.map Prod.fst ∧
      st.2.m_RcvVols.map Prod.fst = st.2.m_RcvTags.map Prod.fst) :
    (tagLoop MyProc ddm sdm evs st).2.m_SndVols.map Prod.fst =
        (tagLoop MyProc ddm sdm evs st).2.m_SndTags.map Prod.fst ∧
      (tagLoop MyProc ddm sdm evs st).2.m_RcvVols.map Prod.fst =
        (tagLoop MyProc ddm sdm evs st).2.m_RcvTags.map Prod.fst := by
  induction evs generalizing st with
  | nil => simpa [tagLoop] using h
  | cons e evs ih =>
    have h2 := ih (tagStep MyProc ddm sdm st e) (tagStep_keys MyProc ddm sdm st e h)
    simpa only [tagLoop, List.foldl_cons] using h2

theorem VolsAgree_nil : VolsAgree [] [] := by
  intro p; rfl

theorem mem_filterMap_sndTag (MyProc : Int) (ddm sdm : DistributionMapping) (p : Int)
    (prs : List (Nat × Nat × Box)) (x : Box × Int)
    (h : x ∈ prs.filterMap (sndTag MyProc ddm sdm p)) :
    p ≠ MyProc ∧ ∃ e ∈ prs, x.1 = e.2.2 ∧ x.2 = (e.2.1 : Int) ∧
      owner sdm e.2.1 = MyProc ∧ owner ddm e.1 = p := by
  rw [List.mem_filterMap] at h
  obtain ⟨e, he, hx⟩ := h
  unfold sndTag at hx
  split_ifs at hx with hc
  obtain ⟨h1, h2, h3⟩ := hc
  simp only [Option.some.injEq] at hx
  subst hx
  exact ⟨fun hp => h1 (h3.trans hp), e, he, rfl, rfl, h2, h3⟩

theorem mem_filterMap_rcvTag (MyProc : Int) (ddm sdm : DistributionMapping) (p : Int)
    (prs : List (Nat × Nat × Box)) (x : Box × Int)
    (h : x ∈ prs.filterMap (rcvTag MyProc ddm sdm p)) :
    p ≠ MyProc ∧ ∃ e ∈ prs, x.1 = e.2.2 ∧ x.2 = (e.1 : Int) ∧
      owner ddm e.1 = MyProc ∧ owner sdm e.2.1 = p := by
  rw [List.mem_filterMap] at h
  obtain ⟨e, he, hx⟩ := h
  unfold rcvTag at hx
  split_ifs at hx with hc
  obtain ⟨h1, h2, h3⟩ := hc
  simp only [Option.some.injEq] at hx
  subst hx
  exact ⟨fun hp => h2 (h3.trans hp), e, he, rfl, rfl, h1, h3⟩

theorem mem_filterMap_locTag (MyProc : Int) (ddm sdm : DistributionMapping)
    (prs : List (Nat × Nat × Box)) (t : CopyComTag)
    (h : t ∈ prs.filterMap (locTag MyProc ddm sdm)) :
    ∃ e ∈ prs, t = { box := e.2.2, fabIndex := (e.1 : Int), srcIndex := (e.2.1 : Int) } ∧
      owner ddm e.1 = MyProc ∧ owner sdm e.2.1 = MyProc := by
  rw [List.mem_filterMap] at h
  obtain ⟨e, he, hx⟩ := h
  unfold locTag at hx
  split_ifs at hx with hc
  simp only [Option.some.injEq] at hx
  exact ⟨e, he, hx.symm, hc.1, hc.2⟩

/-- The plan a tag loop builds from empty containers, described list by list. -/
theorem tagLoop_empty_spec (MyProc : Int) (ddm sdm : DistributionMapping)
    (prs : List (Nat × Nat × Box)) (tag0 : CopyComTag) :
    (tagLoop MyProc ddm sdm prs (tag0, PlanData.empty)).2.m_LocTags =
        prs.filterMap (locTag MyProc ddm sdm) ∧
    (∀ p : Int, (StdMap.tagsOf (tagLoop MyProc ddm sdm prs (tag0, PlanData.empty)).2.m_RcvTags
        p).map CopyComTag.assigned = prs.filterMap (rcvTag MyProc ddm sdm p)) ∧
    (∀ p : Int, (StdMap.tagsOf (tagLoop MyProc ddm sdm prs (tag0, PlanData.empty)).2.m_SndTags
        p).map CopyComTag.assigned = prs.filterMap (sndTag MyProc ddm sdm p)) ∧
    (∀ p : Int, (StdMap.find (tagLoop MyProc ddm sdm prs (tag0, PlanData.empty)).2.m_RcvTags
        p).isSome = true ↔ prs.filterMap (rcvTag MyProc ddm sdm p) ≠ []) ∧
    (∀ p : Int, (StdMap.find (tagLoop MyProc ddm sdm prs (tag0, PlanData.empty)).2.m_SndTags
        p).isSome = true ↔ prs.filterMap (sndTag MyProc ddm sdm p) ≠ []) := by
  refine ⟨?_, ?_, ?_, ?_, ?_⟩
  · rw [tagLoop_loc]; simp [PlanData.empty]
  · intro p; rw [tagLoop_rcv]; simp [PlanData.empty, StdMap.tagsOf, StdMap.find]
  · intro p; rw [tagLoop_snd]; simp [PlanData.empty, StdMap.tagsOf, StdMap.find]
  · intro p; rw [tagLoop_rcv_isSome]; simp [PlanData.empty, StdMap.find, List.isEmpty_iff]
  · intro p; rw [tagLoop_snd_isSome]; simp [PlanData.empty, StdMap.find, List.isEmpty_iff]

/-! ## Lemmas: the cache lookup -/

theorem findReusable_eq_none {E : Type} (same : E → Bool) (Key : Int) (c : List (Int × E)) :
    findReusable same Key c = none ↔ ∀ e ∈ c, ¬ (e.1 = Key ∧ same e.2 = true) := by
  induction c with
  | nil => simp [findReusable]
  | cons a c ih =>
    unfold findReusable
    by_cases h : a.1 = Key ∧ same a.2 = true
    · simp only [h, and_self, if_true]
      constructor
      · intro x; cases x
      · intro x; exact absurd h (x a (List.mem_cons_self _ _))
    · simp only [h, if_false, Option.map_eq_none', ih]
      constructor
      · intro x e he
        rcases List.mem_cons.mp he with rfl | he
        · exact h
        · exact x e he
      · intro x e he
        exact x e (List.mem_cons_of_mem _ he)

theorem findReusable_some {E : Type} (same : E → Bool) (Key : Int) (cache : List (Int × E))
    (it : Nat) (h : findReusable same Key cache = some it) :
    ∃ e, cache[it]? = some e ∧ e.1 = Key ∧ same e.2 = true := by
  induction cache generalizing it with
  | nil => simp [findReusable] at h
  | cons a cache ih =>
    unfold findReusable at h
    by_cases hc : a.1 = Key ∧ same a.2 = true
    · simp only [hc, and_self, if_true, Option.some.injEq] at h
      subst h
      exact ⟨a, by simp, hc.1, hc.2⟩
    · simp only [hc, if_false, Option.map_eq_some'] at h
      obtain ⟨j, hj, rfl⟩ := h
      obtain ⟨e, he, hk⟩ := ih j hj
      exact ⟨e, by simpa using he, hk⟩

theorem findReusable_modify {E : Type} (same : E → Bool) (Key : Int) (f : E → E)
    (hf : ∀ e, same (f e) = same e) (cache : List (Int × E)) (it : Nat) :
    findReusable same Key (cache.modify (fun e => (e.1, f e.2)) it) =
      findReusable same Key cache := by
  induction cache generalizing it with
  | nil => simp
  | cons a cache ih =>
    cases it with
    | zero => simp [findReusable, hf]
    | succ n =>
      rw [List.modify_succ_cons]
      unfold findReusable
      rw [ih n]

theorem upper_bound_le {E : Type} (c : List (Int × E)) (Key : Int) :
    upper_bound c Key ≤ c.length := by
  induction c with
  | nil => simp [upper_bound]
  | cons a c ih =>
    unfold upper_bound
    split_ifs
    · exact Nat.zero_le _
    · simpa using ih

theorem findReusable_insert {E : Type} (same : E → Bool) (Key : Int) (x : E)
    (hx : same x = true) (c : List (Int × E)) (h : findReusable same Key c = none) :
    findReusable same Key (c.insertIdx (upper_bound c Key) (Key, x)) =
      some (upper_bound c Key) := by
  induction c with
  | nil => simp [upper_bound, findReusable, hx]
  | cons a c ih =>
    unfold findReusable at h
    by_cases hc : a.1 = Key ∧ same a.2 = true
    · simp [hc] at h
    · simp only [hc, if_false, Option.map_eq_none'] at h
      unfold upper_bound
      by_cases hk : Key < a.1
      · simp [hk, findReusable, hx]
      · simp only [hk, if_false, List.insertIdx_succ_cons]
        unfold findReusable
        simp only [hc, if_false, ih h, Option.map_some']

theorem sweep_sublist {E : Type} (reused : E → Bool) (max_size : Int) (n : Nat)
    (c : List (Int × E)) : (sweep reused max_size n c).Sublist c := by
  induction c generalizing n with
  | nil => simp [sweep]
  | cons a c ih =>
    unfold sweep
    split_ifs
    · exact List.sublist_cons_self _ _
    · exact (ih _).trans (List.sublist_cons_self _ _)
    · exact (ih _).cons₂ _

theorem makeRoom_sublist {E : Type} (reused : E → Bool) (max_size : Int)
    (c : List (Int × E)) : (makeRoom reused max_size c).Sublist c := by
  unfold makeRoom
  dsimp only
  split_ifs
  · exact (List.tail_sublist _).trans (sweep_sublist _ _ _ _)
  · exact sweep_sublist _ _ _ _
  · exact List.Sublist.refl _

theorem findReusable_none_of_sublist {E : Type} (same : E → Bool) (Key : Int)
    (c c' : List (Int × E)) (hs : c'.Sublist c) (h : findReusable same Key c = none) :
    findReusable same Key c' = none := by
  rw [findReusable_eq_none] at h ⊢
  intro e he
  exact h e (hs.subset he)

/-- The two outcomes of `lookup` with the cache switched on. -/
theorem lookup_enabled {E : Type} (reused : E → Bool) (setReused : E → E) (noWork : E → Bool)
    (same : E → Bool) (max_size : Int) (Key : Int) (built : E) (cache : List (Int × E)) :
    (∃ it, findReusable same Key cache = some it ∧
      lookup reused setReused noWork same true max_size Key built cache =
        (cache.modify (fun e => (e.1, setReused e.2)) it, some it)) ∨
    (findReusable same Key cache = none ∧
      lookup reused setReused noWork same true max_size Key built cache =
        if noWork built = true then (makeRoom reused max_size cache, none)
        else ((makeRoom reused max_size cache).insertIdx
                (upper_bound (makeRoom reused max_size cache) Key) (Key, built),
              some (upper_bound (makeRoom reused max_size cache) Key))) := by
  unfold lookup
  cases h : findReusable same Key cache with
  | some it => left; exact ⟨it, rfl, by simp⟩
  | none =>
    right
    refine ⟨rfl, ?_⟩
    simp only [if_true]
    split_ifs
    · rw [List.eraseIdx_insertIdx]
    · rfl

/-- The outcome of `lookup` with the cache switched off. -/
theorem lookup_disabled {E : Type} (reused : E → Bool) (setReused : E → E) (noWork : E → Bool)
    (same : E → Bool) (max_size : Int) (Key : Int) (built : E) (cache : List (Int × E)) :
    lookup reused setReused noWork same false max_size Key built cache =
      if noWork built = true then ([], none) else ([(Key, built)], some 0) := by
  unfold lookup
  simp [upper_bound]

/-- A lookup on the empty cache: the new plan is the only entry afterwards, unless it has
no work. -/
theorem lookup_nil {E : Type} (reused : E → Bool) (setReused : E → E) (noWork : E → Bool)
    (same : E → Bool) (use_cache : Bool) (max_size : Int) (Key : Int) (built : E) :
    lookup reused setReused noWork same use_cache max_size Key built [] =
      if noWork built = true then ([], none) else ([(Key, built)], some 0) := by
  have hm : makeRoom reused max_size ([] : List (Int × E)) = [] := by
    unfold makeRoom
    dsimp only
    split_ifs <;> rfl
  cases use_cache with
  | false => exact lookup_disabled reused setReused noWork same max_size Key built []
  | true =>
    rcases lookup_enabled reused setReused noWork same max_size Key built [] with
      ⟨it, h1, _⟩ | ⟨_, h2⟩
    · cases h1
    · rw [h2, hm]
      rfl

/-! ## The plans -/

/-- C1: for every copy descriptor and every rank, the plan built by `TheCPC` holds exactly
one tag per pair (dst tile `i`, intersection `(k, box)`) in which this rank owns a tile, in
loop order: a local tag `(box, i, k)` when it owns both, a receive tag with `(box, i)`
under the owner of `k` when it owns only the dst tile, a send tag with `(box, k)` under the
owner of `i` when it owns only the src tile; a peer is a key exactly when it has a tag.
Hence the tiles of every send, receive and local tag are owned as the list it is on says.
The plan is that of the entry `TheCPC` builds: called on the empty cache it stores and
returns exactly this entry, unless the plan has no work. -/
theorem C1_TheCPC_classification (MyProc : Int) (isects : BoxArray → Box → List (Nat × Box))
    (tag0 : CopyComTag) (dstBA srcBA : BoxArray) (dstDM srcDM : DistributionMapping) :
    (CPC.built MyProc isects tag0 (CPC.ctor dstBA srcBA dstDM srcDM)).plan.m_LocTags =
        (CPC.pairs isects dstBA srcBA).filterMap (locTag MyProc dstDM srcDM) ∧
    (∀ p : Int,
      (StdMap.tagsOf (CPC.built MyProc isects tag0
        (CPC.ctor dstBA srcBA dstDM srcDM)).plan.m_RcvTags p).map CopyComTag.assigned =
        (CPC.pairs isects dstBA srcBA).filterMap (rcvTag MyProc dstDM srcDM p)) ∧
    (∀ p : Int,
      (StdMap.tagsOf (CPC.built MyProc isects tag0
        (CPC.ctor dstBA srcBA dstDM srcDM)).plan.m_SndTags p).map CopyComTag.assigned =
        (CPC.pairs isects dstBA srcBA).filterMap (sndTag MyProc dstDM srcDM p)) ∧
    (∀ p : Int,
      (StdMap.find (CPC.built MyProc isects tag0
        (CPC.ctor dstBA srcBA dstDM srcDM)).plan.m_RcvTags p).isSome = true ↔
        (CPC.pairs isects dstBA srcBA).filterMap (rcvTag MyProc dstDM srcDM p) ≠ []) ∧
    (∀ p : Int,
      (StdMap.find (CPC.built MyProc isects tag0
        (CPC.ctor dstBA srcBA dstDM srcDM)).plan.m_SndTags p).isSome = true ↔
        (CPC.pairs isects dstBA srcBA).filterMap (sndTag MyProc dstDM srcDM p) ≠ []) ∧
    (∀ p : Int, ∀ t ∈ StdMap.tagsOf
        (CPC.built MyProc isects tag0 (CPC.ctor dstBA srcBA dstDM srcDM)).plan.m_SndTags p,
      p ≠ MyProc ∧ ∃ e ∈ CPC.pairs isects dstBA srcBA, t.box = e.2.2 ∧
        t.fabIndex = (e.2.1 : Int) ∧ owner srcDM e.2.1 = MyProc ∧ owner dstDM e.1 = p) ∧
    (∀ p : Int, ∀ t ∈ StdMap.tagsOf
        (CPC.built MyProc isects tag0 (CPC.ctor dstBA srcBA dstDM srcDM)).plan.m_RcvTags p,
      p ≠ MyProc ∧ ∃ e ∈ CPC.pairs isects dstBA srcBA, t.box = e.2.2 ∧
        t.fabIndex = (e.1 : Int) ∧ owner dstDM e.1 = MyProc ∧ owner srcDM e.2.1 = p) ∧
    (∀ t ∈ (CPC.built MyProc isects tag0 (CPC.ctor dstBA srcBA dstDM srcDM)).plan.m_LocTags,
      ∃ e ∈ CPC.pairs isects dstBA srcBA,
        t = { box := e.2.2, fabIndex := (e.1 : Int), srcIndex := (e.2.1 : Int) } ∧
        owner dstDM e.1 = MyProc ∧ owner srcDM e.2.1 = MyProc) ∧
    (∀ g : Globals,
      TheCPC g MyProc isects tag0 [] (CPC.ctor dstBA srcBA dstDM srcDM) =
        if (CPC.built MyProc isects tag0 (CPC.ctor dstBA srcBA dstDM srcDM)).plan.noWork = true
        then ([], none)
        else ([(CPC.Key (CPC.ctor dstBA srcBA dstDM srcDM),
                CPC.built MyProc isects tag0 (CPC.ctor dstBA srcBA dstDM srcDM))], some 0)) := by
  have hb : (CPC.built MyProc isects tag0 (CPC.ctor dstBA srcBA dstDM srcDM)).plan =
      (tagLoop MyProc dstDM srcDM (CPC.pairs isects dstBA srcBA) (tag0, PlanData.empty)).2 := by
    unfold CPC.built
    simp only [cpc_build_eq_tagLoop]
    rfl
  rw [hb]
  obtain ⟨h1, h2, h3, h4, h5⟩ :=
    tagLoop_empty_spec MyProc dstDM srcDM (CPC.pairs isects dstBA srcBA) tag0
  refine ⟨h1, h2, h3, h4, h5, ?_, ?_, ?_, ?_⟩
  · intro p t ht
    have hx : t.assigned ∈
        (CPC.pairs isects dstBA srcBA).filterMap (sndTag MyProc dstDM srcDM p) := by
      rw [← h3 p]; exact List.mem_map_of_mem _ ht
    exact mem_filterMap_sndTag _ _ _ _ _ _ hx
  · intro p t ht
    have hx : t.assigned ∈
        (CPC.pairs isects dstBA srcBA).filterMap (rcvTag MyProc dstDM srcDM p) := by
      rw [← h2 p]; exact List.mem_map_of_mem _ ht
    exact mem_filterMap_rcvTag _ _ _ _ _ _ hx
  · intro t ht
    have hx : t ∈ (CPC.pairs isects dstBA srcBA).filterMap (locTag MyProc dstDM srcDM) := by
      rw [← h1]; exact ht
    exact mem_filterMap_locTag _ _ _ _ _ hx
  · intro g
    rw [← hb]
    exact lookup_nil CPC.m_reused CPC.setReused (fun e => e.plan.noWork)
      (fun e => CPC.eq e (CPC.ctor dstBA srcBA dstDM srcDM)) g.use_copy_cache
      g.copy_cache_max_size (CPC.Key (CPC.ctor dstBA srcBA dstDM srcDM))
      (CPC.built MyProc isects tag0 (CPC.ctor dstBA srcBA dstDM srcDM))

theorem tagLoop_empty_vols (MyProc : Int) (ddm sdm : DistributionMapping)
    (prs : List (Nat × Nat × Box)) (tag0 : CopyComTag) :
    ((tagLoop MyProc ddm sdm prs (tag0, PlanData.empty)).2.m_SndVols.map Prod.fst =
        (tagLoop MyProc ddm sdm prs (tag0, PlanData.empty)).2.m_SndTags.map Prod.fst ∧
      VolsAgree (tagLoop MyProc ddm sdm prs (tag0, PlanData.empty)).2.m_SndTags
        (tagLoop MyProc ddm sdm prs (tag0, PlanData.empty)).2.m_SndVols) ∧
    ((tagLoop MyProc ddm sdm prs (tag0, PlanData.empty)).2.m_RcvVols.map Prod.fst =
        (tagLoop MyProc ddm sdm prs (tag0, PlanData.empty)).2.m_RcvTags.map Prod.fst ∧
      VolsAgree (tagLoop MyProc ddm sdm prs (tag0, PlanData.empty)).2.m_RcvTags
        (tagLoop MyProc ddm sdm prs (tag0, PlanData.empty)).2.m_RcvVols) := by
  have hk := tagLoop_keys MyProc ddm sdm prs (tag0, PlanData.empty) ⟨rfl, rfl⟩
  have hv := tagLoop_vols MyProc ddm sdm prs (tag0, PlanData.empty) ⟨VolsAgree_nil, VolsAgree_nil⟩
  exact ⟨⟨hk.1, hv.1⟩, ⟨hk.2, hv.2⟩⟩

theorem volsMatch_of_agree (tags : StdMap (List CopyComTag)) (vols : StdMap Int)
    (hk : vols.map Prod.fst = tags.map Prod.fst) (hv : VolsAgree tags vols) :
    VolsMatch tags vols := by
  refine ⟨hk, hv, ?_⟩
  intro p ts hts h0 h1
  rw [hv p, hts, Option.map_some', wrapInt_of_range _ h0 h1]

/-- C2 fails as stated: the volumes are not the sums over exact integers.  For the copy of
a box of 65536 x 65536 cells owned by rank 1 onto the same box owned by rank 0, the plan of
rank 0 has one receive tag under peer 1, of 4294967296 points, and the volume 0 under
peer 1: `const int vol = bx.numPts()` keeps the low 32 bits. -/
theorem C2_volumes_match_tags_counterexample :
    (StdMap.find (CPC.built 0 intersections exTag
        (CPC.ctor [exBoxHuge] [exBoxHuge] [0] [1])).plan.m_RcvTags 1).map volume =
      some 4294967296 ∧
    StdMap.find (CPC.built 0 intersections exTag
        (CPC.ctor [exBoxHuge] [exBoxHuge] [0] [1])).plan.m_RcvVols 1 = some 0 ∧
    StdMap.find (CPC.built 0 intersections exTag
        (CPC.ctor [exBoxHuge] [exBoxHuge] [0] [1])).plan.m_RcvVols 1 ≠
      (StdMap.find (CPC.built 0 intersections exTag
        (CPC.ctor [exBoxHuge] [exBoxHuge] [0] [1])).plan.m_RcvTags 1).map volume := by
  refine ⟨by decide, by decide, by decide⟩

/-- C2 as amended: in the plan built by `TheCPC` and in the plan built by `TheFB`,
`m_SndVols` has the keys of `m_SndTags` and maps each of them to the sum of `box.numPts()`
over the tags filed under it as the `int` arithmetic of the source leaves it, i.e. reduced
modulo 2^32 into the range of `int`; this is the sum itself whenever the sum fits an
`int`.  Likewise `m_RcvVols` and `m_RcvTags` (`VolsMatch`). -/
theorem C2_volumes_match_tags_amended (D : Nat) (MyProc : Int)
    (isects : BoxArray → Box → List (Nat × Box)) (tag0 : CopyComTag)
    (dstBA srcBA : BoxArray) (dstDM srcDM : DistributionMapping)
    (cross : Bool) (mf : FabArrayBase) :
    (VolsMatch (CPC.built MyProc isects tag0 (CPC.ctor dstBA srcBA dstDM srcDM)).plan.m_SndTags
        (CPC.built MyProc isects tag0 (CPC.ctor dstBA srcBA dstDM srcDM)).plan.m_SndVols ∧
      VolsMatch (CPC.built MyProc isects tag0 (CPC.ctor dstBA srcBA dstDM srcDM)).plan.m_RcvTags
        (CPC.built MyProc isects tag0 (CPC.ctor dstBA srcBA dstDM srcDM)).plan.m_RcvVols) ∧
    (VolsMatch (SI.built D MyProc isects tag0
          (SI.ctor mf.boxarray mf.distributionMap mf.n_grow cross) mf).plan.m_SndTags
        (SI.built D MyProc isects tag0
          (SI.ctor mf.boxarray mf.distributionMap mf.n_grow cross) mf).plan.m_SndVols ∧
      VolsMatch (SI.built D MyProc isects tag0
          (SI.ctor mf.boxarray mf.distributionMap mf.n_grow cross) mf).plan.m_RcvTags
        (SI.built D MyProc isects tag0
          (SI.ctor mf.boxarray mf.distributionMap mf.n_grow cross) mf).plan.m_RcvVols) := by
  constructor
  · unfold CPC.built
    simp only [cpc_build_eq_tagLoop]
    have h := tagLoop_empty_vols MyProc dstDM srcDM (CPC.pairs isects dstBA srcBA) tag0
    exact ⟨volsMatch_of_agree _ _ h.1.1 h.1.2, volsMatch_of_agree _ _ h.2.1 h.2.2⟩
  · unfold SI.built
    simp only [si_build_eq_tagLoop]
    have h := tagLoop_empty_vols MyProc mf.distributionMap mf.distributionMap
      (SI.pairs D isects (SI.ctor mf.boxarray mf.distributionMap mf.n_grow cross) mf.boxarray)
      tag0
    exact ⟨volsMatch_of_agree _ _ h.1.1 h.1.2, volsMatch_of_agree _ _ h.2.1 h.2.2⟩

/-- C2 in the two-rank scenario: the send tag of rank 0 for peer 1 has 4 points, which fit
an `int`, and the send volume for peer 1 is 4. -/
theorem C2_volumes_match_tags_amended_witness :
    StdMap.find (SI.built 2 0 intersections exTag
        (SI.ctor exFab.boxarray exFab.distributionMap exFab.n_grow true) exFab).plan.m_SndTags
        1 =
      some [{ box := { smallend := [3, 0], bigend := [3, 3] }, fabIndex := 0, srcIndex := 0 }] ∧
    volume [{ box := { smallend := [3, 0], bigend := [3, 3] }, fabIndex := 0, srcIndex := 0 }]
      = 4 ∧
    StdMap.find (SI.built 2 0 intersections exTag
        (SI.ctor exFab.boxarray exFab.distributionMap exFab.n_grow true) exFab).plan.m_SndVols
        1 =
      some (volume
        [{ box := { smallend := [3, 0], bigend := [3, 3] }, fabIndex := 0, srcIndex := 0 }]) :=
  ⟨by decide, by decide,
   (C2_volumes_match_tags_amended 2 0 intersections exTag [exBoxA] [exBoxA] [0] [0] true
      exFab).2.1.2.2 1 _ (by decide) (by decide) (by decide)⟩

theorem sndTag_fst_eq_rcvTag_fst (r p : Int) (h : r ≠ p) (ddm sdm : DistributionMapping)
    (e : Nat × Nat × Box) :
    (sndTag r ddm sdm p e).map Prod.fst = (rcvTag p ddm sdm r e).map Prod.fst := by
  unfold sndTag rcvTag
  by_cases hd : owner ddm e.1 = p <;> by_cases hs : owner sdm e.2.1 = r
  · have h1 : ¬ owner ddm e.1 = r := fun x => h (x.symm.trans hd)
    have h2 : ¬ owner sdm e.2.1 = p := fun x => h (hs.symm.trans x)
    have h3 : ¬ p = r := fun x => h x.symm
    simp [hd, hs, h, h3]
  · simp [hd, hs]
  · simp [hd, hs]
  · simp [hd, hs]

theorem filterMap_sndTag_boxes (r p : Int) (h : r ≠ p) (ddm sdm : DistributionMapping)
    (prs : List (Nat × Nat × Box)) :
    (prs.filterMap (sndTag r ddm sdm p)).map Prod.fst =
      (prs.filterMap (rcvTag p ddm sdm r)).map Prod.fst := by
  rw [List.map_filterMap, List.map_filterMap]
  congr 1
  funext e
  exact sndTag_fst_eq_rcvTag_fst r p h ddm sdm e

theorem map_box_eq (ts : List CopyComTag) :
    ts.map (fun t => t.box) = (ts.map CopyComTag.assigned).map Prod.fst := by
  simp [CopyComTag.assigned, Function.comp_def]

theorem volume_eq_of_boxes (ts ts' : List CopyComTag)
    (h : ts.map (fun t => t.box) = ts'.map (fun t => t.box)) : volume ts = volume ts' := by
  have e : ∀ l : List CopyComTag,
      l.map (fun t => t.box.numPts) = (l.map (fun t => t.box)).map Box.numPts := by
    intro l; simp [Function.comp_def]
  unfold volume
  rw [e ts, e ts', h]

/-- The send list for `p` built on rank `r` mirrors the receive list for `r` built on rank
`p`, for any list of triples. -/
theorem tagLoop_mirror (r p : Int) (h : r ≠ p) (ddm sdm : DistributionMapping)
    (prs : List (Nat × Nat × Box)) (tagr tagp : CopyComTag) :
    (StdMap.tagsOf (tagLoop r ddm sdm prs (tagr, PlanData.empty)).2.m_SndTags p).map
        (fun t => t.box) =
      (StdMap.tagsOf (tagLoop p ddm sdm prs (tagp, PlanData.empty)).2.m_RcvTags r).map
        (fun t => t.box) ∧
    StdMap.find (tagLoop r ddm sdm prs (tagr, PlanData.empty)).2.m_SndVols p =
      StdMap.find (tagLoop p ddm sdm prs (tagp, PlanData.empty)).2.m_RcvVols r ∧
    ((StdMap.find (tagLoop r ddm sdm prs (tagr, PlanData.empty)).2.m_SndTags p).isSome = true ↔
      (StdMap.find (tagLoop p ddm sdm prs (tagp, PlanData.empty)).2.m_RcvTags r).isSome = true) := by
  obtain ⟨_, _, hs, _, hsk⟩ := tagLoop_empty_spec r ddm sdm prs tagr
  obtain ⟨_, hr, _, hrk, _⟩ := tagLoop_empty_spec p ddm sdm prs tagp
  have hboxes : (StdMap.tagsOf (tagLoop r ddm sdm prs (tagr, PlanData.empty)).2.m_SndTags p).map
        (fun t => t.box) =
      (StdMap.tagsOf (tagLoop p ddm sdm prs (tagp, PlanData.empty)).2.m_RcvTags r).map
        (fun t => t.box) := by
    rw [map_box_eq, map_box_eq, hs p, hr r]
    exact filterMap_sndTag_boxes r p h ddm sdm prs
  have hkeys : ((StdMap.find (tagLoop r ddm sdm prs (tagr, PlanData.empty)).2.m_SndTags p).isSome
        = true ↔
      (StdMap.find (tagLoop p ddm sdm prs (tagp, PlanData.empty)).2.m_RcvTags r).isSome = true) := by
    rw [hsk p, hrk r]
    have := filterMap_sndTag_boxes r p h ddm sdm prs
    constructor
    · intro h1 h2
      rw [h2] at this
      exact h1 (List.map_eq_nil_iff.mp this)
    · intro h1 h2
      rw [h2] at this
      exact h1 (List.map_eq_nil_iff.mp this.symm)
  refine ⟨hboxes, ?_, hkeys⟩
  have hv1 := (tagLoop_empty_vols r ddm sdm prs tagr).1.2 p
  have hv2 := (tagLoop_empty_vols p ddm sdm prs tagp).2.2 r
  rw [hv1, hv2]
  unfold StdMap.tagsOf at hboxes
  cases h1 : StdMap.find (tagLoop r ddm sdm prs (tagr, PlanData.empty)).2.m_SndTags p with
  | none =>
    cases h2 : StdMap.find (tagLoop p ddm sdm prs (tagp, PlanData.empty)).2.m_RcvTags r with
    | none => rfl
    | some ts' =>
      rw [h1, h2] at hkeys
      simp at hkeys
  | some ts =>
    cases h2 : StdMap.find (tagLoop p ddm sdm prs (tagp, PlanData.empty)).2.m_RcvTags r with
    | none =>
      rw [h1, h2] at hkeys
      simp at hkeys
    | some ts' =>
      rw [h1, h2] at hboxes
      simp only [Option.getD_some] at hboxes
      simp only [Option.map_some', Option.some.injEq]
      exact congrArg wrapInt (volume_eq_of_boxes ts ts' hboxes)

/-- C3: for every copy descriptor and every fill-boundary descriptor, and any two distinct
ranks `r` and `p`, the boxes of the send list for `p` in the plan built on `r` are, in
order, the boxes of the receive list for `r` in the plan built on `p`; the send volume for
`p` on `r` equals the receive volume for `r` on `p`; and `p` is a key of the send tags on
`r` iff `r` is a key of the receive tags on `p`. -/
theorem C3_send_recv_mirror (D : Nat) (isects : BoxArray → Box → List (Nat × Box))
    (tagr tagp : CopyComTag) (r p : Int) (hrp : r ≠ p)
    (dstBA srcBA : BoxArray) (dstDM srcDM : DistributionMapping)
    (cross : Bool) (mf : FabArrayBase) :
    ((StdMap.tagsOf (CPC.built r isects tagr (CPC.ctor dstBA srcBA dstDM srcDM)).plan.m_SndTags
          p).map (fun t => t.box) =
        (StdMap.tagsOf (CPC.built p isects tagp (CPC.ctor dstBA srcBA dstDM srcDM)).plan.m_RcvTags
          r).map (fun t => t.box) ∧
      StdMap.find (CPC.built r isects tagr (CPC.ctor dstBA srcBA dstDM srcDM)).plan.m_SndVols p =
        StdMap.find (CPC.built p isects tagp (CPC.ctor dstBA srcBA dstDM srcDM)).plan.m_RcvVols r ∧
      ((StdMap.find (CPC.built r isects tagr (CPC.ctor dstBA srcBA dstDM srcDM)).plan.m_SndTags
          p).isSome = true ↔
        (StdMap.find (CPC.built p isects tagp (CPC.ctor dstBA srcBA dstDM srcDM)).plan.m_RcvTags
          r).isSome = true)) ∧
    ((StdMap.tagsOf (SI.built D r isects tagr
          (SI.ctor mf.boxarray mf.distributionMap mf.n_grow cross) mf).plan.m_SndTags
          p).map (fun t => t.box) =
        (StdMap.tagsOf (SI.built D p isects tagp
          (SI.ctor mf.boxarray mf.distributionMap mf.n_grow cross) mf).plan.m_RcvTags
          r).map (fun t => t.box) ∧
      StdMap.find (SI.built D r isects tagr
          (SI.ctor mf.boxarray mf.distributionMap mf.n_grow cross) mf).plan.m_SndVols p =
        StdMap.find (SI.built D p isects tagp
          (SI.ctor mf.boxarray mf.distributionMap mf.n_grow cross) mf).plan.m_RcvVols r ∧
      ((StdMap.find (SI.built D r isects tagr
          (SI.ctor mf.boxarray mf.distributionMap mf.n_grow cross) mf).plan.m_SndTags
          p).isSome = true ↔
        (StdMap.find (SI.built D p isects tagp
          (SI.ctor mf.boxarray mf.distributionMap mf.n_grow cross) mf).plan.m_RcvTags
          r).isSome = true)) := by
  constructor
  · unfold CPC.built
    simp only [cpc_build_eq_tagLoop]
    exact tagLoop_mirror r p hrp _ _ _ tagr tagp
  · unfold SI.built
    simp only [si_build_eq_tagLoop]
    exact tagLoop_mirror r p hrp _ _ _ tagr tagp

/-- C3 at the two-rank scenario: rank 0 sends to rank 1 the column `[3,0]..[3,3]`, and that
is the box rank 1 receives from rank 0. -/
theorem C3_send_recv_mirror_witness :
    (0 : Int) ≠ 1 ∧
    (StdMap.tagsOf (SI.built 2 0 intersections exTag
        (SI.ctor exFab.boxarray exFab.distributionMap exFab.n_grow true) exFab).plan.m_SndTags
        1).map (fun t => t.box) =
      (StdMap.tagsOf (SI.built 2 1 intersections exTag
        (SI.ctor exFab.boxarray exFab.distributionMap exFab.n_grow true) exFab).plan.m_RcvTags
        0).map (fun t => t.box) ∧
    (StdMap.tagsOf (SI.built 2 0 intersections exTag
        (SI.ctor exFab.boxarray exFab.distributionMap exFab.n_grow true) exFab).plan.m_SndTags
        1).map (fun t => t.box) = [{ smallend := [3, 0], bigend := [3, 3] }] :=
  ⟨by decide,
   (C3_send_recv_mirror 2 intersections exTag exTag 0 1 (by decide) [exBoxA] [exBoxB, exBoxC]
      [1] [0, 0] true exFab).2.1,
   by decide⟩

theorem filterMap_sndTag_eq (r p : Int) (h : r ≠ p) (ddm sdm : DistributionMapping)
    (prs : List (Nat × Nat × Box)) :
    prs.filterMap (sndTag r ddm sdm p) =
      (pairsBetween ddm sdm r p prs).map (fun e => (e.2.2, (e.2.1 : Int))) := by
  unfold pairsBetween
  induction prs with
  | nil => simp
  | cons e prs ih =>
    rw [filterMap_cons_toList, ih, List.filter_cons]
    unfold sndTag
    by_cases hd : owner ddm e.1 = p <;> by_cases hs : owner sdm e.2.1 = r
    · have h3 : ¬ p = r := fun x => h x.symm
      simp [hd, hs, h3]
    · simp [hd, hs]
    · simp [hd, hs]
    · simp [hd, hs]

theorem filterMap_rcvTag_eq (r p : Int) (h : r ≠ p) (ddm sdm : DistributionMapping)
    (prs : List (Nat × Nat × Box)) :
    prs.filterMap (rcvTag p ddm sdm r) =
      (pairsBetween ddm sdm r p prs).map (fun e => (e.2.2, (e.1 : Int))) := by
  unfold pairsBetween
  induction prs with
  | nil => simp
  | cons e prs ih =>
    rw [filterMap_cons_toList, ih, List.filter_cons]
    unfold rcvTag
    by_cases hd : owner ddm e.1 = p <;> by_cases hs : owner sdm e.2.1 = r
    · simp [hd, hs, h]
    · simp [hd, hs]
    · simp [hd, hs]
    · simp [hd, hs]

theorem cpc_built_tags (MyProc : Int) (isects : BoxArray → Box → List (Nat × Box))
    (tag0 : CopyComTag) (dstBA srcBA : BoxArray) (dstDM srcDM : DistributionMapping) :
    (∀ p : Int,
      (StdMap.tagsOf (CPC.built MyProc isects tag0
        (CPC.ctor dstBA srcBA dstDM srcDM)).plan.m_RcvTags p).map CopyComTag.assigned =
        (CPC.pairs isects dstBA srcBA).filterMap (rcvTag MyProc dstDM srcDM p)) ∧
    (∀ p : Int,
      (StdMap.tagsOf (CPC.built MyProc isects tag0
        (CPC.ctor dstBA srcBA dstDM srcDM)).plan.m_SndTags p).map CopyComTag.assigned =
        (CPC.pairs isects dstBA srcBA).filterMap (sndTag MyProc dstDM srcDM p)) := by
  unfold CPC.built
  simp only [cpc_build_eq_tagLoop]
  obtain ⟨_, h2, h3, _, _⟩ :=
    tagLoop_empty_spec MyProc dstDM srcDM (CPC.pairs isects dstBA srcBA) tag0
  exact ⟨h2, h3⟩

/-- C4 fails as stated: for dst array `[exBoxA]` owned by rank 1 and src array
`[exBoxB, exBoxC]` owned by rank 0, the only send tag on rank 0 records the src tile
(`fabIndex = 1`) while the only receive tag on rank 1 records the dst tile (`fabIndex = 0`);
whatever the initial contents of the local tags, no receive tag has the tile indices of the
send tag. -/
theorem C4_pairing_counterexample :
    ¬ ∃ tagr tagp : CopyComTag,
      ∀ t ∈ StdMap.tagsOf (CPC.built 0 intersections tagr
          (CPC.ctor [exBoxA] [exBoxB, exBoxC] [1] [0, 0])).plan.m_SndTags 1,
        ∃ t' ∈ StdMap.tagsOf (CPC.built 1 intersections tagp
            (CPC.ctor [exBoxA] [exBoxB, exBoxC] [1] [0, 0])).plan.m_RcvTags 0,
          t'.box = t.box ∧ t'.fabIndex = t.fabIndex ∧ t'.srcIndex = t.srcIndex := by
  rintro ⟨tagr, tagp, h⟩
  have hs : StdMap.tagsOf (CPC.built 0 intersections tagr
      (CPC.ctor [exBoxA] [exBoxB, exBoxC] [1] [0, 0])).plan.m_SndTags 1 =
      [{ box := { smallend := [2, 2], bigend := [3, 3] }, fabIndex := 1,
         srcIndex := tagr.srcIndex }] := rfl
  have hr : StdMap.tagsOf (CPC.built 1 intersections tagp
      (CPC.ctor [exBoxA] [exBoxB, exBoxC] [1] [0, 0])).plan.m_RcvTags 0 =
      [{ box := { smallend := [2, 2], bigend := [3, 3] }, fabIndex := 0,
         srcIndex := tagp.srcIndex }] := rfl
  rw [hs, hr] at h
  obtain ⟨t', ht', _, hf, _⟩ := h _ (List.mem_singleton.mpr rfl)
  rw [List.mem_singleton] at ht'
  subst ht'
  simp at hf

/-- C4 as amended: for every copy descriptor and ranks `r ≠ p`, the send tags for `p` in
the plan built on `r` and the receive tags for `r` in the plan built on `p` come, position
by position, from the same pairs (dst tile `i` owned by `p`, src tile `k` owned by `r`,
box): both carry the box of the pair, the send tag records `k` in `fabIndex` and the
receive tag records `i` in `fabIndex`.  So every send tag has a receive tag with the
identical box that stems from the same pair of tiles. -/
theorem C4_pairing_amended (isects : BoxArray → Box → List (Nat × Box))
    (tagr tagp : CopyComTag) (r p : Int) (hrp : r ≠ p)
    (dstBA srcBA : BoxArray) (dstDM srcDM : DistributionMapping) :
    (StdMap.tagsOf (CPC.built r isects tagr (CPC.ctor dstBA srcBA dstDM srcDM)).plan.m_SndTags
        p).map CopyComTag.assigned =
      (pairsBetween dstDM srcDM r p (CPC.pairs isects dstBA srcBA)).map
        (fun e => (e.2.2, (e.2.1 : Int))) ∧
    (StdMap.tagsOf (CPC.built p isects tagp (CPC.ctor dstBA srcBA dstDM srcDM)).plan.m_RcvTags
        r).map CopyComTag.assigned =
      (pairsBetween dstDM srcDM r p (CPC.pairs isects dstBA srcBA)).map
        (fun e => (e.2.2, (e.1 : Int))) ∧
    (∀ t ∈ StdMap.tagsOf
        (CPC.built r isects tagr (CPC.ctor dstBA srcBA dstDM srcDM)).plan.m_SndTags p,
      ∃ t' ∈ StdMap.tagsOf
          (CPC.built p isects tagp (CPC.ctor dstBA srcBA dstDM srcDM)).plan.m_RcvTags r,
        ∃ e ∈ CPC.pairs isects dstBA srcBA,
          owner dstDM e.1 = p ∧ owner srcDM e.2.1 = r ∧
          t.box = e.2.2 ∧ t'.box = e.2.2 ∧
          t.fabIndex = (e.2.1 : Int) ∧ t'.fabIndex = (e.1 : Int)) := by
  have hS : (StdMap.tagsOf (CPC.built r isects tagr
        (CPC.ctor dstBA srcBA dstDM srcDM)).plan.m_SndTags p).map CopyComTag.assigned =
      (pairsBetween dstDM srcDM r p (CPC.pairs isects dstBA srcBA)).map
        (fun e => (e.2.2, (e.2.1 : Int))) := by
    rw [← filterMap_sndTag_eq r p hrp]
    exact (cpc_built_tags r isects tagr dstBA srcBA dstDM srcDM).2 p
  have hR : (StdMap.tagsOf (CPC.built p isects tagp
        (CPC.ctor dstBA srcBA dstDM srcDM)).plan.m_RcvTags r).map CopyComTag.assigned =
      (pairsBetween dstDM srcDM r p (CPC.pairs isects dstBA srcBA)).map
        (fun e => (e.2.2, (e.1 : Int))) := by
    rw [← filterMap_rcvTag_eq r p hrp]
    exact (cpc_built_tags p isects tagp dstBA srcBA dstDM srcDM).1 r
  refine ⟨hS, hR, ?_⟩
  intro t ht
  have h1 : t.assigned ∈ (pairsBetween dstDM srcDM r p (CPC.pairs isects dstBA srcBA)).map
      (fun e => (e.2.2, (e.2.1 : Int))) := by
    rw [← hS]; exact List.mem_map_of_mem _ ht
  rw [List.mem_map] at h1
  obtain ⟨e, he, hte⟩ := h1
  have h2 : (e.2.2, (e.1 : Int)) ∈ (StdMap.tagsOf (CPC.built p isects tagp
      (CPC.ctor dstBA srcBA dstDM srcDM)).plan.m_RcvTags r).map CopyComTag.assigned := by
    rw [hR]; exact List.mem_map_of_mem _ he
  rw [List.mem_map] at h2
  obtain ⟨t', ht', ht'e⟩ := h2
  unfold pairsBetween at he
  rw [List.mem_filter] at he
  simp only [Bool.and_eq_true, decide_eq_true_eq] at he
  simp only [CopyComTag.assigned, Prod.mk.injEq] at hte ht'e
  exact ⟨t', ht', e, he.1, he.2.1, he.2.2, hte.1.symm, ht'e.1, hte.2.symm, ht'e.2⟩

/-- C4 as amended, at the descriptor of the counterexample: the one send tag on rank 0 and
the one receive tag on rank 1 stem from the pair (dst tile 0, src tile 1). -/
theorem C4_pairing_amended_witness :
    (0 : Int) ≠ 1 ∧
    (StdMap.tagsOf (CPC.built 0 intersections exTag
        (CPC.ctor [exBoxA] [exBoxB, exBoxC] [1] [0, 0])).plan.m_SndTags 1).map
        CopyComTag.assigned =
      (pairsBetween [1] [0, 0] 0 1 (CPC.pairs intersections [exBoxA] [exBoxB, exBoxC])).map
        (fun e => (e.2.2, (e.2.1 : Int))) ∧
    pairsBetween [1] [0, 0] 0 1 (CPC.pairs intersections [exBoxA] [exBoxB, exBoxC]) =
      [(0, 1, { smallend := [2, 2], bigend := [3, 3] })] :=
  ⟨by decide,
   (C4_pairing_amended intersections exTag exTag 0 1 (by decide) [exBoxA] [exBoxB, exBoxC]
      [1] [0, 0]).1,
   by decide⟩

theorem cpc_eq_iff (a b : CPC) :
    CPC.eq a b = true ↔
      a.m_dstba = b.m_dstba ∧ a.m_srcba = b.m_srcba ∧ a.m_dstdm = b.m_dstdm ∧
        a.m_srcdm = b.m_srcdm := by
  simp [CPC.eq, and_assoc]

theorem si_eq_iff (a b : SI) :
    SI.eq a b = true ↔
      a.m_ngrow = b.m_ngrow ∧ a.m_cross = b.m_cross ∧ a.m_ba = b.m_ba ∧ a.m_dm = b.m_dm := by
  simp [SI.eq, and_assoc]

theorem cpc_eq_built (MyProc : Int) (isects : BoxArray → Box → List (Nat × Box))
    (tag0 : CopyComTag) (cpc : CPC) : CPC.eq (CPC.built MyProc isects tag0 cpc) cpc = true := by
  simp [cpc_eq_iff, CPC.built]

theorem si_eq_built (D : Nat) (MyProc : Int) (isects : BoxArray → Box → List (Nat × Box))
    (tag0 : CopyComTag) (si : SI) (mf : FabArrayBase) :
    SI.eq (SI.built D MyProc isects tag0 si mf) si = true := by
  simp [si_eq_iff, SI.built]

theorem cpc_eq_setReused (e cpc : CPC) : CPC.eq (CPC.setReused e) cpc = CPC.eq e cpc := rfl

theorem si_eq_setReused (e si : SI) : SI.eq (SI.setReused e) si = SI.eq e si := rfl

/-- Two consecutive lookups of the same query with the cache switched on: the second one
returns the iterator of the first and only sets the flag of that entry. -/
theorem lookup_twice {E : Type} (reused : E → Bool) (setReused : E → E) (noWork : E → Bool)
    (same : E → Bool) (max_size : Int) (Key : Int) (built built' : E) (cache : List (Int × E))
    (hw : noWork built = false) (hx : same built = true)
    (hf : ∀ e, same (setReused e) = same e) :
    ∃ it e, (lookup reused setReused noWork same true max_size Key built cache).2 = some it ∧
      (lookup reused setReused noWork same true max_size Key built cache).1[it]? = some e ∧
      same e.2 = true ∧
      lookup reused setReused noWork same true max_size Key built'
          (lookup reused setReused noWork same true max_size Key built cache).1 =
        ((lookup reused setReused noWork same true max_size Key built cache).1.modify
            (fun e => (e.1, setReused e.2)) it, some it) ∧
      (lookup reused setReused noWork same true max_size Key built'
          (lookup reused setReused noWork same true max_size Key built cache).1).1[it]? =
        some (e.1, setReused e.2) := by
  have second : ∀ (l : List (Int × E)) (it : Nat), findReusable same Key l = some it →
      lookup reused setReused noWork same true max_size Key built' l =
        (l.modify (fun e => (e.1, setReused e.2)) it, some it) := by
    intro l it h
    rcases lookup_enabled reused setReused noWork same max_size Key built' l with
      ⟨it', h1, h2⟩ | ⟨h1, _⟩
    · rw [h] at h1
      cases h1
      exact h2
    · rw [h] at h1
      cases h1
  rcases lookup_enabled reused setReused noWork same max_size Key built cache with
    ⟨it, h1, h2⟩ | ⟨h1, h2⟩
  · obtain ⟨e, he, _, hs⟩ := findReusable_some same Key cache it h1
    have hfind : findReusable same Key
        (lookup reused setReused noWork same true max_size Key built cache).1 = some it := by
      rw [h2]
      show findReusable same Key (cache.modify (fun e => (e.1, setReused e.2)) it) = some it
      rw [findReusable_modify same Key setReused hf, h1]
    have hget : (lookup reused setReused noWork same true max_size Key built cache).1[it]? =
        some (e.1, setReused e.2) := by
      rw [h2]
      show (cache.modify (fun e => (e.1, setReused e.2)) it)[it]? = _
      rw [List.getElem?_modify_eq, he]
      rfl
    refine ⟨it, (e.1, setReused e.2), by rw [h2], hget, by simp [hf, hs], second _ it hfind, ?_⟩
    rw [second _ it hfind]
    show (List.modify _ it _)[it]? = _
    rw [List.getElem?_modify_eq, hget]
    rfl
  · simp only [hw, Bool.false_eq_true, if_false] at h2
    have hnone := findReusable_none_of_sublist same Key cache _
      (makeRoom_sublist reused max_size cache) h1
    have hfind : findReusable same Key
        (lookup reused setReused noWork same true max_size Key built cache).1 =
        some (upper_bound (makeRoom reused max_size cache) Key) := by
      rw [h2]
      exact findReusable_insert same Key built hx _ hnone
    have hget : (lookup reused setReused noWork same true max_size Key built cache).1[
        upper_bound (makeRoom reused max_size cache) Key]? = some (Key, built) := by
      rw [h2]
      show (List.insertIdx _ _ _)[_]? = _
      have hle := upper_bound_le (makeRoom reused max_size cache) Key
      rw [List.getElem?_eq_getElem (by rw [List.length_insertIdx _ _ hle]; omega)]
      rw [List.getElem_insertIdx_self _ _ _ hle]
    refine ⟨_, (Key, built), by rw [h2], hget, hx, second _ _ hfind, ?_⟩
    rw [second _ _ hfind]
    show (List.modify _ _ _)[_]? = _
    rw [List.getElem?_modify_eq, hget]
    rfl

/-- C5: with caching on, for every cache state and every copy descriptor whose plan has
work for this rank, the first `TheCPC` call returns an iterator `it` to an entry `e` whose
descriptor equals the query, and a second call with the same descriptor returns the same
iterator, leaves the cache as it is except that the entry at `it` gets `m_reused = true`
(nothing is built or evicted), so the flag of the returned entry is true afterwards.  The
same holds for `TheFB`. -/
theorem C5_lookup_idempotent (D : Nat) (g : Globals) (MyProc : Int)
    (isects : BoxArray → Box → List (Nat × Box)) (tag1 tag2 : CopyComTag)
    (cache : CPCCache) (dstBA srcBA : BoxArray) (dstDM srcDM : DistributionMapping)
    (fbcache : FBCache) (cross : Bool) (mf : FabArrayBase) :
    (g.use_copy_cache = true →
      (CPC.built MyProc isects tag1 (CPC.ctor dstBA srcBA dstDM srcDM)).plan.noWork = false →
      ∃ it e,
        (TheCPC g MyProc isects tag1 cache (CPC.ctor dstBA srcBA dstDM srcDM)).2 = some it ∧
        (TheCPC g MyProc isects tag1 cache (CPC.ctor dstBA srcBA dstDM srcDM)).1[it]? = some e ∧
        CPC.eq e.2 (CPC.ctor dstBA srcBA dstDM srcDM) = true ∧
        TheCPC g MyProc isects tag2
            (TheCPC g MyProc isects tag1 cache (CPC.ctor dstBA srcBA dstDM srcDM)).1
            (CPC.ctor dstBA srcBA dstDM srcDM) =
          ((TheCPC g MyProc isects tag1 cache (CPC.ctor dstBA srcBA dstDM srcDM)).1.modify
              (fun x => (x.1, CPC.setReused x.2)) it, some it) ∧
        (TheCPC g MyProc isects tag2
            (TheCPC g MyProc isects tag1 cache (CPC.ctor dstBA srcBA dstDM srcDM)).1
            (CPC.ctor dstBA srcBA dstDM srcDM)).1[it]? = some (e.1, CPC.setReused e.2) ∧
        (CPC.setReused e.2).m_reused = true) ∧
    (g.use_fb_cache = true →
      (SI.built D MyProc isects tag1 (SI.ctor mf.boxarray mf.distributionMap mf.n_grow cross)
        mf).plan.noWork = false →
      ∃ it e,
        (TheFB D g MyProc isects tag1 fbcache cross mf).2 = some it ∧
        (TheFB D g MyProc isects tag1 fbcache cross mf).1[it]? = some e ∧
        SI.eq e.2 (SI.ctor mf.boxarray mf.distributionMap mf.n_grow cross) = true ∧
        TheFB D g MyProc isects tag2 (TheFB D g MyProc isects tag1 fbcache cross mf).1 cross mf =
          ((TheFB D g MyProc isects tag1 fbcache cross mf).1.modify
              (fun x => (x.1, SI.setReused x.2)) it, some it) ∧
        (TheFB D g MyProc isects tag2 (TheFB D g MyProc isects tag1 fbcache cross mf).1
            cross mf).1[it]? = some (e.1, SI.setReused e.2) ∧
        (SI.setReused e.2).m_reused = true) := by
  constructor
  · intro hu hw
    unfold TheCPC
    rw [hu]
    obtain ⟨it, e, h1, h2, h3, h4, h5⟩ :=
      lookup_twice CPC.m_reused CPC.setReused (fun e => e.plan.noWork)
        (fun e => CPC.eq e (CPC.ctor dstBA srcBA dstDM srcDM)) g.copy_cache_max_size
        (CPC.Key (CPC.ctor dstBA srcBA dstDM srcDM))
        (CPC.built MyProc isects tag1 (CPC.ctor dstBA srcBA dstDM srcDM))
        (CPC.built MyProc isects tag2 (CPC.ctor dstBA srcBA dstDM srcDM)) cache hw
        (cpc_eq_built _ _ _ _) (fun e => cpc_eq_setReused e _)
    exact ⟨it, e, h1, h2, h3, h4, h5, rfl⟩
  · intro hu hw
    unfold TheFB
    rw [hu]
    obtain ⟨it, e, h1, h2, h3, h4, h5⟩ :=
      lookup_twice SI.m_reused SI.setReused (fun e => e.plan.noWork)
        (fun e => SI.eq e (SI.ctor mf.boxarray mf.distributionMap mf.n_grow cross))
        g.fb_cache_max_size (SI.Key cross mf)
        (SI.built D MyProc isects tag1 (SI.ctor mf.boxarray mf.distributionMap mf.n_grow cross) mf)
        (SI.built D MyProc isects tag2 (SI.ctor mf.boxarray mf.distributionMap mf.n_grow cross) mf)
        fbcache hw (si_eq_built _ _ _ _ _ _) (fun e => si_eq_setReused e _)
    exact ⟨it, e, h1, h2, h3, h4, h5, rfl⟩

/-- C5 on caches at a cap of one entry: the copy of `[exBoxA]` from `[exBoxB, exBoxC]`
and the cross fill-boundary of `exFab`, both on rank 0. -/
theorem C5_lookup_idempotent_witness :
    (exGlobalsCap 1).use_copy_cache = true ∧
    (CPC.built 0 intersections exTag
      (CPC.ctor [exBoxA] [exBoxB, exBoxC] [1] [0, 0])).plan.noWork = false ∧
    (exGlobalsCap 1).use_fb_cache = true ∧
    (SI.built 2 0 intersections exTag
      (SI.ctor exFab.boxarray exFab.distributionMap exFab.n_grow true) exFab).plan.noWork = false ∧
    (∃ it e,
      (TheCPC (exGlobalsCap 1) 0 intersections exTag exCopyCache1
        (CPC.ctor [exBoxA] [exBoxB, exBoxC] [1] [0, 0])).2 = some it ∧
      (TheCPC (exGlobalsCap 1) 0 intersections exTag exCopyCache1
        (CPC.ctor [exBoxA] [exBoxB, exBoxC] [1] [0, 0])).1[it]? = some e ∧
      CPC.eq e.2 (CPC.ctor [exBoxA] [exBoxB, exBoxC] [1] [0, 0]) = true ∧
      TheCPC (exGlobalsCap 1) 0 intersections exTag
          (TheCPC (exGlobalsCap 1) 0 intersections exTag exCopyCache1
            (CPC.ctor [exBoxA] [exBoxB, exBoxC] [1] [0, 0])).1
          (CPC.ctor [exBoxA] [exBoxB, exBoxC] [1] [0, 0]) =
        ((TheCPC (exGlobalsCap 1) 0 intersections exTag exCopyCache1
            (CPC.ctor [exBoxA] [exBoxB, exBoxC] [1] [0, 0])).1.modify
            (fun x => (x.1, CPC.setReused x.2)) it, some it) ∧
      (TheCPC (exGlobalsCap 1) 0 intersections exTag
          (TheCPC (exGlobalsCap 1) 0 intersections exTag exCopyCache1
            (CPC.ctor [exBoxA] [exBoxB, exBoxC] [1] [0, 0])).1
          (CPC.ctor [exBoxA] [exBoxB, exBoxC] [1] [0, 0])).1[it]? =
        some (e.1, CPC.setReused e.2) ∧
      (CPC.setReused e.2).m_reused = true) ∧
    (∃ it e,
      (TheFB 2 (exGlobalsCap 1) 0 intersections exTag exFBCache1 true exFab).2 = some it ∧
      (TheFB 2 (exGlobalsCap 1) 0 intersections exTag exFBCache1 true exFab).1[it]? = some e ∧
      SI.eq e.2 (SI.ctor exFab.boxarray exFab.distributionMap exFab.n_grow true) = true ∧
      TheFB 2 (exGlobalsCap 1) 0 intersections exTag
          (TheFB 2 (exGlobalsCap 1) 0 intersections exTag exFBCache1 true exFab).1 true exFab =
        ((TheFB 2 (exGlobalsCap 1) 0 intersections exTag exFBCache1 true exFab).1.modify
            (fun x => (x.1, SI.setReused x.2)) it, some it) ∧
      (TheFB 2 (exGlobalsCap 1) 0 intersections exTag
          (TheFB 2 (exGlobalsCap 1) 0 intersections exTag exFBCache1 true exFab).1
          true exFab).1[it]? = some (e.1, SI.setReused e.2) ∧
      (SI.setReused e.2).m_reused = true) :=
  ⟨by decide, by decide, by decide, by decide,
   (C5_lookup_idempotent 2 (exGlobalsCap 1) 0 intersections exTag exTag exCopyCache1
      [exBoxA] [exBoxB, exBoxC] [1] [0, 0] exFBCache1 true exFab).1 (by decide) (by decide),
   (C5_lookup_idempotent 2 (exGlobalsCap 1) 0 intersections exTag exTag exCopyCache1
      [exBoxA] [exBoxB, exBoxC] [1] [0, 0] exFBCache1 true exFab).2 (by decide) (by decide)⟩

theorem getElem?_insertIdx_upper_bound {E : Type} (l : List (Int × E)) (Key : Int) (x : E) :
    (l.insertIdx (upper_bound l Key) (Key, x))[upper_bound l Key]? = some (Key, x) := by
  have hle := upper_bound_le l Key
  rw [List.getElem?_eq_getElem (by rw [List.length_insertIdx _ _ hle]; omega)]
  rw [List.getElem_insertIdx_self _ _ _ hle]

theorem mem_of_getElem?_eq_some {α : Type} (l : List α) (n : Nat) (a : α)
    (h : l[n]? = some a) : a ∈ l := by
  rw [List.getElem?_eq_some] at h
  obtain ⟨hn, rfl⟩ := h
  exact List.getElem_mem hn

theorem lookup_returns_same {E : Type} (reused : E → Bool) (setReused : E → E)
    (noWork : E → Bool) (same : E → Bool) (use_cache : Bool) (max_size : Int) (Key : Int)
    (built : E) (cache : List (Int × E))
    (hx : same built = true) (hf : ∀ e, same (setReused e) = same e) (it : Nat)
    (h : (lookup reused setReused noWork same use_cache max_size Key built cache).2 = some it) :
    ∃ e, (lookup reused setReused noWork same use_cache max_size Key built cache).1[it]? =
        some e ∧ e.1 = Key ∧ same e.2 = true := by
  cases use_cache with
  | false =>
    rw [lookup_disabled] at h ⊢
    by_cases hw : noWork built = true
    · rw [if_pos hw] at h
      cases h
    · rw [if_neg hw] at h ⊢
      simp only [Option.some.injEq] at h
      subst h
      exact ⟨(Key, built), rfl, rfl, hx⟩
  | true =>
    rcases lookup_enabled reused setReused noWork same max_size Key built cache with
      ⟨it', h1, h2⟩ | ⟨h1, h2⟩
    · rw [h2] at h ⊢
      simp only [Option.some.injEq] at h
      subst h
      obtain ⟨e, he, hk, hs⟩ := findReusable_some same Key cache it' h1
      refine ⟨(e.1, setReused e.2), ?_, hk, by simp [hf, hs]⟩
      show (List.modify _ _ _)[_]? = _
      rw [List.getElem?_modify_eq, he]
      rfl
    · rw [h2] at h ⊢
      by_cases hw : noWork built = true
      · rw [if_pos hw] at h
        cases h
      · rw [if_neg hw] at h ⊢
        simp only [Option.some.injEq] at h
        subst h
        exact ⟨(Key, built), getElem?_insertIdx_upper_bound _ _ _, rfl, hx⟩

theorem lookup_hit_iff {E : Type} (reused : E → Bool) (setReused : E → E)
    (noWork : E → Bool) (same : E → Bool) (max_size : Int) (Key : Int)
    (built : E) (cache : List (Int × E)) (keyOf : E → Int)
    (hkeyed : ∀ e ∈ cache, e.1 = keyOf e.2) (hsk : ∀ e, same e = true → keyOf e = Key)
    (hbr : reused built = false) (hsr : ∀ e, reused (setReused e) = true) :
    (∃ e ∈ cache, same e.2 = true) ↔
      ∃ it, it < cache.length ∧
        lookup reused setReused noWork same true max_size Key built cache =
          (cache.modify (fun x => (x.1, setReused x.2)) it, some it) := by
  constructor
  · rintro ⟨e, he, hs⟩
    rcases lookup_enabled reused setReused noWork same max_size Key built cache with
      ⟨it, h1, h2⟩ | ⟨h1, _⟩
    · obtain ⟨e', he', _⟩ := findReusable_some same Key cache it h1
      have hlt : it < cache.length := by
        by_contra hc
        rw [List.getElem?_eq_none (by omega)] at he'
        cases he'
      exact ⟨it, hlt, h2⟩
    · rw [findReusable_eq_none] at h1
      exact absurd ⟨(hkeyed e he).trans (hsk e.2 hs), hs⟩ (h1 e he)
  · rintro ⟨it, hlt, h⟩
    rcases lookup_enabled reused setReused noWork same max_size Key built cache with
      ⟨it', h1, _⟩ | ⟨_, h2⟩
    · obtain ⟨e, he, _, hs⟩ := findReusable_some same Key cache it' h1
      exact ⟨e, mem_of_getElem?_eq_some _ _ _ he, hs⟩
    · rw [h2] at h
      exfalso
      by_cases hw : noWork built = true
      · rw [if_pos hw] at h
        have := congrArg Prod.snd h
        cases this
      · rw [if_neg hw] at h
        have hl : List.insertIdx (upper_bound (makeRoom reused max_size cache) Key) (Key, built)
            (makeRoom reused max_size cache) =
            cache.modify (fun x => (x.1, setReused x.2)) it := congrArg Prod.fst h
        have hi : upper_bound (makeRoom reused max_size cache) Key = it :=
          Option.some.inj (congrArg Prod.snd h)
        have hg := getElem?_insertIdx_upper_bound (makeRoom reused max_size cache) Key built
        rw [hl, hi, List.getElem?_modify_eq, List.getElem?_eq_getElem hlt] at hg
        have hg2 : (cache[it].1, setReused cache[it].2) = (Key, built) := Option.some.inj hg
        have := hsr cache[it].2
        rw [(Prod.mk.inj hg2).2, hbr] at this
        cases this

theorem cpc_Key_eq_of_eq (e cpc : CPC) (h : CPC.eq e cpc = true) : CPC.Key e = CPC.Key cpc := by
  rw [cpc_eq_iff] at h
  unfold CPC.Key
  rw [h.1, h.2.1]

theorem si_entryKey_eq_of_eq (e : SI) (cross : Bool) (mf : FabArrayBase)
    (h : SI.eq e (SI.ctor mf.boxarray mf.distributionMap mf.n_grow cross) = true) :
    SI.entryKey e = SI.Key cross mf := by
  rw [si_eq_iff] at h
  unfold SI.entryKey SI.Key
  rw [h.1, h.2.1, h.2.2.1]
  rfl


theorem mem_modify_iff {α : Type} (f : α → α) (l : List α) (n : Nat) (a : α)
    (h : a ∈ l.modify f n) : a ∈ l ∨ ∃ b ∈ l, a = f b := by
  induction l generalizing n with
  | nil => simp at h
  | cons x l ih =>
    cases n with
    | zero =>
      rw [List.modify_zero_cons] at h
      rcases List.mem_cons.mp h with rfl | h
      · exact Or.inr ⟨x, List.mem_cons_self _ _, rfl⟩
      · exact Or.inl (List.mem_cons_of_mem _ h)
    | succ n =>
      rw [List.modify_succ_cons] at h
      rcases List.mem_cons.mp h with rfl | h
      · exact Or.inl (List.mem_cons_self _ _)
      · rcases ih n h with h | ⟨b, hb, rfl⟩
        · exact Or.inl (List.mem_cons_of_mem _ h)
        · exact Or.inr ⟨b, List.mem_cons_of_mem _ hb, rfl⟩

/-- A property of cache entries that survives setting the flag and holds of a newly built
entry with work holds of every entry after a lookup. -/
theorem lookup_forall {E : Type} (reused : E → Bool) (setReused : E → E)
    (noWork : E → Bool) (same : E → Bool) (use_cache : Bool) (max_size : Int) (Key : Int)
    (built : E) (cache : List (Int × E)) (P : Int × E → Prop)
    (hset : ∀ e, P e → P (e.1, setReused e.2))
    (hb : noWork built = false → P (Key, built)) (hc : ∀ e ∈ cache, P e) :
    ∀ e ∈ (lookup reused setReused noWork same use_cache max_size Key built cache).1, P e := by
  cases use_cache with
  | false =>
    rw [lookup_disabled]
    by_cases hw : noWork built = true
    · rw [if_pos hw]; intro e he; cases he
    · rw [if_neg hw]
      intro e he
      rw [List.mem_singleton.mp he]
      exact hb (by simpa using hw)
  | true =>
    rcases lookup_enabled reused setReused noWork same max_size Key built cache with
      ⟨it, _, h2⟩ | ⟨_, h2⟩
    · rw [h2]
      intro e he
      rcases mem_modify_iff _ _ _ _ he with h | ⟨b, hb', rfl⟩
      · exact hc e h
      · exact hset b (hc b hb')
    · rw [h2]
      have hsub := (makeRoom_sublist reused max_size cache).subset
      by_cases hw : noWork built = true
      · rw [if_pos hw]
        intro e he
        exact hc e (hsub he)
      · rw [if_neg hw]
        intro e he
        rw [List.mem_insertIdx (upper_bound_le _ _)] at he
        rcases he with rfl | he
        · exact hb (by simpa using hw)
        · exact hc e (hsub he)

/-- A lookup whose new plan has no work, when no cached entry compares equal to the query,
returns `end()` and leaves a sublist of the old cache. -/
theorem lookup_noWork {E : Type} (reused : E → Bool) (setReused : E → E)
    (noWork : E → Bool) (same : E → Bool) (use_cache : Bool) (max_size : Int) (Key : Int)
    (built : E) (cache : List (Int × E)) (hw : noWork built = true)
    (hmiss : ∀ e ∈ cache, same e.2 = true → False) :
    (lookup reused setReused noWork same use_cache max_size Key built cache).2 = none ∧
      (lookup reused setReused noWork same use_cache max_size Key built cache).1.Sublist cache := by
  cases use_cache with
  | false =>
    rw [lookup_disabled, if_pos hw]
    exact ⟨rfl, List.nil_sublist _⟩
  | true =>
    rcases lookup_enabled reused setReused noWork same max_size Key built cache with
      ⟨it, h1, _⟩ | ⟨_, h2⟩
    · obtain ⟨e, he, _, hs⟩ := findReusable_some same Key cache it h1
      exact absurd hs (fun h => hmiss e (mem_of_getElem?_eq_some _ _ _ he) h)
    · rw [h2, if_pos hw]
      exact ⟨rfl, makeRoom_sublist reused max_size cache⟩

theorem StdMap.isEmpty_iff {V : Type} (m : StdMap V) :
    List.isEmpty m = true ↔ ∀ p : Int, (StdMap.find m p).isSome = false := by
  constructor
  · intro h p
    rw [List.isEmpty_iff] at h
    rw [StdMap.find_eq_none_of_nil m h p]
    rfl
  · intro h
    rw [List.isEmpty_iff]
    by_contra hne
    obtain ⟨p, hp⟩ := StdMap.exists_find_of_ne_nil m hne
    rw [h p] at hp
    cases hp

/-- Whether a plan built from empty containers has work does not depend on the initial
content of the local tag. -/
theorem tagLoop_noWork_tag (MyProc : Int) (ddm sdm : DistributionMapping)
    (prs : List (Nat × Nat × Box)) (tag tag' : CopyComTag) :
    (tagLoop MyProc ddm sdm prs (tag, PlanData.empty)).2.noWork =
      (tagLoop MyProc ddm sdm prs (tag', PlanData.empty)).2.noWork := by
  have key : ∀ t : CopyComTag,
      ((tagLoop MyProc ddm sdm prs (t, PlanData.empty)).2.noWork = true ↔
        prs.filterMap (locTag MyProc ddm sdm) = [] ∧
        (∀ p : Int, prs.filterMap (sndTag MyProc ddm sdm p) = []) ∧
        (∀ p : Int, prs.filterMap (rcvTag MyProc ddm sdm p) = [])) := by
    intro t
    obtain ⟨h1, _, _, h4, h5⟩ := tagLoop_empty_spec MyProc ddm sdm prs t
    unfold PlanData.noWork
    rw [Bool.and_eq_true, Bool.and_eq_true, StdMap.isEmpty_iff, StdMap.isEmpty_iff, h1,
      List.isEmpty_iff, and_assoc]
    refine and_congr Iff.rfl (and_congr ?_ ?_)
    · refine forall_congr' (fun p => ?_)
      rw [← not_iff_not, Bool.not_eq_false, h5 p]
    · refine forall_congr' (fun p => ?_)
      rw [← not_iff_not, Bool.not_eq_false, h4 p]
  have h1 := key tag
  have h2 := key tag'
  cases ha : (tagLoop MyProc ddm sdm prs (tag, PlanData.empty)).2.noWork with
  | true =>
    exact ((h2.mpr (h1.mp ha))).symm
  | false =>
    cases hb : (tagLoop MyProc ddm sdm prs (tag', PlanData.empty)).2.noWork with
    | true =>
      rw [h1.mpr (h2.mp hb)] at ha
      cases ha
    | false => rfl

theorem cpc_reachable_entryOK (g : Globals) (MyProc : Int)
    (isects : BoxArray → Box → List (Nat × Box)) (cache : CPCCache)
    (h : CPCReachable g MyProc isects cache) : ∀ e ∈ cache, CPC.EntryOK MyProc isects e := by
  induction h with
  | empty => intro e he; cases he
  | call cache tag0 dstBA srcBA dstDM srcDM _ ih =>
    unfold TheCPC
    refine lookup_forall CPC.m_reused CPC.setReused (fun e => e.plan.noWork)
      (fun e => CPC.eq e (CPC.ctor dstBA srcBA dstDM srcDM)) g.use_copy_cache
      g.copy_cache_max_size (CPC.Key (CPC.ctor dstBA srcBA dstDM srcDM))
      (CPC.built MyProc isects tag0 (CPC.ctor dstBA srcBA dstDM srcDM)) cache
      (CPC.EntryOK MyProc isects) ?_ ?_ ih
    · intro e he
      exact he
    · intro hw
      exact ⟨rfl, hw, tag0, rfl⟩

theorem fb_reachable_entryOK (D : Nat) (g : Globals) (MyProc : Int)
    (isects : BoxArray → Box → List (Nat × Box)) (cache : FBCache)
    (h : FBReachable D g MyProc isects cache) : ∀ e ∈ cache, SI.EntryOK D MyProc isects e := by
  induction h with
  | empty => intro e he; cases he
  | call cache tag0 cross mf _ ih =>
    unfold TheFB
    refine lookup_forall SI.m_reused SI.setReused (fun e => e.plan.noWork)
      (fun e => SI.eq e (SI.ctor mf.boxarray mf.distributionMap mf.n_grow cross)) g.use_fb_cache
      g.fb_cache_max_size (SI.Key cross mf)
      (SI.built D MyProc isects tag0 (SI.ctor mf.boxarray mf.distributionMap mf.n_grow cross) mf)
      cache (SI.EntryOK D MyProc isects) ?_ ?_ ih
    · intro e he
      exact he
    · intro hw
      exact ⟨rfl, hw, tag0, rfl⟩

theorem noWork_eq_false_iff (P : PlanData) :
    P.noWork = false ↔ P.m_LocTags ≠ [] ∨ P.m_SndTags ≠ [] ∨ P.m_RcvTags ≠ [] := by
  unfold PlanData.noWork
  rw [← Bool.not_eq_true, Bool.and_eq_true, Bool.and_eq_true, List.isEmpty_iff,
    List.isEmpty_iff, List.isEmpty_iff]
  tauto

theorem cpc_entryOK_miss (MyProc : Int) (isects : BoxArray → Box → List (Nat × Box))
    (tag0 : CopyComTag) (dstBA srcBA : BoxArray) (dstDM srcDM : DistributionMapping)
    (hw : (CPC.built MyProc isects tag0 (CPC.ctor dstBA srcBA dstDM srcDM)).plan.noWork = true)
    (e : Int × CPC) (he : CPC.EntryOK MyProc isects e)
    (hs : CPC.eq e.2 (CPC.ctor dstBA srcBA dstDM srcDM) = true) : False := by
  obtain ⟨_, hn, tag, hp⟩ := he
  rw [cpc_eq_iff] at hs
  obtain ⟨h1, h2, h3, h4⟩ := hs
  rw [h1, h2, h3, h4] at hp
  have e1 : (CPC.ctor dstBA srcBA dstDM srcDM).m_dstba = dstBA := rfl
  have e2 : (CPC.ctor dstBA srcBA dstDM srcDM).m_srcba = srcBA := rfl
  have e3 : (CPC.ctor dstBA srcBA dstDM srcDM).m_dstdm = dstDM := rfl
  have e4 : (CPC.ctor dstBA srcBA dstDM srcDM).m_srcdm = srcDM := rfl
  rw [e1, e2, e3, e4] at hp
  rw [hp, cpc_build_eq_tagLoop] at hn
  unfold CPC.built at hw
  rw [cpc_build_eq_tagLoop] at hw
  have := tagLoop_noWork_tag MyProc dstDM srcDM (CPC.pairs isects dstBA srcBA) tag tag0
  rw [show (CPC.ctor dstBA srcBA dstDM srcDM).plan = PlanData.empty from rfl] at hn hw
  rw [e1, e2, e3, e4] at hn hw
  rw [this] at hn
  exact absurd (hn.symm.trans hw) (by decide)

theorem fb_entryOK_miss (D : Nat) (MyProc : Int) (isects : BoxArray → Box → List (Nat × Box))
    (tag0 : CopyComTag) (cross : Bool) (mf : FabArrayBase)
    (hw : (SI.built D MyProc isects tag0
      (SI.ctor mf.boxarray mf.distributionMap mf.n_grow cross) mf).plan.noWork = true)
    (e : Int × SI) (he : SI.EntryOK D MyProc isects e)
    (hs : SI.eq e.2 (SI.ctor mf.boxarray mf.distributionMap mf.n_grow cross) = true) :
    False := by
  obtain ⟨_, hn, tag, hp⟩ := he
  rw [si_eq_iff] at hs
  obtain ⟨h1, h2, h3, h4⟩ := hs
  rw [h1, h2, h3, h4] at hp
  have e1 : (SI.ctor mf.boxarray mf.distributionMap mf.n_grow cross).m_ba = mf.boxarray := rfl
  have e2 : (SI.ctor mf.boxarray mf.distributionMap mf.n_grow cross).m_dm =
      mf.distributionMap := rfl
  have e3 : (SI.ctor mf.boxarray mf.distributionMap mf.n_grow cross).m_ngrow = mf.n_grow := rfl
  have e4 : (SI.ctor mf.boxarray mf.distributionMap mf.n_grow cross).m_cross = cross := rfl
  rw [e1, e2, e3, e4] at hp
  rw [hp, si_build_eq_tagLoop] at hn
  unfold SI.built at hw
  rw [si_build_eq_tagLoop] at hw
  have := tagLoop_noWork_tag MyProc mf.distributionMap mf.distributionMap
    (SI.pairs D isects (SI.ctor mf.boxarray mf.distributionMap mf.n_grow cross) mf.boxarray)
    tag tag0
  rw [show (SI.ctor mf.boxarray mf.distributionMap mf.n_grow cross).plan = PlanData.empty
    from rfl] at hn hw
  rw [this] at hn
  exact absurd (hn.symm.trans hw) (by decide)

/-- C6 fails as stated: the key of `TheFB` is not `|BA| + nGrow + (cross ? 1 : 0)` over the
integers.  For an array of two tiles with ghost width 2147483647 and the full halo the sum
is 2147483649, while `TheFB` on rank 0 files the plan it builds and returns under the key
-2147483647, the sum as the `int` of line 482 holds it. -/
theorem C6_key_collisions_harmless_counterexample :
    (TheFB 2 exGlobals 0 intersections exTag [] false exFabWide).2 = some 0 ∧
    (TheFB 2 exGlobals 0 intersections exTag [] false exFabWide).1.map Prod.fst =
      [-2147483647] ∧
    (exFabWide.boxarray.length : Int) + exFabWide.n_grow + (if false then 1 else 0) =
      2147483649 ∧
    (TheFB 2 exGlobals 0 intersections exTag [] false exFabWide).1.map Prod.fst ≠
      [(exFabWide.boxarray.length : Int) + exFabWide.n_grow + (if false then 1 else 0)] := by
  refine ⟨by decide, by decide, by decide, by decide⟩

/-- C6 as amended: with caching on and every cached entry filed under the key of its own
descriptor, `TheCPC` returns an existing entry (its position `it` in the cache, the cache
unchanged but for the flag of that entry) iff some cached entry has a descriptor equal to
the query; and whatever it returns, the entry behind the returned iterator is filed under
the key of the query and has a descriptor equal to the query.  Likewise for `TheFB`.  The
key of `TheCPC` is `|dstBA| + |srcBA|` and the key of `TheFB` is
`|BA| + nGrow + (cross ? 1 : 0)`, each as the 32-bit `int` of the source holds it: the sum
reduced modulo 2^32 into the range of `int`, which is the sum itself whenever that fits.
Every cache reachable from the empty cache files its entries under the keys of their own
descriptors. -/
theorem C6_key_collisions_harmless_amended (D : Nat) (g : Globals) (MyProc : Int)
    (isects : BoxArray → Box → List (Nat × Box)) (tag0 : CopyComTag)
    (cache : CPCCache) (dstBA srcBA : BoxArray) (dstDM srcDM : DistributionMapping)
    (fbcache : FBCache) (cross : Bool) (mf : FabArrayBase) :
    (g.use_copy_cache = true → (∀ e ∈ cache, e.1 = CPC.Key e.2) →
      ((∃ e ∈ cache, CPC.eq e.2 (CPC.ctor dstBA srcBA dstDM srcDM) = true) ↔
        ∃ it, it < cache.length ∧
          TheCPC g MyProc isects tag0 cache (CPC.ctor dstBA srcBA dstDM srcDM) =
            (cache.modify (fun x => (x.1, CPC.setReused x.2)) it, some it)) ∧
      (∀ it, (TheCPC g MyProc isects tag0 cache (CPC.ctor dstBA srcBA dstDM srcDM)).2 = some it →
        ∃ e, (TheCPC g MyProc isects tag0 cache (CPC.ctor dstBA srcBA dstDM srcDM)).1[it]? =
            some e ∧
          e.1 = CPC.Key (CPC.ctor dstBA srcBA dstDM srcDM) ∧
          CPC.eq e.2 (CPC.ctor dstBA srcBA dstDM srcDM) = true)) ∧
    (g.use_fb_cache = true → (∀ e ∈ fbcache, e.1 = SI.entryKey e.2) →
      ((∃ e ∈ fbcache,
          SI.eq e.2 (SI.ctor mf.boxarray mf.distributionMap mf.n_grow cross) = true) ↔
        ∃ it, it < fbcache.length ∧
          TheFB D g MyProc isects tag0 fbcache cross mf =
            (fbcache.modify (fun x => (x.1, SI.setReused x.2)) it, some it)) ∧
      (∀ it, (TheFB D g MyProc isects tag0 fbcache cross mf).2 = some it →
        ∃ e, (TheFB D g MyProc isects tag0 fbcache cross mf).1[it]? = some e ∧
          e.1 = SI.Key cross mf ∧
          SI.eq e.2 (SI.ctor mf.boxarray mf.distributionMap mf.n_grow cross) = true)) ∧
    (CPC.Key (CPC.ctor dstBA srcBA dstDM srcDM) =
        wrapInt ((dstBA.length : Int) + (srcBA.length : Int)) ∧
      ((dstBA.length : Int) + (srcBA.length : Int) ≤ INT_MAX →
        CPC.Key (CPC.ctor dstBA srcBA dstDM srcDM) =
          (dstBA.length : Int) + (srcBA.length : Int))) ∧
    (SI.Key cross mf =
        wrapInt ((mf.boxarray.length : Int) + mf.n_grow + (if cross then 1 else 0)) ∧
      (-2147483648 ≤ (mf.boxarray.length : Int) + mf.n_grow + (if cross then 1 else 0) →
        (mf.boxarray.length : Int) + mf.n_grow + (if cross then 1 else 0) ≤ INT_MAX →
        SI.Key cross mf =
          (mf.boxarray.length : Int) + mf.n_grow + (if cross then 1 else 0))) ∧
    (∀ c : CPCCache, CPCReachable g MyProc isects c → ∀ e ∈ c, e.1 = CPC.Key e.2) ∧
    (∀ c : FBCache, FBReachable D g MyProc isects c → ∀ e ∈ c, e.1 = SI.entryKey e.2) := by
  have hck : CPC.Key (CPC.ctor dstBA srcBA dstDM srcDM) =
      wrapInt ((dstBA.length : Int) + (srcBA.length : Int)) := rfl
  have hsk : SI.Key cross mf =
      wrapInt ((mf.boxarray.length : Int) + mf.n_grow + (if cross then 1 else 0)) := by
    unfold SI.Key
    rw [wrapInt_add]
  refine ⟨?_, ?_, ⟨hck, fun h => ?_⟩, ⟨hsk, fun h0 h1 => ?_⟩,
    fun c hc e he => (cpc_reachable_entryOK g MyProc isects c hc e he).1,
    fun c hc e he => (fb_reachable_entryOK D g MyProc isects c hc e he).1⟩
  rotate_left 2
  · rw [hck]
    exact wrapInt_of_range _ (by omega) h
  · rw [hsk]
    exact wrapInt_of_range _ h0 h1
  · intro hu hk
    constructor
    · unfold TheCPC
      rw [hu]
      exact lookup_hit_iff CPC.m_reused CPC.setReused (fun e => e.plan.noWork)
        (fun e => CPC.eq e (CPC.ctor dstBA srcBA dstDM srcDM)) g.copy_cache_max_size
        (CPC.Key (CPC.ctor dstBA srcBA dstDM srcDM))
        (CPC.built MyProc isects tag0 (CPC.ctor dstBA srcBA dstDM srcDM)) cache CPC.Key hk
        (fun e he => cpc_Key_eq_of_eq e _ he) rfl (fun _ => rfl)
    · intro it h
      exact lookup_returns_same CPC.m_reused CPC.setReused (fun e => e.plan.noWork)
        (fun e => CPC.eq e (CPC.ctor dstBA srcBA dstDM srcDM)) g.use_copy_cache
        g.copy_cache_max_size (CPC.Key (CPC.ctor dstBA srcBA dstDM srcDM))
        (CPC.built MyProc isects tag0 (CPC.ctor dstBA srcBA dstDM srcDM)) cache
        (cpc_eq_built _ _ _ _) (fun e => cpc_eq_setReused e _) it h
  · intro hu hk
    constructor
    · unfold TheFB
      rw [hu]
      exact lookup_hit_iff SI.m_reused SI.setReused (fun e => e.plan.noWork)
        (fun e => SI.eq e (SI.ctor mf.boxarray mf.distributionMap mf.n_grow cross))
        g.fb_cache_max_size (SI.Key cross mf)
        (SI.built D MyProc isects tag0 (SI.ctor mf.boxarray mf.distributionMap mf.n_grow cross) mf)
        fbcache SI.entryKey hk
        (fun e he => si_entryKey_eq_of_eq e cross mf he) rfl (fun _ => rfl)
    · intro it h
      exact lookup_returns_same SI.m_reused SI.setReused (fun e => e.plan.noWork)
        (fun e => SI.eq e (SI.ctor mf.boxarray mf.distributionMap mf.n_grow cross))
        g.use_fb_cache g.fb_cache_max_size (SI.Key cross mf)
        (SI.built D MyProc isects tag0 (SI.ctor mf.boxarray mf.distributionMap mf.n_grow cross) mf)
        fbcache (si_eq_built _ _ _ _ _ _) (fun e => si_eq_setReused e _) it h

/-- C6 on caches in which two different descriptors collide on one key: the lookup of the
second descriptor returns an existing entry, and its descriptor is the query; the keys, 2
and 3, are the sums themselves. -/
theorem C6_key_collisions_harmless_amended_witness :
    exGlobals.use_copy_cache = true ∧ (∀ e ∈ exCopyCache2, e.1 = CPC.Key e.2) ∧
    exGlobals.use_fb_cache = true ∧ (∀ e ∈ exFBCache2, e.1 = SI.entryKey e.2) ∧
    (∃ it, it < exCopyCache2.length ∧
      TheCPC exGlobals 0 intersections exTag exCopyCache2 (CPC.ctor [exBoxC] [exBoxC] [0] [0]) =
        (exCopyCache2.modify (fun x => (x.1, CPC.setReused x.2)) it, some it)) ∧
    (∃ it, it < exFBCache2.length ∧
      TheFB 2 exGlobals 0 intersections exTag exFBCache2 true exFab =
        (exFBCache2.modify (fun x => (x.1, SI.setReused x.2)) it, some it)) ∧
    (∀ it, (TheFB 2 exGlobals 0 intersections exTag exFBCache2 true exFab).2 = some it →
      ∃ e, (TheFB 2 exGlobals 0 intersections exTag exFBCache2 true exFab).1[it]? = some e ∧
        e.1 = SI.Key true exFab ∧
        SI.eq e.2 (SI.ctor exFab.boxarray exFab.distributionMap exFab.n_grow true) = true) ∧
    (-2147483648 ≤ (exFab.boxarray.length : Int) + exFab.n_grow + (if true then 1 else 0) ∧
      (exFab.boxarray.length : Int) + exFab.n_grow + (if true then 1 else 0) ≤ INT_MAX) ∧
    SI.Key true exFab =
      (exFab.boxarray.length : Int) + exFab.n_grow + (if true then 1 else 0) :=
  ⟨by decide, by decide, by decide, by decide,
   ((C6_key_collisions_harmless_amended 2 exGlobals 0 intersections exTag exCopyCache2
      [exBoxC] [exBoxC] [0] [0] exFBCache2 true exFab).1 (by decide) (by decide)).1.mp
      ⟨(2, CPC.built 0 intersections exTag (CPC.ctor [exBoxC] [exBoxC] [0] [0])),
        by decide, by decide⟩,
   ((C6_key_collisions_harmless_amended 2 exGlobals 0 intersections exTag exCopyCache2
      [exBoxC] [exBoxC] [0] [0] exFBCache2 true exFab).2.1 (by decide) (by decide)).1.mp
      ⟨(4, SI.built 2 0 intersections exTag
          (SI.ctor exFab.boxarray exFab.distributionMap 1 true) exFab), by decide, by decide⟩,
   ((C6_key_collisions_harmless_amended 2 exGlobals 0 intersections exTag exCopyCache2
      [exBoxC] [exBoxC] [0] [0] exFBCache2 true exFab).2.1 (by decide) (by decide)).2,
   ⟨by decide, by decide⟩,
   (C6_key_collisions_harmless_amended 2 exGlobals 0 intersections exTag exCopyCache2
      [exBoxC] [exBoxC] [0] [0] exFBCache2 true exFab).2.2.2.1.2 (by decide) (by decide)⟩

/-- C7: every entry of a copy cache reachable from the empty cache by `TheCPC` calls has a
non-empty local, send or receive container; and on such a cache a call whose descriptor
yields a plan with all three empty returns `end()` and leaves a sublist of the old cache,
again without an empty plan in it.  The same holds for `TheFB` and its cache. -/
theorem C7_empty_plans_never_cached (D : Nat) (g : Globals) (MyProc : Int)
    (isects : BoxArray → Box → List (Nat × Box)) :
    (∀ cache : CPCCache, CPCReachable g MyProc isects cache →
      (∀ e ∈ cache, e.2.plan.m_LocTags ≠ [] ∨ e.2.plan.m_SndTags ≠ [] ∨
        e.2.plan.m_RcvTags ≠ []) ∧
      ∀ (tag0 : CopyComTag) (dstBA srcBA : BoxArray) (dstDM srcDM : DistributionMapping),
        (CPC.built MyProc isects tag0 (CPC.ctor dstBA srcBA dstDM srcDM)).plan.noWork = true →
        (TheCPC g MyProc isects tag0 cache (CPC.ctor dstBA srcBA dstDM srcDM)).2 = none ∧
        (TheCPC g MyProc isects tag0 cache (CPC.ctor dstBA srcBA dstDM srcDM)).1.Sublist cache ∧
        ∀ e ∈ (TheCPC g MyProc isects tag0 cache (CPC.ctor dstBA srcBA dstDM srcDM)).1,
          e.2.plan.m_LocTags ≠ [] ∨ e.2.plan.m_SndTags ≠ [] ∨ e.2.plan.m_RcvTags ≠ []) ∧
    (∀ fbcache : FBCache, FBReachable D g MyProc isects fbcache →
      (∀ e ∈ fbcache, e.2.plan.m_LocTags ≠ [] ∨ e.2.plan.m_SndTags ≠ [] ∨
        e.2.plan.m_RcvTags ≠ []) ∧
      ∀ (tag0 : CopyComTag) (cross : Bool) (mf : FabArrayBase),
        (SI.built D MyProc isects tag0
          (SI.ctor mf.boxarray mf.distributionMap mf.n_grow cross) mf).plan.noWork = true →
        (TheFB D g MyProc isects tag0 fbcache cross mf).2 = none ∧
        (TheFB D g MyProc isects tag0 fbcache cross mf).1.Sublist fbcache ∧
        ∀ e ∈ (TheFB D g MyProc isects tag0 fbcache cross mf).1,
          e.2.plan.m_LocTags ≠ [] ∨ e.2.plan.m_SndTags ≠ [] ∨ e.2.plan.m_RcvTags ≠ []) := by
  constructor
  · intro cache hr
    have hok := cpc_reachable_entryOK g MyProc isects cache hr
    have hall : ∀ e ∈ cache, e.2.plan.m_LocTags ≠ [] ∨ e.2.plan.m_SndTags ≠ [] ∨
        e.2.plan.m_RcvTags ≠ [] :=
      fun e he => (noWork_eq_false_iff _).mp (hok e he).2.1
    refine ⟨hall, ?_⟩
    intro tag0 dstBA srcBA dstDM srcDM hw
    have h := lookup_noWork CPC.m_reused CPC.setReused (fun e => e.plan.noWork)
      (fun e => CPC.eq e (CPC.ctor dstBA srcBA dstDM srcDM)) g.use_copy_cache
      g.copy_cache_max_size (CPC.Key (CPC.ctor dstBA srcBA dstDM srcDM))
      (CPC.built MyProc isects tag0 (CPC.ctor dstBA srcBA dstDM srcDM)) cache hw
      (fun e he hs => cpc_entryOK_miss MyProc isects tag0 dstBA srcBA dstDM srcDM hw e
        (hok e he) hs)
    exact ⟨h.1, h.2, fun e he => hall e (h.2.subset he)⟩
  · intro cache hr
    have hok := fb_reachable_entryOK D g MyProc isects cache hr
    have hall : ∀ e ∈ cache, e.2.plan.m_LocTags ≠ [] ∨ e.2.plan.m_SndTags ≠ [] ∨
        e.2.plan.m_RcvTags ≠ [] :=
      fun e he => (noWork_eq_false_iff _).mp (hok e he).2.1
    refine ⟨hall, ?_⟩
    intro tag0 cross mf hw
    have h := lookup_noWork SI.m_reused SI.setReused (fun e => e.plan.noWork)
      (fun e => SI.eq e (SI.ctor mf.boxarray mf.distributionMap mf.n_grow cross)) g.use_fb_cache
      g.fb_cache_max_size (SI.Key cross mf)
      (SI.built D MyProc isects tag0 (SI.ctor mf.boxarray mf.distributionMap mf.n_grow cross) mf)
      cache hw
      (fun e he hs => fb_entryOK_miss D MyProc isects tag0 cross mf hw e (hok e he) hs)
    exact ⟨h.1, h.2, fun e he => hall e (h.2.subset he)⟩

/-- C7 on the caches reached by one lookup with work: a following lookup of a descriptor
without work for rank 0 (disjoint boxes; a single tile) returns `end()`. -/
theorem C7_empty_plans_never_cached_witness :
    CPCReachable exGlobals 0 intersections
      (TheCPC exGlobals 0 intersections exTag [] (CPC.ctor [exBoxA] [exBoxA] [0] [0])).1 ∧
    (CPC.built 0 intersections exTag (CPC.ctor [exBoxA] [exBoxB] [0] [0])).plan.noWork = true ∧
    (TheCPC exGlobals 0 intersections exTag
      (TheCPC exGlobals 0 intersections exTag [] (CPC.ctor [exBoxA] [exBoxA] [0] [0])).1
      (CPC.ctor [exBoxA] [exBoxB] [0] [0])).2 = none ∧
    FBReachable 2 exGlobals 0 intersections
      (TheFB 2 exGlobals 0 intersections exTag [] true exFab).1 ∧
    (SI.built 2 0 intersections exTag
      (SI.ctor exLoneFab.boxarray exLoneFab.distributionMap exLoneFab.n_grow false)
      exLoneFab).plan.noWork = true ∧
    (TheFB 2 exGlobals 0 intersections exTag
      (TheFB 2 exGlobals 0 intersections exTag [] true exFab).1 false exLoneFab).2 = none :=
  ⟨CPCReachable.call [] exTag [exBoxA] [exBoxA] [0] [0] CPCReachable.empty,
   by decide,
   (((C7_empty_plans_never_cached 2 exGlobals 0 intersections).1 _
      (CPCReachable.call [] exTag [exBoxA] [exBoxA] [0] [0] CPCReachable.empty)).2
      exTag [exBoxA] [exBoxB] [0] [0] (by decide)).1,
   FBReachable.call [] exTag true exFab FBReachable.empty,
   by decide,
   (((C7_empty_plans_never_cached 2 exGlobals 0 intersections).2 _
      (FBReachable.call [] exTag true exFab FBReachable.empty)).2
      exTag false exLoneFab (by decide)).1⟩

theorem size_ge_iff (n : Nat) (m : Int) (h0 : 0 ≤ m) (h1 : m ≤ INT_MAX) :
    size_ge n m = true ↔ m ≤ (n : Int) := by
  unfold size_ge SIZE_T_RANGE
  unfold INT_MAX at h1
  rw [decide_eq_true_iff, Int.emod_eq_of_lt h0 (by omega)]

theorem size_lt_iff (n : Nat) (m : Int) (h0 : 0 ≤ m) (h1 : m ≤ INT_MAX) :
    size_lt n m = true ↔ (n : Int) < m := by
  unfold size_lt SIZE_T_RANGE
  unfold INT_MAX at h1
  rw [decide_eq_true_iff, Int.emod_eq_of_lt h0 (by omega)]

theorem makeRoom_length_lt {E : Type} (reused : E → Bool) (m : Int) (h0 : 1 ≤ m)
    (h1 : m ≤ INT_MAX) (cache : List (Int × E)) (hc : (cache.length : Int) ≤ m) :
    ((makeRoom reused m cache).length : Int) < m := by
  unfold makeRoom
  dsimp only
  have hs := (sweep_sublist reused m cache.length cache).length_le
  split_ifs with ha hb
  · rw [List.length_tail]
    omega
  · rw [size_ge_iff _ _ (by omega) h1] at hb
    omega
  · rw [size_ge_iff _ _ (by omega) h1] at ha
    have : m ≠ -1 := by omega
    simp only [this, ne_eq, not_false_eq_true, and_true] at ha
    omega

theorem lookup_length_le {E : Type} (reused : E → Bool) (setReused : E → E)
    (noWork : E → Bool) (same : E → Bool) (m : Int) (Key : Int) (built : E)
    (cache : List (Int × E)) (h0 : 1 ≤ m) (h1 : m ≤ INT_MAX)
    (hc : (cache.length : Int) ≤ m) :
    ((lookup reused setReused noWork same true m Key built cache).1.length : Int) ≤ m := by
  rcases lookup_enabled reused setReused noWork same m Key built cache with
    ⟨it, _, h2⟩ | ⟨_, h2⟩
  · rw [h2]
    show ((List.modify _ _ _).length : Int) ≤ m
    rw [List.length_modify]
    exact hc
  · rw [h2]
    have hlt := makeRoom_length_lt reused m h0 h1 cache hc
    split_ifs
    · exact le_of_lt hlt
    · show ((List.insertIdx _ _ _).length : Int) ≤ m
      rw [List.length_insertIdx _ _ (upper_bound_le _ _)]
      push_cast
      omega

/-- C8: with the copy cache on and its cap `M` an `int` with `M ≥ 1`, a `TheCPC` call on a
cache of at most `M` entries leaves at most `M` entries, so every copy cache reachable from
the empty cache holds at most `M` entries; the same for `TheFB` and its cap. -/
theorem C8_capacity_bound (D : Nat) (g : Globals) (MyProc : Int)
    (isects : BoxArray → Box → List (Nat × Box)) :
    (g.use_copy_cache = true → 1 ≤ g.copy_cache_max_size → g.copy_cache_max_size ≤ INT_MAX →
      (∀ (cache : CPCCache) (tag0 : CopyComTag) (cpc : CPC),
        (cache.length : Int) ≤ g.copy_cache_max_size →
        ((TheCPC g MyProc isects tag0 cache cpc).1.length : Int) ≤ g.copy_cache_max_size) ∧
      (∀ cache : CPCCache, CPCReachable g MyProc isects cache →
        (cache.length : Int) ≤ g.copy_cache_max_size)) ∧
    (g.use_fb_cache = true → 1 ≤ g.fb_cache_max_size → g.fb_cache_max_size ≤ INT_MAX →
      (∀ (fbcache : FBCache) (tag0 : CopyComTag) (cross : Bool) (mf : FabArrayBase),
        (fbcache.length : Int) ≤ g.fb_cache_max_size →
        ((TheFB D g MyProc isects tag0 fbcache cross mf).1.length : Int) ≤ g.fb_cache_max_size) ∧
      (∀ fbcache : FBCache, FBReachable D g MyProc isects fbcache →
        (fbcache.length : Int) ≤ g.fb_cache_max_size)) := by
  constructor
  · intro hu h0 h1
    have step : ∀ (cache : CPCCache) (tag0 : CopyComTag) (cpc : CPC),
        (cache.length : Int) ≤ g.copy_cache_max_size →
        ((TheCPC g MyProc isects tag0 cache cpc).1.length : Int) ≤ g.copy_cache_max_size := by
      intro cache tag0 cpc hc
      unfold TheCPC
      rw [hu]
      exact lookup_length_le _ _ _ _ _ _ _ cache h0 h1 hc
    refine ⟨step, ?_⟩
    intro cache hr
    induction hr with
    | empty => simp only [List.length_nil, Nat.cast_zero]; omega
    | call cache tag0 dstBA srcBA dstDM srcDM _ ih => exact step cache tag0 _ ih
  · intro hu h0 h1
    have step : ∀ (fbcache : FBCache) (tag0 : CopyComTag) (cross : Bool) (mf : FabArrayBase),
        (fbcache.length : Int) ≤ g.fb_cache_max_size →
        ((TheFB D g MyProc isects tag0 fbcache cross mf).1.length : Int) ≤
          g.fb_cache_max_size := by
      intro cache tag0 cross mf hc
      unfold TheFB
      rw [hu]
      exact lookup_length_le _ _ _ _ _ _ _ cache h0 h1 hc
    refine ⟨step, ?_⟩
    intro cache hr
    induction hr with
    | empty => simp only [List.length_nil, Nat.cast_zero]; omega
    | call cache tag0 cross mf _ ih => exact step cache tag0 cross mf ih

/-- C8 at a cap of one entry: on the one-entry caches at their cap, a lookup that misses
leaves one entry. -/
theorem C8_capacity_bound_witness :
    (exGlobalsCap 1).use_copy_cache = true ∧ 1 ≤ (exGlobalsCap 1).copy_cache_max_size ∧
    (exGlobalsCap 1).copy_cache_max_size ≤ INT_MAX ∧
    (exCopyCache1.length : Int) ≤ (exGlobalsCap 1).copy_cache_max_size ∧
    ((TheCPC (exGlobalsCap 1) 0 intersections exTag exCopyCache1
      (CPC.ctor [exBoxA] [exBoxB, exBoxC] [1] [0, 0])).1.length : Int) ≤
      (exGlobalsCap 1).copy_cache_max_size ∧
    (exGlobalsCap 1).use_fb_cache = true ∧ 1 ≤ (exGlobalsCap 1).fb_cache_max_size ∧
    (exGlobalsCap 1).fb_cache_max_size ≤ INT_MAX ∧
    (exFBCache1.length : Int) ≤ (exGlobalsCap 1).fb_cache_max_size ∧
    ((TheFB 2 (exGlobalsCap 1) 0 intersections exTag exFBCache1 true exFab).1.length : Int) ≤
      (exGlobalsCap 1).fb_cache_max_size :=
  ⟨by decide, by decide, by decide, by decide,
   ((C8_capacity_bound 2 (exGlobalsCap 1) 0 intersections).1 (by decide) (by decide)
      (by decide)).1 exCopyCache1 exTag (CPC.ctor [exBoxA] [exBoxB, exBoxC] [1] [0, 0])
      (by decide),
   by decide, by decide, by decide, by decide,
   ((C8_capacity_bound 2 (exGlobalsCap 1) 0 intersections).2 (by decide) (by decide)
      (by decide)).1 exFBCache1 exTag true exFab (by decide)⟩

theorem makeRoom_all_unreused {E : Type} (reused : E → Bool) (m : Int) (h0 : 1 ≤ m)
    (h1 : m ≤ INT_MAX) (cache : List (Int × E)) (hc : (cache.length : Int) = m)
    (hu : ∀ e ∈ cache, reused e.2 = false) :
    makeRoom reused m cache = cache.tail := by
  cases cache with
  | nil => simp at hc; omega
  | cons front rest =>
    have hlen : ((front :: rest).length : Int) = (rest.length : Int) + 1 := by
      simp
    have hge : size_ge (front :: rest).length m = true := by
      rw [size_ge_iff _ _ (by omega) h1]; omega
    have hne : m ≠ -1 := by omega
    have hlt : size_lt ((front :: rest).length - 1) m = true := by
      rw [size_lt_iff _ _ (by omega) h1]
      simp only [List.length_cons, Nat.add_sub_cancel]
      omega
    have hsw : sweep reused m (front :: rest).length (front :: rest) = rest := by
      rw [sweep]
      simp only [hu front (List.mem_cons_self _ _), hlt, if_true]
    have hge2 : ¬ size_ge rest.length m = true := by
      rw [size_ge_iff _ _ (by omega) h1]; omega
    unfold makeRoom
    simp only [hge, hne, ne_eq, not_false_eq_true, and_self, if_true, hsw, hge2, if_false,
      List.tail_cons, Bool.false_eq_true]

/-- A miss with work on a cache that holds exactly `m` entries, none of them reused: the
front entry goes, the others stay, and the new entry is inserted. -/
theorem lookup_full_unreused {E : Type} (reused : E → Bool) (setReused : E → E)
    (noWork : E → Bool) (same : E → Bool) (m : Int) (Key : Int) (built : E)
    (cache : List (Int × E)) (h0 : 1 ≤ m) (h1 : m ≤ INT_MAX)
    (hc : (cache.length : Int) = m) (hu : ∀ e ∈ cache, reused e.2 = false)
    (hmiss : ∀ e ∈ cache, e.1 = Key → same e.2 = false) (hw : noWork built = false) :
    lookup reused setReused noWork same true m Key built cache =
        (cache.tail.insertIdx (upper_bound cache.tail Key) (Key, built),
          some (upper_bound cache.tail Key)) ∧
      ((lookup reused setReused noWork same true m Key built cache).1.length : Int) = m ∧
      (lookup reused setReused noWork same true m Key built cache).1.eraseIdx
          (upper_bound cache.tail Key) = cache.tail := by
  have hres : lookup reused setReused noWork same true m Key built cache =
      (cache.tail.insertIdx (upper_bound cache.tail Key) (Key, built),
        some (upper_bound cache.tail Key)) := by
    rcases lookup_enabled reused setReused noWork same m Key built cache with
      ⟨it, h1', _⟩ | ⟨_, h2⟩
    · obtain ⟨e, he, hk, hs⟩ := findReusable_some same Key cache it h1'
      have := hmiss e (mem_of_getElem?_eq_some _ _ _ he) hk
      rw [this] at hs
      cases hs
    · rw [h2, makeRoom_all_unreused reused m h0 h1 cache hc hu]
      simp only [hw, Bool.false_eq_true, if_false]
  refine ⟨hres, ?_, ?_⟩
  · rw [hres]
    show ((List.insertIdx _ _ _).length : Int) = m
    rw [List.length_insertIdx _ _ (upper_bound_le _ _), List.length_tail]
    have : 1 ≤ cache.length := by omega
    push_cast [this]
    omega
  · rw [hres]
    exact List.eraseIdx_insertIdx _ _

theorem head_le_of_pairwise {E : Type} (cache : List (Int × E))
    (hs : cache.Pairwise (fun a b => a.1 ≤ b.1)) :
    ∀ front ∈ cache.head?, ∀ e ∈ cache, front.1 ≤ e.1 := by
  cases cache with
  | nil => intro front hf; simp at hf
  | cons a rest =>
    intro front hf e he
    simp only [List.head?_cons, Option.mem_def, Option.some.injEq] at hf
    subst hf
    rcases List.mem_cons.mp he with rfl | he
    · exact le_refl _
    · exact (List.pairwise_cons.mp hs).1 e he

/-- C9: with caching on and a cap `M ≥ 1` (an `int`), when the cache holds exactly `M`
entries in key order, all with `m_reused = false`, a `TheCPC` call that finds no equal
descriptor under its key and builds a plan with work returns the old cache without its
front entry and with the new entry inserted: the front entry, whose key is the smallest,
is the one entry evicted, every other entry is kept, and the cache holds `M` entries
again.  The same holds for `TheFB`. -/
theorem C9_eviction_at_capacity (D : Nat) (g : Globals) (MyProc : Int)
    (isects : BoxArray → Box → List (Nat × Box)) (tag0 : CopyComTag)
    (cache : CPCCache) (dstBA srcBA : BoxArray) (dstDM srcDM : DistributionMapping)
    (fbcache : FBCache) (cross : Bool) (mf : FabArrayBase) :
    (g.use_copy_cache = true → 1 ≤ g.copy_cache_max_size → g.copy_cache_max_size ≤ INT_MAX →
      (cache.length : Int) = g.copy_cache_max_size →
      cache.Pairwise (fun a b => a.1 ≤ b.1) →
      (∀ e ∈ cache, e.2.m_reused = false) →
      (∀ e ∈ cache, e.1 = CPC.Key (CPC.ctor dstBA srcBA dstDM srcDM) →
        CPC.eq e.2 (CPC.ctor dstBA srcBA dstDM srcDM) = false) →
      (CPC.built MyProc isects tag0 (CPC.ctor dstBA srcBA dstDM srcDM)).plan.noWork = false →
      TheCPC g MyProc isects tag0 cache (CPC.ctor dstBA srcBA dstDM srcDM) =
          (cache.tail.insertIdx
              (upper_bound cache.tail (CPC.Key (CPC.ctor dstBA srcBA dstDM srcDM)))
              (CPC.Key (CPC.ctor dstBA srcBA dstDM srcDM),
                CPC.built MyProc isects tag0 (CPC.ctor dstBA srcBA dstDM srcDM)),
            some (upper_bound cache.tail (CPC.Key (CPC.ctor dstBA srcBA dstDM srcDM)))) ∧
        ((TheCPC g MyProc isects tag0 cache (CPC.ctor dstBA srcBA dstDM srcDM)).1.length : Int) =
          g.copy_cache_max_size ∧
        (TheCPC g MyProc isects tag0 cache (CPC.ctor dstBA srcBA dstDM srcDM)).1.eraseIdx
            (upper_bound cache.tail (CPC.Key (CPC.ctor dstBA srcBA dstDM srcDM))) =
          cache.tail ∧
        (∀ front ∈ cache.head?, ∀ e ∈ cache, front.1 ≤ e.1)) ∧
    (g.use_fb_cache = true → 1 ≤ g.fb_cache_max_size → g.fb_cache_max_size ≤ INT_MAX →
      (fbcache.length : Int) = g.fb_cache_max_size →
      fbcache.Pairwise (fun a b => a.1 ≤ b.1) →
      (∀ e ∈ fbcache, e.2.m_reused = false) →
      (∀ e ∈ fbcache, e.1 = SI.Key cross mf →
        SI.eq e.2 (SI.ctor mf.boxarray mf.distributionMap mf.n_grow cross) = false) →
      (SI.built D MyProc isects tag0 (SI.ctor mf.boxarray mf.distributionMap mf.n_grow cross)
        mf).plan.noWork = false →
      TheFB D g MyProc isects tag0 fbcache cross mf =
          (fbcache.tail.insertIdx (upper_bound fbcache.tail (SI.Key cross mf))
              (SI.Key cross mf,
                SI.built D MyProc isects tag0
                  (SI.ctor mf.boxarray mf.distributionMap mf.n_grow cross) mf),
            some (upper_bound fbcache.tail (SI.Key cross mf))) ∧
        ((TheFB D g MyProc isects tag0 fbcache cross mf).1.length : Int) =
          g.fb_cache_max_size ∧
        (TheFB D g MyProc isects tag0 fbcache cross mf).1.eraseIdx
            (upper_bound fbcache.tail (SI.Key cross mf)) = fbcache.tail ∧
        (∀ front ∈ fbcache.head?, ∀ e ∈ fbcache, front.1 ≤ e.1)) := by
  constructor
  · intro hu h0 h1 hc hs hr hmiss hw
    unfold TheCPC
    rw [hu]
    obtain ⟨a, b, c⟩ := lookup_full_unreused CPC.m_reused CPC.setReused (fun e => e.plan.noWork)
      (fun e => CPC.eq e (CPC.ctor dstBA srcBA dstDM srcDM)) g.copy_cache_max_size
      (CPC.Key (CPC.ctor dstBA srcBA dstDM srcDM))
      (CPC.built MyProc isects tag0 (CPC.ctor dstBA srcBA dstDM srcDM)) cache h0 h1 hc hr hmiss hw
    exact ⟨a, b, c, head_le_of_pairwise cache hs⟩
  · intro hu h0 h1 hc hs hr hmiss hw
    unfold TheFB
    rw [hu]
    obtain ⟨a, b, c⟩ := lookup_full_unreused SI.m_reused SI.setReused (fun e => e.plan.noWork)
      (fun e => SI.eq e (SI.ctor mf.boxarray mf.distributionMap mf.n_grow cross))
      g.fb_cache_max_size (SI.Key cross mf)
      (SI.built D MyProc isects tag0 (SI.ctor mf.boxarray mf.distributionMap mf.n_grow cross) mf)
      fbcache h0 h1 hc hr hmiss hw
    exact ⟨a, b, c, head_le_of_pairwise fbcache hs⟩

/-- C9 at the cap of 50: on fifty unreused entries, the 51st insertion drops the front
entry and the cache holds 50 entries again. -/
theorem C9_eviction_at_capacity_witness :
    exGlobals.use_copy_cache = true ∧ 1 ≤ exGlobals.copy_cache_max_size ∧
    exGlobals.copy_cache_max_size ≤ INT_MAX ∧
    (exCopyCache50.length : Int) = exGlobals.copy_cache_max_size ∧
    exCopyCache50.Pairwise (fun a b => a.1 ≤ b.1) ∧
    (∀ e ∈ exCopyCache50, e.2.m_reused = false) ∧
    (∀ e ∈ exCopyCache50, e.1 = CPC.Key (CPC.ctor [exBoxA] [exBoxC] [0] [0]) →
      CPC.eq e.2 (CPC.ctor [exBoxA] [exBoxC] [0] [0]) = false) ∧
    (CPC.built 0 intersections exTag (CPC.ctor [exBoxA] [exBoxC] [0] [0])).plan.noWork = false ∧
    ((TheCPC exGlobals 0 intersections exTag exCopyCache50
      (CPC.ctor [exBoxA] [exBoxC] [0] [0])).1.length : Int) = 50 ∧
    (TheCPC exGlobals 0 intersections exTag exCopyCache50
      (CPC.ctor [exBoxA] [exBoxC] [0] [0])).1.eraseIdx
        (upper_bound exCopyCache50.tail (CPC.Key (CPC.ctor [exBoxA] [exBoxC] [0] [0]))) =
      exCopyCache50.tail ∧
    exGlobals.use_fb_cache = true ∧ 1 ≤ exGlobals.fb_cache_max_size ∧
    exGlobals.fb_cache_max_size ≤ INT_MAX ∧
    (exFBCache50.length : Int) = exGlobals.fb_cache_max_size ∧
    exFBCache50.Pairwise (fun a b => a.1 ≤ b.1) ∧
    (∀ e ∈ exFBCache50, e.2.m_reused = false) ∧
    (∀ e ∈ exFBCache50, e.1 = SI.Key true exFab →
      SI.eq e.2 (SI.ctor exFab.boxarray exFab.distributionMap exFab.n_grow true) = false) ∧
    (SI.built 2 0 intersections exTag
      (SI.ctor exFab.boxarray exFab.distributionMap exFab.n_grow true) exFab).plan.noWork =
      false ∧
    ((TheFB 2 exGlobals 0 intersections exTag exFBCache50 true exFab).1.length : Int) = 50 ∧
    (TheFB 2 exGlobals 0 intersections exTag exFBCache50 true exFab).1.eraseIdx
        (upper_bound exFBCache50.tail (SI.Key true exFab)) = exFBCache50.tail :=
  ⟨by decide, by decide, by decide, by decide, by decide, by decide, by decide, by decide,
   ((C9_eviction_at_capacity 2 exGlobals 0 intersections exTag exCopyCache50
      [exBoxA] [exBoxC] [0] [0] exFBCache50 true exFab).1
      (by decide) (by decide) (by decide) (by decide) (by decide) (by decide) (by decide)
      (by decide)).2.1,
   ((C9_eviction_at_capacity 2 exGlobals 0 intersections exTag exCopyCache50
      [exBoxA] [exBoxC] [0] [0] exFBCache50 true exFab).1
      (by decide) (by decide) (by decide) (by decide) (by decide) (by decide) (by decide)
      (by decide)).2.2.1,
   by decide, by decide, by decide, by decide, by decide, by decide, by decide, by decide,
   ((C9_eviction_at_capacity 2 exGlobals 0 intersections exTag exCopyCache50
      [exBoxA] [exBoxC] [0] [0] exFBCache50 true exFab).2
      (by decide) (by decide) (by decide) (by decide) (by decide) (by decide) (by decide)
      (by decide)).2.1,
   ((C9_eviction_at_capacity 2 exGlobals 0 intersections exTag exCopyCache50
      [exBoxA] [exBoxC] [0] [0] exFBCache50 true exFab).2
      (by decide) (by decide) (by decide) (by decide) (by decide) (by decide) (by decide)
      (by decide)).2.2.1⟩

theorem dropFirstUnreused_zero {E : Type} (reused : E → Bool) (l : List (Int × E)) :
    dropFirstUnreused reused 0 l = l := by
  cases l <;> rfl

theorem sweep_eq_dropFirstUnreused {E : Type} (reused : E → Bool) (m : Int) (h0 : 1 ≤ m)
    (h1 : m ≤ INT_MAX) (n : Nat) (l : List (Int × E)) (hn : m ≤ (n : Int)) :
    sweep reused m n l = dropFirstUnreused reused (n + 1 - m.toNat) l := by
  obtain ⟨k, rfl⟩ := Int.eq_ofNat_of_zero_le (show (0 : Int) ≤ m by omega)
  rw [Int.toNat_ofNat]
  have h0' : 1 ≤ k := by omega
  have hn' : k ≤ n := by omega
  clear hn h0
  induction l generalizing n with
  | nil =>
    have : n + 1 - k = (n - k) + 1 := by omega
    rw [this]
    rfl
  | cons e l ih =>
    have hk : n + 1 - k = (n - k) + 1 := by omega
    rw [hk]
    unfold sweep dropFirstUnreused
    by_cases hr : reused e.2 = false
    · simp only [hr, if_true]
      by_cases hlt : size_lt (n - 1) (k : Int) = true
      · simp only [hlt, if_true]
        rw [size_lt_iff _ _ (by omega) h1] at hlt
        have hlt' : n - 1 < k := by exact_mod_cast hlt
        clear hlt h1
        have : n - k = 0 := by omega
        rw [this, dropFirstUnreused_zero]
      · simp only [hlt, if_false, Bool.false_eq_true]
        rw [size_lt_iff _ _ (by omega) h1] at hlt
        have hlt' : ¬ n - 1 < k := by exact_mod_cast hlt
        clear hlt
        rw [ih (n - 1) (by omega)]
        congr 1
        omega
    · have hr' : reused e.2 = true := by simpa using hr
      simp only [hr', Bool.true_eq_false, if_false]
      rw [ih n hn', hk]

theorem upper_bound_take_le {E : Type} (l : List (Int × E)) (Key : Int) :
    ∀ e ∈ l.take (upper_bound l Key), e.1 ≤ Key := by
  induction l with
  | nil => intro e he; simp at he
  | cons a l ih =>
    unfold upper_bound
    by_cases hk : Key < a.1
    · simp only [hk, if_true, List.take_zero]
      intro e he; cases he
    · simp only [hk, if_false, List.take_succ_cons]
      intro e he
      rcases List.mem_cons.mp he with rfl | he
      · omega
      · exact ih e he

theorem upper_bound_drop_gt {E : Type} (l : List (Int × E)) (Key : Int)
    (hs : l.Pairwise (fun a b => a.1 ≤ b.1)) :
    ∀ e ∈ l.drop (upper_bound l Key), Key < e.1 := by
  induction l with
  | nil => intro e he; simp at he
  | cons a l ih =>
    unfold upper_bound
    by_cases hk : Key < a.1
    · simp only [hk, if_true, List.drop_zero]
      intro e he
      rcases List.mem_cons.mp he with rfl | he
      · exact hk
      · exact lt_of_lt_of_le hk ((List.pairwise_cons.mp hs).1 e he)
    · simp only [hk, if_false, List.drop_succ_cons]
      exact ih (List.pairwise_cons.mp hs).2

theorem pairwise_insert_upper_bound {E : Type} (l : List (Int × E)) (Key : Int) (x : E)
    (hs : l.Pairwise (fun a b => a.1 ≤ b.1)) :
    (l.insertIdx (upper_bound l Key) (Key, x)).Pairwise (fun a b => a.1 ≤ b.1) := by
  induction l with
  | nil => simp [upper_bound]
  | cons a l ih =>
    unfold upper_bound
    by_cases hk : Key < a.1
    · simp only [hk, if_true, List.insertIdx_zero]
      refine List.pairwise_cons.mpr ⟨?_, hs⟩
      intro e he
      rcases List.mem_cons.mp he with rfl | he
      · exact le_of_lt hk
      · exact le_trans (le_of_lt hk) ((List.pairwise_cons.mp hs).1 e he)
    · simp only [hk, if_false, List.insertIdx_succ_cons]
      refine List.pairwise_cons.mpr ⟨?_, ih (List.pairwise_cons.mp hs).2⟩
      intro e he
      rw [List.mem_insertIdx (upper_bound_le _ _)] at he
      rcases he with rfl | he
      · show a.1 ≤ Key
        omega
      · exact (List.pairwise_cons.mp hs).1 e he

theorem pairwise_modify_keys {E : Type} (f : E → E) (l : List (Int × E)) (n : Nat)
    (hs : l.Pairwise (fun a b => a.1 ≤ b.1)) :
    (l.modify (fun e => (e.1, f e.2)) n).Pairwise (fun a b => a.1 ≤ b.1) := by
  have hmap : (l.modify (fun e => (e.1, f e.2)) n).map Prod.fst = l.map Prod.fst := by
    induction l generalizing n with
    | nil => simp
    | cons a l ih =>
      cases n with
      | zero => simp
      | succ n =>
        rw [List.modify_succ_cons, List.map_cons, List.map_cons, ih n (List.pairwise_cons.mp hs).2]
  have h1 : (l.map Prod.fst).Pairwise (fun a b => a ≤ b) := by
    rw [List.pairwise_map]; exact hs
  rw [← hmap, List.pairwise_map] at h1
  exact h1

theorem lookup_pairwise {E : Type} (reused : E → Bool) (setReused : E → E)
    (noWork : E → Bool) (same : E → Bool) (use_cache : Bool) (max_size : Int) (Key : Int)
    (built : E) (cache : List (Int × E)) (hs : cache.Pairwise (fun a b => a.1 ≤ b.1)) :
    (lookup reused setReused noWork same use_cache max_size Key built cache).1.Pairwise
      (fun a b => a.1 ≤ b.1) := by
  cases use_cache with
  | false =>
    rw [lookup_disabled]
    split_ifs
    · exact List.Pairwise.nil
    · exact List.pairwise_singleton _ _
  | true =>
    rcases lookup_enabled reused setReused noWork same max_size Key built cache with
      ⟨it, _, h2⟩ | ⟨_, h2⟩
    · rw [h2]
      exact pairwise_modify_keys setReused cache it hs
    · rw [h2]
      have hm := hs.sublist (makeRoom_sublist reused max_size cache)
      split_ifs
      · exact hm
      · exact pairwise_insert_upper_bound _ Key built hm

theorem cpc_reachable_pairwise (g : Globals) (MyProc : Int)
    (isects : BoxArray → Box → List (Nat × Box)) (cache : CPCCache)
    (h : CPCReachable g MyProc isects cache) : cache.Pairwise (fun a b => a.1 ≤ b.1) := by
  induction h with
  | empty => exact List.Pairwise.nil
  | call cache tag0 dstBA srcBA dstDM srcDM _ ih =>
    unfold TheCPC
    exact lookup_pairwise _ _ _ _ _ _ _ _ cache ih

theorem fb_reachable_pairwise (D : Nat) (g : Globals) (MyProc : Int)
    (isects : BoxArray → Box → List (Nat × Box)) (cache : FBCache)
    (h : FBReachable D g MyProc isects cache) : cache.Pairwise (fun a b => a.1 ≤ b.1) := by
  induction h with
  | empty => exact List.Pairwise.nil
  | call cache tag0 cross mf _ ih =>
    unfold TheFB
    exact lookup_pairwise _ _ _ _ _ _ _ _ cache ih

/-- A miss on a cache at or above its cap: the cache the new plan is inserted into is the
old one without its first unreused entries in iteration order, as many as bring the size
below the cap, and without its front entry if that did not bring the size below the cap. -/
theorem makeRoom_at_cap {E : Type} (reused : E → Bool) (m : Int) (h0 : 1 ≤ m)
    (h1 : m ≤ INT_MAX) (cache : List (Int × E)) (hc : m ≤ (cache.length : Int)) :
    sweep reused m cache.length cache =
        dropFirstUnreused reused (cache.length + 1 - m.toNat) cache ∧
      makeRoom reused m cache =
        if m ≤ ((dropFirstUnreused reused (cache.length + 1 - m.toNat) cache).length : Int) then
          (dropFirstUnreused reused (cache.length + 1 - m.toNat) cache).tail
        else dropFirstUnreused reused (cache.length + 1 - m.toNat) cache := by
  have hsw := sweep_eq_dropFirstUnreused reused m h0 h1 cache.length cache hc
  refine ⟨hsw, ?_⟩
  have hge : size_ge cache.length m = true := by
    rw [size_ge_iff _ _ (by omega) h1]; exact hc
  have hne : m ≠ -1 := by omega
  unfold makeRoom
  simp only [hge, hne, ne_eq, not_false_eq_true, and_self, if_true, hsw]
  by_cases hb : m ≤ ((dropFirstUnreused reused (cache.length + 1 - m.toNat) cache).length : Int)
  · rw [if_pos hb, if_pos ((size_ge_iff _ _ (by omega) h1).mpr hb)]
  · rw [if_neg hb, if_neg (fun h => hb ((size_ge_iff _ _ (by omega) h1).mp h))]

theorem lookup_miss_cache {E : Type} (reused : E → Bool) (setReused : E → E)
    (noWork : E → Bool) (same : E → Bool) (m : Int) (Key : Int) (built : E)
    (cache : List (Int × E)) (hmiss : ∀ e ∈ cache, e.1 = Key → same e.2 = false) :
    (lookup reused setReused noWork same true m Key built cache).1 =
      if noWork built = true then makeRoom reused m cache
      else (makeRoom reused m cache).insertIdx (upper_bound (makeRoom reused m cache) Key)
        (Key, built) := by
  rcases lookup_enabled reused setReused noWork same m Key built cache with
    ⟨it, h1', _⟩ | ⟨_, h2⟩
  · obtain ⟨e, he, hk, hs⟩ := findReusable_some same Key cache it h1'
    have := hmiss e (mem_of_getElem?_eq_some _ _ _ he) hk
    rw [this] at hs
    cases hs
  · rw [h2]
    split_ifs <;> rfl

/-- C10 fails as stated: with a cap of two, the copy plan `A` (key 3) is cached first and
the copy plan `B` (key 2) second, neither is reused; the next miss finds the cache at its
cap, and its sweep drops `B`, the younger entry, because it comes first in key order,
while `A`, the entry inserted earliest, stays. -/
theorem C10_sweep_order_counterexample :
    (TheCPC (exGlobalsCap 2) 0 intersections exTag []
        (CPC.ctor [exBoxA] [exBoxA, exBoxB] [0] [0, 0])).1 =
      [(3, CPC.built 0 intersections exTag (CPC.ctor [exBoxA] [exBoxA, exBoxB] [0] [0, 0]))] ∧
    (TheCPC (exGlobalsCap 2) 0 intersections exTag
        (TheCPC (exGlobalsCap 2) 0 intersections exTag []
          (CPC.ctor [exBoxA] [exBoxA, exBoxB] [0] [0, 0])).1
        (CPC.ctor [exBoxA] [exBoxA] [0] [0])).1 =
      [(2, CPC.built 0 intersections exTag (CPC.ctor [exBoxA] [exBoxA] [0] [0])),
       (3, CPC.built 0 intersections exTag (CPC.ctor [exBoxA] [exBoxA, exBoxB] [0] [0, 0]))] ∧
    (CPC.built 0 intersections exTag (CPC.ctor [exBoxA] [exBoxA] [0] [0])).m_reused = false ∧
    (CPC.built 0 intersections exTag
      (CPC.ctor [exBoxA] [exBoxA, exBoxB] [0] [0, 0])).m_reused = false ∧
    sweep CPC.m_reused 2 2
        [(2, CPC.built 0 intersections exTag (CPC.ctor [exBoxA] [exBoxA] [0] [0])),
         (3, CPC.built 0 intersections exTag (CPC.ctor [exBoxA] [exBoxA, exBoxB] [0] [0, 0]))] =
      [(3, CPC.built 0 intersections exTag (CPC.ctor [exBoxA] [exBoxA, exBoxB] [0] [0, 0]))] ∧
    (TheCPC (exGlobalsCap 2) 0 intersections exTag
        (TheCPC (exGlobalsCap 2) 0 intersections exTag
          (TheCPC (exGlobalsCap 2) 0 intersections exTag []
            (CPC.ctor [exBoxA] [exBoxA, exBoxB] [0] [0, 0])).1
          (CPC.ctor [exBoxA] [exBoxA] [0] [0])).1
        (CPC.ctor [exBoxA] [exBoxC] [0] [0])).1 =
      [(2, CPC.built 0 intersections exTag (CPC.ctor [exBoxA] [exBoxC] [0] [0])),
       (3, CPC.built 0 intersections exTag (CPC.ctor [exBoxA] [exBoxA, exBoxB] [0] [0, 0]))] := by
  refine ⟨?_, ?_, ?_, ?_, ?_, ?_⟩ <;> decide

/-- C10 as amended: on a miss with the cache at (or above) its cap `M ≥ 1`, the sweep of
`TheCPC` removes the first `size + 1 - M` entries with `m_reused = false` in the iteration
order of the cache (all of them if there are fewer) and nothing else, and the new plan is
inserted into what the sweep leaves, minus the front entry if the size is still at the
cap.  The iteration order of a reachable cache is ascending key order, and an insertion
places the new entry behind every entry whose key is not greater, so entries with equal
keys are in insertion order.  The unreused entry dropped first is therefore the first one
in key order, not the one inserted earliest.  The same holds for `TheFB`. -/
theorem C10_sweep_order_amended (D : Nat) (g : Globals) (MyProc : Int)
    (isects : BoxArray → Box → List (Nat × Box)) :
    (g.use_copy_cache = true → 1 ≤ g.copy_cache_max_size → g.copy_cache_max_size ≤ INT_MAX →
      ∀ (cache : CPCCache) (tag0 : CopyComTag) (cpc : CPC),
        g.copy_cache_max_size ≤ (cache.length : Int) →
        (∀ e ∈ cache, e.1 = CPC.Key cpc → CPC.eq e.2 cpc = false) →
        sweep CPC.m_reused g.copy_cache_max_size cache.length cache =
          dropFirstUnreused CPC.m_reused (cache.length + 1 - g.copy_cache_max_size.toNat) cache ∧
        makeRoom CPC.m_reused g.copy_cache_max_size cache =
          (if g.copy_cache_max_size ≤ ((dropFirstUnreused CPC.m_reused
              (cache.length + 1 - g.copy_cache_max_size.toNat) cache).length : Int) then
            (dropFirstUnreused CPC.m_reused
              (cache.length + 1 - g.copy_cache_max_size.toNat) cache).tail
          else dropFirstUnreused CPC.m_reused
              (cache.length + 1 - g.copy_cache_max_size.toNat) cache) ∧
        (TheCPC g MyProc isects tag0 cache cpc).1 =
          (if (CPC.built MyProc isects tag0 cpc).plan.noWork = true then
            makeRoom CPC.m_reused g.copy_cache_max_size cache
          else (makeRoom CPC.m_reused g.copy_cache_max_size cache).insertIdx
            (upper_bound (makeRoom CPC.m_reused g.copy_cache_max_size cache) (CPC.Key cpc))
            (CPC.Key cpc, CPC.built MyProc isects tag0 cpc))) ∧
    (g.use_fb_cache = true → 1 ≤ g.fb_cache_max_size → g.fb_cache_max_size ≤ INT_MAX →
      ∀ (fbcache : FBCache) (tag0 : CopyComTag) (cross : Bool) (mf : FabArrayBase),
        g.fb_cache_max_size ≤ (fbcache.length : Int) →
        (∀ e ∈ fbcache, e.1 = SI.Key cross mf →
          SI.eq e.2 (SI.ctor mf.boxarray mf.distributionMap mf.n_grow cross) = false) →
        sweep SI.m_reused g.fb_cache_max_size fbcache.length fbcache =
          dropFirstUnreused SI.m_reused (fbcache.length + 1 - g.fb_cache_max_size.toNat)
            fbcache ∧
        makeRoom SI.m_reused g.fb_cache_max_size fbcache =
          (if g.fb_cache_max_size ≤ ((dropFirstUnreused SI.m_reused
              (fbcache.length + 1 - g.fb_cache_max_size.toNat) fbcache).length : Int) then
            (dropFirstUnreused SI.m_reused
              (fbcache.length + 1 - g.fb_cache_max_size.toNat) fbcache).tail
          else dropFirstUnreused SI.m_reused
              (fbcache.length + 1 - g.fb_cache_max_size.toNat) fbcache) ∧
        (TheFB D g MyProc isects tag0 fbcache cross mf).1 =
          (if (SI.built D MyProc isects tag0
              (SI.ctor mf.boxarray mf.distributionMap mf.n_grow cross) mf).plan.noWork = true then
            makeRoom SI.m_reused g.fb_cache_max_size fbcache
          else (makeRoom SI.m_reused g.fb_cache_max_size fbcache).insertIdx
            (upper_bound (makeRoom SI.m_reused g.fb_cache_max_size fbcache) (SI.Key cross mf))
            (SI.Key cross mf,
              SI.built D MyProc isects tag0
                (SI.ctor mf.boxarray mf.distributionMap mf.n_grow cross) mf))) ∧
    (∀ cache : CPCCache, CPCReachable g MyProc isects cache →
      cache.Pairwise (fun a b => a.1 ≤ b.1) ∧
      ∀ Key : Int, (∀ e ∈ cache.take (upper_bound cache Key), e.1 ≤ Key) ∧
        (∀ e ∈ cache.drop (upper_bound cache Key), Key < e.1)) ∧
    (∀ fbcache : FBCache, FBReachable D g MyProc isects fbcache →
      fbcache.Pairwise (fun a b => a.1 ≤ b.1) ∧
      ∀ Key : Int, (∀ e ∈ fbcache.take (upper_bound fbcache Key), e.1 ≤ Key) ∧
        (∀ e ∈ fbcache.drop (upper_bound fbcache Key), Key < e.1)) := by
  refine ⟨?_, ?_, ?_, ?_⟩
  · intro hu h0 h1 cache tag0 cpc hc hmiss
    obtain ⟨a, b⟩ := makeRoom_at_cap CPC.m_reused g.copy_cache_max_size h0 h1 cache hc
    refine ⟨a, b, ?_⟩
    unfold TheCPC
    rw [hu]
    exact lookup_miss_cache CPC.m_reused CPC.setReused (fun e => e.plan.noWork)
      (fun e => CPC.eq e cpc) g.copy_cache_max_size (CPC.Key cpc)
      (CPC.built MyProc isects tag0 cpc) cache hmiss
  · intro hu h0 h1 cache tag0 cross mf hc hmiss
    obtain ⟨a, b⟩ := makeRoom_at_cap SI.m_reused g.fb_cache_max_size h0 h1 cache hc
    refine ⟨a, b, ?_⟩
    unfold TheFB
    rw [hu]
    exact lookup_miss_cache SI.m_reused SI.setReused (fun e => e.plan.noWork)
      (fun e => SI.eq e (SI.ctor mf.boxarray mf.distributionMap mf.n_grow cross))
      g.fb_cache_max_size (SI.Key cross mf)
      (SI.built D MyProc isects tag0 (SI.ctor mf.boxarray mf.distributionMap mf.n_grow cross) mf)
      cache hmiss
  · intro cache hr
    have hs := cpc_reachable_pairwise g MyProc isects cache hr
    exact ⟨hs, fun Key => ⟨upper_bound_take_le cache Key, upper_bound_drop_gt cache Key hs⟩⟩
  · intro cache hr
    have hs := fb_reachable_pairwise D g MyProc isects cache hr
    exact ⟨hs, fun Key => ⟨upper_bound_take_le cache Key, upper_bound_drop_gt cache Key hs⟩⟩

/-- C10 as amended, on the cache of the counterexample with a cap of two: the sweep
removes one unreused entry, the first in key order. -/
theorem C10_sweep_order_amended_witness :
    (exGlobalsCap 2).use_copy_cache = true ∧ 1 ≤ (exGlobalsCap 2).copy_cache_max_size ∧
    (exGlobalsCap 2).copy_cache_max_size ≤ INT_MAX ∧
    (exGlobalsCap 2).copy_cache_max_size ≤ (exCopyCacheBA.length : Int) ∧
    (∀ e ∈ exCopyCacheBA, e.1 = CPC.Key (CPC.ctor [exBoxA] [exBoxC] [0] [0]) →
      CPC.eq e.2 (CPC.ctor [exBoxA] [exBoxC] [0] [0]) = false) ∧
    sweep CPC.m_reused (exGlobalsCap 2).copy_cache_max_size exCopyCacheBA.length exCopyCacheBA =
      dropFirstUnreused CPC.m_reused
        (exCopyCacheBA.length + 1 - (exGlobalsCap 2).copy_cache_max_size.toNat) exCopyCacheBA ∧
    dropFirstUnreused CPC.m_reused
        (exCopyCacheBA.length + 1 - (exGlobalsCap 2).copy_cache_max_size.toNat) exCopyCacheBA =
      exCopyCacheBA.tail ∧
    CPCReachable (exGlobalsCap 2) 0 intersections
      (TheCPC (exGlobalsCap 2) 0 intersections exTag [] (CPC.ctor [exBoxA] [exBoxA] [0] [0])).1 ∧
    (TheCPC (exGlobalsCap 2) 0 intersections exTag []
      (CPC.ctor [exBoxA] [exBoxA] [0] [0])).1.Pairwise (fun a b => a.1 ≤ b.1) ∧
    (exGlobalsCap 2).use_fb_cache = true ∧ 1 ≤ (exGlobalsCap 2).fb_cache_max_size ∧
    (exGlobalsCap 2).fb_cache_max_size ≤ INT_MAX ∧
    (exGlobalsCap 2).fb_cache_max_size ≤ (exFBCache2.length : Int) ∧
    (∀ e ∈ exFBCache2, e.1 = SI.Key true exLoneFab →
      SI.eq e.2 (SI.ctor exLoneFab.boxarray exLoneFab.distributionMap exLoneFab.n_grow true) =
        false) ∧
    sweep SI.m_reused (exGlobalsCap 2).fb_cache_max_size exFBCache2.length exFBCache2 =
      dropFirstUnreused SI.m_reused
        (exFBCache2.length + 1 - (exGlobalsCap 2).fb_cache_max_size.toNat) exFBCache2 ∧
    FBReachable 2 (exGlobalsCap 2) 0 intersections
      (TheFB 2 (exGlobalsCap 2) 0 intersections exTag [] true exFab).1 ∧
    (TheFB 2 (exGlobalsCap 2) 0 intersections exTag [] true exFab).1.Pairwise
      (fun a b => a.1 ≤ b.1) :=
  ⟨by decide, by decide, by decide, by decide, by decide,
   ((C10_sweep_order_amended 2 (exGlobalsCap 2) 0 intersections).1 (by decide) (by decide)
      (by decide) exCopyCacheBA exTag (CPC.ctor [exBoxA] [exBoxC] [0] [0]) (by decide)
      (by decide)).1,
   by decide,
   CPCReachable.call [] exTag [exBoxA] [exBoxA] [0] [0] CPCReachable.empty,
   ((C10_sweep_order_amended 2 (exGlobalsCap 2) 0 intersections).2.2.1 _
      (CPCReachable.call [] exTag [exBoxA] [exBoxA] [0] [0] CPCReachable.empty)).1,
   by decide, by decide, by decide, by decide, by decide,
   ((C10_sweep_order_amended 2 (exGlobalsCap 2) 0 intersections).2.1 (by decide) (by decide)
      (by decide) exFBCache2 exTag true exLoneFab (by decide) (by decide)).1,
   FBReachable.call [] exTag true exFab FBReachable.empty,
   ((C10_sweep_order_amended 2 (exGlobalsCap 2) 0 intersections).2.2.2 _
      (FBReachable.call [] exTag true exFab FBReachable.empty)).1⟩

theorem makeRoom_unbounded {E : Type} (reused : E → Bool) (cache : List (Int × E)) :
    makeRoom reused (-1) cache = cache := by
  unfold makeRoom
  simp

theorem mem_modify_of_mem {α : Type} (f : α → α) (l : List α) (n : Nat) (a : α)
    (h : a ∈ l) : a ∈ l.modify f n ∨ f a ∈ l.modify f n := by
  induction l generalizing n with
  | nil => cases h
  | cons x l ih =>
    cases n with
    | zero =>
      rw [List.modify_zero_cons]
      rcases List.mem_cons.mp h with rfl | h
      · exact Or.inr (List.mem_cons_self _ _)
      · exact Or.inl (List.mem_cons_of_mem _ h)
    | succ n =>
      rw [List.modify_succ_cons]
      rcases List.mem_cons.mp h with rfl | h
      · exact Or.inl (List.mem_cons_self _ _)
      · rcases ih n h with h | h
        · exact Or.inl (List.mem_cons_of_mem _ h)
        · exact Or.inr (List.mem_cons_of_mem _ h)

/-- The lookup with the cache on and the cap set to `-1`: nothing is evicted. -/
theorem lookup_unbounded {E : Type} (reused : E → Bool) (setReused : E → E)
    (noWork : E → Bool) (same : E → Bool) (Key : Int) (built : E) (cache : List (Int × E)) :
    (cache.length ≤ (lookup reused setReused noWork same true (-1) Key built cache).1.length ∧
      ∀ e ∈ cache, e ∈ (lookup reused setReused noWork same true (-1) Key built cache).1 ∨
        (e.1, setReused e.2) ∈
          (lookup reused setReused noWork same true (-1) Key built cache).1) ∧
    ((∃ e ∈ cache, e.1 = Key ∧ same e.2 = true) →
      ∃ it, it < cache.length ∧
        lookup reused setReused noWork same true (-1) Key built cache =
          (cache.modify (fun x => (x.1, setReused x.2)) it, some it) ∧
        (lookup reused setReused noWork same true (-1) Key built cache).1.length =
          cache.length) ∧
    ((∀ e ∈ cache, e.1 = Key → same e.2 = false) →
      lookup reused setReused noWork same true (-1) Key built cache =
          (if noWork built = true then (cache, none)
           else (cache.insertIdx (upper_bound cache Key) (Key, built),
             some (upper_bound cache Key))) ∧
        (noWork built = false →
          (lookup reused setReused noWork same true (-1) Key built cache).1.length =
              cache.length + 1 ∧
            (lookup reused setReused noWork same true (-1) Key built cache).1.eraseIdx
              (upper_bound cache Key) = cache)) := by
  have hm := makeRoom_unbounded reused cache
  rcases lookup_enabled reused setReused noWork same (-1) Key built cache with
    ⟨it, h1, h2⟩ | ⟨h1, h2⟩
  · obtain ⟨e', he', hk', hs'⟩ := findReusable_some same Key cache it h1
    have hlt : it < cache.length := by
      by_contra hc
      rw [List.getElem?_eq_none (by omega)] at he'
      cases he'
    refine ⟨?_, ?_, ?_⟩
    · rw [h2]
      refine ⟨by simp, ?_⟩
      intro e he
      exact mem_modify_of_mem (fun x => (x.1, setReused x.2)) cache it e he
    · intro _
      exact ⟨it, hlt, h2, by rw [h2]; simp⟩
    · intro hmiss
      have := hmiss e' (mem_of_getElem?_eq_some _ _ _ he') hk'
      rw [this] at hs'
      cases hs'
  · rw [hm] at h2
    have hle := upper_bound_le cache Key
    refine ⟨?_, ?_, ?_⟩
    · rw [h2]
      by_cases hw : noWork built = true
      · rw [if_pos hw]
        exact ⟨le_refl _, fun e he => Or.inl he⟩
      · rw [if_neg hw]
        refine ⟨?_, ?_⟩
        · show cache.length ≤ (List.insertIdx _ _ _).length
          rw [List.length_insertIdx _ _ hle]
          omega
        · intro e he
          left
          show e ∈ List.insertIdx _ _ _
          rw [List.mem_insertIdx hle]
          exact Or.inr he
    · rintro ⟨e, he, hk, hs⟩
      rw [findReusable_eq_none] at h1
      exact absurd ⟨hk, hs⟩ (h1 e he)
    · intro _
      refine ⟨h2, ?_⟩
      intro hw
      rw [h2]
      simp only [hw, Bool.false_eq_true, if_false]
      exact ⟨List.length_insertIdx _ _ hle, List.eraseIdx_insertIdx _ _⟩

/-- C11: with the copy cache on and its cap configured as `-1`, a `TheCPC` call removes no
entry whatever the cache size: every old entry is still there afterwards (with its flag set
if it was the one found) and the cache is never shorter; a hit returns the cache with only
that flag changed, so its size is unchanged; a miss returns the old cache with the new
plan inserted when it has work (size plus exactly one) and the old cache as it was when it
has none.  The same holds for `TheFB`. -/
theorem C11_unbounded_cache (D : Nat) (g : Globals) (MyProc : Int)
    (isects : BoxArray → Box → List (Nat × Box)) :
    (g.use_copy_cache = true → g.copy_cache_max_size = -1 →
      ∀ (cache : CPCCache) (tag0 : CopyComTag) (cpc : CPC),
        (cache.length ≤ (TheCPC g MyProc isects tag0 cache cpc).1.length ∧
          ∀ e ∈ cache, e ∈ (TheCPC g MyProc isects tag0 cache cpc).1 ∨
            (e.1, CPC.setReused e.2) ∈ (TheCPC g MyProc isects tag0 cache cpc).1) ∧
        ((∃ e ∈ cache, e.1 = CPC.Key cpc ∧ CPC.eq e.2 cpc = true) →
          ∃ it, it < cache.length ∧
            TheCPC g MyProc isects tag0 cache cpc =
              (cache.modify (fun x => (x.1, CPC.setReused x.2)) it, some it) ∧
            (TheCPC g MyProc isects tag0 cache cpc).1.length = cache.length) ∧
        ((∀ e ∈ cache, e.1 = CPC.Key cpc → CPC.eq e.2 cpc = false) →
          TheCPC g MyProc isects tag0 cache cpc =
              (if (CPC.built MyProc isects tag0 cpc).plan.noWork = true then (cache, none)
               else (cache.insertIdx (upper_bound cache (CPC.Key cpc))
                  (CPC.Key cpc, CPC.built MyProc isects tag0 cpc),
                 some (upper_bound cache (CPC.Key cpc)))) ∧
            ((CPC.built MyProc isects tag0 cpc).plan.noWork = false →
              (TheCPC g MyProc isects tag0 cache cpc).1.length = cache.length + 1 ∧
                (TheCPC g MyProc isects tag0 cache cpc).1.eraseIdx
                  (upper_bound cache (CPC.Key cpc)) = cache))) ∧
    (g.use_fb_cache = true → g.fb_cache_max_size = -1 →
      ∀ (fbcache : FBCache) (tag0 : CopyComTag) (cross : Bool) (mf : FabArrayBase),
        (fbcache.length ≤ (TheFB D g MyProc isects tag0 fbcache cross mf).1.length ∧
          ∀ e ∈ fbcache, e ∈ (TheFB D g MyProc isects tag0 fbcache cross mf).1 ∨
            (e.1, SI.setReused e.2) ∈ (TheFB D g MyProc isects tag0 fbcache cross mf).1) ∧
        ((∃ e ∈ fbcache, e.1 = SI.Key cross mf ∧
            SI.eq e.2 (SI.ctor mf.boxarray mf.distributionMap mf.n_grow cross) = true) →
          ∃ it, it < fbcache.length ∧
            TheFB D g MyProc isects tag0 fbcache cross mf =
              (fbcache.modify (fun x => (x.1, SI.setReused x.2)) it, some it) ∧
            (TheFB D g MyProc isects tag0 fbcache cross mf).1.length = fbcache.length) ∧
        ((∀ e ∈ fbcache, e.1 = SI.Key cross mf →
            SI.eq e.2 (SI.ctor mf.boxarray mf.distributionMap mf.n_grow cross) = false) →
          TheFB D g MyProc isects tag0 fbcache cross mf =
              (if (SI.built D MyProc isects tag0
                  (SI.ctor mf.boxarray mf.distributionMap mf.n_grow cross) mf).plan.noWork = true
               then (fbcache, none)
               else (fbcache.insertIdx (upper_bound fbcache (SI.Key cross mf))
                  (SI.Key cross mf, SI.built D MyProc isects tag0
                    (SI.ctor mf.boxarray mf.distributionMap mf.n_grow cross) mf),
                 some (upper_bound fbcache (SI.Key cross mf)))) ∧
            ((SI.built D MyProc isects tag0
                (SI.ctor mf.boxarray mf.distributionMap mf.n_grow cross) mf).plan.noWork = false →
              (TheFB D g MyProc isects tag0 fbcache cross mf).1.length = fbcache.length + 1 ∧
                (TheFB D g MyProc isects tag0 fbcache cross mf).1.eraseIdx
                  (upper_bound fbcache (SI.Key cross mf)) = fbcache))) := by
  constructor
  · intro hu hm cache tag0 cpc
    unfold TheCPC
    rw [hu, hm]
    exact lookup_unbounded CPC.m_reused CPC.setReused (fun e => e.plan.noWork)
      (fun e => CPC.eq e cpc) (CPC.Key cpc) (CPC.built MyProc isects tag0 cpc) cache
  · intro hu hm cache tag0 cross mf
    unfold TheFB
    rw [hu, hm]
    exact lookup_unbounded SI.m_reused SI.setReused (fun e => e.plan.noWork)
      (fun e => SI.eq e (SI.ctor mf.boxarray mf.distributionMap mf.n_grow cross))
      (SI.Key cross mf)
      (SI.built D MyProc isects tag0 (SI.ctor mf.boxarray mf.distributionMap mf.n_grow cross) mf)
      cache

/-- C11 on caches of fifty entries with the cap at `-1`: a miss with work leaves 51
entries. -/
theorem C11_unbounded_cache_witness :
    (exGlobalsCap (-1)).use_copy_cache = true ∧ (exGlobalsCap (-1)).copy_cache_max_size = -1 ∧
    (∀ e ∈ exCopyCache50, e.1 = CPC.Key (CPC.ctor [exBoxA] [exBoxC] [0] [0]) →
      CPC.eq e.2 (CPC.ctor [exBoxA] [exBoxC] [0] [0]) = false) ∧
    (CPC.built 0 intersections exTag (CPC.ctor [exBoxA] [exBoxC] [0] [0])).plan.noWork = false ∧
    (TheCPC (exGlobalsCap (-1)) 0 intersections exTag exCopyCache50
      (CPC.ctor [exBoxA] [exBoxC] [0] [0])).1.length = exCopyCache50.length + 1 ∧
    exCopyCache50.length + 1 = 51 ∧
    (exGlobalsCap (-1)).use_fb_cache = true ∧ (exGlobalsCap (-1)).fb_cache_max_size = -1 ∧
    (∀ e ∈ exFBCache50, e.1 = SI.Key true exFab →
      SI.eq e.2 (SI.ctor exFab.boxarray exFab.distributionMap exFab.n_grow true) = false) ∧
    (SI.built 2 0 intersections exTag
      (SI.ctor exFab.boxarray exFab.distributionMap exFab.n_grow true) exFab).plan.noWork =
      false ∧
    (TheFB 2 (exGlobalsCap (-1)) 0 intersections exTag exFBCache50 true exFab).1.length =
      exFBCache50.length + 1 :=
  ⟨by decide, by decide, by decide, by decide,
   ((((C11_unbounded_cache 2 (exGlobalsCap (-1)) 0 intersections).1 (by decide) (by decide)
      exCopyCache50 exTag (CPC.ctor [exBoxA] [exBoxC] [0] [0])).2.2 (by decide)).2
      (by decide)).1,
   by decide, by decide, by decide, by decide, by decide,
   ((((C11_unbounded_cache 2 (exGlobalsCap (-1)) 0 intersections).2 (by decide) (by decide)
      exFBCache50 exTag true exFab).2.2 (by decide)).2 (by decide)).1⟩

theorem lookup_disabled_reused {E : Type} (reused : E → Bool) (setReused : E → E)
    (noWork : E → Bool) (same : E → Bool) (max_size : Int) (Key : Int) (built : E)
    (cache : List (Int × E)) (hb : reused built = false) :
    (lookup reused setReused noWork same false max_size Key built cache).1.length ≤ 1 ∧
      ∀ e ∈ (lookup reused setReused noWork same false max_size Key built cache).1,
        e = (Key, built) ∧ reused e.2 = false := by
  rw [lookup_disabled]
  split_ifs
  · exact ⟨Nat.zero_le _, fun e he => by cases he⟩
  · refine ⟨le_refl _, fun e he => ?_⟩
    rw [List.mem_singleton.mp he]
    exact ⟨rfl, hb⟩

/-- C12: with the copy cache switched off, every `TheCPC` call, whatever the cache held
(also the result of a call with the same descriptor), returns the cache that holds just the
newly built plan, or the empty cache and `end()` when that plan has no work; so the cache
holds at most one entry, the one just built, with `m_reused = false`, and every reachable
cache has at most one entry and no entry with the flag set.  The same holds for `TheFB`. -/
theorem C12_cache_disabled (D : Nat) (g : Globals) (MyProc : Int)
    (isects : BoxArray → Box → List (Nat × Box)) :
    (g.use_copy_cache = false →
      (∀ (cache : CPCCache) (tag0 : CopyComTag) (dstBA srcBA : BoxArray)
          (dstDM srcDM : DistributionMapping),
        TheCPC g MyProc isects tag0 cache (CPC.ctor dstBA srcBA dstDM srcDM) =
            (if (CPC.built MyProc isects tag0
                (CPC.ctor dstBA srcBA dstDM srcDM)).plan.noWork = true then ([], none)
             else ([(CPC.Key (CPC.ctor dstBA srcBA dstDM srcDM),
                  CPC.built MyProc isects tag0 (CPC.ctor dstBA srcBA dstDM srcDM))], some 0)) ∧
          (CPC.built MyProc isects tag0 (CPC.ctor dstBA srcBA dstDM srcDM)).m_reused = false ∧
          (TheCPC g MyProc isects tag0 cache (CPC.ctor dstBA srcBA dstDM srcDM)).1.length ≤ 1 ∧
          (∀ e ∈ (TheCPC g MyProc isects tag0 cache (CPC.ctor dstBA srcBA dstDM srcDM)).1,
            e.2 = CPC.built MyProc isects tag0 (CPC.ctor dstBA srcBA dstDM srcDM) ∧
              e.2.m_reused = false) ∧
          ∀ tag1 : CopyComTag,
            TheCPC g MyProc isects tag1
                (TheCPC g MyProc isects tag0 cache (CPC.ctor dstBA srcBA dstDM srcDM)).1
                (CPC.ctor dstBA srcBA dstDM srcDM) =
              (if (CPC.built MyProc isects tag1
                  (CPC.ctor dstBA srcBA dstDM srcDM)).plan.noWork = true then ([], none)
               else ([(CPC.Key (CPC.ctor dstBA srcBA dstDM srcDM),
                    CPC.built MyProc isects tag1 (CPC.ctor dstBA srcBA dstDM srcDM))],
                  some 0))) ∧
      (∀ cache : CPCCache, CPCReachable g MyProc isects cache →
        cache.length ≤ 1 ∧ ∀ e ∈ cache, e.2.m_reused = false)) ∧
    (g.use_fb_cache = false →
      (∀ (fbcache : FBCache) (tag0 : CopyComTag) (cross : Bool) (mf : FabArrayBase),
        TheFB D g MyProc isects tag0 fbcache cross mf =
            (if (SI.built D MyProc isects tag0
                (SI.ctor mf.boxarray mf.distributionMap mf.n_grow cross) mf).plan.noWork = true
             then ([], none)
             else ([(SI.Key cross mf, SI.built D MyProc isects tag0
                  (SI.ctor mf.boxarray mf.distributionMap mf.n_grow cross) mf)], some 0)) ∧
          (SI.built D MyProc isects tag0
            (SI.ctor mf.boxarray mf.distributionMap mf.n_grow cross) mf).m_reused = false ∧
          (TheFB D g MyProc isects tag0 fbcache cross mf).1.length ≤ 1 ∧
          (∀ e ∈ (TheFB D g MyProc isects tag0 fbcache cross mf).1,
            e.2 = SI.built D MyProc isects tag0
                (SI.ctor mf.boxarray mf.distributionMap mf.n_grow cross) mf ∧
              e.2.m_reused = false) ∧
          ∀ tag1 : CopyComTag,
            TheFB D g MyProc isects tag1 (TheFB D g MyProc isects tag0 fbcache cross mf).1
                cross mf =
              (if (SI.built D MyProc isects tag1
                  (SI.ctor mf.boxarray mf.distributionMap mf.n_grow cross) mf).plan.noWork = true
               then ([], none)
               else ([(SI.Key cross mf, SI.built D MyProc isects tag1
                    (SI.ctor mf.boxarray mf.distributionMap mf.n_grow cross) mf)], some 0))) ∧
      (∀ fbcache : FBCache, FBReachable D g MyProc isects fbcache →
        fbcache.length ≤ 1 ∧ ∀ e ∈ fbcache, e.2.m_reused = false)) := by
  constructor
  · intro hu
    have call : ∀ (cache : CPCCache) (tag0 : CopyComTag) (dstBA srcBA : BoxArray)
        (dstDM srcDM : DistributionMapping),
        TheCPC g MyProc isects tag0 cache (CPC.ctor dstBA srcBA dstDM srcDM) =
          (if (CPC.built MyProc isects tag0
              (CPC.ctor dstBA srcBA dstDM srcDM)).plan.noWork = true then ([], none)
           else ([(CPC.Key (CPC.ctor dstBA srcBA dstDM srcDM),
                CPC.built MyProc isects tag0 (CPC.ctor dstBA srcBA dstDM srcDM))], some 0)) := by
      intro cache tag0 dstBA srcBA dstDM srcDM
      unfold TheCPC
      rw [hu]
      exact lookup_disabled _ _ _ _ _ _ _ cache
    have props : ∀ (cache : CPCCache) (tag0 : CopyComTag) (dstBA srcBA : BoxArray)
        (dstDM srcDM : DistributionMapping),
        (TheCPC g MyProc isects tag0 cache (CPC.ctor dstBA srcBA dstDM srcDM)).1.length ≤ 1 ∧
        ∀ e ∈ (TheCPC g MyProc isects tag0 cache (CPC.ctor dstBA srcBA dstDM srcDM)).1,
          e.2 = CPC.built MyProc isects tag0 (CPC.ctor dstBA srcBA dstDM srcDM) ∧
            e.2.m_reused = false := by
      intro cache tag0 dstBA srcBA dstDM srcDM
      unfold TheCPC
      rw [hu]
      have h := lookup_disabled_reused CPC.m_reused CPC.setReused (fun e => e.plan.noWork)
        (fun e => CPC.eq e (CPC.ctor dstBA srcBA dstDM srcDM)) g.copy_cache_max_size
        (CPC.Key (CPC.ctor dstBA srcBA dstDM srcDM))
        (CPC.built MyProc isects tag0 (CPC.ctor dstBA srcBA dstDM srcDM)) cache rfl
      refine ⟨h.1, fun e he => ?_⟩
      obtain ⟨h1, h2⟩ := h.2 e he
      exact ⟨by rw [h1], h2⟩
    refine ⟨fun cache tag0 dstBA srcBA dstDM srcDM =>
      ⟨call cache tag0 dstBA srcBA dstDM srcDM, rfl,
        (props cache tag0 dstBA srcBA dstDM srcDM).1,
        (props cache tag0 dstBA srcBA dstDM srcDM).2,
        fun tag1 => call _ tag1 dstBA srcBA dstDM srcDM⟩, ?_⟩
    intro cache hr
    cases hr with
    | empty => exact ⟨Nat.zero_le _, fun e he => by cases he⟩
    | call cache' tag0 dstBA srcBA dstDM srcDM _ =>
      have h := props cache' tag0 dstBA srcBA dstDM srcDM
      exact ⟨h.1, fun e he => (h.2 e he).2⟩
  · intro hu
    have call : ∀ (cache : FBCache) (tag0 : CopyComTag) (cross : Bool) (mf : FabArrayBase),
        TheFB D g MyProc isects tag0 cache cross mf =
          (if (SI.built D MyProc isects tag0
              (SI.ctor mf.boxarray mf.distributionMap mf.n_grow cross) mf).plan.noWork = true
           then ([], none)
           else ([(SI.Key cross mf, SI.built D MyProc isects tag0
                (SI.ctor mf.boxarray mf.distributionMap mf.n_grow cross) mf)], some 0)) := by
      intro cache tag0 cross mf
      unfold TheFB
      rw [hu]
      exact lookup_disabled _ _ _ _ _ _ _ cache
    have props : ∀ (cache : FBCache) (tag0 : CopyComTag) (cross : Bool) (mf : FabArrayBase),
        (TheFB D g MyProc isects tag0 cache cross mf).1.length ≤ 1 ∧
        ∀ e ∈ (TheFB D g MyProc isects tag0 cache cross mf).1,
          e.2 = SI.built D MyProc isects tag0
              (SI.ctor mf.boxarray mf.distributionMap mf.n_grow cross) mf ∧
            e.2.m_reused = false := by
      intro cache tag0 cross mf
      unfold TheFB
      rw [hu]
      have h := lookup_disabled_reused SI.m_reused SI.setReused (fun e => e.plan.noWork)
        (fun e => SI.eq e (SI.ctor mf.boxarray mf.distributionMap mf.n_grow cross))
        g.fb_cache_max_size (SI.Key cross mf)
        (SI.built D MyProc isects tag0
          (SI.ctor mf.boxarray mf.distributionMap mf.n_grow cross) mf) cache rfl
      refine ⟨h.1, fun e he => ?_⟩
      obtain ⟨h1, h2⟩ := h.2 e he
      exact ⟨by rw [h1], h2⟩
    refine ⟨fun cache tag0 cross mf =>
      ⟨call cache tag0 cross mf, rfl, (props cache tag0 cross mf).1,
        (props cache tag0 cross mf).2, fun tag1 => call _ tag1 cross mf⟩, ?_⟩
    intro cache hr
    cases hr with
    | empty => exact ⟨Nat.zero_le _, fun e he => by cases he⟩
    | call cache' tag0 cross mf _ =>
      have h := props cache' tag0 cross mf
      exact ⟨h.1, fun e he => (h.2 e he).2⟩

/-- C12 with both caches off: a lookup on a cache that already holds the plan of the very
descriptor asked for rebuilds it; the one entry left is not flagged. -/
theorem C12_cache_disabled_witness :
    exGlobalsOff.use_copy_cache = false ∧
    TheCPC exGlobalsOff 0 intersections exTag exCopyCache1 (CPC.ctor [exBoxA] [exBoxA] [0] [0]) =
      ([(2, CPC.built 0 intersections exTag (CPC.ctor [exBoxA] [exBoxA] [0] [0]))], some 0) ∧
    (CPC.built 0 intersections exTag (CPC.ctor [exBoxA] [exBoxA] [0] [0])).m_reused = false ∧
    exGlobalsOff.use_fb_cache = false ∧
    (TheFB 2 exGlobalsOff 0 intersections exTag exFBCache1 false exFab).1.length ≤ 1 ∧
    (∀ e ∈ (TheFB 2 exGlobalsOff 0 intersections exTag exFBCache1 false exFab).1,
      e.2 = SI.built 2 0 intersections exTag
          (SI.ctor exFab.boxarray exFab.distributionMap exFab.n_grow false) exFab ∧
        e.2.m_reused = false) :=
  ⟨by decide,
   (((C12_cache_disabled 2 exGlobalsOff 0 intersections).1 (by decide)).1 exCopyCache1 exTag
      [exBoxA] [exBoxA] [0] [0]).1.trans (by decide),
   (((C12_cache_disabled 2 exGlobalsOff 0 intersections).1 (by decide)).1 exCopyCache1 exTag
      [exBoxA] [exBoxA] [0] [0]).2.1,
   by decide,
   (((C12_cache_disabled 2 exGlobalsOff 0 intersections).2 (by decide)).1 exFBCache1 exTag
      false exFab).2.2.1,
   (((C12_cache_disabled 2 exGlobalsOff 0 intersections).2 (by decide)).1 exFBCache1 exTag
      false exFab).2.2.2.1⟩

theorem smallEnd_setSmall (b : Box) (d d' : Nat) (v : Int) :
    (b.setSmall d v).smallEnd d' =
      if d = d' ∧ d < b.smallend.length then v else b.smallEnd d' := by
  unfold Box.setSmall Box.smallEnd
  simp only [List.getD_eq_getElem?_getD, List.getElem?_set]
  by_cases h : d = d'
  · subst h
    by_cases h2 : d < b.smallend.length
    · simp [h2]
    · simp [h2, List.getElem?_eq_none (Nat.le_of_not_lt h2)]
  · simp [h]

theorem bigEnd_setBig (b : Box) (d d' : Nat) (v : Int) :
    (b.setBig d v).bigEnd d' =
      if d = d' ∧ d < b.bigend.length then v else b.bigEnd d' := by
  unfold Box.setBig Box.bigEnd
  simp only [List.getD_eq_getElem?_getD, List.getElem?_set]
  by_cases h : d = d'
  · subst h
    by_cases h2 : d < b.bigend.length
    · simp [h2]
    · simp [h2, List.getElem?_eq_none (Nat.le_of_not_lt h2)]
  · simp [h]

theorem bigEnd_setSmall (b : Box) (d d' : Nat) (v : Int) :
    (b.setSmall d v).bigEnd d' = b.bigEnd d' := rfl

theorem smallEnd_setBig (b : Box) (d d' : Nat) (v : Int) :
    (b.setBig d v).smallEnd d' = b.smallEnd d' := rfl

theorem dim_setSmall (D : Nat) (b : Box) (d : Nat) (v : Int) (h : Box.dim D b) :
    Box.dim D (b.setSmall d v) := by
  unfold Box.dim Box.setSmall at *
  simpa using h

theorem dim_setBig (D : Nat) (b : Box) (d : Nat) (v : Int) (h : Box.dim D b) :
    Box.dim D (b.setBig d v) := by
  unfold Box.dim Box.setBig at *
  simpa using h

theorem dim_grow (D : Nat) (b : Box) (n : Int) (h : Box.dim D b) : Box.dim D (grow b n) := by
  unfold Box.dim grow at *
  simpa using h

theorem smallEnd_grow (D : Nat) (b : Box) (n : Int) (h : Box.dim D b) (d : Nat) (hd : d < D) :
    (grow b n).smallEnd d = b.smallEnd d - n := by
  unfold Box.dim at h
  unfold grow Box.smallEnd
  have h1 : d < b.smallend.length := by omega
  simp [List.getD_eq_getElem?_getD, List.getElem?_map, List.getElem?_eq_getElem h1]

theorem bigEnd_grow (D : Nat) (b : Box) (n : Int) (h : Box.dim D b) (d : Nat) (hd : d < D) :
    (grow b n).bigEnd d = b.bigEnd d + n := by
  unfold Box.dim at h
  unfold grow Box.bigEnd
  have h1 : d < b.bigend.length := by omega
  simp [List.getD_eq_getElem?_getD, List.getElem?_map, List.getElem?_eq_getElem h1]

theorem getElem?_flatMap_pair {α β : Type} (f g : α → β) (l : List α) (i : Nat) :
    (l.flatMap (fun a => [f a, g a]))[2 * i]? = l[i]?.map f ∧
      (l.flatMap (fun a => [f a, g a]))[2 * i + 1]? = l[i]?.map g := by
  induction l generalizing i with
  | nil => simp
  | cons a l ih =>
    cases i with
    | zero => simp [List.flatMap_cons]
    | succ i =>
      have e1 : 2 * (i + 1) = 2 * i + 1 + 1 := by omega
      rw [e1]
      simp only [List.flatMap_cons, List.cons_append, List.nil_append, List.getElem?_cons_succ]
      exact ih i

theorem length_flatMap_pair {α β : Type} (f g : α → β) (l : List α) :
    (l.flatMap (fun a => [f a, g a])).length = 2 * l.length := by
  induction l with
  | nil => simp
  | cons a l ih =>
    simp only [List.flatMap_cons, List.length_append, ih, List.length_cons, List.length_nil]
    omega

theorem boxes_cross (D : Nat) (si : SI) (vbx : Box) (h : si.m_cross = true) :
    SI.boxes D si vbx =
      (List.range D).flatMap (fun dir => [loSlab vbx dir si.m_ngrow, hiSlab vbx dir si.m_ngrow]) := by
  unfold SI.boxes loSlab hiSlab
  rw [if_pos h]

theorem loSlab_spec (D : Nat) (vbx : Box) (g : Int) (hdim : Box.dim D vbx) (d : Nat)
    (hd : d < D) :
    Box.dim D (loSlab vbx d g) ∧
      (loSlab vbx d g).smallEnd d = vbx.smallEnd d - g ∧
      (loSlab vbx d g).bigEnd d = vbx.smallEnd d - 1 ∧
      ∀ d', d' ≠ d → (loSlab vbx d g).smallEnd d' = vbx.smallEnd d' ∧
        (loSlab vbx d g).bigEnd d' = vbx.bigEnd d' := by
  have h1 : d < vbx.smallend.length := by rw [hdim.1]; exact hd
  have h2 : d < (vbx.setSmall d (vbx.smallEnd d - g)).bigend.length := by
    show d < vbx.bigend.length
    rw [hdim.2]; exact hd
  unfold loSlab
  refine ⟨dim_setBig D _ _ _ (dim_setSmall D _ _ _ hdim), ?_, ?_, ?_⟩
  · rw [smallEnd_setBig, smallEnd_setSmall, if_pos ⟨rfl, h1⟩]
  · rw [bigEnd_setBig, if_pos ⟨rfl, h2⟩]
  · intro d' hne
    have hne' : ¬ (d = d') := fun e => hne e.symm
    constructor
    · rw [smallEnd_setBig, smallEnd_setSmall, if_neg (fun c => hne' c.1)]
    · rw [bigEnd_setBig, if_neg (fun c => hne' c.1), bigEnd_setSmall]

theorem hiSlab_spec (D : Nat) (vbx : Box) (g : Int) (hdim : Box.dim D vbx) (d : Nat)
    (hd : d < D) :
    Box.dim D (hiSlab vbx d g) ∧
      (hiSlab vbx d g).smallEnd d = vbx.bigEnd d + 1 ∧
      (hiSlab vbx d g).bigEnd d = vbx.bigEnd d + g ∧
      ∀ d', d' ≠ d → (hiSlab vbx d g).smallEnd d' = vbx.smallEnd d' ∧
        (hiSlab vbx d g).bigEnd d' = vbx.bigEnd d' := by
  have h1 : d < vbx.smallend.length := by rw [hdim.1]; exact hd
  have h2 : d < (vbx.setSmall d (vbx.bigEnd d + 1)).bigend.length := by
    show d < vbx.bigend.length
    rw [hdim.2]; exact hd
  unfold hiSlab
  refine ⟨dim_setBig D _ _ _ (dim_setSmall D _ _ _ hdim), ?_, ?_, ?_⟩
  · rw [smallEnd_setBig, smallEnd_setSmall, if_pos ⟨rfl, h1⟩]
  · rw [bigEnd_setBig, if_pos ⟨rfl, h2⟩]
  · intro d' hne
    have hne' : ¬ (d = d') := fun e => hne e.symm
    constructor
    · rw [smallEnd_setBig, smallEnd_setSmall, if_neg (fun c => hne' c.1)]
    · rw [bigEnd_setBig, if_neg (fun c => hne' c.1), bigEnd_setSmall]

theorem mem_cpc_pairs (isects : BoxArray → Box → List (Nat × Box)) (dstba srcba : BoxArray)
    (e : Nat × Nat × Box) :
    e ∈ CPC.pairs isects dstba srcba ↔
      ∃ b, dstba[e.1]? = some b ∧ (e.2.1, e.2.2) ∈ isects srcba b := by
  unfold CPC.pairs
  simp only [List.mem_flatMap, List.mem_map]
  constructor
  · rintro ⟨ib, hib, kb, hkb, rfl⟩
    exact ⟨ib.2, List.mem_enum_iff_getElem?.mp hib, hkb⟩
  · rintro ⟨b, hb, hk⟩
    exact ⟨(e.1, b), List.mem_enum_iff_getElem?.mpr hb, (e.2.1, e.2.2), hk, rfl⟩

theorem mem_si_pairs (D : Nat) (isects : BoxArray → Box → List (Nat × Box)) (si : SI)
    (ba : BoxArray) (e : Nat × Nat × Box) :
    e ∈ SI.pairs D isects si ba ↔
      e.2.1 ≠ e.1 ∧ ∃ vbx, ba[e.1]? = some vbx ∧
        ∃ q ∈ SI.boxes D si vbx, (e.2.1, e.2.2) ∈ isects ba q := by
  unfold SI.pairs
  simp only [List.mem_filter, List.mem_flatMap, List.mem_map, decide_eq_true_eq]
  constructor
  · rintro ⟨⟨ib, hib, q, hq, kb, hkb, rfl⟩, hne⟩
    exact ⟨hne, ib.2, List.mem_enum_iff_getElem?.mp hib, q, hq, hkb⟩
  · rintro ⟨hne, vbx, hb, q, hq, hk⟩
    exact ⟨⟨(e.1, vbx), List.mem_enum_iff_getElem?.mpr hb, q, hq, (e.2.1, e.2.2), hk, rfl⟩, hne⟩

theorem si_built_plan (D : Nat) (MyProc : Int) (isects : BoxArray → Box → List (Nat × Box))
    (tag0 : CopyComTag) (cross : Bool) (mf : FabArrayBase) :
    (SI.built D MyProc isects tag0 (SI.ctor mf.boxarray mf.distributionMap mf.n_grow cross)
        mf).plan =
      (tagLoop MyProc mf.distributionMap mf.distributionMap
        (SI.pairs D isects (SI.ctor mf.boxarray mf.distributionMap mf.n_grow cross) mf.boxarray)
        (tag0, PlanData.empty)).2 := by
  unfold SI.built
  simp only [si_build_eq_tagLoop]
  rfl

theorem cpc_built_plan (MyProc : Int) (isects : BoxArray → Box → List (Nat × Box))
    (tag0 : CopyComTag) (dstBA srcBA : BoxArray) (dstDM srcDM : DistributionMapping) :
    (CPC.built MyProc isects tag0 (CPC.ctor dstBA srcBA dstDM srcDM)).plan =
      (tagLoop MyProc dstDM srcDM (CPC.pairs isects dstBA srcBA) (tag0, PlanData.empty)).2 := by
  unfold CPC.built
  simp only [cpc_build_eq_tagLoop]
  rfl

/-- Every tag of a plan built from empty containers stems from a triple of the list the
loop ran over: it carries the box of the triple and the tile index its branch assigns. -/
theorem tagLoop_tag_origin (MyProc : Int) (ddm sdm : DistributionMapping)
    (prs : List (Nat × Nat × Box)) (tag0 : CopyComTag) :
    (∀ p : Int, ∀ t ∈ StdMap.tagsOf
        (tagLoop MyProc ddm sdm prs (tag0, PlanData.empty)).2.m_SndTags p,
      p ≠ MyProc ∧ ∃ e ∈ prs, t.box = e.2.2 ∧ t.fabIndex = (e.2.1 : Int) ∧
        owner sdm e.2.1 = MyProc ∧ owner ddm e.1 = p) ∧
    (∀ p : Int, ∀ t ∈ StdMap.tagsOf
        (tagLoop MyProc ddm sdm prs (tag0, PlanData.empty)).2.m_RcvTags p,
      p ≠ MyProc ∧ ∃ e ∈ prs, t.box = e.2.2 ∧ t.fabIndex = (e.1 : Int) ∧
        owner ddm e.1 = MyProc ∧ owner sdm e.2.1 = p) ∧
    (∀ t ∈ (tagLoop MyProc ddm sdm prs (tag0, PlanData.empty)).2.m_LocTags,
      ∃ e ∈ prs,
        t = { box := e.2.2, fabIndex := (e.1 : Int), srcIndex := (e.2.1 : Int) } ∧
        owner ddm e.1 = MyProc ∧ owner sdm e.2.1 = MyProc) := by
  obtain ⟨h1, h2, h3, _, _⟩ := tagLoop_empty_spec MyProc ddm sdm prs tag0
  refine ⟨?_, ?_, ?_⟩
  · intro p t ht
    have hx : t.assigned ∈ prs.filterMap (sndTag MyProc ddm sdm p) := by
      rw [← h3 p]; exact List.mem_map_of_mem _ ht
    exact mem_filterMap_sndTag _ _ _ _ _ _ hx
  · intro p t ht
    have hx : t.assigned ∈ prs.filterMap (rcvTag MyProc ddm sdm p) := by
      rw [← h2 p]; exact List.mem_map_of_mem _ ht
    exact mem_filterMap_rcvTag _ _ _ _ _ _ hx
  · intro t ht
    have hx : t ∈ prs.filterMap (locTag MyProc ddm sdm) := by
      rw [← h1]; exact ht
    exact mem_filterMap_locTag _ _ _ _ _ hx

/-- C15: for every fill-boundary descriptor and every rank, the plan built by `TheFB`
holds exactly one tag per triple (dst tile `i`, halo query `q` of tile `i`, intersection
`(k, box)` of the array with `q`) with `k ≠ i` in which this rank owns tile `i` or tile
`k`, in loop order, classified as in the copy plan with `i` as dst and `k` as src: a local
tag `(box, i, k)`, a receive tag with `(box, i)` under the owner of `k`, or a send tag
with `(box, k)` under the owner of `i`.  No triple has `k = i`, so no local tag has
`srcIndex` equal to its dst index.  Called on the empty cache, `TheFB` stores and returns
the entry with exactly this plan, unless the plan has no work. -/
theorem C15_TheFB_classification (D : Nat) (MyProc : Int)
    (isects : BoxArray → Box → List (Nat × Box)) (tag0 : CopyComTag) (cross : Bool)
    (mf : FabArrayBase) :
    (∀ e, e ∈ SI.pairs D isects (SI.ctor mf.boxarray mf.distributionMap mf.n_grow cross)
        mf.boxarray ↔
      e.2.1 ≠ e.1 ∧ ∃ vbx, mf.boxarray[e.1]? = some vbx ∧
        ∃ q ∈ SI.boxes D (SI.ctor mf.boxarray mf.distributionMap mf.n_grow cross) vbx,
          (e.2.1, e.2.2) ∈ isects mf.boxarray q) ∧
    (SI.built D MyProc isects tag0 (SI.ctor mf.boxarray mf.distributionMap mf.n_grow cross)
        mf).plan.m_LocTags =
      (SI.pairs D isects (SI.ctor mf.boxarray mf.distributionMap mf.n_grow cross)
        mf.boxarray).filterMap (locTag MyProc mf.distributionMap mf.distributionMap) ∧
    (∀ p : Int,
      (StdMap.tagsOf (SI.built D MyProc isects tag0
        (SI.ctor mf.boxarray mf.distributionMap mf.n_grow cross) mf).plan.m_RcvTags p).map
          CopyComTag.assigned =
        (SI.pairs D isects (SI.ctor mf.boxarray mf.distributionMap mf.n_grow cross)
          mf.boxarray).filterMap (rcvTag MyProc mf.distributionMap mf.distributionMap p)) ∧
    (∀ p : Int,
      (StdMap.tagsOf (SI.built D MyProc isects tag0
        (SI.ctor mf.boxarray mf.distributionMap mf.n_grow cross) mf).plan.m_SndTags p).map
          CopyComTag.assigned =
        (SI.pairs D isects (SI.ctor mf.boxarray mf.distributionMap mf.n_grow cross)
          mf.boxarray).filterMap (sndTag MyProc mf.distributionMap mf.distributionMap p)) ∧
    (∀ p : Int,
      (StdMap.find (SI.built D MyProc isects tag0
        (SI.ctor mf.boxarray mf.distributionMap mf.n_grow cross) mf).plan.m_RcvTags p).isSome =
          true ↔
        (SI.pairs D isects (SI.ctor mf.boxarray mf.distributionMap mf.n_grow cross)
          mf.boxarray).filterMap (rcvTag MyProc mf.distributionMap mf.distributionMap p) ≠ []) ∧
    (∀ p : Int,
      (StdMap.find (SI.built D MyProc isects tag0
        (SI.ctor mf.boxarray mf.distributionMap mf.n_grow cross) mf).plan.m_SndTags p).isSome =
          true ↔
        (SI.pairs D isects (SI.ctor mf.boxarray mf.distributionMap mf.n_grow cross)
          mf.boxarray).filterMap (sndTag MyProc mf.distributionMap mf.distributionMap p) ≠ []) ∧
    (∀ t ∈ (SI.built D MyProc isects tag0
        (SI.ctor mf.boxarray mf.distributionMap mf.n_grow cross) mf).plan.m_LocTags,
      t.srcIndex ≠ t.fabIndex) ∧
    (∀ g : Globals,
      TheFB D g MyProc isects tag0 [] cross mf =
        if (SI.built D MyProc isects tag0
            (SI.ctor mf.boxarray mf.distributionMap mf.n_grow cross) mf).plan.noWork = true
        then ([], none)
        else ([(SI.Key cross mf, SI.built D MyProc isects tag0
                (SI.ctor mf.boxarray mf.distributionMap mf.n_grow cross) mf)], some 0)) := by
  have hb := si_built_plan D MyProc isects tag0 cross mf
  obtain ⟨h1, h2, h3, h4, h5⟩ := tagLoop_empty_spec MyProc mf.distributionMap
    mf.distributionMap
    (SI.pairs D isects (SI.ctor mf.boxarray mf.distributionMap mf.n_grow cross) mf.boxarray) tag0
  refine ⟨fun e => mem_si_pairs D isects _ mf.boxarray e, ?_, ?_, ?_, ?_, ?_, ?_, ?_⟩
  · rw [hb]; exact h1
  · rw [hb]; exact h2
  · rw [hb]; exact h3
  · rw [hb]; exact h4
  · rw [hb]; exact h5
  · rw [hb]
    intro t ht
    obtain ⟨e, he, hte, _, _⟩ := (tagLoop_tag_origin MyProc mf.distributionMap
      mf.distributionMap _ tag0).2.2 t ht
    have hne := ((mem_si_pairs D isects _ mf.boxarray e).mp he).1
    rw [hte]
    show (e.2.1 : Int) ≠ (e.1 : Int)
    exact_mod_cast hne
  · intro g
    exact lookup_nil SI.m_reused SI.setReused (fun e => e.plan.noWork)
      (fun e => SI.eq e (SI.ctor mf.boxarray mf.distributionMap mf.n_grow cross))
      g.use_fb_cache g.fb_cache_max_size (SI.Key cross mf)
      (SI.built D MyProc isects tag0 (SI.ctor mf.boxarray mf.distributionMap mf.n_grow cross) mf)

theorem getD_zipWith_of_lt (f : Int → Int → Int) (l1 l2 : List Int) (d : Nat)
    (h1 : d < l1.length) (h2 : d < l2.length) :
    (List.zipWith f l1 l2).getD d 0 = f (l1.getD d 0) (l2.getD d 0) := by
  simp [List.getD_eq_getElem?_getD, List.getElem?_zipWith, List.getElem?_eq_getElem h1,
    List.getElem?_eq_getElem h2]

theorem all_zip_le (lo hi : List Int) (h : List.all (List.zip lo hi)
    (fun p => decide (p.1 ≤ p.2)) = true) (d : Nat) (h1 : d < lo.length) (h2 : d < hi.length) :
    lo.getD d 0 ≤ hi.getD d 0 := by
  rw [List.all_eq_true] at h
  have hlen : d < (List.zip lo hi).length := by
    rw [List.length_zip]; omega
  have hm : (List.zip lo hi)[d] ∈ List.zip lo hi := List.getElem_mem hlen
  have := h _ hm
  rw [List.getElem_zip] at this
  simpa [List.getD_eq_getElem?_getD, List.getElem?_eq_getElem h1,
    List.getElem?_eq_getElem h2] using this

/-- The intersection routine modelled from the spec keeps its promise. -/
theorem intersections_clipped (D : Nat) : IsectsClipped D intersections := by
  intro ba q hba hq kb hkb
  unfold intersections at hkb
  rw [List.mem_filterMap] at hkb
  obtain ⟨ib, hib, hf⟩ := hkb
  have hget : ba[ib.1]? = some ib.2 := List.mem_enum_iff_getElem?.mp hib
  have hbdim : Box.dim D ib.2 := hba ib.2 (List.getElem?_mem hget)
  dsimp only at hf
  split_ifs at hf with hall
  simp only [Option.some.injEq] at hf
  subst hf
  obtain ⟨hb1, hb2⟩ := hbdim
  obtain ⟨hq1, hq2⟩ := hq
  have hlo : ∀ d, d < D → (List.zipWith max ib.2.smallend q.smallend).getD d 0 =
      max (ib.2.smallEnd d) (q.smallEnd d) := fun d hd =>
    getD_zipWith_of_lt max _ _ d (by omega) (by omega)
  have hhi : ∀ d, d < D → (List.zipWith min ib.2.bigend q.bigend).getD d 0 =
      min (ib.2.bigEnd d) (q.bigEnd d) := fun d hd =>
    getD_zipWith_of_lt min _ _ d (by omega) (by omega)
  refine ⟨ib.2, hget, ⟨⟨?_, ?_⟩, ?_⟩, ?_, ?_⟩
  · simp [hb1, hq1]
  · simp [hb2, hq2]
  · intro d hd
    exact all_zip_le _ _ hall d (by simp [hb1, hq1, hd]) (by simp [hb2, hq2, hd])
  · intro d hd
    show q.smallEnd d ≤ (List.zipWith max ib.2.smallend q.smallend).getD d 0 ∧
      (List.zipWith min ib.2.bigend q.bigend).getD d 0 ≤ q.bigEnd d
    rw [hlo d hd, hhi d hd]
    exact ⟨le_max_right _ _, min_le_right _ _⟩
  · intro d hd
    show ib.2.smallEnd d ≤ (List.zipWith max ib.2.smallend q.smallend).getD d 0 ∧
      (List.zipWith min ib.2.bigend q.bigend).getD d 0 ≤ ib.2.bigEnd d
    rw [hlo d hd, hhi d hd]
    exact ⟨le_max_left _ _, min_le_left _ _⟩

theorem tagLoop_tagsFrom (MyProc : Int) (ddm sdm : DistributionMapping)
    (prs : List (Nat × Nat × Box)) (tag0 : CopyComTag) (Q : Nat → Nat → Box → Prop)
    (hQ : ∀ e ∈ prs, Q e.1 e.2.1 e.2.2) :
    TagsFrom MyProc ddm sdm (tagLoop MyProc ddm sdm prs (tag0, PlanData.empty)).2 Q := by
  obtain ⟨hs, hr, hl⟩ := tagLoop_tag_origin MyProc ddm sdm prs tag0
  refine ⟨?_, ?_, ?_⟩
  · intro t ht
    obtain ⟨e, he, hte, h1, h2⟩ := hl t ht
    refine ⟨e.1, e.2.1, by rw [hte], by rw [hte], h1, h2, ?_⟩
    rw [hte]
    exact hQ e he
  · intro p t ht
    obtain ⟨_, e, he, hb, hf, h1, h2⟩ := hr p t ht
    refine ⟨e.1, e.2.1, hf, h1, h2, ?_⟩
    rw [hb]
    exact hQ e he
  · intro p t ht
    obtain ⟨_, e, he, hb, hf, h1, h2⟩ := hs p t ht
    refine ⟨e.1, e.2.1, hf, h1, h2, ?_⟩
    rw [hb]
    exact hQ e he

theorem mem_boxes_cross (D : Nat) (si : SI) (vbx q : Box) (hc : si.m_cross = true)
    (hq : q ∈ SI.boxes D si vbx) :
    ∃ d, d < D ∧ (q = loSlab vbx d si.m_ngrow ∨ q = hiSlab vbx d si.m_ngrow) := by
  rw [boxes_cross D si vbx hc, List.mem_flatMap] at hq
  obtain ⟨d, hd, hq⟩ := hq
  rw [List.mem_range] at hd
  simp only [List.mem_cons, List.mem_singleton, List.not_mem_nil, or_false] at hq
  exact ⟨d, hd, hq⟩

theorem faceOnly_of_slab (D : Nat) (g : Int) (vbx q bx : Box) (hdim : Box.dim D vbx)
    (d : Nat) (hd : d < D) (hq : q = loSlab vbx d g ∨ q = hiSlab vbx d g)
    (hok : Box.ok D bx) (hsub : Box.contains D q bx) : FaceOnly D g vbx bx := by
  obtain ⟨_, a2, a3, a4⟩ := loSlab_spec D vbx g hdim d hd
  obtain ⟨_, b2, b3, b4⟩ := hiSlab_spec D vbx g hdim d hd
  have hother : ∀ d', d' < D → d' ≠ d →
      vbx.smallEnd d' ≤ bx.smallEnd d' ∧ bx.bigEnd d' ≤ vbx.bigEnd d' := by
    intro d' hd' hne
    have h := hsub d' hd'
    rcases hq with rfl | rfl
    · rw [(a4 d' hne).1, (a4 d' hne).2] at h; exact h
    · rw [(b4 d' hne).1, (b4 d' hne).2] at h; exact h
  have hmain : (vbx.smallEnd d - g ≤ bx.smallEnd d ∧ bx.bigEnd d ≤ vbx.smallEnd d - 1) ∨
      (vbx.bigEnd d + 1 ≤ bx.smallEnd d ∧ bx.bigEnd d ≤ vbx.bigEnd d + g) := by
    have h := hsub d hd
    rcases hq with rfl | rfl
    · rw [a2, a3] at h; exact Or.inl h
    · rw [b2, b3] at h; exact Or.inr h
  refine ⟨d, hd, hmain, hother, ?_⟩
  intro d' hd'
  have hbx := hok.2 d' hd'
  unfold Box.outsideOn
  constructor
  · intro hout
    by_contra hne
    have := hother d' hd' hne
    omega
  · intro he
    subst he
    omega

theorem grow_contains_of_slab (D : Nat) (g : Int) (vbx q bx : Box) (hv : Box.ok D vbx)
    (d : Nat) (hd : d < D) (hq : q = loSlab vbx d g ∨ q = hiSlab vbx d g)
    (hok : Box.ok D bx) (hsub : Box.contains D q bx) : Box.contains D (grow vbx g) bx := by
  obtain ⟨d0, _, hmain, hother, _⟩ := faceOnly_of_slab D g vbx q bx hv.1 d hd hq hok hsub
  have hg : 1 ≤ g := by
    have := hok.2 d0 (by assumption)
    omega
  intro d' hd'
  rw [smallEnd_grow D vbx g hv.1 d' hd', bigEnd_grow D vbx g hv.1 d' hd']
  have hvd := hv.2 d' hd'
  have hbx := hok.2 d' hd'
  by_cases he : d' = d0
  · subst he
    omega
  · have := hother d' hd' he
    omega

theorem cpc_pairs_wellPlaced (D : Nat) (isects : BoxArray → Box → List (Nat × Box))
    (hI : IsectsClipped D isects) (dstBA srcBA : BoxArray)
    (hd : ∀ b ∈ dstBA, Box.dim D b) (hs : ∀ b ∈ srcBA, Box.dim D b) :
    ∀ e ∈ CPC.pairs isects dstBA srcBA, ∃ bi bk, dstBA[e.1]? = some bi ∧
      srcBA[e.2.1]? = some bk ∧ WellPlaced D bi bk e.2.2 := by
  intro e he
  obtain ⟨b, hb, hk⟩ := (mem_cpc_pairs isects dstBA srcBA e).mp he
  obtain ⟨bk, hbk, hok, hq, hsub⟩ := hI srcBA b hs (hd b (List.getElem?_mem hb)) _ hk
  exact ⟨b, bk, hb, hbk, hok, hq, hsub⟩

theorem dim_of_mem_boxes (D : Nat) (si : SI) (vbx q : Box) (hdim : Box.dim D vbx)
    (hq : q ∈ SI.boxes D si vbx) : Box.dim D q := by
  cases hc : si.m_cross with
  | true =>
    obtain ⟨d, hd, h⟩ := mem_boxes_cross D si vbx q hc hq
    rcases h with rfl | rfl
    · exact (loSlab_spec D vbx _ hdim d hd).1
    · exact (hiSlab_spec D vbx _ hdim d hd).1
  | false =>
    unfold SI.boxes at hq
    rw [if_neg (by simp [hc]), List.mem_singleton] at hq
    rw [hq]
    exact dim_grow D vbx _ hdim

theorem si_pairs_wellPlaced (D : Nat) (isects : BoxArray → Box → List (Nat × Box))
    (hI : IsectsClipped D isects) (si : SI) (ba : BoxArray) (hba : ∀ b ∈ ba, Box.ok D b) :
    ∀ e ∈ SI.pairs D isects si ba, ∃ bi bk, ba[e.1]? = some bi ∧ ba[e.2.1]? = some bk ∧
      WellPlaced D (grow bi si.m_ngrow) bk e.2.2 := by
  intro e he
  obtain ⟨_, vbx, hv, q, hq, hk⟩ := (mem_si_pairs D isects si ba e).mp he
  have hvok := hba vbx (List.getElem?_mem hv)
  have hqdim := dim_of_mem_boxes D si vbx q hvok.1 hq
  obtain ⟨bk, hbk, hok, hsubq, hsub⟩ := hI ba q (fun b hb => (hba b hb).1) hqdim _ hk
  refine ⟨vbx, bk, hv, hbk, hok, ?_, hsub⟩
  cases hc : si.m_cross with
  | true =>
    obtain ⟨d, hd, h⟩ := mem_boxes_cross D si vbx q hc hq
    exact grow_contains_of_slab D si.m_ngrow vbx q e.2.2 hvok d hd h hok hsubq
  | false =>
    unfold SI.boxes at hq
    rw [if_neg (by simp [hc]), List.mem_singleton] at hq
    rw [← hq]
    exact hsubq

theorem si_pairs_faceOnly (D : Nat) (isects : BoxArray → Box → List (Nat × Box))
    (hI : IsectsClipped D isects) (si : SI) (ba : BoxArray) (hc : si.m_cross = true)
    (hba : ∀ b ∈ ba, Box.dim D b) :
    ∀ e ∈ SI.pairs D isects si ba, ∃ vbx, ba[e.1]? = some vbx ∧
      FaceOnly D si.m_ngrow vbx e.2.2 := by
  intro e he
  obtain ⟨_, vbx, hv, q, hq, hk⟩ := (mem_si_pairs D isects si ba e).mp he
  have hvdim := hba vbx (List.getElem?_mem hv)
  have hqdim := dim_of_mem_boxes D si vbx q hvdim hq
  obtain ⟨bk, _, hok, hsubq, _⟩ := hI ba q hba hqdim _ hk
  obtain ⟨d, hd, h⟩ := mem_boxes_cross D si vbx q hc hq
  exact ⟨vbx, hv, faceOnly_of_slab D si.m_ngrow vbx q e.2.2 hvdim d hd h hok hsubq⟩

/-- C17 fails as stated: in the two-rank scenario the one receive tag of rank 0 has the
box `[4,0]..[4,3]` and `fabIndex = 0`, but the receive branch never assigns `srcIndex`;
with the local tag initially `exTag` the field holds 0, not the src tile 1. -/
theorem C17_two_rank_scenario_counterexample :
    StdMap.tagsOf (SI.built 2 0 intersections exTag
        (SI.ctor exFab.boxarray exFab.distributionMap exFab.n_grow true) exFab).plan.m_RcvTags
        1 =
      [{ box := { smallend := [4, 0], bigend := [4, 3] }, fabIndex := 0, srcIndex := 0 }] ∧
    StdMap.tagsOf (SI.built 2 0 intersections exTag
        (SI.ctor exFab.boxarray exFab.distributionMap exFab.n_grow true) exFab).plan.m_RcvTags
        1 ≠
      [{ box := { smallend := [4, 0], bigend := [4, 3] }, fabIndex := 0, srcIndex := 1 }] := by
  constructor <;> decide

/-- C17 as amended: for `BA = [[0,0]..[3,3], [4,0]..[7,3]]`, `DM = [0,1]`, `nGrow = 1`,
`cross = true` in two dimensions, the plan built by `TheFB` on rank 0 has no local tags,
one receive tag under peer 1 with box `[4,0]..[4,3]` and dst index 0, one send tag under
peer 1 with box `[3,0]..[3,3]` and src index 0, and both volumes `{1: 4}`; the plan built
on rank 1 is the mirror image (receive tag from rank 0 with box `[3,0]..[3,3]` and dst
index 1).  The `srcIndex` field of these tags is not assigned: it keeps the content the
local tag had at the start, whatever that was. -/
theorem C17_two_rank_scenario_amended (tag0 : CopyComTag) :
    (SI.built 2 0 intersections tag0
        (SI.ctor exFab.boxarray exFab.distributionMap exFab.n_grow true) exFab).plan =
      { m_LocTags := [],
        m_SndTags := [(1, [{ box := { smallend := [3, 0], bigend := [3, 3] }, fabIndex := 0,
                             srcIndex := tag0.srcIndex }])],
        m_RcvTags := [(1, [{ box := { smallend := [4, 0], bigend := [4, 3] }, fabIndex := 0,
                             srcIndex := tag0.srcIndex }])],
        m_SndVols := [(1, 4)],
        m_RcvVols := [(1, 4)] } ∧
    (SI.built 2 1 intersections tag0
        (SI.ctor exFab.boxarray exFab.distributionMap exFab.n_grow true) exFab).plan =
      { m_LocTags := [],
        m_SndTags := [(0, [{ box := { smallend := [4, 0], bigend := [4, 3] }, fabIndex := 1,
                             srcIndex := tag0.srcIndex }])],
        m_RcvTags := [(0, [{ box := { smallend := [3, 0], bigend := [3, 3] }, fabIndex := 1,
                             srcIndex := tag0.srcIndex }])],
        m_SndVols := [(0, 4)],
        m_RcvVols := [(0, 4)] } ∧
    exFab = { boxarray := [{ smallend := [0, 0], bigend := [3, 3] },
                           { smallend := [4, 0], bigend := [7, 3] }],
              distributionMap := [0, 1], n_grow := 1 } := by
  refine ⟨rfl, rfl, rfl⟩

/-- The modelled intersection routine returns indices of member boxes. -/
theorem intersections_index (ba : BoxArray) (q : Box) :
    ∀ kb ∈ intersections ba q, kb.1 < ba.length := by
  intro kb hkb
  unfold intersections at hkb
  simp only [List.mem_filterMap] at hkb
  obtain ⟨ib, hib, hx⟩ := hkb
  split at hx
  · simp only [Option.some.injEq] at hx
    subst hx
    have h := List.mem_enum_iff_getElem?.mp hib
    exact (List.getElem?_eq_some_iff.mp h).1
  · exact absurd hx (by simp)

/-- A tag loop over triples whose tiles all belong to this rank files every triple as a local
tag and leaves the send and receive containers empty. -/
theorem tagLoop_all_local (MyProc : Int) (ddm sdm : DistributionMapping)
    (prs : List (Nat × Nat × Box)) (tag0 : CopyComTag)
    (h : ∀ e ∈ prs, owner ddm e.1 = MyProc ∧ owner sdm e.2.1 = MyProc) :
    (tagLoop MyProc ddm sdm prs (tag0, PlanData.empty)).2 =
      { m_LocTags := prs.map (fun e =>
          { box := e.2.2, fabIndex := (e.1 : Int), srcIndex := (e.2.1 : Int) }),
        m_SndTags := [], m_RcvTags := [], m_SndVols := [], m_RcvVols := [] } := by
  obtain ⟨hl, -, -, hr, hs⟩ := tagLoop_empty_spec MyProc ddm sdm prs tag0
  obtain ⟨⟨hks, -⟩, ⟨hkr, -⟩⟩ := tagLoop_empty_vols MyProc ddm sdm prs tag0
  have hsnd : (tagLoop MyProc ddm sdm prs (tag0, PlanData.empty)).2.m_SndTags = [] := by
    by_contra hne
    obtain ⟨p, hp⟩ := StdMap.exists_find_of_ne_nil _ hne
    apply (hs p).mp hp
    rw [List.filterMap_eq_nil_iff]
    intro e he
    simp [sndTag, (h e he).1]
  have hrcv : (tagLoop MyProc ddm sdm prs (tag0, PlanData.empty)).2.m_RcvTags = [] := by
    by_contra hne
    obtain ⟨p, hp⟩ := StdMap.exists_find_of_ne_nil _ hne
    apply (hr p).mp hp
    rw [List.filterMap_eq_nil_iff]
    intro e he
    simp [rcvTag, (h e he).2]
  rw [hsnd, List.map_nil, List.map_eq_nil_iff] at hks
  rw [hrcv, List.map_nil, List.map_eq_nil_iff] at hkr
  have hloc : prs.filterMap (locTag MyProc ddm sdm) = prs.map (fun e =>
      ({ box := e.2.2, fabIndex := (e.1 : Int), srcIndex := (e.2.1 : Int) } : CopyComTag)) := by
    clear hl hr hs hsnd hrcv hks hkr
    induction prs with
    | nil => rfl
    | cons e prs ih =>
      have he := h e (List.mem_cons_self _ _)
      rw [List.filterMap_cons, List.map_cons, ih (fun x hx => h x (List.mem_cons_of_mem _ hx))]
      simp [locTag, he.1, he.2]
  cases hP : (tagLoop MyProc ddm sdm prs (tag0, PlanData.empty)).2 with
  | mk a b c d f =>
    rw [hP] at hl hsnd hrcv hks hkr
    simp only at hl hsnd hrcv hks hkr
    rw [hl, hsnd, hrcv, hks, hkr, hloc]

/-- C18: when this rank owns every dst tile and every src tile (and the intersection routine
returns indices of member boxes of the src array), the plan built by `TheCPC` has empty
`m_SndTags`, `m_RcvTags`, `m_SndVols` and `m_RcvVols`, and `m_LocTags` holds exactly one tag
`(box, i, k)` per intersecting pair of dst tile `i` and src tile `k`, in loop order; on an
empty cache `TheCPC` stores and returns that plan. -/
theorem C18_single_owner_local (g : Globals) (MyProc : Int)
    (isects : BoxArray → Box → List (Nat × Box)) (tag0 : CopyComTag)
    (dstBA srcBA : BoxArray) (dstDM srcDM : DistributionMapping)
    (hidx : ∀ q : Box, ∀ kb ∈ isects srcBA q, kb.1 < srcBA.length)
    (hd : ∀ i : Nat, i < dstBA.length → owner dstDM i = MyProc)
    (hs : ∀ k : Nat, k < srcBA.length → owner srcDM k = MyProc) :
    (CPC.built MyProc isects tag0 (CPC.ctor dstBA srcBA dstDM srcDM)).plan =
      { m_LocTags := (CPC.pairs isects dstBA srcBA).map (fun e =>
          { box := e.2.2, fabIndex := (e.1 : Int), srcIndex := (e.2.1 : Int) }),
        m_SndTags := [], m_RcvTags := [], m_SndVols := [], m_RcvVols := [] } ∧
    TheCPC g MyProc isects tag0 [] (CPC.ctor dstBA srcBA dstDM srcDM) =
      (if (CPC.built MyProc isects tag0 (CPC.ctor dstBA srcBA dstDM srcDM)).plan.noWork = true
        then ([], none)
        else ([(CPC.Key (CPC.ctor dstBA srcBA dstDM srcDM),
                CPC.built MyProc isects tag0 (CPC.ctor dstBA srcBA dstDM srcDM))], some 0)) := by
  refine ⟨?_, ?_⟩
  · rw [cpc_built_plan]
    apply tagLoop_all_local
    intro e he
    obtain ⟨b, hb, hk⟩ := (mem_cpc_pairs isects dstBA srcBA e).mp he
    exact ⟨hd e.1 (List.getElem?_eq_some_iff.mp hb).1, hs e.2.1 (hidx b _ hk)⟩
  · exact lookup_nil CPC.m_reused CPC.setReused (fun e => e.plan.noWork)
      (fun e => CPC.eq e (CPC.ctor dstBA srcBA dstDM srcDM)) g.use_copy_cache
      g.copy_cache_max_size (CPC.Key (CPC.ctor dstBA srcBA dstDM srcDM))
      (CPC.built MyProc isects tag0 (CPC.ctor dstBA srcBA dstDM srcDM))

/-- C18 at `dstBA = srcBA = [[0,0]..[3,3], [4,0]..[7,3]]`, both tiles on rank 0: the plan of
rank 0 is the two local tags of the tiles onto themselves and nothing else, and `TheCPC`
caches it. -/
theorem C18_single_owner_local_witness :
    (∀ q : Box, ∀ kb ∈ intersections [exBoxA, exBoxB] q, kb.1 < [exBoxA, exBoxB].length) ∧
    (∀ i : Nat, i < [exBoxA, exBoxB].length → owner [0, 0] i = 0) ∧
    (CPC.built 0 intersections exTag (CPC.ctor [exBoxA, exBoxB] [exBoxA, exBoxB] [0, 0]
        [0, 0])).plan =
      { m_LocTags := [{ box := exBoxA, fabIndex := 0, srcIndex := 0 },
                      { box := exBoxB, fabIndex := 1, srcIndex := 1 }],
        m_SndTags := [], m_RcvTags := [], m_SndVols := [], m_RcvVols := [] } ∧
    TheCPC exGlobals 0 intersections exTag [] (CPC.ctor [exBoxA, exBoxB] [exBoxA, exBoxB]
        [0, 0] [0, 0]) =
      ([(CPC.Key (CPC.ctor [exBoxA, exBoxB] [exBoxA, exBoxB] [0, 0] [0, 0]),
         CPC.built 0 intersections exTag (CPC.ctor [exBoxA, exBoxB] [exBoxA, exBoxB] [0, 0]
           [0, 0]))], some 0) :=
  ⟨intersections_index [exBoxA, exBoxB], by decide,
   (C18_single_owner_local exGlobals 0 intersections exTag [exBoxA, exBoxB] [exBoxA, exBoxB]
      [0, 0] [0, 0] (intersections_index [exBoxA, exBoxB]) (by decide) (by decide)).1,
   (C18_single_owner_local exGlobals 0 intersections exTag [exBoxA, exBoxB] [exBoxA, exBoxB]
      [0, 0] [0, 0] (intersections_index [exBoxA, exBoxB]) (by decide) (by decide)).2⟩

/-- A `filterMap` whose function is a guarded `some (g e)` keeps the elements of a
sub-list, in order, and maps them by `g`. -/
theorem filterMap_eq_map_filter {α β : Type} (f : α → Option β) (g : α → β)
    (hf : ∀ e y, f e = some y → y = g e) (l : List α) :
    l.filterMap f = (l.filter (fun e => (f e).isSome)).map g := by
  induction l with
  | nil => rfl
  | cons a l ih =>
    rw [List.filterMap_cons, List.filter_cons]
    cases h : f a with
    | none => simpa using ih
    | some y =>
      have := hf a y h
      subst this
      simp [ih]

/-- The triples produced tile by tile from an enumerated array carry non-decreasing tile
indices. -/
theorem pairwise_flatMap_enumFrom {α β : Type} (f : Nat × α → List (Nat × β))
    (hf : ∀ ib, ∀ y ∈ f ib, y.1 = ib.1) (l : List α) (n : Nat) :
    ((l.enumFrom n).flatMap f).Pairwise (fun a b => a.1 ≤ b.1) ∧
      ∀ y ∈ (l.enumFrom n).flatMap f, n ≤ y.1 := by
  induction l generalizing n with
  | nil => simp
  | cons a l ih =>
    obtain ⟨ih1, ih2⟩ := ih (n + 1)
    simp only [List.enumFrom_cons, List.flatMap_cons]
    refine ⟨?_, ?_⟩
    · rw [List.pairwise_append]
      refine ⟨?_, ih1, ?_⟩
      · rw [List.pairwise_iff_forall_sublist]
        intro x y hxy
        have hx := hf _ x (hxy.subset (List.mem_cons_self _ _))
        have hy := hf _ y (hxy.subset (List.mem_cons_of_mem _ (List.mem_singleton_self _)))
        simp only at hx hy
        omega
      · intro x hx y hy
        have h1 := hf _ x hx
        have h2 := ih2 y hy
        simp only at h1
        omega
    · intro y hy
      rcases List.mem_append.mp hy with h | h
      · have h1 := hf _ y h
        simp only at h1
        omega
      · have h2 := ih2 y h
        omega

theorem cpc_pairs_sorted (isects : BoxArray → Box → List (Nat × Box)) (dstba srcba : BoxArray) :
    (CPC.pairs isects dstba srcba).Pairwise (fun a b => a.1 ≤ b.1) := by
  unfold CPC.pairs List.enum
  refine (pairwise_flatMap_enumFrom _ ?_ dstba 0).1
  intro ib y hy
  simp only [List.mem_map] at hy
  obtain ⟨kb, -, rfl⟩ := hy
  rfl

theorem si_pairs_sorted (D : Nat) (isects : BoxArray → Box → List (Nat × Box)) (si : SI)
    (ba : BoxArray) :
    (SI.pairs D isects si ba).Pairwise (fun a b => a.1 ≤ b.1) := by
  unfold SI.pairs List.enum
  refine List.Pairwise.sublist (List.filter_sublist _) (pairwise_flatMap_enumFrom _ ?_ ba 0).1
  intro ib y hy
  simp only [List.mem_flatMap, List.mem_map] at hy
  obtain ⟨q, -, kb, -, rfl⟩ := hy
  rfl

theorem tagLoop_tagsInOrder (MyProc : Int) (ddm sdm : DistributionMapping)
    (prs : List (Nat × Nat × Box)) (tag0 : CopyComTag)
    (hs : prs.Pairwise (fun a b => a.1 ≤ b.1)) :
    TagsInOrder prs (tagLoop MyProc ddm sdm prs (tag0, PlanData.empty)).2 := by
  obtain ⟨hl, hr, hsn, -, -⟩ := tagLoop_empty_spec MyProc ddm sdm prs tag0
  have el : prs.filterMap (locTag MyProc ddm sdm) =
      (prs.filter (fun e => (locTag MyProc ddm sdm e).isSome)).map (fun e =>
        ({ box := e.2.2, fabIndex := (e.1 : Int), srcIndex := (e.2.1 : Int) } : CopyComTag)) := by
    apply filterMap_eq_map_filter
    intro e y h
    unfold locTag at h
    split at h
    · exact (Option.some.inj h).symm
    · exact absurd h (by simp)
  have er : ∀ p, prs.filterMap (rcvTag MyProc ddm sdm p) =
      (prs.filter (fun e => (rcvTag MyProc ddm sdm p e).isSome)).map
        (fun e => (e.2.2, (e.1 : Int))) := by
    intro p
    apply filterMap_eq_map_filter
    intro e y h
    unfold rcvTag at h
    split at h
    · exact (Option.some.inj h).symm
    · exact absurd h (by simp)
  have es : ∀ p, prs.filterMap (sndTag MyProc ddm sdm p) =
      (prs.filter (fun e => (sndTag MyProc ddm sdm p e).isSome)).map
        (fun e => (e.2.2, (e.2.1 : Int))) := by
    intro p
    apply filterMap_eq_map_filter
    intro e y h
    unfold sndTag at h
    split at h
    · exact (Option.some.inj h).symm
    · exact absurd h (by simp)
  have mono : ∀ l : List (Nat × Nat × Box), l.Sublist prs →
      (l.map (fun e => (e.1 : Int))).Pairwise (fun a b => a ≤ b) := by
    intro l hl
    rw [List.pairwise_map]
    exact (hs.sublist hl).imp (fun h => by exact_mod_cast h)
  refine ⟨⟨_, List.filter_sublist _, hl.trans el⟩,
    fun p => ⟨_, List.filter_sublist _, (hr p).trans (er p)⟩,
    fun p => ⟨_, List.filter_sublist _, (hsn p).trans (es p)⟩, ?_, ?_⟩
  · rw [hl, el, List.map_map]
    exact mono _ (List.filter_sublist _)
  · intro p
    have h : (StdMap.tagsOf (tagLoop MyProc ddm sdm prs (tag0, PlanData.empty)).2.m_RcvTags
        p).map CopyComTag.fabIndex =
        ((StdMap.tagsOf (tagLoop MyProc ddm sdm prs (tag0, PlanData.empty)).2.m_RcvTags
          p).map CopyComTag.assigned).map Prod.snd := by
      rw [List.map_map]
      rfl
    rw [h, hr p, er p, List.map_map]
    exact mono _ (List.filter_sublist _)

/-- C19: in the plan built by `TheCPC` and in the plan built by `TheFB`, `m_LocTags` and,
for every peer `p`, the tags under `p` in `m_RcvTags` and in `m_SndTags` (their assigned
fields) are the images of sub-lists of the enumeration of the loops, which runs over the
dst tiles in increasing index and within a tile over the halo queries and intersections
in the order returned; so the enumeration has non-decreasing dst index, and so has
`fabIndex` along `m_LocTags` and along each receive list. -/
theorem C19_tag_order (D : Nat) (MyProc : Int) (isects : BoxArray → Box → List (Nat × Box))
    (tag0 : CopyComTag) (dstBA srcBA : BoxArray) (dstDM srcDM : DistributionMapping)
    (cross : Bool) (mf : FabArrayBase) :
    ((CPC.pairs isects dstBA srcBA).Pairwise (fun a b => a.1 ≤ b.1) ∧
      TagsInOrder (CPC.pairs isects dstBA srcBA)
        (CPC.built MyProc isects tag0 (CPC.ctor dstBA srcBA dstDM srcDM)).plan) ∧
    ((SI.pairs D isects (SI.ctor mf.boxarray mf.distributionMap mf.n_grow cross)
        mf.boxarray).Pairwise (fun a b => a.1 ≤ b.1) ∧
      TagsInOrder
        (SI.pairs D isects (SI.ctor mf.boxarray mf.distributionMap mf.n_grow cross) mf.boxarray)
        (SI.built D MyProc isects tag0
          (SI.ctor mf.boxarray mf.distributionMap mf.n_grow cross) mf).plan) := by
  refine ⟨⟨cpc_pairs_sorted _ _ _, ?_⟩, ⟨si_pairs_sorted _ _ _ _, ?_⟩⟩
  · rw [cpc_built_plan]
    exact tagLoop_tagsInOrder _ _ _ _ _ (cpc_pairs_sorted _ _ _)
  · rw [si_built_plan]
    exact tagLoop_tagsInOrder _ _ _ _ _ (si_pairs_sorted _ _ _ _)

theorem flushStats_foldl {E : Type} (reused : E → Bool) (bytes : E → Int)
    (cache : List (Int × E)) (s1 s2 : Int) :
    cache.foldl (fun (st : Int × Int) it =>
        let s2 := wrapInt (st.2 + bytes it.2)
        if reused it.2 then (wrapInt (st.1 + 1), s2) else (st.1, s2)) (wrapInt s1, wrapInt s2) =
      (wrapInt (s1 + (cache.countP (fun it => reused it.2) : Nat)),
       wrapInt (s2 + (cache.map (fun it => bytes it.2)).sum)) := by
  induction cache generalizing s1 s2 with
  | nil => simp
  | cons a l ih =>
    rw [List.foldl_cons, List.countP_cons, List.map_cons, List.sum_cons]
    cases hr : reused a.2 with
    | false =>
      simp only [Bool.false_eq_true, if_false, wrapInt_add]
      rw [ih s1 (s2 + bytes a.2)]
      simp [add_assoc]
    | true =>
      simp only [if_true, wrapInt_add]
      rw [ih (s1 + 1) (s2 + bytes a.2)]
      simp only [Nat.cast_add, Nat.cast_one, if_true]
      congr 2 <;> ring

/-- The local statistics of a flush, when no count leaves the range of `int`: the number of
entries, the number of flagged entries and the sum of `bytes()`. -/
theorem flushStats_eq {E : Type} (reused : E → Bool) (bytes : E → Int)
    (cache : List (Int × E)) (hlen : (cache.length : Int) ≤ INT_MAX)
    (hnn : 0 ≤ (cache.map (fun it => bytes it.2)).sum)
    (hsum : (cache.map (fun it => bytes it.2)).sum ≤ INT_MAX) :
    flushStats reused bytes cache =
      ((cache.length : Int), ((cache.countP (fun it => reused it.2) : Nat) : Int),
        (cache.map (fun it => bytes it.2)).sum) := by
  unfold flushStats
  have h := flushStats_foldl reused bytes cache 0 0
  rw [show wrapInt 0 = 0 from rfl] at h
  have hc : ((cache.countP (fun it => reused it.2) : Nat) : Int) ≤ (cache.length : Int) := by
    exact_mod_cast List.countP_le_length _
  simp only [h, zero_add]
  rw [wrapInt_of_range _ (by omega) hlen, wrapInt_of_range _ (by omega) (by omega),
    wrapInt_of_range _ (by omega) hsum]

/-- A lookup on the empty cache for the descriptor of an entry of a reachable copy cache
caches and returns a freshly built plan. -/
theorem cpc_lookup_after_flush (g : Globals) (MyProc : Int)
    (isects : BoxArray → Box → List (Nat × Box)) (tag0 : CopyComTag) (e : Int × CPC)
    (he : CPC.EntryOK MyProc isects e) :
    TheCPC g MyProc isects tag0 []
        (CPC.ctor e.2.m_dstba e.2.m_srcba e.2.m_dstdm e.2.m_srcdm) =
      ([(CPC.Key (CPC.ctor e.2.m_dstba e.2.m_srcba e.2.m_dstdm e.2.m_srcdm),
         CPC.built MyProc isects tag0
           (CPC.ctor e.2.m_dstba e.2.m_srcba e.2.m_dstdm e.2.m_srcdm))], some 0) := by
  have hw : ¬ (CPC.built MyProc isects tag0
      (CPC.ctor e.2.m_dstba e.2.m_srcba e.2.m_dstdm e.2.m_srcdm)).plan.noWork = true := by
    intro hw
    exact cpc_entryOK_miss MyProc isects tag0 _ _ _ _ hw e he
      ((cpc_eq_iff _ _).mpr ⟨rfl, rfl, rfl, rfl⟩)
  have h := lookup_nil CPC.m_reused CPC.setReused (fun e => e.plan.noWork)
    (fun x => CPC.eq x (CPC.ctor e.2.m_dstba e.2.m_srcba e.2.m_dstdm e.2.m_srcdm))
    g.use_copy_cache g.copy_cache_max_size
    (CPC.Key (CPC.ctor e.2.m_dstba e.2.m_srcba e.2.m_dstdm e.2.m_srcdm))
    (CPC.built MyProc isects tag0 (CPC.ctor e.2.m_dstba e.2.m_srcba e.2.m_dstdm e.2.m_srcdm))
  rw [if_neg hw] at h
  exact h

/-- A lookup on the empty cache for the descriptor of an entry of a reachable
fill-boundary cache caches and returns a freshly built plan. -/
theorem fb_lookup_after_flush (D : Nat) (g : Globals) (MyProc : Int)
    (isects : BoxArray → Box → List (Nat × Box)) (tag0 : CopyComTag) (e : Int × SI)
    (he : SI.EntryOK D MyProc isects e) :
    TheFB D g MyProc isects tag0 [] e.2.m_cross
        { boxarray := e.2.m_ba, distributionMap := e.2.m_dm, n_grow := e.2.m_ngrow } =
      ([(SI.Key e.2.m_cross
           { boxarray := e.2.m_ba, distributionMap := e.2.m_dm, n_grow := e.2.m_ngrow },
         SI.built D MyProc isects tag0 (SI.ctor e.2.m_ba e.2.m_dm e.2.m_ngrow e.2.m_cross)
           { boxarray := e.2.m_ba, distributionMap := e.2.m_dm, n_grow := e.2.m_ngrow })],
       some 0) := by
  have hw : ¬ (SI.built D MyProc isects tag0 (SI.ctor e.2.m_ba e.2.m_dm e.2.m_ngrow e.2.m_cross)
      { boxarray := e.2.m_ba, distributionMap := e.2.m_dm, n_grow := e.2.m_ngrow }).plan.noWork
        = true := by
    intro hw
    exact fb_entryOK_miss D MyProc isects tag0 e.2.m_cross
      { boxarray := e.2.m_ba, distributionMap := e.2.m_dm, n_grow := e.2.m_ngrow } hw e he
      ((si_eq_iff _ _).mpr ⟨rfl, rfl, rfl, rfl⟩)
  have h := lookup_nil SI.m_reused SI.setReused (fun e => e.plan.noWork)
    (fun x => SI.eq x (SI.ctor e.2.m_ba e.2.m_dm e.2.m_ngrow e.2.m_cross))
    g.use_fb_cache g.fb_cache_max_size
    (SI.Key e.2.m_cross
      { boxarray := e.2.m_ba, distributionMap := e.2.m_dm, n_grow := e.2.m_ngrow })
    (SI.built D MyProc isects tag0 (SI.ctor e.2.m_ba e.2.m_dm e.2.m_ngrow e.2.m_cross)
      { boxarray := e.2.m_ba, distributionMap := e.2.m_dm, n_grow := e.2.m_ngrow })
  rw [if_neg hw] at h
  exact h

theorem init_sets_flag (pp : ParmParse) (g : Globals) :
    (Initialize pp g).initialized = true := by
  unfold Initialize
  split
  · assumption
  · rfl

/-- C21: `Initialize` run on an uninitialised configuration with a parameter source that
supplies nothing sets `verbose = true`, `do_async_sends = false`,
`do_not_use_cache = false`, `use_copy_cache = true`, `copy_cache_max_size = 50`,
`use_fb_cache = true`, `fb_cache_max_size = 50` (and `initialized = true`); after any
`Initialize` a further `Initialize` changes nothing, whatever its parameter source
supplies. -/
theorem C21_defaults_and_idempotence :
    (∀ g : Globals, Initialize ParmParse.nothing { g with initialized := false } =
      { verbose := true, do_async_sends := false, do_not_use_cache := false,
        initialized := true, use_copy_cache := true, copy_cache_max_size := 50,
        use_fb_cache := true, fb_cache_max_size := 50 }) ∧
    (∀ (pp pp2 : ParmParse) (g : Globals),
      Initialize pp2 (Initialize pp g) = Initialize pp g) ∧
    (∀ (pp : ParmParse) (g : Globals), g.initialized = true → Initialize pp g = g) := by
  refine ⟨fun g => rfl, ?_, ?_⟩
  · intro pp pp2 g
    have h := init_sets_flag pp g
    generalize Initialize pp g = g1 at h
    unfold Initialize
    rw [if_pos h]
  · intro pp g h
    unfold Initialize
    rw [if_pos h]

/-- C21 at a second call whose parameter source asks for both caches to be switched off:
the configuration set by the first call stays. -/
theorem C21_defaults_and_idempotence_witness :
    (Initialize ParmParse.nothing { exGlobals with initialized := false }).initialized = true ∧
    Initialize { ParmParse.nothing with use_copy_cache := some false,
                                        fb_cache_max_size := some 0 }
        (Initialize ParmParse.nothing { exGlobals with initialized := false }) =
      Initialize ParmParse.nothing { exGlobals with initialized := false } :=
  ⟨by decide,
   C21_defaults_and_idempotence.2.2 _ _ (by decide)⟩

/-- C22: the constructor `SI(ba, dm, ngrow, cross)` fails its assertion exactly when
`ngrow < 0`; for `ngrow ≥ 0` the assertion holds and the descriptor stored is
`(ba, dm, ngrow, cross)` with empty containers and `m_reused = false`.  `TheFB`, which
constructs its descriptor from `mf.nGrow()`, aborts exactly when `mf.nGrow() < 0`. -/
theorem C22_negative_grow_asserts (D : Nat) (g : Globals) (MyProc : Int)
    (isects : BoxArray → Box → List (Nat × Box)) (tag0 : CopyComTag) (cache : FBCache)
    (ba : BoxArray) (dm : DistributionMapping) (ngrow : Int) (cross : Bool)
    (mf : FabArrayBase) :
    (SI.ctor_assert ngrow = false ↔ ngrow < 0) ∧
    (SI.ctor_checked ba dm ngrow cross = none ↔ ngrow < 0) ∧
    (0 ≤ ngrow → SI.ctor_assert ngrow = true ∧
      SI.ctor_checked ba dm ngrow cross =
        some { m_ba := ba, m_dm := dm, m_ngrow := ngrow, m_cross := cross,
               plan := PlanData.empty, m_reused := false }) ∧
    (TheFB_checked D g MyProc isects tag0 cache cross mf = none ↔ mf.n_grow < 0) ∧
    (0 ≤ mf.n_grow → TheFB_checked D g MyProc isects tag0 cache cross mf =
      some (TheFB D g MyProc isects tag0 cache cross mf)) := by
  have ha : ∀ n : Int, SI.ctor_assert n = true ↔ 0 ≤ n := by
    intro n; simp [SI.ctor_assert]
  refine ⟨?_, ?_, ?_, ?_, ?_⟩
  · rw [← Bool.not_eq_true, ha]; omega
  · unfold SI.ctor_checked
    by_cases h : 0 ≤ ngrow
    · rw [if_pos ((ha _).mpr h)]; simp; omega
    · rw [if_neg (fun hc => h ((ha _).mp hc))]; simp; omega
  · intro h
    refine ⟨(ha _).mpr h, ?_⟩
    unfold SI.ctor_checked
    rw [if_pos ((ha _).mpr h)]
    rfl
  · unfold TheFB_checked SI.ctor_checked
    by_cases h : 0 ≤ mf.n_grow
    · rw [if_pos ((ha _).mpr h)]; simp; omega
    · rw [if_neg (fun hc => h ((ha _).mp hc))]; simp; omega
  · intro h
    unfold TheFB_checked SI.ctor_checked
    rw [if_pos ((ha _).mpr h)]

/-- C22 at ghost width 1 (accepted) and, for the failing side, at ghost width -1. -/
theorem C22_negative_grow_asserts_witness :
    (0 : Int) ≤ 1 ∧
    SI.ctor_checked [exBoxA, exBoxB] [0, 1] 1 true =
      some { m_ba := [exBoxA, exBoxB], m_dm := [0, 1], m_ngrow := 1, m_cross := true,
             plan := PlanData.empty, m_reused := false } ∧
    SI.ctor_checked [exBoxA, exBoxB] [0, 1] (-1) true = none ∧
    TheFB_checked 2 exGlobals 0 intersections exTag [] true exFab =
      some (TheFB 2 exGlobals 0 intersections exTag [] true exFab) :=
  ⟨by decide,
   ((C22_negative_grow_asserts 2 exGlobals 0 intersections exTag [] [exBoxA, exBoxB] [0, 1] 1
      true exFab).2.2.1 (by decide)).2,
   by decide,
   (C22_negative_grow_asserts 2 exGlobals 0 intersections exTag [] [exBoxA, exBoxB] [0, 1] 1
      true exFab).2.2.2.2 (by decide)⟩

/-- C25: the 3-D `getCoord` does not invert the 3-D `toCoordIdx`: on the grid of 2 x 1 x 1
points the in-range point `(1, 0, 0)` has index `0*2*1 + 0*2 + 1 = 1`, which `getCoord`
decodes to `(-1, 1, 0)`, and on the grid of 4 x 3 x 2 points the index 17 of `(1, 1, 1)`
decodes to `(7, 1, 1)`; so there are grid sizes `nx, ny, nz ≥ 1` and an in-range
`(i, j, k)` whose index does not decode to `(i, j, k)`. -/
theorem C25_getCoord3_not_inverse :
    (Solver.Dim3.toCoordIdx exSolver 1 0 0 = 1 ∧
      Solver.Dim3.getCoord exSolver [(0, Solver.Dim3.toCoordIdx exSolver 1 0 0)] 0 =
        some (-1, 1, 0)) ∧
    (Solver.Dim3.toCoordIdx exSolver432 1 1 1 = 17 ∧
      Solver.Dim3.getCoord exSolver432 [(0, Solver.Dim3.toCoordIdx exSolver432 1 1 1)] 0 =
        some (7, 1, 1)) ∧
    ∃ (s : Solver) (i j k : Int), 1 ≤ s.nx ∧ 1 ≤ s.ny ∧ 1 ≤ s.nz ∧
      0 ≤ i ∧ i < s.nx ∧ 0 ≤ j ∧ j < s.ny ∧ 0 ≤ k ∧ k < s.nz ∧
      Solver.Dim3.toCoordIdx s i j k = k * s.nx * s.ny + j * s.nx + i ∧
      Solver.Dim3.getCoord s [(0, Solver.Dim3.toCoordIdx s i j k)] 0 ≠ some (i, j, k) := by
  refine ⟨by decide, by decide, exSolver, 1, 0, 0, ?_⟩
  decide

/-- The 2-D index of an in-range point, when it fits an `int`, is `j*nx + i`. -/
theorem toCoordIdx2_eq (s : Solver) (i j : Int) (hnx : 1 ≤ s.nx) (hi : 0 ≤ i) (hj : 0 ≤ j)
    (hfit : j * s.nx + i ≤ INT_MAX) :
    Solver.Dim2.toCoordIdx s i j = j * s.nx + i := by
  have h1 : 0 ≤ j * s.nx := mul_nonneg hj (by omega)
  unfold Solver.Dim2.toCoordIdx
  rw [wrapInt_of_range (j * s.nx) (by omega) (by omega),
    wrapInt_of_range _ (by omega) hfit]

/-- C26 fails as stated: on a row of `nx = 65536` points the point `(0, 32768)` is within
the stated range, but `j*nx + i = 2^31` does not fit the `int` that `toCoordIdx` returns:
the index is -2147483648, and `getCoord` decodes it to `(0, -32768)`. -/
theorem C26_index_maps_round_trip2_counterexample :
    ((1 : Int) ≤ exSolverWide.nx ∧ (0 : Int) ≤ 0 ∧ (0 : Int) < exSolverWide.nx ∧
      (0 : Int) ≤ 32768) ∧
    Solver.Dim2.toCoordIdx exSolverWide 0 32768 = -2147483648 ∧
    Solver.Dim2.getCoord exSolverWide [(0, Solver.Dim2.toCoordIdx exSolverWide 0 32768)] 0 =
      some (0, -32768) ∧
    Solver.Dim2.getCoord exSolverWide [(0, Solver.Dim2.toCoordIdx exSolverWide 0 32768)] 0 ≠
      some (0, 32768) := by
  refine ⟨by decide, by decide, by decide, by decide⟩

/-- C26 as amended: for `nx ≥ 1`, `0 ≤ i < nx` and `j ≥ 0` such that `j*nx + i` fits an `int`
(is at most `INT_MAX`), the 2-D
`toCoordIdx(i, j)` is `j*nx + i`, and `getCoord` on an index that `CoordMap` maps to it
returns `(i, j)`: `j = ij / nx`, `i = ij % nx`, and `i` equals `ij - j*nx` as the comment
in the code says. -/
theorem C26_index_maps_round_trip2_amended (s : Solver) (i j : Int) (CoordMap : StdMap Int)
    (idx : Int) (hnx : 1 ≤ s.nx) (hi0 : 0 ≤ i) (hi : i < s.nx) (hj : 0 ≤ j)
    (hfit : j * s.nx + i ≤ INT_MAX)
    (hmap : StdMap.find CoordMap idx = some (Solver.Dim2.toCoordIdx s i j)) :
    Solver.Dim2.toCoordIdx s i j = j * s.nx + i ∧
    Solver.Dim2.getCoord s CoordMap idx = some (i, j) ∧
    i = Solver.Dim2.toCoordIdx s i j - j * s.nx := by
  have he := toCoordIdx2_eq s i j hnx hi0 hj hfit
  have h1 : 0 ≤ j * s.nx := mul_nonneg hj (by omega)
  have hne : s.nx ≠ 0 := by omega
  refine ⟨he, ?_, by rw [he]; ring⟩
  unfold Solver.Dim2.getCoord
  rw [hmap, he]
  simp only [Option.getD_some, if_neg hne]
  have hd : Int.tdiv (j * s.nx + i) s.nx = j := by
    rw [Int.tdiv_eq_ediv (by omega) (by omega), add_comm, Int.add_mul_ediv_right _ _ hne,
      Int.ediv_eq_zero_of_lt hi0 hi, zero_add]
  have hm : Int.tmod (j * s.nx + i) s.nx = i := by
    rw [Int.tmod_eq_emod (by omega) (by omega), add_comm, Int.add_mul_emod_self,
      Int.emod_eq_of_lt hi0 hi]
  rw [hd, hm, wrapInt_of_range j (by omega) (by nlinarith)]

/-- C26 on a row of 4 points: the point `(3, 2)` has index 11, which decodes to `(3, 2)`. -/
theorem C26_index_maps_round_trip2_amended_witness :
    ((1 : Int) ≤ exSolver432.nx ∧ (0 : Int) ≤ 3 ∧ (3 : Int) < exSolver432.nx ∧ (0 : Int) ≤ 2 ∧
      2 * exSolver432.nx + 3 ≤ INT_MAX) ∧
    Solver.Dim2.toCoordIdx exSolver432 3 2 = 11 ∧
    Solver.Dim2.getCoord exSolver432 [(5, Solver.Dim2.toCoordIdx exSolver432 3 2)] 5 =
      some (3, 2) :=
  ⟨by decide, by decide,
   (C26_index_maps_round_trip2_amended exSolver432 3 2 [(5, Solver.Dim2.toCoordIdx exSolver432 3 2)] 5
      (by decide) (by decide) (by decide) (by decide) (by decide) (by decide)).2.1⟩

/-- The corrected 3-D inverse on the integers: it recovers `(i, j, k)` from
`k*nx*ny + j*nx + i`. -/
theorem getCoord_spec_eq (s : Solver) (i j k : Int) (hnx : 1 ≤ s.nx) (hny : 1 ≤ s.ny)
    (hi0 : 0 ≤ i) (hi : i < s.nx) (hj0 : 0 ≤ j) (hj : j < s.ny) :
    Solver.Dim3.getCoord_spec s (k * s.nx * s.ny + j * s.nx + i) = (i, j, k) := by
  have hnxy : 0 < s.nx * s.ny := mul_pos (by omega) (by omega)
  have hr0 : 0 ≤ j * s.nx + i := by
    have := mul_nonneg hj0 (show (0 : Int) ≤ s.nx by omega)
    omega
  have hr1 : j * s.nx + i < s.nx * s.ny := by
    have h : (j + 1) * s.nx ≤ s.ny * s.nx :=
      mul_le_mul_of_nonneg_right (by omega) (by omega)
    nlinarith
  have hk : (k * s.nx * s.ny + j * s.nx + i) / (s.nx * s.ny) = k := by
    have e : k * s.nx * s.ny + j * s.nx + i = (j * s.nx + i) + k * (s.nx * s.ny) := by ring
    rw [e, Int.add_mul_ediv_right _ _ (by omega), Int.ediv_eq_zero_of_lt hr0 hr1, zero_add]
  have hj2 : (k * s.nx * s.ny + j * s.nx + i - k * s.nx * s.ny) / s.nx = j := by
    have e : k * s.nx * s.ny + j * s.nx + i - k * s.nx * s.ny = i + j * s.nx := by ring
    rw [e, Int.add_mul_ediv_right _ _ (by omega), Int.ediv_eq_zero_of_lt hi0 hi, zero_add]
  unfold Solver.Dim3.getCoord_spec
  simp only [hk, hj2]
  refine Prod.ext ?_ rfl
  show k * s.nx * s.ny + j * s.nx + i - k * s.nx * s.ny - j * s.nx = i
  ring

/-- C27 fails as stated: on the grid of 2000 x 2000 x 2000 points the point `(1, 1, 1000)`
is within the stated range, but `k*nx*ny + j*nx + i = 4000002001` does not fit the `int`
that `toCoordIdx` returns: the index is -294965295, from which the inverse recommended by
the specification computes `(705, 517, -74)`. -/
theorem C27_corrected_inverse3_counterexample :
    ((1 : Int) ≤ exSolver2000.nx ∧ (1 : Int) ≤ exSolver2000.ny ∧ (0 : Int) ≤ 1 ∧
      (1 : Int) < exSolver2000.nx ∧ (1 : Int) < exSolver2000.ny ∧ (0 : Int) ≤ 1000) ∧
    (1000 : Int) * exSolver2000.nx * exSolver2000.ny + 1 * exSolver2000.nx + 1 = 4000002001 ∧
    Solver.Dim3.toCoordIdx exSolver2000 1 1 1000 = -294965295 ∧
    Solver.Dim3.getCoord_spec exSolver2000 (Solver.Dim3.toCoordIdx exSolver2000 1 1 1000) =
      (705, 517, -74) ∧
    Solver.Dim3.getCoord_spec exSolver2000 (Solver.Dim3.toCoordIdx exSolver2000 1 1 1000) ≠
      (1, 1, 1000) := by
  refine ⟨by decide, by decide, by decide, by decide, by decide⟩

/-- C27 as amended: for `nx, ny ≥ 1`, `0 ≤ i < nx`, `0 ≤ j < ny` and `k ≥ 0` such that
`k*nx*ny + j*nx + i` fits an `int` (is at most `INT_MAX`), the 3-D `toCoordIdx(i, j, k)` of the code is
`k*nx*ny + j*nx + i`, and the inverse the specification recommends, `k = idx / (nx*ny)`,
`j = (idx - k*nx*ny) / nx`, `i = idx - k*nx*ny - j*nx`, returns `(i, j, k)` on it. -/
theorem C27_corrected_inverse3_amended (s : Solver) (i j k : Int) (hnx : 1 ≤ s.nx)
    (hny : 1 ≤ s.ny)
    (hi0 : 0 ≤ i) (hi : i < s.nx) (hj0 : 0 ≤ j) (hj : j < s.ny) (hk : 0 ≤ k)
    (hfit : k * s.nx * s.ny + j * s.nx + i ≤ INT_MAX) :
    Solver.Dim3.toCoordIdx s i j k = k * s.nx * s.ny + j * s.nx + i ∧
    Solver.Dim3.getCoord_spec s (Solver.Dim3.toCoordIdx s i j k) = (i, j, k) := by
  have h1 : 0 ≤ k * s.nx := mul_nonneg hk (by omega)
  have h2 : 0 ≤ k * s.nx * s.ny := mul_nonneg h1 (by omega)
  have h3 : k * s.nx ≤ k * s.nx * s.ny := le_mul_of_one_le_right h1 hny
  have h4 : 0 ≤ j * s.nx := mul_nonneg hj0 (by omega)
  have he : Solver.Dim3.toCoordIdx s i j k = k * s.nx * s.ny + j * s.nx + i := by
    unfold Solver.Dim3.toCoordIdx
    rw [wrapInt_of_range (k * s.nx) (by omega) (by omega),
      wrapInt_of_range (k * s.nx * s.ny) (by omega) (by omega),
      wrapInt_of_range (j * s.nx) (by omega) (by omega),
      wrapInt_of_range (k * s.nx * s.ny + j * s.nx) (by omega) (by omega),
      wrapInt_of_range _ (by omega) hfit]
  exact ⟨he, by rw [he]; exact getCoord_spec_eq s i j k hnx hny hi0 hi hj0 hj⟩

/-- C27 on the grid of 4 x 3 x 2 points: the point `(1, 1, 1)`, which the `getCoord` of the
code decodes wrongly, has index 17, and the corrected inverse returns `(1, 1, 1)`. -/
theorem C27_corrected_inverse3_amended_witness :
    ((1 : Int) ≤ exSolver432.nx ∧ (1 : Int) ≤ exSolver432.ny ∧ (0 : Int) ≤ 1 ∧
      (1 : Int) < exSolver432.nx ∧ (1 : Int) < exSolver432.ny ∧
      1 * exSolver432.nx * exSolver432.ny + 1 * exSolver432.nx + 1 ≤ INT_MAX) ∧
    Solver.Dim3.toCoordIdx exSolver432 1 1 1 = 17 ∧
    Solver.Dim3.getCoord_spec exSolver432 (Solver.Dim3.toCoordIdx exSolver432 1 1 1) =
      (1, 1, 1) :=
  ⟨by decide, by decide,
   (C27_corrected_inverse3_amended exSolver432 1 1 1 (by decide) (by decide) (by decide) (by decide)
      (by decide) (by decide) (by decide) (by decide)).2⟩

/-- A lookup that finds an entry under its key that compares equal to the query returns the
position of such an entry and changes the cache only by setting the flag there. -/
theorem lookup_hit_frame {E : Type} (reused : E → Bool) (setReused : E → E)
    (noWork : E → Bool) (same : E → Bool) (max_size : Int) (Key : Int) (built : E)
    (cache : List (Int × E)) (h : ∃ e ∈ cache, e.1 = Key ∧ same e.2 = true) :
    ∃ it e, cache[it]? = some e ∧ e.1 = Key ∧ same e.2 = true ∧
      lookup reused setReused noWork same true max_size Key built cache =
        (cache.modify (fun x => (x.1, setReused x.2)) it, some it) := by
  rcases lookup_enabled reused setReused noWork same max_size Key built cache with
    ⟨it, h1, h2⟩ | ⟨h1, _⟩
  · obtain ⟨e, he, hk, hs⟩ := findReusable_some same Key cache it h1
    exact ⟨it, e, he, hk, hs, h2⟩
  · obtain ⟨e, he, hk⟩ := h
    exact absurd hk ((findReusable_eq_none same Key cache).mp h1 e he)

/-- Every entry of the cache after a lookup is an entry of the cache before it, or such an
entry with its flag set, or the newly built entry. -/
theorem lookup_mem_cases {E : Type} (reused : E → Bool) (setReused : E → E)
    (noWork : E → Bool) (same : E → Bool) (use_cache : Bool) (max_size : Int) (Key : Int)
    (built : E) (cache : List (Int × E)) :
    ∀ y ∈ (lookup reused setReused noWork same use_cache max_size Key built cache).1,
      y ∈ cache ∨ (∃ x ∈ cache, y = (x.1, setReused x.2)) ∨ y = (Key, built) := by
  intro y hy
  cases use_cache with
  | false =>
    rw [lookup_disabled] at hy
    split at hy
    · cases hy
    · simp only [List.mem_singleton] at hy
      exact Or.inr (Or.inr hy)
  | true =>
    rcases lookup_enabled reused setReused noWork same max_size Key built cache with
      ⟨it, _, h2⟩ | ⟨_, h2⟩
    · rw [h2] at hy
      rcases mem_modify_iff _ _ _ _ hy with h | ⟨b, hb, rfl⟩
      · exact Or.inl h
      · exact Or.inr (Or.inl ⟨b, hb, rfl⟩)
    · rw [h2] at hy
      split at hy
      · exact Or.inl ((makeRoom_sublist reused max_size cache).subset hy)
      · rcases (List.mem_insertIdx (upper_bound_le _ _)).mp hy with h | h
        · exact Or.inr (Or.inr h)
        · exact Or.inl ((makeRoom_sublist reused max_size cache).subset h)

/-- C30: with caching enabled, a lookup that finds under its key a cached entry whose
descriptor equals the query returns the position `it` of such an entry, and the cache
afterwards is the cache before with `m_reused` set at `it`: the same number of entries,
whatever the cap, every entry other than `it` unchanged, and the entry at `it` with the
same key, descriptor and containers.  After any lookup at all, every cached entry is an
entry of the cache before, or such an entry with `m_reused` set to true, or the newly
built entry; so no flag goes from true to false.  For `TheCPC` and for `TheFB`. -/
theorem C30_hit_changes_only_flag (D : Nat) (g : Globals) (MyProc : Int)
    (isects : BoxArray → Box → List (Nat × Box)) (tag0 : CopyComTag)
    (cache : CPCCache) (cpc : CPC) (fbcache : FBCache) (cross : Bool) (mf : FabArrayBase) :
    (g.use_copy_cache = true →
      (∃ e ∈ cache, e.1 = CPC.Key cpc ∧ CPC.eq e.2 cpc = true) →
      ∃ it e, cache[it]? = some e ∧ CPC.eq e.2 cpc = true ∧
        TheCPC g MyProc isects tag0 cache cpc =
          (cache.modify (fun x => (x.1, CPC.setReused x.2)) it, some it) ∧
        (TheCPC g MyProc isects tag0 cache cpc).1.length = cache.length ∧
        (∀ i x, cache[i]? = some x →
          (TheCPC g MyProc isects tag0 cache cpc).1[i]? =
            some (if it = i then (x.1, { x.2 with m_reused := true }) else x))) ∧
    (∀ y ∈ (TheCPC g MyProc isects tag0 cache cpc).1,
      y ∈ cache ∨ (∃ x ∈ cache, y = (x.1, { x.2 with m_reused := true })) ∨
        y = (CPC.Key cpc, CPC.built MyProc isects tag0 cpc)) ∧
    (g.use_fb_cache = true →
      (∃ e ∈ fbcache, e.1 = SI.Key cross mf ∧
        SI.eq e.2 (SI.ctor mf.boxarray mf.distributionMap mf.n_grow cross) = true) →
      ∃ it e, fbcache[it]? = some e ∧
        SI.eq e.2 (SI.ctor mf.boxarray mf.distributionMap mf.n_grow cross) = true ∧
        TheFB D g MyProc isects tag0 fbcache cross mf =
          (fbcache.modify (fun x => (x.1, SI.setReused x.2)) it, some it) ∧
        (TheFB D g MyProc isects tag0 fbcache cross mf).1.length = fbcache.length ∧
        (∀ i x, fbcache[i]? = some x →
          (TheFB D g MyProc isects tag0 fbcache cross mf).1[i]? =
            some (if it = i then (x.1, { x.2 with m_reused := true }) else x))) ∧
    (∀ y ∈ (TheFB D g MyProc isects tag0 fbcache cross mf).1,
      y ∈ fbcache ∨ (∃ x ∈ fbcache, y = (x.1, { x.2 with m_reused := true })) ∨
        y = (SI.Key cross mf, SI.built D MyProc isects tag0
          (SI.ctor mf.boxarray mf.distributionMap mf.n_grow cross) mf)) := by
  refine ⟨?_, ?_, ?_, ?_⟩
  · intro hu h
    obtain ⟨it, e, he, _, hs, hl⟩ := lookup_hit_frame CPC.m_reused CPC.setReused
      (fun e => e.plan.noWork) (fun e => CPC.eq e cpc) g.copy_cache_max_size (CPC.Key cpc)
      (CPC.built MyProc isects tag0 cpc) cache h
    have hT : TheCPC g MyProc isects tag0 cache cpc =
        (cache.modify (fun x => (x.1, CPC.setReused x.2)) it, some it) := by
      unfold TheCPC; rw [hu]; exact hl
    refine ⟨it, e, he, hs, hT, ?_, ?_⟩
    · rw [hT]; exact List.length_modify _ _ _
    · intro i x hx
      rw [hT]
      simp only [List.getElem?_modify, hx, Option.map_eq_map, Option.map_some']
      split <;> rfl
  · exact lookup_mem_cases CPC.m_reused CPC.setReused (fun e => e.plan.noWork)
      (fun e => CPC.eq e cpc) g.use_copy_cache g.copy_cache_max_size (CPC.Key cpc)
      (CPC.built MyProc isects tag0 cpc) cache
  · intro hu h
    obtain ⟨it, e, he, _, hs, hl⟩ := lookup_hit_frame SI.m_reused SI.setReused
      (fun e => e.plan.noWork)
      (fun e => SI.eq e (SI.ctor mf.boxarray mf.distributionMap mf.n_grow cross))
      g.fb_cache_max_size (SI.Key cross mf)
      (SI.built D MyProc isects tag0 (SI.ctor mf.boxarray mf.distributionMap mf.n_grow cross)
        mf) fbcache h
    have hT : TheFB D g MyProc isects tag0 fbcache cross mf =
        (fbcache.modify (fun x => (x.1, SI.setReused x.2)) it, some it) := by
      unfold TheFB; rw [hu]; exact hl
    refine ⟨it, e, he, hs, hT, ?_, ?_⟩
    · rw [hT]; exact List.length_modify _ _ _
    · intro i x hx
      rw [hT]
      simp only [List.getElem?_modify, hx, Option.map_eq_map, Option.map_some']
      split <;> rfl
  · exact lookup_mem_cases SI.m_reused SI.setReused (fun e => e.plan.noWork)
      (fun e => SI.eq e (SI.ctor mf.boxarray mf.distributionMap mf.n_grow cross))
      g.use_fb_cache g.fb_cache_max_size (SI.Key cross mf)
      (SI.built D MyProc isects tag0 (SI.ctor mf.boxarray mf.distributionMap mf.n_grow cross)
        mf) fbcache

/-- C30 on caches of two entries under a cap of 2: the lookup of the descriptor of the second
entry returns position 1 and sets its flag; both entries stay. -/
theorem C30_hit_changes_only_flag_witness :
    ((exGlobalsCap 2).use_copy_cache = true ∧
      (∃ e ∈ exCopyCache2, e.1 = CPC.Key (CPC.ctor [exBoxC] [exBoxC] [0] [0]) ∧
        CPC.eq e.2 (CPC.ctor [exBoxC] [exBoxC] [0] [0]) = true)) ∧
    (∃ it e, exCopyCache2[it]? = some e ∧
      CPC.eq e.2 (CPC.ctor [exBoxC] [exBoxC] [0] [0]) = true ∧
      TheCPC (exGlobalsCap 2) 0 intersections exTag exCopyCache2
          (CPC.ctor [exBoxC] [exBoxC] [0] [0]) =
        (exCopyCache2.modify (fun x => (x.1, CPC.setReused x.2)) it, some it) ∧
      (TheCPC (exGlobalsCap 2) 0 intersections exTag exCopyCache2
          (CPC.ctor [exBoxC] [exBoxC] [0] [0])).1.length = exCopyCache2.length ∧
      (∀ i x, exCopyCache2[i]? = some x →
        (TheCPC (exGlobalsCap 2) 0 intersections exTag exCopyCache2
            (CPC.ctor [exBoxC] [exBoxC] [0] [0])).1[i]? =
          some (if it = i then (x.1, { x.2 with m_reused := true }) else x))) ∧
    (TheCPC (exGlobalsCap 2) 0 intersections exTag exCopyCache2
        (CPC.ctor [exBoxC] [exBoxC] [0] [0])).2 = some 1 ∧
    ((exGlobalsCap 2).use_fb_cache = true ∧
      (∃ e ∈ exFBCache2, e.1 = SI.Key true exFab ∧
        SI.eq e.2 (SI.ctor exFab.boxarray exFab.distributionMap exFab.n_grow true) = true)) ∧
    (TheFB 2 (exGlobalsCap 2) 0 intersections exTag exFBCache2 true exFab).2 = some 1 ∧
    (TheFB 2 (exGlobalsCap 2) 0 intersections exTag exFBCache2 true exFab).1.length =
      exFBCache2.length :=
  ⟨⟨by decide, by decide⟩,
   (C30_hit_changes_only_flag 2 (exGlobalsCap 2) 0 intersections exTag exCopyCache2
      (CPC.ctor [exBoxC] [exBoxC] [0] [0]) exFBCache2 true exFab).1 (by decide) (by decide),
   by decide,
   ⟨by decide, by decide⟩,
   by decide,
   by decide⟩

theorem pairwise_modify_of {α : Type} (R : α → α → Prop) (f : α → α)
    (hf : ∀ a b, R a b → R (f a) b ∧ R a (f b)) (l : List α) (n : Nat)
    (hs : l.Pairwise R) : (l.modify f n).Pairwise R := by
  induction l generalizing n with
  | nil => cases n <;> simp [List.modify]
  | cons a l ih =>
    rw [List.pairwise_cons] at hs
    cases n with
    | zero =>
      simp only [List.modify, List.modifyHead_cons, List.modifyTailIdx]
      rw [List.pairwise_cons]
      exact ⟨fun b hb => (hf a b (hs.1 b hb)).1, hs.2⟩
    | succ n =>
      show (a :: l.modify f n).Pairwise R
      rw [List.pairwise_cons]
      refine ⟨?_, ih n hs.2⟩
      intro b hb
      rcases mem_modify_iff f l n b hb with h | ⟨c, hc, rfl⟩
      · exact hs.1 b h
      · exact (hf a c (hs.1 c hc)).2

theorem pairwise_insertIdx_of {α : Type} (R : α → α → Prop) (x : α) (l : List α) (n : Nat)
    (hx : ∀ a ∈ l, R a x ∧ R x a) (hs : l.Pairwise R) : (l.insertIdx n x).Pairwise R := by
  induction l generalizing n with
  | nil => cases n <;> simp [List.insertIdx]
  | cons a l ih =>
    rw [List.pairwise_cons] at hs
    cases n with
    | zero =>
      rw [List.insertIdx_zero, List.pairwise_cons, List.pairwise_cons]
      exact ⟨fun b hb => (hx b hb).2, hs⟩
    | succ n =>
      rw [List.insertIdx_succ_cons, List.pairwise_cons]
      refine ⟨?_, ih n (fun b hb => hx b (List.mem_cons_of_mem _ hb)) hs.2⟩
      intro b hb
      by_cases hn : n ≤ l.length
      · rcases (List.mem_insertIdx hn).mp hb with h | h
        · subst h; exact (hx a (List.mem_cons_self _ _)).1
        · exact hs.1 b h
      · rw [List.insertIdx_of_length_lt _ _ _ (by omega)] at hb
        exact hs.1 b hb

/-- A lookup keeps the entries of the cache pairwise different under a comparison `eqv`
that the query test `same` respects, when every entry is filed under the key of its own
descriptor. -/
theorem lookup_distinct {E : Type} (reused : E → Bool) (setReused : E → E)
    (noWork : E → Bool) (same : E → Bool) (use_cache : Bool) (max_size : Int) (Key : Int)
    (built : E) (cache : List (Int × E)) (eqv : E → E → Bool) (keyOf : E → Int)
    (hset : ∀ a b, eqv (setReused a) b = eqv a b ∧ eqv a (setReused b) = eqv a b)
    (hbuilt : ∀ a, eqv a built = same a ∧ eqv built a = same a)
    (hkeyed : ∀ e ∈ cache, e.1 = keyOf e.2) (hsk : ∀ e, same e = true → keyOf e = Key)
    (hs : cache.Pairwise (fun a b => eqv a.2 b.2 = false)) :
    (lookup reused setReused noWork same use_cache max_size Key built cache).1.Pairwise
      (fun a b => eqv a.2 b.2 = false) := by
  cases use_cache with
  | false =>
    rw [lookup_disabled]
    split <;> simp
  | true =>
    rcases lookup_enabled reused setReused noWork same max_size Key built cache with
      ⟨it, _, h2⟩ | ⟨h1, h2⟩
    · rw [h2]
      apply pairwise_modify_of _ _ _ _ _ hs
      intro a b hab
      exact ⟨by rw [(hset a.2 b.2).1]; exact hab, by rw [(hset a.2 b.2).2]; exact hab⟩
    · rw [h2]
      have hsub := makeRoom_sublist reused max_size cache
      have hp := List.Pairwise.sublist hsub hs
      split
      · exact hp
      · apply pairwise_insertIdx_of _ _ _ _ _ hp
        intro a ha
        have hac := hsub.subset ha
        have hns : same a.2 = false := by
          by_contra hc
          rw [Bool.not_eq_false] at hc
          exact (findReusable_eq_none same Key cache).mp h1 a hac
            ⟨(hkeyed a hac).trans (hsk a.2 hc), hc⟩
        exact ⟨by rw [(hbuilt a.2).1]; exact hns, by rw [(hbuilt a.2).2]; exact hns⟩

theorem cpc_reachable_distinct (g : Globals) (MyProc : Int)
    (isects : BoxArray → Box → List (Nat × Box)) (cache : CPCCache)
    (h : CPCReachable g MyProc isects cache) :
    cache.Pairwise (fun a b => CPC.eq a.2 b.2 = false) := by
  induction h with
  | empty => exact List.Pairwise.nil
  | call cache tag0 dstBA srcBA dstDM srcDM hr ih =>
    apply lookup_distinct CPC.m_reused CPC.setReused (fun e => e.plan.noWork)
      (fun e => CPC.eq e (CPC.ctor dstBA srcBA dstDM srcDM)) g.use_copy_cache
      g.copy_cache_max_size (CPC.Key (CPC.ctor dstBA srcBA dstDM srcDM))
      (CPC.built MyProc isects tag0 (CPC.ctor dstBA srcBA dstDM srcDM)) cache
      CPC.eq CPC.Key
    · intro a b; exact ⟨rfl, rfl⟩
    · intro a; exact ⟨rfl, by simp [CPC.eq, CPC.built, eq_comm]⟩
    · intro e he; exact (cpc_reachable_entryOK g MyProc isects cache hr e he).1
    · intro e he; exact cpc_Key_eq_of_eq e _ he
    · exact ih

theorem fb_reachable_distinct (D : Nat) (g : Globals) (MyProc : Int)
    (isects : BoxArray → Box → List (Nat × Box)) (cache : FBCache)
    (h : FBReachable D g MyProc isects cache) :
    cache.Pairwise (fun a b => SI.eq a.2 b.2 = false) := by
  induction h with
  | empty => exact List.Pairwise.nil
  | call cache tag0 cross mf hr ih =>
    apply lookup_distinct SI.m_reused SI.setReused (fun e => e.plan.noWork)
      (fun e => SI.eq e (SI.ctor mf.boxarray mf.distributionMap mf.n_grow cross))
      g.use_fb_cache g.fb_cache_max_size (SI.Key cross mf)
      (SI.built D MyProc isects tag0 (SI.ctor mf.boxarray mf.distributionMap mf.n_grow cross)
        mf) cache SI.eq SI.entryKey
    · intro a b; exact ⟨rfl, rfl⟩
    · intro a; exact ⟨rfl, by simp [SI.eq, SI.built, eq_comm]⟩
    · intro e he; exact (fb_reachable_entryOK D g MyProc isects cache hr e he).1
    · intro e he; exact si_entryKey_eq_of_eq e cross mf he
    · exact ih

theorem unique_of_pairwise {α : Type} (R : α → α → Prop) (l : List α) (hs : l.Pairwise R)
    (i j : Nat) (a b : α) (hi : l[i]? = some a) (hj : l[j]? = some b)
    (hab : ¬ R a b) (hba : ¬ R b a) : i = j := by
  obtain ⟨hi1, hi2⟩ := List.getElem?_eq_some_iff.mp hi
  obtain ⟨hj1, hj2⟩ := List.getElem?_eq_some_iff.mp hj
  rcases Nat.lt_trichotomy i j with h | h | h
  · have := List.pairwise_iff_getElem.mp hs i j hi1 hj1 h
    rw [hi2, hj2] at this
    exact absurd this hab
  · exact h
  · have := List.pairwise_iff_getElem.mp hs j i hj1 hi1 h
    rw [hi2, hj2] at this
    exact absurd this hba

/-- C28: in every copy cache reachable from the empty cache by `TheCPC` lookups, no two
entries have equal descriptors (`operator==`), every entry is filed under the key
computed from its own descriptor, and hence for any query at most one position holds an
entry that compares equal to it.  The same holds of every fill-boundary cache reachable by
`TheFB` lookups. -/
theorem C28_descriptor_uniqueness (D : Nat) (g : Globals) (MyProc : Int)
    (isects : BoxArray → Box → List (Nat × Box)) :
    (∀ cache : CPCCache, CPCReachable g MyProc isects cache →
      cache.Pairwise (fun a b => CPC.eq a.2 b.2 = false) ∧
      (∀ e ∈ cache, e.1 = CPC.Key e.2) ∧
      (∀ (cpc : CPC) (i j : Nat) (a b : Int × CPC), cache[i]? = some a → cache[j]? = some b →
        CPC.eq a.2 cpc = true → CPC.eq b.2 cpc = true → i = j)) ∧
    (∀ fbcache : FBCache, FBReachable D g MyProc isects fbcache →
      fbcache.Pairwise (fun a b => SI.eq a.2 b.2 = false) ∧
      (∀ e ∈ fbcache, e.1 = SI.entryKey e.2) ∧
      (∀ (si : SI) (i j : Nat) (a b : Int × SI), fbcache[i]? = some a → fbcache[j]? = some b →
        SI.eq a.2 si = true → SI.eq b.2 si = true → i = j)) := by
  constructor
  · intro cache hr
    have hp := cpc_reachable_distinct g MyProc isects cache hr
    refine ⟨hp, fun e he => (cpc_reachable_entryOK g MyProc isects cache hr e he).1, ?_⟩
    intro cpc i j a b hi hj ha hb
    rw [cpc_eq_iff] at ha hb
    have hab : CPC.eq a.2 b.2 = true := by
      rw [cpc_eq_iff]
      exact ⟨ha.1.trans hb.1.symm, ha.2.1.trans hb.2.1.symm, ha.2.2.1.trans hb.2.2.1.symm,
        ha.2.2.2.trans hb.2.2.2.symm⟩
    have hba : CPC.eq b.2 a.2 = true := by
      rw [cpc_eq_iff]
      exact ⟨hb.1.trans ha.1.symm, hb.2.1.trans ha.2.1.symm, hb.2.2.1.trans ha.2.2.1.symm,
        hb.2.2.2.trans ha.2.2.2.symm⟩
    exact unique_of_pairwise _ cache hp i j a b hi hj (by simp [hab]) (by simp [hba])
  · intro cache hr
    have hp := fb_reachable_distinct D g MyProc isects cache hr
    refine ⟨hp, fun e he => (fb_reachable_entryOK D g MyProc isects cache hr e he).1, ?_⟩
    intro si i j a b hi hj ha hb
    rw [si_eq_iff] at ha hb
    have hab : SI.eq a.2 b.2 = true := by
      rw [si_eq_iff]
      exact ⟨ha.1.trans hb.1.symm, ha.2.1.trans hb.2.1.symm, ha.2.2.1.trans hb.2.2.1.symm,
        ha.2.2.2.trans hb.2.2.2.symm⟩
    have hba : SI.eq b.2 a.2 = true := by
      rw [si_eq_iff]
      exact ⟨hb.1.trans ha.1.symm, hb.2.1.trans ha.2.1.symm, hb.2.2.1.trans ha.2.2.1.symm,
        hb.2.2.2.trans ha.2.2.2.symm⟩
    exact unique_of_pairwise _ cache hp i j a b hi hj (by simp [hab]) (by simp [hba])

/-- C28 on the caches left by three lookups each, the first two for the same descriptor:
they hold two entries, with different descriptors. -/
theorem C28_descriptor_uniqueness_witness :
    CPCReachable exGlobals 0 intersections exCopyCacheHit ∧
    exCopyCacheHit.length = 2 ∧
    exCopyCacheHit.Pairwise (fun a b => CPC.eq a.2 b.2 = false) ∧
    FBReachable 2 exGlobals 0 intersections exFBCacheHit ∧
    exFBCacheHit.length = 2 ∧
    exFBCacheHit.Pairwise (fun a b => SI.eq a.2 b.2 = false) :=
  ⟨CPCReachable.call _ exTag [exBoxC] [exBoxC] [0] [0]
     (CPCReachable.call _ exTag [exBoxA] [exBoxA] [0] [0]
       (CPCReachable.call [] exTag [exBoxA] [exBoxA] [0] [0] CPCReachable.empty)),
   by decide,
   ((C28_descriptor_uniqueness 2 exGlobals 0 intersections).1 exCopyCacheHit
      (CPCReachable.call _ exTag [exBoxC] [exBoxC] [0] [0]
        (CPCReachable.call _ exTag [exBoxA] [exBoxA] [0] [0]
          (CPCReachable.call [] exTag [exBoxA] [exBoxA] [0] [0] CPCReachable.empty)))).1,
   FBReachable.call _ exTag false exFab
     (FBReachable.call _ exTag true exFab
       (FBReachable.call [] exTag true exFab FBReachable.empty)),
   by decide,
   ((C28_descriptor_uniqueness 2 exGlobals 0 intersections).2 exFBCacheHit
      (FBReachable.call _ exTag false exFab
        (FBReachable.call _ exTag true exFab
          (FBReachable.call [] exTag true exFab FBReachable.empty)))).1⟩

theorem dropFirstUnreused_one {E : Type} (reused : E → Bool) (l : List (Int × E)) :
    dropFirstUnreused reused 1 l = l.eraseIdx (l.findIdx (fun e => !reused e.2)) := by
  induction l with
  | nil => rfl
  | cons e l ih =>
    rw [List.findIdx_cons]
    cases h : reused e.2 with
    | false =>
      simp only [dropFirstUnreused, h, if_true, Bool.not_false, cond_true, List.eraseIdx_zero,
        List.tail_cons]
    | true =>
      simp only [dropFirstUnreused, h, Bool.true_eq_false, if_false, Bool.not_true, cond_false,
        List.eraseIdx_cons_succ, ih]

/-- What a miss does to a cache that holds at most `m` entries: nothing below the cap; at
the cap it erases the first entry whose flag is false, and the front entry when every flag
is true. -/
theorem makeRoom_le_cap {E : Type} (reused : E → Bool) (m : Int) (h1 : m ≤ INT_MAX)
    (cache : List (Int × E)) (hc : (cache.length : Int) ≤ m) :
    makeRoom reused m cache =
      if (cache.length : Int) < m then cache
      else if cache.all (fun e => reused e.2) = true then cache.tail
      else cache.eraseIdx (cache.findIdx (fun e => !reused e.2)) := by
  have h0 : 0 ≤ m := le_trans (Int.ofNat_nonneg _) hc
  by_cases hlt : (cache.length : Int) < m
  · rw [if_pos hlt]
    unfold makeRoom
    rw [if_neg]
    rintro ⟨hge, -⟩
    rw [size_ge_iff _ _ h0 h1] at hge
    omega
  · rw [if_neg hlt]
    have heq : (cache.length : Int) = m := by omega
    by_cases hm0 : m = 0
    · have hnil : cache = [] := by
        apply List.eq_nil_of_length_eq_zero
        omega
      subst hnil
      unfold makeRoom
      simp only [List.length_nil, sweep, List.tail_nil, List.all_nil, if_true, ite_self]
    · have hm1 : 1 ≤ m := by omega
      have hk : cache.length + 1 - m.toNat = 1 := by omega
      have h := (makeRoom_at_cap reused m hm1 h1 cache (by omega)).2
      rw [hk, dropFirstUnreused_one] at h
      rw [h]
      by_cases hall : cache.all (fun e => reused e.2) = true
      · rw [if_pos hall]
        have hidx : cache.findIdx (fun e => !reused e.2) = cache.length := by
          rw [List.findIdx_eq_length]
          intro x hx
          simp [List.all_eq_true.mp hall x hx]
        rw [hidx, List.eraseIdx_of_length_le (le_refl _), if_pos (by omega)]
      · rw [if_neg hall]
        have hex : cache.findIdx (fun e => !reused e.2) < cache.length := by
          apply List.findIdx_lt_length_of_exists
          rw [List.all_eq_true] at hall
          push_neg at hall
          obtain ⟨x, hx, hr⟩ := hall
          exact ⟨x, hx, by simpa using hr⟩
        rw [if_neg]
        rw [List.length_eraseIdx, if_pos hex]
        have : 0 < cache.length := by omega
        omega

/-- Under the hypotheses of `makeRoom_le_cap`, the sweep leaves the cache at its cap only
when it erased nothing, every flag being true. -/
theorem sweep_le_cap {E : Type} (reused : E → Bool) (m : Int) (h1 : m ≤ INT_MAX)
    (cache : List (Int × E)) (hc : (cache.length : Int) ≤ m) (hm1 : 1 ≤ m)
    (hge : size_ge cache.length m = true)
    (hs : size_ge (sweep reused m cache.length cache).length m = true) :
    sweep reused m cache.length cache = cache ∧ ∀ e ∈ cache, reused e.2 = true := by
  rw [size_ge_iff _ _ (by omega) h1] at hge hs
  have hk : cache.length + 1 - m.toNat = 1 := by omega
  have h := (makeRoom_at_cap reused m hm1 h1 cache hge).1
  rw [hk, dropFirstUnreused_one] at h
  rw [h] at hs ⊢
  have hidx : ¬ cache.findIdx (fun e => !reused e.2) < cache.length := by
    intro hex
    rw [List.length_eraseIdx, if_pos hex] at hs
    have : 0 < cache.length := by omega
    omega
  refine ⟨List.eraseIdx_of_length_le (Nat.le_of_not_lt hidx), ?_⟩
  intro e he
  have hle := @List.findIdx_le_length _ (fun e : Int × E => !reused e.2) cache
  have hfl : cache.findIdx (fun e => !reused e.2) = cache.length := by omega
  have := List.findIdx_eq_length.mp hfl e he
  simpa using this

/-- With the cache enabled and at most `m` entries cached, a lookup keeps the cache or the
cache without one entry `e` at a position `j`, every entry before `j` being flagged; and if
`e` itself is flagged, `j` is the front and every entry is flagged.  On what it keeps, the
lookup sets one flag (a hit, nothing erased), or does nothing, or inserts the new entry. -/
theorem lookup_protects_reused {E : Type} (reused : E → Bool) (setReused : E → E)
    (noWork : E → Bool) (same : E → Bool) (m : Int) (Key : Int) (built : E)
    (cache : List (Int × E)) (h1 : m ≤ INT_MAX) (hc : (cache.length : Int) ≤ m) :
    ∃ kept : List (Int × E),
      (kept = cache ∨ ∃ j e, cache[j]? = some e ∧ kept = cache.eraseIdx j ∧
        (∀ i x, i < j → cache[i]? = some x → reused x.2 = true) ∧
        (reused e.2 = true → j = 0 ∧ ∀ x ∈ cache, reused x.2 = true)) ∧
      ((∃ it, kept = cache ∧
          lookup reused setReused noWork same true m Key built cache =
            (cache.modify (fun x => (x.1, setReused x.2)) it, some it)) ∨
        lookup reused setReused noWork same true m Key built cache = (kept, none) ∨
        lookup reused setReused noWork same true m Key built cache =
          (kept.insertIdx (upper_bound kept Key) (Key, built), some (upper_bound kept Key))) := by
  rcases lookup_enabled reused setReused noWork same m Key built cache with
    ⟨it, _, h2⟩ | ⟨_, h2⟩
  · exact ⟨cache, Or.inl rfl, Or.inl ⟨it, rfl, h2⟩⟩
  · refine ⟨makeRoom reused m cache, ?_, ?_⟩
    · rw [makeRoom_le_cap reused m h1 cache hc]
      split
      · exact Or.inl rfl
      · split
        · rename_i hall
          cases hcache : cache with
          | nil => exact Or.inl rfl
          | cons a l =>
            right
            refine ⟨0, a, by simp, (List.eraseIdx_zero _).symm, ?_, ?_⟩
            · intro i x hi; omega
            · intro _
              refine ⟨rfl, ?_⟩
              rw [← hcache]
              exact List.all_eq_true.mp hall
        · rename_i hall
          have hex : cache.findIdx (fun e => !reused e.2) < cache.length := by
            apply List.findIdx_lt_length_of_exists
            rw [List.all_eq_true] at hall
            push_neg at hall
            obtain ⟨x, hx, hr⟩ := hall
            exact ⟨x, hx, by simpa using hr⟩
          right
          refine ⟨cache.findIdx (fun e => !reused e.2),
            cache.get ⟨cache.findIdx (fun e => !reused e.2), hex⟩, ?_, rfl, ?_, ?_⟩
          · exact List.getElem?_eq_getElem hex
          · intro i x hi hx
            obtain ⟨hi1, hi2⟩ := List.getElem?_eq_some_iff.mp hx
            have := @List.not_of_lt_findIdx _ (fun e : Int × E => !reused e.2) cache i hi
            rw [hi2] at this
            simpa using this
          · intro hr
            have := @List.findIdx_getElem _ (fun e : Int × E => !reused e.2) cache hex
            simp only [Bool.not_eq_true', List.get_eq_getElem] at this hr
            rw [this] at hr
            cases hr
    · rw [h2]
      split
      · exact Or.inr (Or.inl rfl)
      · exact Or.inr (Or.inr rfl)

/-- C24: with caching enabled and at most `cap` entries cached before the call, a lookup
removes at most one entry: what it keeps is the cache, or the cache without one entry `e`
at a position `j` before which every entry has `m_reused = true`; if `e` itself has
`m_reused = true` then `j` is the front and every cached entry has `m_reused = true`.  On
what it keeps the lookup sets one flag (a hit, nothing removed), or leaves it, or inserts
the new entry.  The front eviction runs only when the sweep removed nothing: if the cache
is still at the cap after the sweep, the sweep returned the cache unchanged and every flag
is true.  For `TheCPC` and for `TheFB`. -/
theorem C24_reused_entries_protected (D : Nat) (g : Globals) (MyProc : Int)
    (isects : BoxArray → Box → List (Nat × Box)) (tag0 : CopyComTag)
    (cache : CPCCache) (cpc : CPC) (fbcache : FBCache) (cross : Bool) (mf : FabArrayBase) :
    (g.use_copy_cache = true → g.copy_cache_max_size ≤ INT_MAX →
      (cache.length : Int) ≤ g.copy_cache_max_size →
      (∃ kept : CPCCache,
        (kept = cache ∨ ∃ j e, cache[j]? = some e ∧ kept = cache.eraseIdx j ∧
          (∀ i x, i < j → cache[i]? = some x → x.2.m_reused = true) ∧
          (e.2.m_reused = true → j = 0 ∧ ∀ x ∈ cache, x.2.m_reused = true)) ∧
        ((∃ it, kept = cache ∧ TheCPC g MyProc isects tag0 cache cpc =
            (cache.modify (fun x => (x.1, CPC.setReused x.2)) it, some it)) ∨
          TheCPC g MyProc isects tag0 cache cpc = (kept, none) ∨
          TheCPC g MyProc isects tag0 cache cpc =
            (kept.insertIdx (upper_bound kept (CPC.Key cpc))
              (CPC.Key cpc, CPC.built MyProc isects tag0 cpc),
             some (upper_bound kept (CPC.Key cpc))))) ∧
      (size_ge cache.length g.copy_cache_max_size = true →
        size_ge (sweep CPC.m_reused g.copy_cache_max_size cache.length cache).length
          g.copy_cache_max_size = true →
        sweep CPC.m_reused g.copy_cache_max_size cache.length cache = cache ∧
          ∀ e ∈ cache, e.2.m_reused = true)) ∧
    (g.use_fb_cache = true → g.fb_cache_max_size ≤ INT_MAX →
      (fbcache.length : Int) ≤ g.fb_cache_max_size →
      (∃ kept : FBCache,
        (kept = fbcache ∨ ∃ j e, fbcache[j]? = some e ∧ kept = fbcache.eraseIdx j ∧
          (∀ i x, i < j → fbcache[i]? = some x → x.2.m_reused = true) ∧
          (e.2.m_reused = true → j = 0 ∧ ∀ x ∈ fbcache, x.2.m_reused = true)) ∧
        ((∃ it, kept = fbcache ∧ TheFB D g MyProc isects tag0 fbcache cross mf =
            (fbcache.modify (fun x => (x.1, SI.setReused x.2)) it, some it)) ∨
          TheFB D g MyProc isects tag0 fbcache cross mf = (kept, none) ∨
          TheFB D g MyProc isects tag0 fbcache cross mf =
            (kept.insertIdx (upper_bound kept (SI.Key cross mf))
              (SI.Key cross mf, SI.built D MyProc isects tag0
                (SI.ctor mf.boxarray mf.distributionMap mf.n_grow cross) mf),
             some (upper_bound kept (SI.Key cross mf))))) ∧
      (size_ge fbcache.length g.fb_cache_max_size = true →
        size_ge (sweep SI.m_reused g.fb_cache_max_size fbcache.length fbcache).length
          g.fb_cache_max_size = true →
        sweep SI.m_reused g.fb_cache_max_size fbcache.length fbcache = fbcache ∧
          ∀ e ∈ fbcache, e.2.m_reused = true)) := by
  have hsweep : ∀ (E : Type) (reused : E → Bool) (m : Int) (l : List (Int × E)),
      m ≤ INT_MAX → (l.length : Int) ≤ m → size_ge l.length m = true →
      size_ge (sweep reused m l.length l).length m = true →
      sweep reused m l.length l = l ∧ ∀ e ∈ l, reused e.2 = true := by
    intro E reused m l h1 hc hge hs
    by_cases hm : 1 ≤ m
    · exact sweep_le_cap reused m h1 l hc hm hge hs
    · have hnil : l = [] := by
        apply List.eq_nil_of_length_eq_zero
        omega
      subst hnil
      exact ⟨rfl, fun e he => absurd he (List.not_mem_nil e)⟩
  constructor
  · intro hu h1 hc
    refine ⟨?_, hsweep _ _ _ _ h1 hc⟩
    have h := lookup_protects_reused CPC.m_reused CPC.setReused (fun e => e.plan.noWork)
      (fun e => CPC.eq e cpc) g.copy_cache_max_size (CPC.Key cpc)
      (CPC.built MyProc isects tag0 cpc) cache h1 hc
    unfold TheCPC
    rw [hu]
    exact h
  · intro hu h1 hc
    refine ⟨?_, hsweep _ _ _ _ h1 hc⟩
    have h := lookup_protects_reused SI.m_reused SI.setReused (fun e => e.plan.noWork)
      (fun e => SI.eq e (SI.ctor mf.boxarray mf.distributionMap mf.n_grow cross))
      g.fb_cache_max_size (SI.Key cross mf)
      (SI.built D MyProc isects tag0 (SI.ctor mf.boxarray mf.distributionMap mf.n_grow cross)
        mf) fbcache h1 hc
    unfold TheFB
    rw [hu]
    exact h

/-- C24 at a cap of 2 on caches of two entries, the first flagged and the second not: a
miss removes the second entry and keeps the flagged one. -/
theorem C24_reused_entries_protected_witness :
    ((exGlobalsCap 2).use_copy_cache = true ∧ (exGlobalsCap 2).copy_cache_max_size ≤ INT_MAX ∧
      (exCopyCacheHit.length : Int) ≤ (exGlobalsCap 2).copy_cache_max_size) ∧
    exCopyCacheHit.map (fun e => (e.2.m_dstba, e.2.m_reused)) =
      [([exBoxA], true), ([exBoxC], false)] ∧
    (TheCPC (exGlobalsCap 2) 0 intersections exTag exCopyCacheHit
        (CPC.ctor [exBoxB] [exBoxB] [0] [0])).1.map (fun e => (e.2.m_dstba, e.2.m_reused)) =
      [([exBoxA], true), ([exBoxB], false)] ∧
    (∃ kept : CPCCache,
      (kept = exCopyCacheHit ∨ ∃ j e, exCopyCacheHit[j]? = some e ∧
        kept = exCopyCacheHit.eraseIdx j ∧
        (∀ i x, i < j → exCopyCacheHit[i]? = some x → x.2.m_reused = true) ∧
        (e.2.m_reused = true → j = 0 ∧ ∀ x ∈ exCopyCacheHit, x.2.m_reused = true)) ∧
      ((∃ it, kept = exCopyCacheHit ∧
          TheCPC (exGlobalsCap 2) 0 intersections exTag exCopyCacheHit
              (CPC.ctor [exBoxB] [exBoxB] [0] [0]) =
            (exCopyCacheHit.modify (fun x => (x.1, CPC.setReused x.2)) it, some it)) ∨
        TheCPC (exGlobalsCap 2) 0 intersections exTag exCopyCacheHit
            (CPC.ctor [exBoxB] [exBoxB] [0] [0]) = (kept, none) ∨
        TheCPC (exGlobalsCap 2) 0 intersections exTag exCopyCacheHit
            (CPC.ctor [exBoxB] [exBoxB] [0] [0]) =
          (kept.insertIdx (upper_bound kept (CPC.Key (CPC.ctor [exBoxB] [exBoxB] [0] [0])))
            (CPC.Key (CPC.ctor [exBoxB] [exBoxB] [0] [0]),
              CPC.built 0 intersections exTag (CPC.ctor [exBoxB] [exBoxB] [0] [0])),
           some (upper_bound kept (CPC.Key (CPC.ctor [exBoxB] [exBoxB] [0] [0])))))) ∧
    ((exGlobalsCap 2).use_fb_cache = true ∧ (exGlobalsCap 2).fb_cache_max_size ≤ INT_MAX ∧
      (exFBCacheHit.length : Int) ≤ (exGlobalsCap 2).fb_cache_max_size) :=
  ⟨⟨by decide, by decide, by decide⟩, by decide, by decide,
   ((C24_reused_entries_protected 2 (exGlobalsCap 2) 0 intersections exTag exCopyCacheHit
      (CPC.ctor [exBoxB] [exBoxB] [0] [0]) exFBCacheHit true exFab).1
      (by decide) (by decide) (by decide)).1,
   ⟨by decide, by decide, by decide⟩⟩

theorem cpc_iterate_reachable (g : Globals) (MyProc : Int)
    (isects : BoxArray → Box → List (Nat × Box)) (tag0 : CopyComTag) (dstBA srcBA : BoxArray)
    (dstDM srcDM : DistributionMapping) (cache : CPCCache)
    (hr : CPCReachable g MyProc isects cache) (n : Nat) :
    CPCReachable g MyProc isects
      ((fun c => (TheCPC g MyProc isects tag0 c (CPC.ctor dstBA srcBA dstDM srcDM)).1)^[n]
        cache) := by
  induction n with
  | zero => exact hr
  | succ n ih =>
    rw [Function.iterate_succ_apply']
    exact CPCReachable.call _ tag0 dstBA srcBA dstDM srcDM ih

theorem fb_iterate_reachable (D : Nat) (g : Globals) (MyProc : Int)
    (isects : BoxArray → Box → List (Nat × Box)) (tag0 : CopyComTag) (cross : Bool)
    (mf : FabArrayBase) (cache : FBCache) (hr : FBReachable D g MyProc isects cache) (n : Nat) :
    FBReachable D g MyProc isects
      ((fun c => (TheFB D g MyProc isects tag0 c cross mf).1)^[n] cache) := by
  induction n with
  | zero => exact hr
  | succ n ih =>
    rw [Function.iterate_succ_apply']
    exact FBReachable.call _ tag0 cross mf ih

/-- C29: a lookup that returns no plan can shrink the cache.  Under a cap of 1 with the
cache enabled, the copy cache reached by one lookup on rank 0 holds one entry; a lookup
for a descriptor whose plan is empty on rank 0 (disjoint boxes) then returns `end()` and
leaves the cache empty, one entry fewer; likewise `TheFB` with a single-tile array.  And
from any reachable cache, repeating a lookup whose plan is empty returns `end()` every
time. -/
theorem C29_empty_lookup_can_evict (D : Nat) (g : Globals) (MyProc : Int)
    (isects : BoxArray → Box → List (Nat × Box)) :
    (∃ (g1 : Globals) (cache : CPCCache) (dstBA srcBA : BoxArray)
        (dstDM srcDM : DistributionMapping),
      g1.use_copy_cache = true ∧ CPCReachable g1 0 intersections cache ∧
      (cache.length : Int) = g1.copy_cache_max_size ∧
      (CPC.built 0 intersections exTag (CPC.ctor dstBA srcBA dstDM srcDM)).plan.noWork = true ∧
      (TheCPC g1 0 intersections exTag cache (CPC.ctor dstBA srcBA dstDM srcDM)).2 = none ∧
      (TheCPC g1 0 intersections exTag cache (CPC.ctor dstBA srcBA dstDM srcDM)).1.length + 1 =
        cache.length) ∧
    (∃ (g1 : Globals) (fbcache : FBCache) (cross : Bool) (mf : FabArrayBase),
      g1.use_fb_cache = true ∧ FBReachable 2 g1 0 intersections fbcache ∧
      (fbcache.length : Int) = g1.fb_cache_max_size ∧
      (SI.built 2 0 intersections exTag
        (SI.ctor mf.boxarray mf.distributionMap mf.n_grow cross) mf).plan.noWork = true ∧
      (TheFB 2 g1 0 intersections exTag fbcache cross mf).2 = none ∧
      (TheFB 2 g1 0 intersections exTag fbcache cross mf).1.length + 1 = fbcache.length) ∧
    (∀ cache : CPCCache, CPCReachable g MyProc isects cache →
      ∀ (tag0 : CopyComTag) (dstBA srcBA : BoxArray) (dstDM srcDM : DistributionMapping),
        (CPC.built MyProc isects tag0 (CPC.ctor dstBA srcBA dstDM srcDM)).plan.noWork = true →
        ∀ n : Nat,
          (TheCPC g MyProc isects tag0
            ((fun c => (TheCPC g MyProc isects tag0 c
              (CPC.ctor dstBA srcBA dstDM srcDM)).1)^[n] cache)
            (CPC.ctor dstBA srcBA dstDM srcDM)).2 = none) ∧
    (∀ fbcache : FBCache, FBReachable D g MyProc isects fbcache →
      ∀ (tag0 : CopyComTag) (cross : Bool) (mf : FabArrayBase),
        (SI.built D MyProc isects tag0
          (SI.ctor mf.boxarray mf.distributionMap mf.n_grow cross) mf).plan.noWork = true →
        ∀ n : Nat,
          (TheFB D g MyProc isects tag0
            ((fun c => (TheFB D g MyProc isects tag0 c cross mf).1)^[n] fbcache)
            cross mf).2 = none) := by
  refine ⟨?_, ?_, ?_, ?_⟩
  · exact ⟨exGlobalsCap 1,
      (TheCPC (exGlobalsCap 1) 0 intersections exTag [] (CPC.ctor [exBoxA] [exBoxA] [0] [0])).1,
      [exBoxA], [exBoxB], [0], [0], by decide,
      CPCReachable.call [] exTag [exBoxA] [exBoxA] [0] [0] CPCReachable.empty,
      by decide, by decide, by decide, by decide⟩
  · exact ⟨exGlobalsCap 1,
      (TheFB 2 (exGlobalsCap 1) 0 intersections exTag [] true exFab).1, false, exLoneFab,
      by decide, FBReachable.call [] exTag true exFab FBReachable.empty,
      by decide, by decide, by decide, by decide⟩
  · intro cache hr tag0 dstBA srcBA dstDM srcDM hw n
    have hrn := cpc_iterate_reachable g MyProc isects tag0 dstBA srcBA dstDM srcDM cache hr n
    have hok := cpc_reachable_entryOK g MyProc isects _ hrn
    exact (lookup_noWork CPC.m_reused CPC.setReused (fun e => e.plan.noWork)
      (fun e => CPC.eq e (CPC.ctor dstBA srcBA dstDM srcDM)) g.use_copy_cache
      g.copy_cache_max_size (CPC.Key (CPC.ctor dstBA srcBA dstDM srcDM))
      (CPC.built MyProc isects tag0 (CPC.ctor dstBA srcBA dstDM srcDM)) _ hw
      (fun e he hs => cpc_entryOK_miss MyProc isects tag0 dstBA srcBA dstDM srcDM hw e
        (hok e he) hs)).1
  · intro cache hr tag0 cross mf hw n
    have hrn := fb_iterate_reachable D g MyProc isects tag0 cross mf cache hr n
    have hok := fb_reachable_entryOK D g MyProc isects _ hrn
    exact (lookup_noWork SI.m_reused SI.setReused (fun e => e.plan.noWork)
      (fun e => SI.eq e (SI.ctor mf.boxarray mf.distributionMap mf.n_grow cross)) g.use_fb_cache
      g.fb_cache_max_size (SI.Key cross mf)
      (SI.built D MyProc isects tag0 (SI.ctor mf.boxarray mf.distributionMap mf.n_grow cross) mf)
      _ hw
      (fun e he hs => fb_entryOK_miss D MyProc isects tag0 cross mf hw e (hok e he) hs)).1

/-- C29 at the cap-1 caches: the lookup of the descriptor without work empties the cache and
returns `end()`, and so does the third repetition of it. -/
theorem C29_empty_lookup_can_evict_witness :
    CPCReachable (exGlobalsCap 1) 0 intersections
      (TheCPC (exGlobalsCap 1) 0 intersections exTag [] (CPC.ctor [exBoxA] [exBoxA] [0] [0])).1 ∧
    (CPC.built 0 intersections exTag (CPC.ctor [exBoxA] [exBoxB] [0] [0])).plan.noWork = true ∧
    TheCPC (exGlobalsCap 1) 0 intersections exTag
        (TheCPC (exGlobalsCap 1) 0 intersections exTag [] (CPC.ctor [exBoxA] [exBoxA] [0] [0])).1
        (CPC.ctor [exBoxA] [exBoxB] [0] [0]) = ([], none) ∧
    (TheCPC (exGlobalsCap 1) 0 intersections exTag
      ((fun c => (TheCPC (exGlobalsCap 1) 0 intersections exTag c
        (CPC.ctor [exBoxA] [exBoxB] [0] [0])).1)^[3]
        (TheCPC (exGlobalsCap 1) 0 intersections exTag []
          (CPC.ctor [exBoxA] [exBoxA] [0] [0])).1)
      (CPC.ctor [exBoxA] [exBoxB] [0] [0])).2 = none ∧
    FBReachable 2 (exGlobalsCap 1) 0 intersections
      (TheFB 2 (exGlobalsCap 1) 0 intersections exTag [] true exFab).1 ∧
    (SI.built 2 0 intersections exTag
      (SI.ctor exLoneFab.boxarray exLoneFab.distributionMap exLoneFab.n_grow false)
      exLoneFab).plan.noWork = true ∧
    TheFB 2 (exGlobalsCap 1) 0 intersections exTag
        (TheFB 2 (exGlobalsCap 1) 0 intersections exTag [] true exFab).1 false exLoneFab =
      ([], none) :=
  ⟨CPCReachable.call [] exTag [exBoxA] [exBoxA] [0] [0] CPCReachable.empty,
   by decide, by decide,
   (C29_empty_lookup_can_evict 2 (exGlobalsCap 1) 0 intersections).2.2.1 _
     (CPCReachable.call [] exTag [exBoxA] [exBoxA] [0] [0] CPCReachable.empty)
     exTag [exBoxA] [exBoxB] [0] [0] (by decide) 3,
   FBReachable.call [] exTag true exFab FBReachable.empty,
   by decide, by decide⟩

theorem find_assignedMap (m : StdMap (List CopyComTag)) (k : Int) :
    StdMap.find (assignedMap m) k = (StdMap.find m k).map (List.map CopyComTag.assigned) := by
  induction m with
  | nil => rfl
  | cons a m ih =>
    obtain ⟨k1, v⟩ := a
    simp only [assignedMap, List.map_cons, StdMap.find] at ih ⊢
    split
    · rfl
    · exact ih

theorem assignedMap_set (m : StdMap (List CopyComTag)) (k : Int) (v : List CopyComTag) :
    assignedMap (StdMap.set m k v) =
      StdMap.set (assignedMap m) k (v.map CopyComTag.assigned) := by
  induction m with
  | nil => rfl
  | cons a m ih =>
    obtain ⟨k1, v1⟩ := a
    simp only [assignedMap, List.map_cons, StdMap.set] at ih ⊢
    split
    · rfl
    · split
      · rfl
      · simp only [List.map_cons, ih]

theorem assignedMap_push (m : StdMap (List CopyComTag)) (k : Int) (t : CopyComTag) :
    assignedMap (StdMap.push m k t) = StdMap.push (assignedMap m) k t.assigned := by
  unfold StdMap.push
  rw [assignedMap_set, find_assignedMap]
  cases StdMap.find m k <;> simp

theorem tagStep_sameWork (MyProc : Int) (ddm sdm : DistributionMapping)
    (st st2 : CopyComTag × PlanData) (e : Nat × Nat × Box)
    (h : PlanData.SameWork st.2 st2.2) :
    PlanData.SameWork (tagStep MyProc ddm sdm st e).2 (tagStep MyProc ddm sdm st2 e).2 := by
  obtain ⟨h1, h2, h3, h4, h5⟩ := h
  unfold tagStep classify
  by_cases hd : owner ddm e.1 = MyProc <;> by_cases hs : owner sdm e.2.1 = MyProc <;>
    simp only [hd, hs, ne_eq, not_true_eq_false, not_false_eq_true, and_self, and_true,
      and_false, false_and, true_and, if_true, if_false, PlanData.SameWork, assignedMap_push,
      CopyComTag.assigned]
  · exact ⟨by rw [h1], h2, h3, h4, h5⟩
  · exact ⟨h1, h2, by rw [h3], h4, by rw [h5]⟩
  · exact ⟨h1, by rw [h2], h3, by rw [h4], h5⟩
  · exact ⟨h1, h2, h3, h4, h5⟩

theorem tagLoop_sameWork (MyProc : Int) (ddm sdm : DistributionMapping)
    (evs : List (Nat × Nat × Box)) (st st2 : CopyComTag × PlanData)
    (h : PlanData.SameWork st.2 st2.2) :
    PlanData.SameWork (tagLoop MyProc ddm sdm evs st).2 (tagLoop MyProc ddm sdm evs st2).2 := by
  induction evs generalizing st st2 with
  | nil => exact h
  | cons e evs ih =>
    simp only [tagLoop, List.foldl_cons] at ih ⊢
    exact ih _ _ (tagStep_sameWork MyProc ddm sdm st st2 e h)

theorem sameWork_refl (P : PlanData) : PlanData.SameWork P P := ⟨rfl, rfl, rfl, rfl, rfl⟩

/-- The work in the plan `TheCPC` builds does not depend on the content the local tag had
at the start. -/
theorem cpc_built_sameWork (MyProc : Int) (isects : BoxArray → Box → List (Nat × Box))
    (tag tag2 : CopyComTag) (dstBA srcBA : BoxArray) (dstDM srcDM : DistributionMapping) :
    PlanData.SameWork (CPC.built MyProc isects tag (CPC.ctor dstBA srcBA dstDM srcDM)).plan
      (CPC.built MyProc isects tag2 (CPC.ctor dstBA srcBA dstDM srcDM)).plan := by
  rw [cpc_built_plan, cpc_built_plan]
  exact tagLoop_sameWork _ _ _ _ _ _ (sameWork_refl _)

/-- The work in the plan `TheFB` builds does not depend on the content the local tag had at
the start. -/
theorem si_built_sameWork (D : Nat) (MyProc : Int) (isects : BoxArray → Box → List (Nat × Box))
    (tag tag2 : CopyComTag) (cross : Bool) (mf : FabArrayBase) :
    PlanData.SameWork
      (SI.built D MyProc isects tag (SI.ctor mf.boxarray mf.distributionMap mf.n_grow cross)
        mf).plan
      (SI.built D MyProc isects tag2 (SI.ctor mf.boxarray mf.distributionMap mf.n_grow cross)
        mf).plan := by
  rw [si_built_plan, si_built_plan]
  exact tagLoop_sameWork _ _ _ _ _ _ (sameWork_refl _)

/-- A lookup that returns `end()` built a plan without work. -/
theorem lookup_none_noWork {E : Type} (reused : E → Bool) (setReused : E → E)
    (noWork : E → Bool) (same : E → Bool) (use_cache : Bool) (max_size : Int) (Key : Int)
    (built : E) (cache : List (Int × E))
    (h : (lookup reused setReused noWork same use_cache max_size Key built cache).2 = none) :
    noWork built = true := by
  cases use_cache with
  | false =>
    rw [lookup_disabled] at h
    split at h
    · assumption
    · cases h
  | true =>
    rcases lookup_enabled reused setReused noWork same max_size Key built cache with
      ⟨it, _, h2⟩ | ⟨_, h2⟩
    · rw [h2] at h; cases h
    · rw [h2] at h
      split at h
      · assumption
      · cases h

/-- The plan behind the iterator a `TheCPC` lookup returns on a reachable cache: it
belongs to the descriptor asked for, it is the plan the loops build for that
descriptor from some initial content of the local tag, and it holds the same work as the
plan built from any initial content. -/
theorem cpc_lookup_transparent (g : Globals) (MyProc : Int)
    (isects : BoxArray → Box → List (Nat × Box)) (tag0 : CopyComTag) (cache : CPCCache)
    (dstBA srcBA : BoxArray) (dstDM srcDM : DistributionMapping)
    (hr : CPCReachable g MyProc isects cache) (it : Nat)
    (h : (TheCPC g MyProc isects tag0 cache (CPC.ctor dstBA srcBA dstDM srcDM)).2 = some it) :
    ∃ e, (TheCPC g MyProc isects tag0 cache (CPC.ctor dstBA srcBA dstDM srcDM)).1[it]? =
        some e ∧
      CPC.eq e.2 (CPC.ctor dstBA srcBA dstDM srcDM) = true ∧
      (∃ tag : CopyComTag,
        e.2.plan = (CPC.built MyProc isects tag (CPC.ctor dstBA srcBA dstDM srcDM)).plan ∧
        TheCPC g MyProc isects tag [] (CPC.ctor dstBA srcBA dstDM srcDM) =
          ([(CPC.Key (CPC.ctor dstBA srcBA dstDM srcDM),
             CPC.built MyProc isects tag (CPC.ctor dstBA srcBA dstDM srcDM))], some 0)) ∧
      (∀ tag2 : CopyComTag, PlanData.SameWork e.2.plan
        (CPC.built MyProc isects tag2 (CPC.ctor dstBA srcBA dstDM srcDM)).plan) := by
  have hr2 := CPCReachable.call cache tag0 dstBA srcBA dstDM srcDM hr
  obtain ⟨e, he, _, hs⟩ := lookup_returns_same CPC.m_reused CPC.setReused
    (fun e => e.plan.noWork) (fun e => CPC.eq e (CPC.ctor dstBA srcBA dstDM srcDM))
    g.use_copy_cache g.copy_cache_max_size (CPC.Key (CPC.ctor dstBA srcBA dstDM srcDM))
    (CPC.built MyProc isects tag0 (CPC.ctor dstBA srcBA dstDM srcDM)) cache
    (cpc_eq_built MyProc isects tag0 _) (fun _ => rfl) it h
  have hmem := mem_of_getElem?_eq_some _ _ _ he
  obtain ⟨_, hn, tag, hp⟩ := cpc_reachable_entryOK g MyProc isects _ hr2 e hmem
  have hs2 := hs
  rw [cpc_eq_iff] at hs2
  obtain ⟨e1, e2, e3, e4⟩ := hs2
  have hplan : e.2.plan =
      (CPC.built MyProc isects tag (CPC.ctor dstBA srcBA dstDM srcDM)).plan := by
    rw [hp, e1, e2, e3, e4]
    rfl
  refine ⟨e, he, hs, ⟨tag, hplan, ?_⟩, ?_⟩
  · have hl := lookup_nil CPC.m_reused CPC.setReused (fun e => e.plan.noWork)
      (fun x => CPC.eq x (CPC.ctor dstBA srcBA dstDM srcDM)) g.use_copy_cache
      g.copy_cache_max_size (CPC.Key (CPC.ctor dstBA srcBA dstDM srcDM))
      (CPC.built MyProc isects tag (CPC.ctor dstBA srcBA dstDM srcDM))
    have hw : ¬ (CPC.built MyProc isects tag
        (CPC.ctor dstBA srcBA dstDM srcDM)).plan.noWork = true := by
      rw [← hplan, hn]; simp
    rw [if_neg hw] at hl
    exact hl
  · intro tag2
    rw [hplan]
    exact cpc_built_sameWork MyProc isects tag tag2 dstBA srcBA dstDM srcDM

/-- The plan behind the iterator a `TheFB` lookup returns on a reachable cache, as for
`TheCPC`. -/
theorem fb_lookup_transparent (D : Nat) (g : Globals) (MyProc : Int)
    (isects : BoxArray → Box → List (Nat × Box)) (tag0 : CopyComTag) (cache : FBCache)
    (cross : Bool) (mf : FabArrayBase)
    (hr : FBReachable D g MyProc isects cache) (it : Nat)
    (h : (TheFB D g MyProc isects tag0 cache cross mf).2 = some it) :
    ∃ e, (TheFB D g MyProc isects tag0 cache cross mf).1[it]? = some e ∧
      SI.eq e.2 (SI.ctor mf.boxarray mf.distributionMap mf.n_grow cross) = true ∧
      (∃ tag : CopyComTag,
        e.2.plan = (SI.built D MyProc isects tag
          (SI.ctor mf.boxarray mf.distributionMap mf.n_grow cross) mf).plan ∧
        TheFB D g MyProc isects tag [] cross mf =
          ([(SI.Key cross mf, SI.built D MyProc isects tag
              (SI.ctor mf.boxarray mf.distributionMap mf.n_grow cross) mf)], some 0)) ∧
      (∀ tag2 : CopyComTag, PlanData.SameWork e.2.plan
        (SI.built D MyProc isects tag2
          (SI.ctor mf.boxarray mf.distributionMap mf.n_grow cross) mf).plan) := by
  have hr2 := FBReachable.call cache tag0 cross mf hr
  obtain ⟨e, he, _, hs⟩ := lookup_returns_same SI.m_reused SI.setReused
    (fun e => e.plan.noWork)
    (fun e => SI.eq e (SI.ctor mf.boxarray mf.distributionMap mf.n_grow cross))
    g.use_fb_cache g.fb_cache_max_size (SI.Key cross mf)
    (SI.built D MyProc isects tag0 (SI.ctor mf.boxarray mf.distributionMap mf.n_grow cross) mf)
    cache (si_eq_built D MyProc isects tag0 _ mf) (fun _ => rfl) it h
  have hmem := mem_of_getElem?_eq_some _ _ _ he
  obtain ⟨_, hn, tag, hp⟩ := fb_reachable_entryOK D g MyProc isects _ hr2 e hmem
  have hs2 := hs
  rw [si_eq_iff] at hs2
  obtain ⟨e1, e2, e3, e4⟩ := hs2
  have hplan : e.2.plan = (SI.built D MyProc isects tag
      (SI.ctor mf.boxarray mf.distributionMap mf.n_grow cross) mf).plan := by
    rw [hp, e1, e2, e3, e4]
    rfl
  refine ⟨e, he, hs, ⟨tag, hplan, ?_⟩, ?_⟩
  · have hl := lookup_nil SI.m_reused SI.setReused (fun e => e.plan.noWork)
      (fun x => SI.eq x (SI.ctor mf.boxarray mf.distributionMap mf.n_grow cross))
      g.use_fb_cache g.fb_cache_max_size (SI.Key cross mf)
      (SI.built D MyProc isects tag (SI.ctor mf.boxarray mf.distributionMap mf.n_grow cross) mf)
    have hw : ¬ (SI.built D MyProc isects tag
        (SI.ctor mf.boxarray mf.distributionMap mf.n_grow cross) mf).plan.noWork = true := by
      rw [← hplan, hn]; simp
    rw [if_neg hw] at hl
    exact hl
  · intro tag2
    rw [hplan]
    exact si_built_sameWork D MyProc isects tag tag2 cross mf

/-- C23 fails as stated: the plan a lookup returns does not depend on the descriptor and the
rank alone.  On the fill-boundary cache reached by one `TheFB` call on rank 0 during which
the local tag initially held `srcIndex = 7`, a lookup of the same descriptor with the local
tag initially zero is a hit whose plan has the send tag `([3,0]..[3,3], fabIndex 0,
srcIndex 7)`; the same lookup on the empty cache builds the plan with the send tag
`([3,0]..[3,3], fabIndex 0, srcIndex 0)`.  The send branch never assigns `srcIndex`. -/
theorem C23_cache_transparency_counterexample :
    FBReachable 2 exGlobals 0 intersections
      (TheFB 2 exGlobals 0 intersections { exTag with srcIndex := 7 } [] true exFab).1 ∧
    (TheFB 2 exGlobals 0 intersections exTag
      (TheFB 2 exGlobals 0 intersections { exTag with srcIndex := 7 } [] true exFab).1
      true exFab).2 = some 0 ∧
    (TheFB 2 exGlobals 0 intersections exTag
      (TheFB 2 exGlobals 0 intersections { exTag with srcIndex := 7 } [] true exFab).1
      true exFab).1.map (fun e => e.2.plan.m_SndTags) =
      [[(1, [{ box := { smallend := [3, 0], bigend := [3, 3] }, fabIndex := 0,
               srcIndex := 7 }])]] ∧
    (TheFB 2 exGlobals 0 intersections exTag [] true exFab).2 = some 0 ∧
    (TheFB 2 exGlobals 0 intersections exTag [] true exFab).1.map
        (fun e => e.2.plan.m_SndTags) =
      [[(1, [{ box := { smallend := [3, 0], bigend := [3, 3] }, fabIndex := 0,
               srcIndex := 0 }])]] ∧
    (TheFB 2 exGlobals 0 intersections exTag
      (TheFB 2 exGlobals 0 intersections { exTag with srcIndex := 7 } [] true exFab).1
      true exFab).1.map (fun e => e.2.plan.m_SndTags) ≠
    (TheFB 2 exGlobals 0 intersections exTag [] true exFab).1.map
        (fun e => e.2.plan.m_SndTags) :=
  ⟨FBReachable.call [] { exTag with srcIndex := 7 } true exFab FBReachable.empty,
   by decide, by decide, by decide, by decide, by decide⟩

/-- C23 as amended: on every reachable cache, `TheCPC` returns `end()` exactly when it does
so for the same descriptor on the empty cache; and the plan behind an iterator it returns,
found in the cache or freshly built, belongs to the descriptor asked for, equals the plan
`TheCPC` builds and returns for that descriptor on the empty cache when the local tag
initially holds what it held when the entry was built, and for every initial content of
the local tag has the same local tags, the same peers, the same box and `fabIndex` in
every send and receive tag, and the same volumes as the plan built from scratch
(`PlanData.SameWork`).  Only `srcIndex` of send and receive tags, which no branch assigns
to them, and `m_reused` may differ.  The same holds of `TheFB`. -/
theorem C23_cache_transparency_amended (D : Nat) (g : Globals) (MyProc : Int)
    (isects : BoxArray → Box → List (Nat × Box)) :
    (∀ cache : CPCCache, CPCReachable g MyProc isects cache →
      ∀ (tag0 : CopyComTag) (dstBA srcBA : BoxArray) (dstDM srcDM : DistributionMapping),
        ((TheCPC g MyProc isects tag0 cache (CPC.ctor dstBA srcBA dstDM srcDM)).2 = none ↔
          (TheCPC g MyProc isects tag0 [] (CPC.ctor dstBA srcBA dstDM srcDM)).2 = none) ∧
        ∀ it : Nat,
          (TheCPC g MyProc isects tag0 cache (CPC.ctor dstBA srcBA dstDM srcDM)).2 = some it →
          ∃ e, (TheCPC g MyProc isects tag0 cache (CPC.ctor dstBA srcBA dstDM srcDM)).1[it]? =
              some e ∧
            CPC.eq e.2 (CPC.ctor dstBA srcBA dstDM srcDM) = true ∧
            (∃ tag : CopyComTag,
              e.2.plan =
                (CPC.built MyProc isects tag (CPC.ctor dstBA srcBA dstDM srcDM)).plan ∧
              TheCPC g MyProc isects tag [] (CPC.ctor dstBA srcBA dstDM srcDM) =
                ([(CPC.Key (CPC.ctor dstBA srcBA dstDM srcDM),
                   CPC.built MyProc isects tag (CPC.ctor dstBA srcBA dstDM srcDM))],
                 some 0)) ∧
            (∀ tag2 : CopyComTag, PlanData.SameWork e.2.plan
              (CPC.built MyProc isects tag2 (CPC.ctor dstBA srcBA dstDM srcDM)).plan)) ∧
    (∀ fbcache : FBCache, FBReachable D g MyProc isects fbcache →
      ∀ (tag0 : CopyComTag) (cross : Bool) (mf : FabArrayBase),
        ((TheFB D g MyProc isects tag0 fbcache cross mf).2 = none ↔
          (TheFB D g MyProc isects tag0 [] cross mf).2 = none) ∧
        ∀ it : Nat, (TheFB D g MyProc isects tag0 fbcache cross mf).2 = some it →
          ∃ e, (TheFB D g MyProc isects tag0 fbcache cross mf).1[it]? = some e ∧
            SI.eq e.2 (SI.ctor mf.boxarray mf.distributionMap mf.n_grow cross) = true ∧
            (∃ tag : CopyComTag,
              e.2.plan = (SI.built D MyProc isects tag
                (SI.ctor mf.boxarray mf.distributionMap mf.n_grow cross) mf).plan ∧
              TheFB D g MyProc isects tag [] cross mf =
                ([(SI.Key cross mf, SI.built D MyProc isects tag
                    (SI.ctor mf.boxarray mf.distributionMap mf.n_grow cross) mf)], some 0)) ∧
            (∀ tag2 : CopyComTag, PlanData.SameWork e.2.plan
              (SI.built D MyProc isects tag2
                (SI.ctor mf.boxarray mf.distributionMap mf.n_grow cross) mf).plan)) := by
  constructor
  · intro cache hr tag0 dstBA srcBA dstDM srcDM
    refine ⟨?_, fun it h =>
      cpc_lookup_transparent g MyProc isects tag0 cache dstBA srcBA dstDM srcDM hr it h⟩
    have hl := lookup_nil CPC.m_reused CPC.setReused (fun e => e.plan.noWork)
      (fun x => CPC.eq x (CPC.ctor dstBA srcBA dstDM srcDM)) g.use_copy_cache
      g.copy_cache_max_size (CPC.Key (CPC.ctor dstBA srcBA dstDM srcDM))
      (CPC.built MyProc isects tag0 (CPC.ctor dstBA srcBA dstDM srcDM))
    constructor
    · intro h
      have hw := lookup_none_noWork CPC.m_reused CPC.setReused (fun e => e.plan.noWork)
        (fun x => CPC.eq x (CPC.ctor dstBA srcBA dstDM srcDM)) g.use_copy_cache
        g.copy_cache_max_size (CPC.Key (CPC.ctor dstBA srcBA dstDM srcDM))
        (CPC.built MyProc isects tag0 (CPC.ctor dstBA srcBA dstDM srcDM)) cache h
      unfold TheCPC
      rw [hl, if_pos hw]
    · intro h
      unfold TheCPC at h
      rw [hl] at h
      have hw : (CPC.built MyProc isects tag0
          (CPC.ctor dstBA srcBA dstDM srcDM)).plan.noWork = true := by
        by_contra hc
        rw [if_neg hc] at h
        cases h
      have hok := cpc_reachable_entryOK g MyProc isects cache hr
      exact (lookup_noWork CPC.m_reused CPC.setReused (fun e => e.plan.noWork)
        (fun e => CPC.eq e (CPC.ctor dstBA srcBA dstDM srcDM)) g.use_copy_cache
        g.copy_cache_max_size (CPC.Key (CPC.ctor dstBA srcBA dstDM srcDM))
        (CPC.built MyProc isects tag0 (CPC.ctor dstBA srcBA dstDM srcDM)) cache hw
        (fun e he hs => cpc_entryOK_miss MyProc isects tag0 dstBA srcBA dstDM srcDM hw e
          (hok e he) hs)).1
  · intro cache hr tag0 cross mf
    refine ⟨?_, fun it h => fb_lookup_transparent D g MyProc isects tag0 cache cross mf hr it h⟩
    have hl := lookup_nil SI.m_reused SI.setReused (fun e => e.plan.noWork)
      (fun x => SI.eq x (SI.ctor mf.boxarray mf.distributionMap mf.n_grow cross))
      g.use_fb_cache g.fb_cache_max_size (SI.Key cross mf)
      (SI.built D MyProc isects tag0 (SI.ctor mf.boxarray mf.distributionMap mf.n_grow cross)
        mf)
    constructor
    · intro h
      have hw := lookup_none_noWork SI.m_reused SI.setReused (fun e => e.plan.noWork)
        (fun x => SI.eq x (SI.ctor mf.boxarray mf.distributionMap mf.n_grow cross))
        g.use_fb_cache g.fb_cache_max_size (SI.Key cross mf)
        (SI.built D MyProc isects tag0
          (SI.ctor mf.boxarray mf.distributionMap mf.n_grow cross) mf) cache h
      unfold TheFB
      dsimp only
      rw [hl, if_pos hw]
    · intro h
      unfold TheFB at h
      dsimp only at h
      rw [hl] at h
      have hw : (SI.built D MyProc isects tag0
          (SI.ctor mf.boxarray mf.distributionMap mf.n_grow cross) mf).plan.noWork = true := by
        by_contra hc
        rw [if_neg hc] at h
        cases h
      have hok := fb_reachable_entryOK D g MyProc isects cache hr
      exact (lookup_noWork SI.m_reused SI.setReused (fun e => e.plan.noWork)
        (fun e => SI.eq e (SI.ctor mf.boxarray mf.distributionMap mf.n_grow cross))
        g.use_fb_cache g.fb_cache_max_size (SI.Key cross mf)
        (SI.built D MyProc isects tag0
          (SI.ctor mf.boxarray mf.distributionMap mf.n_grow cross) mf) cache hw
        (fun e he hs => fb_entryOK_miss D MyProc isects tag0 cross mf hw e (hok e he) hs)).1

/-- C23 on the caches left by three lookups each: a further lookup of the first descriptor
is a hit at position 0, and the plan found there is the plan built from scratch. -/
theorem C23_cache_transparency_amended_witness :
    CPCReachable exGlobals 0 intersections exCopyCacheHit ∧
    (TheCPC exGlobals 0 intersections exTag exCopyCacheHit
      (CPC.ctor [exBoxA] [exBoxA] [0] [0])).2 = some 0 ∧
    (∃ e, (TheCPC exGlobals 0 intersections exTag exCopyCacheHit
          (CPC.ctor [exBoxA] [exBoxA] [0] [0])).1[0]? = some e ∧
      CPC.eq e.2 (CPC.ctor [exBoxA] [exBoxA] [0] [0]) = true ∧
      (∃ tag : CopyComTag,
        e.2.plan = (CPC.built 0 intersections tag (CPC.ctor [exBoxA] [exBoxA] [0] [0])).plan ∧
        TheCPC exGlobals 0 intersections tag [] (CPC.ctor [exBoxA] [exBoxA] [0] [0]) =
          ([(CPC.Key (CPC.ctor [exBoxA] [exBoxA] [0] [0]),
             CPC.built 0 intersections tag (CPC.ctor [exBoxA] [exBoxA] [0] [0]))], some 0)) ∧
      (∀ tag2 : CopyComTag, PlanData.SameWork e.2.plan
        (CPC.built 0 intersections tag2 (CPC.ctor [exBoxA] [exBoxA] [0] [0])).plan)) ∧
    FBReachable 2 exGlobals 0 intersections exFBCacheHit ∧
    (TheFB 2 exGlobals 0 intersections exTag exFBCacheHit true exFab).2 = some 1 ∧
    (∃ e, (TheFB 2 exGlobals 0 intersections exTag exFBCacheHit true exFab).1[1]? = some e ∧
      SI.eq e.2 (SI.ctor exFab.boxarray exFab.distributionMap exFab.n_grow true) = true ∧
      (∃ tag : CopyComTag,
        e.2.plan = (SI.built 2 0 intersections tag
          (SI.ctor exFab.boxarray exFab.distributionMap exFab.n_grow true) exFab).plan ∧
        TheFB 2 exGlobals 0 intersections tag [] true exFab =
          ([(SI.Key true exFab, SI.built 2 0 intersections tag
              (SI.ctor exFab.boxarray exFab.distributionMap exFab.n_grow true) exFab)],
           some 0)) ∧
      (∀ tag2 : CopyComTag, PlanData.SameWork e.2.plan
        (SI.built 2 0 intersections tag2
          (SI.ctor exFab.boxarray exFab.distributionMap exFab.n_grow true) exFab).plan)) :=
  ⟨CPCReachable.call _ exTag [exBoxC] [exBoxC] [0] [0]
     (CPCReachable.call _ exTag [exBoxA] [exBoxA] [0] [0]
       (CPCReachable.call [] exTag [exBoxA] [exBoxA] [0] [0] CPCReachable.empty)),
   by decide,
   (((C23_cache_transparency_amended 2 exGlobals 0 intersections).1 exCopyCacheHit
      (CPCReachable.call _ exTag [exBoxC] [exBoxC] [0] [0]
        (CPCReachable.call _ exTag [exBoxA] [exBoxA] [0] [0]
          (CPCReachable.call [] exTag [exBoxA] [exBoxA] [0] [0] CPCReachable.empty)))
      exTag [exBoxA] [exBoxA] [0] [0]).2 0 (by decide)),
   FBReachable.call _ exTag false exFab
     (FBReachable.call _ exTag true exFab
       (FBReachable.call [] exTag true exFab FBReachable.empty)),
   by decide,
   (((C23_cache_transparency_amended 2 exGlobals 0 intersections).2 exFBCacheHit
      (FBReachable.call _ exTag false exFab
        (FBReachable.call _ exTag true exFab
          (FBReachable.call [] exTag true exFab FBReachable.empty)))
      exTag true exFab).2 1 (by decide))⟩

/-- C31: `Initialize`, run on an uninitialised configuration, stores the configured cap
`m` of the copy cache (the value supplied for `copy_cache_max_size`, 50 when none is); when
`m ≤ 0` and `m ≠ -1` it sets `use_copy_cache` to false whatever was configured for it, and
when `m = -1` or `m ≥ 1` it leaves `use_copy_cache` as configured (the value supplied for
it, true when none is).  The same holds of `fb_cache_max_size` and `use_fb_cache`. -/
theorem C31_nonpositive_cap_disables (pp : ParmParse) (g : Globals)
    (hg : g.initialized = false) :
    (Initialize pp g).copy_cache_max_size = ParmParse.query pp.copy_cache_max_size 50 ∧
    (Initialize pp g).fb_cache_max_size = ParmParse.query pp.fb_cache_max_size 50 ∧
    ((Initialize pp g).copy_cache_max_size ≤ 0 → (Initialize pp g).copy_cache_max_size ≠ -1 →
      (Initialize pp g).use_copy_cache = false) ∧
    ((Initialize pp g).copy_cache_max_size = -1 ∨ 1 ≤ (Initialize pp g).copy_cache_max_size →
      (Initialize pp g).use_copy_cache = ParmParse.query pp.use_copy_cache true) ∧
    ((Initialize pp g).fb_cache_max_size ≤ 0 → (Initialize pp g).fb_cache_max_size ≠ -1 →
      (Initialize pp g).use_fb_cache = false) ∧
    ((Initialize pp g).fb_cache_max_size = -1 ∨ 1 ≤ (Initialize pp g).fb_cache_max_size →
      (Initialize pp g).use_fb_cache = ParmParse.query pp.use_fb_cache true) := by
  have hn : ¬ g.initialized = true := by rw [hg]; simp
  unfold Initialize
  simp only [if_neg hn]
  refine ⟨trivial, trivial, ?_, ?_, ?_, ?_⟩
  · intro h1 h2
    rw [if_pos ⟨h1, h2⟩]
  · intro h
    rw [if_neg]
    rintro ⟨h1, h2⟩
    rcases h with h | h
    · exact h2 h
    · omega
  · intro h1 h2
    rw [if_pos ⟨h1, h2⟩]
  · intro h
    rw [if_neg]
    rintro ⟨h1, h2⟩
    rcases h with h | h
    · exact h2 h
    · omega

/-- C31 at the caps 0, -7 and -1 with `use_copy_cache = true` and `use_fb_cache = true`
supplied: the caps 0 and -7 switch the caches off, the cap -1 leaves the copy cache on. -/
theorem C31_nonpositive_cap_disables_witness :
    ({ exGlobals with initialized := false } : Globals).initialized = false ∧
    (Initialize { ParmParse.nothing with use_copy_cache := some true,
                                         copy_cache_max_size := some 0,
                                         use_fb_cache := some true,
                                         fb_cache_max_size := some (-7) }
      { exGlobals with initialized := false }).use_copy_cache = false ∧
    (Initialize { ParmParse.nothing with use_copy_cache := some true,
                                         copy_cache_max_size := some 0,
                                         use_fb_cache := some true,
                                         fb_cache_max_size := some (-7) }
      { exGlobals with initialized := false }).use_fb_cache = false ∧
    (Initialize { ParmParse.nothing with use_copy_cache := some true,
                                         copy_cache_max_size := some (-1) }
      { exGlobals with initialized := false }).use_copy_cache = true :=
  ⟨by decide,
   (C31_nonpositive_cap_disables
      { ParmParse.nothing with use_copy_cache := some true, copy_cache_max_size := some 0,
                               use_fb_cache := some true, fb_cache_max_size := some (-7) }
      { exGlobals with initialized := false } (by decide)).2.2.1 (by decide) (by decide),
   (C31_nonpositive_cap_disables
      { ParmParse.nothing with use_copy_cache := some true, copy_cache_max_size := some 0,
                               use_fb_cache := some true, fb_cache_max_size := some (-7) }
      { exGlobals with initialized := false } (by decide)).2.2.2.2.1 (by decide) (by decide),
   (C31_nonpositive_cap_disables
      { ParmParse.nothing with use_copy_cache := some true, copy_cache_max_size := some (-1) }
      { exGlobals with initialized := false } (by decide)).2.2.2.1 (Or.inl (by decide))⟩

theorem disjoint_symm (D : Nat) (a b : Box) (h : Box.disjoint D a b) : Box.disjoint D b a := by
  obtain ⟨d, hd, h⟩ := h
  exact ⟨d, hd, h.symm⟩

theorem disjoint_of_contains (D : Nat) (A B a b : Box) (h : Box.disjoint D A B)
    (ha : Box.contains D A a) (hb : Box.contains D B b) : Box.disjoint D a b := by
  obtain ⟨d, hd, h⟩ := h
  have h1 := ha d hd
  have h2 := hb d hd
  refine ⟨d, hd, ?_⟩
  rcases h with h | h
  · left; omega
  · right; omega

/-- Separated boxes have no cell in common. -/
theorem disjoint_no_common_cell (D : Nat) (a b : Box) (h : Box.disjoint D a b) (p : List Int) :
    ¬ (Box.hasCell D a p ∧ Box.hasCell D b p) := by
  rintro ⟨ha, hb⟩
  obtain ⟨d, hd, h⟩ := h
  have h1 := ha d hd
  have h2 := hb d hd
  omega

/-- Valid boxes without a common cell are separated on some axis. -/
theorem disjoint_of_no_common_cell (D : Nat) (a b : Box) (ha : Box.ok D a) (hb : Box.ok D b)
    (h : ∀ p : List Int, ¬ (Box.hasCell D a p ∧ Box.hasCell D b p)) : Box.disjoint D a b := by
  by_contra hn
  unfold Box.disjoint at hn
  push_neg at hn
  apply h ((List.range D).map (fun d => max (a.smallEnd d) (b.smallEnd d)))
  have hget : ∀ d, d < D →
      ((List.range D).map (fun d => max (a.smallEnd d) (b.smallEnd d))).getD d 0 =
        max (a.smallEnd d) (b.smallEnd d) := by
    intro d hd
    rw [List.getD_eq_getElem?_getD, List.getElem?_map, List.getElem?_range hd]
    rfl
  constructor
  · intro d hd
    rw [hget d hd]
    have h1 := hn d hd
    have h2 := ha.2 d hd
    omega
  · intro d hd
    rw [hget d hd]
    have h1 := hn d hd
    have h2 := hb.2 d hd
    omega

/-- A box contained in two separated boxes is empty; so is no valid box. -/
theorem not_ok_of_disjoint (D : Nat) (A B bx : Box) (h : Box.disjoint D A B)
    (ha : Box.contains D A bx) (hb : Box.contains D B bx) : ¬ Box.ok D bx := by
  intro hok
  obtain ⟨d, hd, h⟩ := h
  have h1 := ha d hd
  have h2 := hb d hd
  have h3 := hok.2 d hd
  omega

/-- A face slab of a box is separated from the box on the axis of the slab. -/
theorem slab_disjoint_valid (D : Nat) (g : Int) (vbx q : Box) (hdim : Box.dim D vbx) (d : Nat)
    (hd : d < D) (hq : q = loSlab vbx d g ∨ q = hiSlab vbx d g) : Box.disjoint D q vbx := by
  refine ⟨d, hd, ?_⟩
  rcases hq with rfl | rfl
  · have h := (loSlab_spec D vbx g hdim d hd).2.2.1
    left; omega
  · have h := (hiSlab_spec D vbx g hdim d hd).2.1
    right; omega

/-- Face slabs of a box on different axes are separated. -/
theorem slab_disjoint_slab (D : Nat) (g : Int) (vbx q q2 : Box) (hdim : Box.dim D vbx)
    (d d2 : Nat) (hd : d < D) (hd2 : d2 < D) (hne : d ≠ d2)
    (hq : q = loSlab vbx d g ∨ q = hiSlab vbx d g)
    (hq2 : q2 = loSlab vbx d2 g ∨ q2 = hiSlab vbx d2 g) : Box.disjoint D q q2 := by
  have hx : q2.smallEnd d = vbx.smallEnd d ∧ q2.bigEnd d = vbx.bigEnd d := by
    rcases hq2 with rfl | rfl
    · exact (loSlab_spec D vbx g hdim d2 hd2).2.2.2 d hne
    · exact (hiSlab_spec D vbx g hdim d2 hd2).2.2.2 d hne
  obtain ⟨d0, hd0, h⟩ := slab_disjoint_valid D g vbx q hdim d hd hq
  refine ⟨d, hd, ?_⟩
  rcases hq with rfl | rfl
  · have h := (loSlab_spec D vbx g hdim d hd).2.2.1
    left; omega
  · have h := (hiSlab_spec D vbx g hdim d hd).2.1
    right; omega

/-- The halo queries of a valid box are pairwise separated. -/
theorem boxes_pairwise_disjoint (D : Nat) (si : SI) (vbx : Box) (hv : Box.ok D vbx) :
    (SI.boxes D si vbx).Pairwise (Box.disjoint D) := by
  cases hc : si.m_cross with
  | false =>
    unfold SI.boxes
    rw [hc]
    simp
  | true =>
    rw [boxes_cross D si vbx hc, List.pairwise_flatMap]
    constructor
    · intro d hd
      rw [List.mem_range] at hd
      rw [List.pairwise_pair]
      refine ⟨d, hd, ?_⟩
      have h1 := (loSlab_spec D vbx si.m_ngrow hv.1 d hd).2.2.1
      have h2 := (hiSlab_spec D vbx si.m_ngrow hv.1 d hd).2.1
      have h3 := hv.2 d hd
      left; omega
    · apply List.Pairwise.imp_of_mem _ (List.pairwise_lt_range D)
      intro d d2 hd hd2 hlt x hx y hy
      rw [List.mem_range] at hd hd2
      simp only [List.mem_cons, List.mem_singleton, List.not_mem_nil, or_false] at hx hy
      exact slab_disjoint_slab D si.m_ngrow vbx x y hv.1 d d2 hd hd2 (by omega) hx hy

theorem enumFrom_pairwise_lt {α : Type} (l : List α) (n : Nat) :
    (l.enumFrom n).Pairwise (fun a b => a.1 < b.1) := by
  induction l generalizing n with
  | nil => exact List.Pairwise.nil
  | cons a l ih =>
    rw [List.enumFrom_cons, List.pairwise_cons]
    refine ⟨?_, ih (n + 1)⟩
    intro b hb
    have := List.le_fst_of_mem_enumFrom hb
    show n < b.1
    omega

/-- The modelled intersection routine reports every member box at most once. -/
theorem intersections_once : IsectsOnce intersections := by
  intro ba q
  unfold intersections
  rw [List.pairwise_filterMap]
  apply List.Pairwise.imp _ (enumFrom_pairwise_lt ba 0)
  intro a a2 hlt b hb b2 hb2
  simp only [Option.mem_def] at hb hb2
  split at hb
  · split at hb2
    · simp only [Option.some.injEq] at hb hb2
      subst hb; subst hb2
      show a.1 ≠ a2.1
      omega
    · cases hb2
  · cases hb

/-- Different members of a pairwise separated array are separated. -/
theorem ba_disjoint_of_ne (D : Nat) (ba : BoxArray) (hdis : ba.Pairwise (Box.disjoint D))
    (k k2 : Nat) (b b2 : Box) (hk : ba[k]? = some b) (hk2 : ba[k2]? = some b2) (hne : k ≠ k2) :
    Box.disjoint D b b2 := by
  obtain ⟨h1, h2⟩ := List.getElem?_eq_some_iff.mp hk
  obtain ⟨h3, h4⟩ := List.getElem?_eq_some_iff.mp hk2
  rcases Nat.lt_or_gt_of_ne hne with h | h
  · have := List.pairwise_iff_getElem.mp hdis k k2 h1 h3 h
    rw [h2, h4] at this
    exact this
  · have := List.pairwise_iff_getElem.mp hdis k2 k h3 h1 h
    rw [h2, h4] at this
    exact disjoint_symm D _ _ this

/-- Two triples of the fill-boundary enumeration with different src tiles carry separated
boxes, the boxes of the array being pairwise separated. -/
theorem si_pairs_src_disjoint (D : Nat) (isects : BoxArray → Box → List (Nat × Box))
    (hI : IsectsClipped D isects) (si : SI) (ba : BoxArray) (hok : ∀ b ∈ ba, Box.ok D b)
    (hdis : ba.Pairwise (Box.disjoint D)) (e e2 : Nat × Nat × Box)
    (he : e ∈ SI.pairs D isects si ba) (he2 : e2 ∈ SI.pairs D isects si ba)
    (hne : e.2.1 ≠ e2.2.1) : Box.disjoint D e.2.2 e2.2.2 := by
  obtain ⟨_, bk, _, hk, _, _, hc⟩ := si_pairs_wellPlaced D isects hI si ba hok e he
  obtain ⟨_, bk2, _, hk2, _, _, hc2⟩ := si_pairs_wellPlaced D isects hI si ba hok e2 he2
  exact disjoint_of_contains D bk bk2 _ _ (ba_disjoint_of_ne D ba hdis _ _ bk bk2 hk hk2 hne)
    hc hc2

/-- Two triples at different places of the fill-boundary enumeration that belong to the
same dst tile carry separated boxes. -/
theorem si_pairs_pairwise_disjoint (D : Nat) (isects : BoxArray → Box → List (Nat × Box))
    (hI : IsectsClipped D isects) (hO : IsectsOnce isects) (si : SI) (ba : BoxArray)
    (hok : ∀ b ∈ ba, Box.ok D b) (hdis : ba.Pairwise (Box.disjoint D)) :
    (SI.pairs D isects si ba).Pairwise
      (fun e e2 => e.1 = e2.1 → Box.disjoint D e.2.2 e2.2.2) := by
  have hdim : ∀ b ∈ ba, Box.dim D b := fun b hb => (hok b hb).1
  unfold SI.pairs
  apply List.Pairwise.filter
  rw [List.pairwise_flatMap]
  constructor
  · intro ib hib
    have hvbx : ib.2 ∈ ba := mem_of_getElem?_eq_some _ _ _ (List.mem_enum_iff_getElem?.mp hib)
    rw [List.pairwise_flatMap]
    constructor
    · intro q hq
      have hqdim := dim_of_mem_boxes D si ib.2 q (hdim _ hvbx) hq
      rw [List.pairwise_map]
      apply List.Pairwise.imp_of_mem _ (hO ba q)
      intro kb kb2 hkb hkb2 hne _
      obtain ⟨b, hb, _, _, hc⟩ := hI ba q hdim hqdim kb hkb
      obtain ⟨b2, hb2, _, _, hc2⟩ := hI ba q hdim hqdim kb2 hkb2
      exact disjoint_of_contains D b b2 _ _ (ba_disjoint_of_ne D ba hdis _ _ b b2 hb hb2 hne)
        hc hc2
    · apply List.Pairwise.imp_of_mem _ (boxes_pairwise_disjoint D si ib.2 (hok _ hvbx))
      intro q q2 hq hq2 hqq x hx y hy _
      simp only [List.mem_map] at hx hy
      obtain ⟨kb, hkb, rfl⟩ := hx
      obtain ⟨kb2, hkb2, rfl⟩ := hy
      obtain ⟨_, _, _, hc, _⟩ := hI ba q hdim (dim_of_mem_boxes D si ib.2 q (hdim _ hvbx) hq)
        kb hkb
      obtain ⟨_, _, _, hc2, _⟩ := hI ba q2 hdim
        (dim_of_mem_boxes D si ib.2 q2 (hdim _ hvbx) hq2) kb2 hkb2
      exact disjoint_of_contains D q q2 _ _ hqq hc hc2
  · unfold List.enum
    apply List.Pairwise.imp _ (enumFrom_pairwise_lt ba 0)
    intro a a2 hlt x hx y hy hxy
    simp only [List.mem_flatMap, List.mem_map] at hx hy
    obtain ⟨_, _, _, _, rfl⟩ := hx
    obtain ⟨_, _, _, _, rfl⟩ := hy
    simp only at hxy
    omega

/-- In cross mode no intersection of a halo query of tile `i` is with tile `i` itself. -/
theorem cross_never_self (D : Nat) (isects : BoxArray → Box → List (Nat × Box))
    (hI : IsectsClipped D isects) (si : SI) (hc : si.m_cross = true) (ba : BoxArray)
    (hdim : ∀ b ∈ ba, Box.dim D b) (i : Nat) (vbx : Box) (hi : ba[i]? = some vbx) :
    ∀ q ∈ SI.boxes D si vbx, ∀ kb ∈ isects ba q, kb.1 ≠ i := by
  intro q hq kb hkb hk
  have hv := hdim vbx (mem_of_getElem?_eq_some _ _ _ hi)
  obtain ⟨d, hd, hslab⟩ := mem_boxes_cross D si vbx q hc hq
  obtain ⟨b, hb, hokb, hcq, hcb⟩ := hI ba q hdim (dim_of_mem_boxes D si vbx q hv hq) kb hkb
  rw [hk, hi] at hb
  cases hb
  exact not_ok_of_disjoint D q vbx kb.2 (slab_disjoint_valid D si.m_ngrow vbx q hv d hd hslab)
    hcq hcb hokb

/-- The tags a tag loop files for one dst tile, locally or as receives from one peer, have
pairwise separated boxes when the triples of one dst tile have. -/
theorem tagLoop_dst_disjoint (D : Nat) (MyProc : Int) (ddm sdm : DistributionMapping)
    (prs : List (Nat × Nat × Box)) (tag0 : CopyComTag)
    (hp : prs.Pairwise (fun e e2 => e.1 = e2.1 → Box.disjoint D e.2.2 e2.2.2)) :
    (tagLoop MyProc ddm sdm prs (tag0, PlanData.empty)).2.m_LocTags.Pairwise
        (fun s t => s.fabIndex = t.fabIndex → Box.disjoint D s.box t.box) ∧
    ∀ p : Int, (StdMap.tagsOf (tagLoop MyProc ddm sdm prs (tag0, PlanData.empty)).2.m_RcvTags
        p).Pairwise (fun s t => s.fabIndex = t.fabIndex → Box.disjoint D s.box t.box) := by
  obtain ⟨hl, hr, -, -, -⟩ := tagLoop_empty_spec MyProc ddm sdm prs tag0
  constructor
  · rw [hl, List.pairwise_filterMap]
    apply List.Pairwise.imp _ hp
    intro a a2 h b hb b2 hb2 hf
    simp only [locTag, Option.mem_def] at hb hb2
    split at hb
    · split at hb2
      · simp only [Option.some.injEq] at hb hb2
        subst hb; subst hb2
        simp only at hf ⊢
        exact h (by exact_mod_cast hf)
      · cases hb2
    · cases hb
  · intro p
    have h2 : ((StdMap.tagsOf (tagLoop MyProc ddm sdm prs (tag0, PlanData.empty)).2.m_RcvTags
        p).map CopyComTag.assigned).Pairwise
        (fun x y : Box × Int => x.2 = y.2 → Box.disjoint D x.1 y.1) := by
      rw [hr p, List.pairwise_filterMap]
      apply List.Pairwise.imp _ hp
      intro a a2 h b hb b2 hb2 hf
      simp only [rcvTag, Option.mem_def] at hb hb2
      split at hb
      · split at hb2
        · simp only [Option.some.injEq] at hb hb2
          subst hb; subst hb2
          simp only at hf ⊢
          exact h (by exact_mod_cast hf)
        · cases hb2
      · cases hb
    rw [List.pairwise_map] at h2
    exact h2

end BoxLib
